import Mathlib

/-!
# bimap-cpp: a verification development for `src/bimap.h`

The container keeps every pair in one record (`double_node`) that carries two
node headers (`base_node`), one per dimension.  The embedding keeps the two
headers of the record at address `a` in two memories, `lmem a` and `rmem a`;
a node pointer is an `Option Nat` (`none` is `nullptr`), and the cast between
the two headers of a record keeps the address.

Loops and the recursion of `balance` walk over node links.  They are run for at
most `fuel` steps, where the container passes the number of records it ever
allocated plus one: a walk that takes more steps has revisited a record, so the
source would not terminate, and the embedding reports `Err.diverge`.
Dereferencing a null pointer is reported as `Err.null_deref`.

The counters (`std::size_t`) are natural numbers: they count live records, whose
number is bounded by the address space, so they cannot wrap upwards.  The decrement
`--bimap_size` of the erasures by key runs only after `find` has returned a record.
-/

namespace bmp

/-! ## Memory and node headers -/

/-- Ways in which an operation can fail to return a value. -/
inductive Err where
  | null_deref
  | out_of_range
  | diverge
  deriving DecidableEq, Repr

/-- Header `base_node<T, Tag>`: the value, the cached subtree size, the three
tree links and the two list links. -/
structure base_node (T : Type) where
  value : T
  size : Nat
  parent : Option Nat
  left : Option Nat
  right : Option Nat
  next : Option Nat
  prev : Option Nat

/-- Constructor `base_node(value)`: size 1 and no links. -/
def base_node.new {T : Type} (value : T) : base_node T :=
  { value := value, size := 1, parent := none, left := none, right := none,
    next := none, prev := none }

/-- Headers of one dimension, by record address. -/
abbrev Mem (T : Type) := Nat → base_node T

/-- Assignment `a->parent = p`. -/
def set_parent {T : Type} (m : Mem T) (a : Nat) (p : Option Nat) : Mem T :=
  Function.update m a { m a with parent := p }

/-- Assignment `a->left = p`. -/
def set_left {T : Type} (m : Mem T) (a : Nat) (p : Option Nat) : Mem T :=
  Function.update m a { m a with left := p }

/-- Assignment `a->right = p`. -/
def set_right {T : Type} (m : Mem T) (a : Nat) (p : Option Nat) : Mem T :=
  Function.update m a { m a with right := p }

/-- Assignment `a->next = p`. -/
def set_next {T : Type} (m : Mem T) (a : Nat) (p : Option Nat) : Mem T :=
  Function.update m a { m a with next := p }

/-- Assignment `a->prev = p`. -/
def set_prev {T : Type} (m : Mem T) (a : Nat) (p : Option Nat) : Mem T :=
  Function.update m a { m a with prev := p }

/-- Method `a->set_size(n)`. -/
def set_size {T : Type} (m : Mem T) (a : Nat) (n : Nat) : Mem T :=
  Function.update m a { m a with size := n }

/-! ## `tree<T, Tag, Cmp>` -/

/-- The members of `tree`: the root pointer and the comparator. -/
structure tree (T : Type) where
  root : Option Nat
  comparator : T → T → Bool

/-- Descent `while (cur->left != nullptr) cur = cur->left` from a non-null node. -/
def leftmost {T : Type} (m : Mem T) : Nat → Nat → Except Err Nat
  | 0, _ => .error .diverge
  | fuel + 1, cur =>
    match (m cur).left with
    | none => .ok cur
    | some l => leftmost m fuel l

/-- Descent `while (cur->right != nullptr) cur = cur->right` from a non-null node. -/
def rightmost {T : Type} (m : Mem T) : Nat → Nat → Except Err Nat
  | 0, _ => .error .diverge
  | fuel + 1, cur =>
    match (m cur).right with
    | none => .ok cur
    | some r => rightmost m fuel r

/-- Method `tree::get_first_node`. -/
def tree.get_first_node {T : Type} (t : tree T) (m : Mem T) (fuel : Nat) :
    Except Err (Option Nat) :=
  match t.root with
  | none => .ok none
  | some r => (leftmost m fuel r).map some

/-- Method `tree::get_last_node`. -/
def tree.get_last_node {T : Type} (t : tree T) (m : Mem T) (fuel : Nat) :
    Except Err (Option Nat) :=
  match t.root with
  | none => .ok none
  | some r => (rightmost m fuel r).map some

/-- The `while (true)` loop of `tree::find_place`, from a non-null `cur`. -/
def find_place_loop {T : Type} (cmp : T → T → Bool) (m : Mem T) (value : T) :
    Nat → Nat → Except Err Nat
  | 0, _ => .error .diverge
  | fuel + 1, cur =>
    if cmp (m cur).value value then
      match (m cur).right with
      | none => .ok cur
      | some r => find_place_loop cmp m value fuel r
    else if cmp value (m cur).value then
      match (m cur).left with
      | none => .ok cur
      | some l => find_place_loop cmp m value fuel l
    else .ok cur

/-- Method `tree::find_place`. -/
def tree.find_place {T : Type} (t : tree T) (m : Mem T) (fuel : Nat) (value : T) :
    Except Err (Option Nat) :=
  match t.root with
  | none => .ok none
  | some r => (find_place_loop t.comparator m value fuel r).map some

/-- Method `tree::find`. -/
def tree.find {T : Type} (t : tree T) (m : Mem T) (fuel : Nat) (value : T) :
    Except Err (Option Nat) :=
  match t.find_place m fuel value with
  | .error e => .error e
  | .ok none => .ok none
  | .ok (some f) =>
    if !t.comparator (m f).value value && !t.comparator value (m f).value then .ok (some f)
    else .ok none

/-- Private method `tree::size(cur)`. -/
def node_size {T : Type} (m : Mem T) (cur : Option Nat) : Nat :=
  match cur with
  | none => 0
  | some a => (m a).size

/-- Method `tree::size()`. -/
def tree.size {T : Type} (t : tree T) (m : Mem T) : Nat := node_size m t.root

/-- Method `tree::fix_size`. -/
def fix_size {T : Type} (m : Mem T) (cur : Option Nat) : Mem T :=
  match cur with
  | none => m
  | some a => set_size m a (1 + node_size m (m a).left + node_size m (m a).right)

/-- The link surgery of `tree::rotate` for a `cur` that is the left child of `P`. -/
def rotate_right_links {T : Type} (m : Mem T) (cur P : Nat) : Mem T :=
  let R := (m cur).right
  let m := set_parent m cur (m P).parent
  let m := set_right m cur (some P)
  let m := set_parent m P (some cur)
  let m := set_left m P R
  match R with
  | none => m
  | some r => set_parent m r (some P)

/-- The link surgery of `tree::rotate` for a `cur` that is not the left child of `P`. -/
def rotate_left_links {T : Type} (m : Mem T) (cur P : Nat) : Mem T :=
  let L := (m cur).left
  let m := set_parent m cur (m P).parent
  let m := set_left m cur (some P)
  let m := set_parent m P (some cur)
  let m := set_right m P L
  match L with
  | none => m
  | some l => set_parent m l (some P)

/-- The first block of `tree::rotate`: the grandparent's child link to `P` is
redirected to `cur`. -/
def rotate_relink {T : Type} (m : Mem T) (cur P : Nat) : Mem T :=
  match (m P).parent with
  | none => m
  | some g => if (m g).left = some P then set_left m g (some cur) else set_right m g (some cur)

/-- Method `tree::rotate`.  After the null tests `cur->parent` is `p` throughout
the first half: the writes before the surgery touch child links only. -/
def tree.rotate {T : Type} (t : tree T) (m : Mem T) (cur : Option Nat) : tree T × Mem T :=
  match cur with
  | none => (t, m)
  | some c =>
    match (m c).parent with
    | none => (t, fix_size m (some c))
    | some p =>
      let m1 := rotate_relink m c p
      let m2 :=
        if (m1 p).left = some c then rotate_right_links m1 c p else rotate_left_links m1 c p
      let t2 : tree T := if (m2 c).parent = none then { t with root := some c } else t
      let m3 := fix_size m2 (m2 c).left
      let m4 := fix_size m3 (m3 c).right
      (t2, fix_size m4 (some c))

/-- Method `tree::balance`. -/
def tree.balance {T : Type} : Nat → tree T → Mem T → Option Nat → Except Err (tree T × Mem T)
  | _, t, m, none => .ok (t, m)
  | 0, _, _, some _ => .error .diverge
  | fuel + 1, t, m, some c =>
    match (m c).parent with
    | none => .ok ({ t with root := some c }, fix_size m (some c))
    | some p =>
      match (m p).parent with
      | none =>
        let r := t.rotate m (some c)
        .ok ({ r.1 with root := some c }, r.2)
      | some _ =>
        let r1 := t.rotate m (some p)
        let r2 := r1.1.rotate r1.2 (some c)
        tree.balance fuel r2.1 r2.2 (some c)

/-- The writes of `tree::insert` when `value_node` becomes the right child of `f`: the
tree links, then the list splice right after `f`.  The source reads the new node back
as `find_result->right`. -/
def splice_right {T : Type} (m : Mem T) (f value_node : Nat) : Mem T :=
  let m := set_right m f (some value_node)
  let m := set_parent m value_node (some f)
  let m :=
    match (m f).next with
    | none => m
    | some n => set_prev m n (some value_node)
  let m := set_next m value_node (m f).next
  let m := set_next m f (some value_node)
  set_prev m value_node (some f)

/-- The writes of `tree::insert` when `value_node` becomes the left child of `f`: the
tree links, then the list splice right before `f`. -/
def splice_left {T : Type} (m : Mem T) (f value_node : Nat) : Mem T :=
  let m := set_left m f (some value_node)
  let m := set_parent m value_node (some f)
  let m :=
    match (m f).prev with
    | none => m
    | some n => set_next m n (some value_node)
  let m := set_prev m value_node (m f).prev
  let m := set_prev m f (some value_node)
  set_next m value_node (some f)

/-- Branch of `tree::insert` for an anchor `f` whose key is less than the new one. -/
def insert_right {T : Type} (fuel : Nat) (t : tree T) (m : Mem T) (f value_node : Nat) :
    Except Err (tree T × Mem T) :=
  t.balance fuel (splice_right m f value_node) (splice_right m f value_node f).right

/-- Branch of `tree::insert` for an anchor `f` whose key is greater than the new one. -/
def insert_left {T : Type} (fuel : Nat) (t : tree T) (m : Mem T) (f value_node : Nat) :
    Except Err (tree T × Mem T) :=
  t.balance fuel (splice_left m f value_node) (splice_left m f value_node f).left

/-- Method `tree::insert`. -/
def tree.insert {T : Type} (fuel : Nat) (t : tree T) (m : Mem T) (value_node : Nat) :
    Except Err (tree T × Mem T) :=
  match t.root with
  | none => .ok ({ t with root := some value_node }, m)
  | some _ =>
    match t.find_place m fuel (m value_node).value with
    | .error e => .error e
    | .ok none => .error .null_deref
    | .ok (some f) =>
      if !t.comparator (m f).value (m value_node).value &&
          !t.comparator (m value_node).value (m f).value then
        .ok (t, m)
      else if t.comparator (m f).value (m value_node).value then
        insert_right fuel t m f value_node
      else
        insert_left fuel t m f value_node

/-- The list unlink of `tree::erase`: the neighbours of `f` are linked to each other. -/
def unlink {T : Type} (m : Mem T) (f : Nat) : Mem T :=
  let m1 :=
    match (m f).prev with
    | none => m
    | some p => set_next m p (m f).next
  match (m1 f).next with
  | none => m1
  | some n => set_prev m1 n (m1 f).prev

/-- First half of `tree::erase` after the list unlink: splay `f` to the root, cut
its right subtree off and return it as `R`. -/
def erase_detach {T : Type} (fuel : Nat) (t : tree T) (m : Mem T) (f : Nat) :
    Except Err (tree T × Mem T × Option Nat) :=
  match t.balance fuel m (some f) with
  | .error e => .error e
  | .ok (t1, m1) =>
    match t1.root with
    | none => .error .null_deref
    | some r0 =>
      let R := (m1 r0).right
      let m2 := set_right m1 r0 none
      let m3 :=
        match R with
        | none => m2
        | some r => set_parent m2 r none
      .ok (t1, fix_size m3 t1.root, R)

/-- Second half of `tree::erase`: splay the last node of the promoted left subtree
and hang `R` under it, or make `R` the root. -/
def erase_join {T : Type} (fuel : Nat) (t : tree T) (m : Mem T) (R : Option Nat) :
    Except Err (tree T × Mem T) :=
  match t.get_last_node m fuel with
  | .error e => .error e
  | .ok last =>
    match t.balance fuel m last with
    | .error e => .error e
    | .ok (t1, m1) =>
      match t1.root with
      | some r =>
        let m2 := set_right m1 r R
        let m3 :=
          match (m2 r).right with
          | none => m2
          | some rr => set_parent m2 rr (some r)
        .ok (t1, fix_size m3 (some r))
      | none =>
        match R with
        | none => .error .null_deref
        | some r => .ok ({ t1 with root := R }, fix_size (set_parent m1 r none) R)

/-- Method `tree::erase`. -/
def tree.erase {T : Type} (fuel : Nat) (t : tree T) (m : Mem T) (value : T) :
    Except Err (tree T × Mem T) :=
  match t.find_place m fuel value with
  | .error e => .error e
  | .ok none => .ok (t, m)
  | .ok (some f) =>
    if t.comparator (m f).value value || t.comparator value (m f).value then .ok (t, m)
    else
      let m2 := unlink m f
      let detached : Except Err (tree T × Mem T × Option Nat) :=
        if !t.comparator (m2 f).value value && !t.comparator value (m2 f).value then
          erase_detach fuel t m2 f
        else .ok (t, m2, none)
      match detached with
      | .error e => .error e
      | .ok (t3, m3, R) =>
        match t3.root with
        | none => .error .null_deref
        | some r0 =>
          let root := (m3 r0).left
          let m4 :=
            match root with
            | none => m3
            | some r => set_parent m3 r none
          if root = none ∧ R = none then .ok ({ t3 with root := root }, m4)
          else erase_join fuel { t3 with root := root } m4 R

/-! ## `bimap<Left, Right, CompareLeft, CompareRight>` -/

/-- The members of `bimap`, together with the records it owns: `lmem a` and
`rmem a` are the two headers of the record at address `a`, and `brk` is the next
address `new` hands out.  `delete` releases a record; its stale headers stay in
the memories and the address is never handed out again. -/
structure bimap (L R : Type) where
  left_tree : tree L
  right_tree : tree R
  left_cmp : L → L → Bool
  right_cmp : R → R → Bool
  bimap_size : Nat
  lmem : Mem L
  rmem : Mem R
  brk : Nat

/-- Cursor `bimap::left_iterator`: the node pointer (the owner is passed to the
operations that need it). -/
structure left_iterator where
  node : Option Nat
  deriving DecidableEq, Repr

/-- Cursor `bimap::right_iterator`. -/
structure right_iterator where
  node : Option Nat
  deriving DecidableEq, Repr

/-- Method `left_iterator::flip`. -/
def left_iterator.flip (it : left_iterator) : right_iterator :=
  match it.node with
  | none => { node := none }
  | some a => { node := some a }

/-- Method `right_iterator::flip`. -/
def right_iterator.flip (it : right_iterator) : left_iterator :=
  match it.node with
  | none => { node := none }
  | some a => { node := some a }

/-- Constructor `bimap(compare_left, compare_right)`, over memories whose content
is arbitrary. -/
def bimap.empty {L R : Type} (lmem : Mem L) (rmem : Mem R)
    (compare_left : L → L → Bool) (compare_right : R → R → Bool) : bimap L R :=
  { left_tree := { root := none, comparator := compare_left }
    right_tree := { root := none, comparator := compare_right }
    left_cmp := compare_left
    right_cmp := compare_right
    bimap_size := 0
    lmem := lmem
    rmem := rmem
    brk := 0 }

/-- Bound on the length of a walk over the records of the container. -/
def bimap.fuel {L R : Type} (b : bimap L R) : Nat := b.brk + 1

/-- Method `bimap::size`. -/
def bimap.size {L R : Type} (b : bimap L R) : Nat := b.bimap_size

/-- Method `bimap::begin_left`. -/
def bimap.begin_left {L R : Type} (b : bimap L R) : Except Err left_iterator :=
  (b.left_tree.get_first_node b.lmem b.fuel).map left_iterator.mk

/-- Method `bimap::end_left`. -/
def bimap.end_left {L R : Type} (_b : bimap L R) : left_iterator := { node := none }

/-- Method `bimap::begin_right`. -/
def bimap.begin_right {L R : Type} (b : bimap L R) : Except Err right_iterator :=
  (b.right_tree.get_first_node b.rmem b.fuel).map right_iterator.mk

/-- Method `bimap::end_right`. -/
def bimap.end_right {L R : Type} (_b : bimap L R) : right_iterator := { node := none }

/-- Operator `*it` of a left cursor. -/
def bimap.deref_left {L R : Type} (b : bimap L R) (it : left_iterator) : Except Err L :=
  match it.node with
  | none => .error .null_deref
  | some a => .ok (b.lmem a).value

/-- Operator `*it` of a right cursor. -/
def bimap.deref_right {L R : Type} (b : bimap L R) (it : right_iterator) : Except Err R :=
  match it.node with
  | none => .error .null_deref
  | some a => .ok (b.rmem a).value

/-- Operator `++it` of a left cursor. -/
def bimap.incr_left {L R : Type} (b : bimap L R) (it : left_iterator) :
    Except Err left_iterator :=
  match it.node with
  | none => .error .null_deref
  | some a => .ok { node := (b.lmem a).next }

/-- Operator `++it` of a right cursor. -/
def bimap.incr_right {L R : Type} (b : bimap L R) (it : right_iterator) :
    Except Err right_iterator :=
  match it.node with
  | none => .error .null_deref
  | some a => .ok { node := (b.rmem a).next }

/-- Method `bimap::find_left`. -/
def bimap.find_left {L R : Type} (b : bimap L R) (left : L) : Except Err left_iterator :=
  (b.left_tree.find b.lmem b.fuel left).map left_iterator.mk

/-- Method `bimap::find_right`. -/
def bimap.find_right {L R : Type} (b : bimap L R) (right : R) : Except Err right_iterator :=
  (b.right_tree.find b.rmem b.fuel right).map right_iterator.mk

/-- Method `bimap::at_left`. -/
def bimap.at_left {L R : Type} (b : bimap L R) (key : L) : Except Err R :=
  match b.left_tree.find b.lmem b.fuel key with
  | .error e => .error e
  | .ok none => .error .out_of_range
  | .ok (some _) =>
    match b.left_tree.find b.lmem b.fuel key with
    | .error e => .error e
    | .ok none => .error .null_deref
    | .ok (some a) => .ok (b.rmem a).value

/-- Method `bimap::at_right`. -/
def bimap.at_right {L R : Type} (b : bimap L R) (key : R) : Except Err L :=
  match b.right_tree.find b.rmem b.fuel key with
  | .error e => .error e
  | .ok none => .error .out_of_range
  | .ok (some _) =>
    match b.right_tree.find b.rmem b.fuel key with
    | .error e => .error e
    | .ok none => .error .null_deref
    | .ok (some a) => .ok (b.lmem a).value

/-- The allocation and the two tree insertions of `bimap::basic_insert`. -/
def bimap.insert_new {L R : Type} (b : bimap L R) (left : L) (right : R) :
    Except Err (bimap L R × left_iterator) :=
  let a := b.brk
  let lmem := Function.update b.lmem a (base_node.new left)
  let rmem := Function.update b.rmem a (base_node.new right)
  match b.left_tree.insert (b.brk + 2) lmem a with
  | .error e => .error e
  | .ok (lt, lmem1) =>
    match b.right_tree.insert (b.brk + 2) rmem a with
    | .error e => .error e
    | .ok (rt, rmem1) =>
      .ok ({ b with left_tree := lt, right_tree := rt, lmem := lmem1, rmem := rmem1,
                    bimap_size := b.bimap_size + 1, brk := b.brk + 1 }, { node := some a })

/-- Method `bimap::basic_insert`, which every overload of `bimap::insert` forwards to. -/
def bimap.insert {L R : Type} (b : bimap L R) (left : L) (right : R) :
    Except Err (bimap L R × left_iterator) :=
  match b.left_tree.find b.lmem b.fuel left with
  | .error e => .error e
  | .ok (some _) => .ok (b, b.end_left)
  | .ok none =>
    match b.right_tree.find b.rmem b.fuel right with
    | .error e => .error e
    | .ok (some _) => .ok (b, b.end_left)
    | .ok none => b.insert_new left right

/-- Method `bimap::erase_left(const left_t&)`. -/
def bimap.erase_left {L R : Type} (b : bimap L R) (left : L) : Except Err (bimap L R × Bool) :=
  match b.left_tree.find b.lmem b.fuel left with
  | .error e => .error e
  | .ok none => .ok (b, false)
  | .ok (some _) =>
    match b.at_left left with
    | .error e => .error e
    | .ok rv =>
      match b.right_tree.erase b.fuel b.rmem rv with
      | .error e => .error e
      | .ok (rt, rmem1) =>
        match b.left_tree.erase b.fuel b.lmem left with
        | .error e => .error e
        | .ok (lt, lmem1) =>
          .ok ({ b with left_tree := lt, right_tree := rt, lmem := lmem1, rmem := rmem1,
                        bimap_size := b.bimap_size - 1 }, true)

/-- Method `bimap::erase_right(const right_t&)`. -/
def bimap.erase_right {L R : Type} (b : bimap L R) (right : R) :
    Except Err (bimap L R × Bool) :=
  match b.right_tree.find b.rmem b.fuel right with
  | .error e => .error e
  | .ok none => .ok (b, false)
  | .ok (some _) =>
    match b.at_right right with
    | .error e => .error e
    | .ok lv =>
      match b.left_tree.erase b.fuel b.lmem lv with
      | .error e => .error e
      | .ok (lt, lmem1) =>
        match b.right_tree.erase b.fuel b.rmem right with
        | .error e => .error e
        | .ok (rt, rmem1) =>
          .ok ({ b with left_tree := lt, right_tree := rt, lmem := lmem1, rmem := rmem1,
                        bimap_size := b.bimap_size - 1 }, true)

/-- Method `bimap::erase_left(left_iterator)`. -/
def bimap.erase_left_at {L R : Type} (b : bimap L R) (it : left_iterator) :
    Except Err (bimap L R × left_iterator) :=
  match b.incr_left it with
  | .error e => .error e
  | .ok next_iterator =>
    match b.deref_left it with
    | .error e => .error e
    | .ok lv =>
      match b.left_tree.erase b.fuel b.lmem lv with
      | .error e => .error e
      | .ok (lt, lmem1) =>
        match b.deref_right it.flip with
        | .error e => .error e
        | .ok rv =>
          match b.right_tree.erase b.fuel b.rmem rv with
          | .error e => .error e
          | .ok (rt, rmem1) =>
            .ok ({ b with left_tree := lt, right_tree := rt, lmem := lmem1, rmem := rmem1,
                          bimap_size := b.bimap_size - 1 }, next_iterator)

/-- Method `bimap::erase_right(right_iterator)`. -/
def bimap.erase_right_at {L R : Type} (b : bimap L R) (it : right_iterator) :
    Except Err (bimap L R × right_iterator) :=
  match b.incr_right it with
  | .error e => .error e
  | .ok next_iterator =>
    match b.deref_right it with
    | .error e => .error e
    | .ok rv =>
      match b.right_tree.erase b.fuel b.rmem rv with
      | .error e => .error e
      | .ok (rt, rmem1) =>
        match b.deref_left it.flip with
        | .error e => .error e
        | .ok lv =>
          match b.left_tree.erase b.fuel b.lmem lv with
          | .error e => .error e
          | .ok (lt, lmem1) =>
            .ok ({ b with left_tree := lt, right_tree := rt, lmem := lmem1, rmem := rmem1,
                          bimap_size := b.bimap_size - 1 }, next_iterator)

/-- Method `bimap::lower_bound_left`. -/
def bimap.lower_bound_left {L R : Type} (b : bimap L R) (left : L) :
    Except Err left_iterator :=
  match b.left_tree.find_place b.lmem b.fuel left with
  | .error e => .error e
  | .ok none => .error .null_deref
  | .ok (some f) =>
    if !b.left_cmp (b.lmem f).value left then .ok { node := some f }
    else
      match (b.lmem f).next with
      | none => .ok b.end_left
      | some n => .ok { node := some n }

/-- Method `bimap::upper_bound_left`. -/
def bimap.upper_bound_left {L R : Type} (b : bimap L R) (left : L) :
    Except Err left_iterator :=
  match b.left_tree.find_place b.lmem b.fuel left with
  | .error e => .error e
  | .ok none => .error .null_deref
  | .ok (some f) =>
    if b.left_cmp left (b.lmem f).value then .ok { node := some f }
    else if !b.left_cmp left (b.lmem f).value && !b.left_cmp (b.lmem f).value left then
      match (b.lmem f).next with
      | none => .ok b.end_left
      | some _ => .ok { node := some f }
    else
      match (b.lmem f).next with
      | none => .ok b.end_left
      | some n => .ok { node := some n }

/-- Method `bimap::lower_bound_right`. -/
def bimap.lower_bound_right {L R : Type} (b : bimap L R) (right : R) :
    Except Err right_iterator :=
  match b.right_tree.find_place b.rmem b.fuel right with
  | .error e => .error e
  | .ok none => .error .null_deref
  | .ok (some f) =>
    if !b.right_cmp (b.rmem f).value right then .ok { node := some f }
    else
      match (b.rmem f).next with
      | none => .ok b.end_right
      | some n => .ok { node := some n }

/-- Method `bimap::upper_bound_right`. -/
def bimap.upper_bound_right {L R : Type} (b : bimap L R) (right : R) :
    Except Err right_iterator :=
  match b.right_tree.find_place b.rmem b.fuel right with
  | .error e => .error e
  | .ok none => .error .null_deref
  | .ok (some f) =>
    if b.right_cmp right (b.rmem f).value then .ok { node := some f }
    else if !b.right_cmp right (b.rmem f).value && !b.right_cmp (b.rmem f).value right then
      match (b.rmem f).next with
      | none => .ok b.end_right
      | some _ => .ok { node := some f }
    else
      match (b.rmem f).next with
      | none => .ok b.end_right
      | some n => .ok { node := some n }

/-- The loop `for (; it != end; ++it)` over list links from a node pointer: the
addresses of the records it visits. -/
def walk {T : Type} (m : Mem T) : Nat → Option Nat → Except Err (List Nat)
  | _, none => .ok []
  | 0, some _ => .error .diverge
  | fuel + 1, some a =>
    match walk m fuel (m a).next with
    | .error e => .error e
    | .ok rest => .ok (a :: rest)

/-- Records met by iterating from `begin_left()` to `end_left()`. -/
def bimap.left_seq {L R : Type} (b : bimap L R) : Except Err (List Nat) :=
  match b.begin_left with
  | .error e => .error e
  | .ok it => walk b.lmem b.fuel it.node

/-- Records met by iterating from `begin_right()` to `end_right()`. -/
def bimap.right_seq {L R : Type} (b : bimap L R) : Except Err (List Nat) :=
  match b.begin_right with
  | .error e => .error e
  | .ok it => walk b.rmem b.fuel it.node

/-- Successive calls `insert(p.first, p.second)` for the pairs of a list. -/
def bimap.insert_all {L R : Type} (b : bimap L R) : List (L × R) → Except Err (bimap L R)
  | [] => .ok b
  | p :: ps =>
    match b.insert p.1 p.2 with
    | .error e => .error e
    | .ok (b1, _) => b1.insert_all ps

/-- Left keys met by iterating from `begin_left()` to `end_left()`. -/
def bimap.left_keys {L R : Type} (b : bimap L R) : Except Err (List L) :=
  match b.left_seq with
  | .error e => .error e
  | .ok ls => .ok (ls.map fun a => (b.lmem a).value)

/-- Right keys met by iterating from `begin_right()` to `end_right()`. -/
def bimap.right_keys {L R : Type} (b : bimap L R) : Except Err (List R) :=
  match b.right_seq with
  | .error e => .error e
  | .ok rs => .ok (rs.map fun a => (b.rmem a).value)

/-- Operator `==` of left cursors: the node pointers are compared. -/
def left_iterator.eq (a b : left_iterator) : Bool := decide (a.node = b.node)

/-- Operator `==` of right cursors. -/
def right_iterator.eq (a b : right_iterator) : Bool := decide (a.node = b.node)

/-- Pairs `(*it, *it.flip())` met by iterating from `begin_left()` to `end_left()`. -/
def bimap.left_pairs {L R : Type} (b : bimap L R) : Except Err (List (L × R)) :=
  match b.left_seq with
  | .error e => .error e
  | .ok ls => .ok (ls.map fun a => ((b.lmem a).value, (b.rmem a).value))

/-- The `while` loop of `operator==`.  The four dereferences of a round are evaluated
together: none of them can fail once both cursors differ from the end cursors. -/
def bimap.eq_loop {L R : Type} (a b : bimap L R) :
    Nat → left_iterator → left_iterator → Except Err Bool
  | 0, first, second =>
    if first.eq a.end_left || second.eq b.end_left then .ok true else .error .diverge
  | fuel + 1, first, second =>
    if first.eq a.end_left || second.eq b.end_left then .ok true
    else
      match a.deref_left first, b.deref_left second,
          a.deref_right first.flip, b.deref_right second.flip with
      | .ok l1, .ok l2, .ok r1, .ok r2 =>
        if a.left_cmp l1 l2 || a.left_cmp l2 l1 || b.right_cmp r1 r2 || b.right_cmp r2 r1 then
          .ok false
        else
          match a.incr_left first, b.incr_left second with
          | .ok first1, .ok second1 => bimap.eq_loop a b fuel first1 second1
          | _, _ => .error .null_deref
      | _, _, _, _ => .error .null_deref

/-- Friend `operator==(const bimap&, const bimap&)`. -/
def bimap.operator_eq {L R : Type} (a b : bimap L R) : Except Err Bool :=
  if a.size ≠ b.size then .ok false
  else
    match a.begin_left, b.begin_left with
    | .ok first, .ok second => a.eq_loop b a.fuel first second
    | .error e, _ => .error e
    | _, .error e => .error e

/-- Friend `operator!=(const bimap&, const bimap&)`. -/
def bimap.operator_ne {L R : Type} (a b : bimap L R) : Except Err Bool :=
  match a.operator_eq b with
  | .error e => .error e
  | .ok res => .ok (!res)

/-- The container `a` as it is found in the memories of `b`: the members of `a` over the
records as `b` has them. -/
def bimap.in_heap {L R : Type} (a b : bimap L R) : bimap L R :=
  { a with lmem := b.lmem, rmem := b.rmem }

/-- The state of the members when the body of the copy constructor starts: empty trees
with the comparators of `other`.  Both containers live in one address space: the new one
starts from the memories of `other` and allocates after its records, so that a write into
a record of `other` would show in them. -/
def bimap.copy_init {L R : Type} (other : bimap L R) : bimap L R :=
  { left_tree := { root := none, comparator := other.left_cmp }
    right_tree := { root := none, comparator := other.right_cmp }
    left_cmp := other.left_cmp
    right_cmp := other.right_cmp
    bimap_size := 0
    lmem := other.lmem
    rmem := other.rmem
    brk := other.brk }

/-- The `while` loop of the copy constructor, `this_` being `*this`.  The records of
`other` are read as the memories of `this_` have them at that point of the run. -/
def bimap.copy_loop {L R : Type} (other : bimap L R) :
    Nat → bimap L R → left_iterator → Except Err (bimap L R)
  | 0, this_, it => if it.eq other.end_left then .ok this_ else .error .diverge
  | fuel + 1, this_, it =>
    if it.eq other.end_left then .ok this_
    else
      match (other.in_heap this_).deref_left it, (other.in_heap this_).deref_right it.flip with
      | .ok l, .ok r =>
        match this_.insert l r with
        | .error e => .error e
        | .ok (this1, _) =>
          match (other.in_heap this1).incr_left it with
          | .error e => .error e
          | .ok it1 => bimap.copy_loop other fuel this1 it1
      | _, _ => .error .null_deref

/-- Copy constructor `bimap(const bimap& other)`. -/
def bimap.copy {L R : Type} (other : bimap L R) : Except Err (bimap L R) :=
  match other.begin_left with
  | .error e => .error e
  | .ok it => other.copy_loop other.fuel other.copy_init it

/-- Move assignment `this_ = std::move(other)`: every member is swapped.  The result is
the pair of `*this` and `other` after the call; the records go with the roots. -/
def bimap.move_assign {L R : Type} (this_ other : bimap L R) : bimap L R × bimap L R :=
  ({ left_tree := other.left_tree, right_tree := other.right_tree,
     left_cmp := other.left_cmp, right_cmp := other.right_cmp,
     bimap_size := other.bimap_size, lmem := other.lmem, rmem := other.rmem,
     brk := other.brk },
   { left_tree := this_.left_tree, right_tree := this_.right_tree,
     left_cmp := this_.left_cmp, right_cmp := this_.right_cmp,
     bimap_size := this_.bimap_size, lmem := this_.lmem, rmem := this_.rmem,
     brk := this_.brk })

/-- Move constructor `bimap(bimap&& other)`: the members are default-initialised (with
default-constructed comparators `cl0`, `cr0`) and then swapped with those of `other`. -/
def bimap.move_construct {L R : Type} (lmem : Mem L) (rmem : Mem R) (cl0 : L → L → Bool)
    (cr0 : R → R → Bool) (other : bimap L R) : bimap L R × bimap L R :=
  (bimap.empty lmem rmem cl0 cr0).move_assign other

/-- Method `bimap::at_left_or_default`, with the container after the call.  The
`enable_if` gate of the source admits the member only for a key type equal to `right_t`;
the body is embedded for a key of the left type, which is what it searches and inserts. -/
def bimap.at_left_or_default {L R : Type} [Inhabited R] (b : bimap L R) (key : L) :
    Except Err (bimap L R × R) :=
  match b.left_tree.find b.lmem b.fuel key with
  | .error e => .error e
  | .ok (some _) =>
    match b.left_tree.find_place b.lmem b.fuel key with
    | .error e => .error e
    | .ok fp =>
      match b.deref_right (left_iterator.flip { node := fp }) with
      | .error e => .error e
      | .ok v => .ok (b, v)
  | .ok none =>
    let default_right : R := default
    match b.find_right default_right with
    | .error e => .error e
    | .ok it =>
      let erased : Except Err (bimap L R) :=
        if it.eq b.end_right then .ok b
        else
          match b.erase_right default_right with
          | .error e => .error e
          | .ok (b1, _) => .ok b1
      match erased with
      | .error e => .error e
      | .ok b1 =>
        match b1.insert key default_right with
        | .error e => .error e
        | .ok (b2, it2) =>
          match b2.deref_right it2.flip with
          | .error e => .error e
          | .ok v => .ok (b2, v)

/-- Method `bimap::at_right_or_default`, with the container after the call. -/
def bimap.at_right_or_default {L R : Type} [Inhabited L] (b : bimap L R) (key : R) :
    Except Err (bimap L R × L) :=
  match b.right_tree.find b.rmem b.fuel key with
  | .error e => .error e
  | .ok (some _) =>
    match b.right_tree.find_place b.rmem b.fuel key with
    | .error e => .error e
    | .ok fp =>
      match b.deref_left (right_iterator.flip { node := fp }) with
      | .error e => .error e
      | .ok v => .ok (b, v)
  | .ok none =>
    let default_left : L := default
    match b.find_left default_left with
    | .error e => .error e
    | .ok it =>
      let erased : Except Err (bimap L R) :=
        if it.eq b.end_left then .ok b
        else
          match b.erase_left default_left with
          | .error e => .error e
          | .ok (b1, _) => .ok b1
      match erased with
      | .error e => .error e
      | .ok b1 =>
        match b1.insert default_left key with
        | .error e => .error e
        | .ok (b2, it2) =>
          match b2.deref_left it2 with
          | .error e => .error e
          | .ok v => .ok (b2, v)

/-- In-order traversal of the nodes below a pointer, by child links. -/
def in_order {T : Type} (m : Mem T) : Nat → Option Nat → Except Err (List Nat)
  | _, none => .ok []
  | 0, some _ => .error .diverge
  | fuel + 1, some a =>
    match in_order m fuel (m a).left, in_order m fuel (m a).right with
    | .ok l, .ok r => .ok (l ++ a :: r)
    | .error e, _ => .error e
    | _, .error e => .error e

/-- Number of parent links from a node up to the root. -/
def node_depth {T : Type} (m : Mem T) : Nat → Nat → Except Err Nat
  | 0, _ => .error .diverge
  | fuel + 1, x =>
    match (m x).parent with
    | none => .ok 0
    | some p =>
      match node_depth m fuel p with
      | .error e => .error e
      | .ok d => .ok (d + 1)

/-! ## Concrete containers -/

/-- Comparator `std::less<unsigned>`. -/
def nat_less (a b : Nat) : Bool := decide (a < b)

/-- Memory content before any allocation in the concrete runs. -/
def mem0 : Mem Nat := fun _ => base_node.new 0

/-- Empty container over natural numbers on both sides. -/
def bimap0 : bimap Nat Nat := bimap.empty mem0 mem0 nat_less nat_less

/-- Insertion that keeps the container when the operation fails. -/
def bimap.insert_or_self {L R : Type} (b : bimap L R) (left : L) (right : R) : bimap L R :=
  match b.insert left right with
  | .ok (b1, _) => b1
  | .error _ => b

/-- Erasure by left key that keeps the container when the operation fails. -/
def bimap.erase_left_or_self {L R : Type} (b : bimap L R) (left : L) : bimap L R :=
  match b.erase_left left with
  | .ok (b1, _) => b1
  | .error _ => b

/-- Container with the pair (1, 10). -/
def bimap1 : bimap Nat Nat := bimap0.insert_or_self 1 10

/-- Container with the pairs (1, 10), (3, 30) inserted in this order. -/
def bimap13 : bimap Nat Nat := bimap1.insert_or_self 3 30

/-- Container with the pairs (1, 10), (3, 30), (5, 50) inserted in this order. -/
def bimap135 : bimap Nat Nat := bimap13.insert_or_self 5 50

/-- Container `bimap135` after `erase_left(3)`. -/
def bimap15 : bimap Nat Nat := bimap135.erase_left_or_self 3

/-- Container with the pairs (1, 10), (2, 0) inserted in this order: the right key 0 is
the default value of its type. -/
def bimap120 : bimap Nat Nat := bimap1.insert_or_self 2 0

/-- The left memory in the middle of `insert(4, 40)` on `bimap135`: `tree::insert` has
allocated record 3 for the key 4 and linked it as the right child of its anchor, record 1
with the key 3, which is the left child of the root, record 2; `balance` is called next. -/
def mem_zigzag : Mem Nat :=
  splice_right (Function.update bimap135.lmem 3 (base_node.new 4)) 1 3

/-- Container `bimap120` after `at_left_or_default(7)`: the pairs (1, 10), (7, 0). -/
def bimap170 : bimap Nat Nat :=
  match bimap120.at_left_or_default 7 with
  | .ok (b1, _) => b1
  | .error _ => bimap120

/-! ## Abstract shapes and the representation invariant -/

/-- Strict weak ordering, the requirement of the source on its comparators. -/
structure StrictWeakOrder {T : Type} (cmp : T → T → Bool) : Prop where
  irrefl : ∀ a, cmp a a = false
  trans : ∀ a b c, cmp a b = true → cmp b c = true → cmp a c = true
  incomp_trans : ∀ a b c, cmp a b = false → cmp b a = false → cmp b c = false →
    cmp c b = false → cmp a c = false ∧ cmp c a = false

/-- Keys `a` and `b` are equivalent: neither is less than the other. -/
def equiv {T : Type} (cmp : T → T → Bool) (a b : T) : Bool := !cmp a b && !cmp b a

/-- Shape of a binary tree whose nodes are record addresses. -/
inductive BT where
  | leaf
  | node (l : BT) (a : Nat) (r : BT)
  deriving DecidableEq, Repr

/-- In-order sequence of the addresses of a shape. -/
def BT.toList : BT → List Nat
  | .leaf => []
  | .node l a r => l.toList ++ a :: r.toList

/-- Pointer to the root of a shape. -/
def BT.ptr : BT → Option Nat
  | .leaf => none
  | .node _ a _ => some a

/-- Memory `m` holds the shape `t` below a node whose parent link is `par`. -/
def IsTree {T : Type} (m : Mem T) : Option Nat → BT → Prop
  | _, .leaf => True
  | par, .node l a r =>
    (m a).parent = par ∧ (m a).left = l.ptr ∧ (m a).right = r.ptr ∧
      IsTree m (some a) l ∧ IsTree m (some a) r

/-- One step of a path from a node up to the root: the parent `addr`, whether the
node is its left child, and the shape under the other child. -/
structure Frame where
  is_left : Bool
  addr : Nat
  sib : BT

/-- Shape obtained by putting `t` at the lower end of a path. -/
def plug : List Frame → BT → BT
  | [], t => t
  | f :: rest, t =>
    if f.is_left then plug rest (.node t f.addr f.sib) else plug rest (.node f.sib f.addr t)

/-- Parent pointer of the node at the lower end of a path. -/
def ctxPar : List Frame → Option Nat
  | [] => none
  | f :: _ => some f.addr

/-- Addresses on a path and under its siblings. -/
def ctxList : List Frame → List Nat
  | [] => []
  | f :: rest => f.addr :: f.sib.toList ++ ctxList rest

/-- Addresses of a path that come before its lower end in in-order. -/
def ctxBefore : List Frame → List Nat
  | [] => []
  | f :: rest => if f.is_left then ctxBefore rest else ctxBefore rest ++ f.sib.toList ++ [f.addr]

/-- Addresses of a path that come after its lower end in in-order. -/
def ctxAfter : List Frame → List Nat
  | [] => []
  | f :: rest => if f.is_left then f.addr :: f.sib.toList ++ ctxAfter rest else ctxAfter rest

/-- Memory `m` holds the path `ctx` from the child pointer `c` up to `root`. -/
def IsCtx {T : Type} (m : Mem T) : List Frame → Option Nat → Option Nat → Prop
  | [], c, root => root = c
  | f :: rest, c, root =>
    (if f.is_left then (m f.addr).left = c ∧ (m f.addr).right = f.sib.ptr
      else (m f.addr).right = c ∧ (m f.addr).left = f.sib.ptr) ∧
    (m f.addr).parent = ctxPar rest ∧ IsTree m (some f.addr) f.sib ∧
    IsCtx m rest (some f.addr) root

/-- First address of a list, or `n` when it is empty. -/
def first_or : List Nat → Option Nat → Option Nat
  | [], n => n
  | a :: _, _ => some a

/-- Last address of a list, or `p` when it is empty. -/
def last_or : Option Nat → List Nat → Option Nat
  | p, [] => p
  | _, a :: rest => last_or (some a) rest

/-- The list links of `m` thread `xs` in this order, between `p` and `n`. -/
def Linked {T : Type} (m : Mem T) : Option Nat → List Nat → Option Nat → Prop
  | _, [], _ => True
  | p, a :: rest, n => (m a).prev = p ∧ (m a).next = first_or rest n ∧ Linked m (some a) rest n

/-- Every key of `xs` is less than `v`. -/
def Below {T : Type} (cmp : T → T → Bool) (m : Mem T) (v : T) (xs : List Nat) : Prop :=
  ∀ b ∈ xs, cmp (m b).value v = true

/-- Every key of `xs` is greater than `v`. -/
def Above {T : Type} (cmp : T → T → Bool) (m : Mem T) (v : T) (xs : List Nat) : Prop :=
  ∀ b ∈ xs, cmp v (m b).value = true

/-- The path `ctx` is the one the descent of `find_place` for `v` takes: it goes
right at a node whose key is less than `v`, left at a node whose key is greater. -/
def PathOK {T : Type} (cmp : T → T → Bool) (m : Mem T) (v : T) (ctx : List Frame) : Prop :=
  ∀ f ∈ ctx, if f.is_left then cmp (m f.addr).value v = false ∧ cmp v (m f.addr).value = true
    else cmp (m f.addr).value v = true

/-- Keys of the records `xs` ascend strictly. -/
def Ascending {T : Type} (cmp : T → T → Bool) (m : Mem T) (xs : List Nat) : Prop :=
  xs.Pairwise (fun a b => cmp (m a).value (m b).value = true)

/-- Invariant of one dimension tree (spec §3) with in-order shape `t`: the links
of `m` form `t` under `root`, no record occurs twice, keys ascend strictly in
in-order, and the list links thread the records in in-order. -/
structure TreeInv {T : Type} (cmp : T → T → Bool) (m : Mem T) (root : Option Nat) (t : BT) :
    Prop where
  shape : IsTree m none t
  root_eq : root = t.ptr
  nodup : t.toList.Nodup
  sorted : Ascending cmp m t.toList
  linked : Linked m none t.toList none

/-- Validity of a container (spec §3): both comparators are strict weak orders and
are the ones the trees use, both trees satisfy their invariant, they hold the same
records, every record was allocated, and the count is the number of records. -/
def bimap.valid {L R : Type} (b : bimap L R) : Prop :=
  StrictWeakOrder b.left_cmp ∧ StrictWeakOrder b.right_cmp ∧
  b.left_tree.comparator = b.left_cmp ∧ b.right_tree.comparator = b.right_cmp ∧
  ∃ tl tr : BT,
    TreeInv b.left_cmp b.lmem b.left_tree.root tl ∧
    TreeInv b.right_cmp b.rmem b.right_tree.root tr ∧
    tl.toList.Perm tr.toList ∧
    (∀ a ∈ tl.toList, a < b.brk) ∧
    b.bimap_size = tl.toList.length

/-- Containers that a client can build: the empty one with strict weak orders as
comparators, and what `insert`, `erase_left` and `erase_right` (by key, or by a cursor
that references a pair of the container) return from one. -/
inductive Reachable {L R : Type} : bimap L R → Prop where
  | empty (lmem : Mem L) (rmem : Mem R) (cl : L → L → Bool) (cr : R → R → Bool)
      (hl : StrictWeakOrder cl) (hr : StrictWeakOrder cr) :
      Reachable (bimap.empty lmem rmem cl cr)
  | insert (b b1 : bimap L R) (l : L) (r : R) (it : left_iterator) :
      Reachable b → b.insert l r = .ok (b1, it) → Reachable b1
  | erase_left (b b1 : bimap L R) (k : L) (res : Bool) :
      Reachable b → b.erase_left k = .ok (b1, res) → Reachable b1
  | erase_right (b b1 : bimap L R) (k : R) (res : Bool) :
      Reachable b → b.erase_right k = .ok (b1, res) → Reachable b1
  | erase_left_at (b b1 : bimap L R) (a : Nat) (ls : List Nat) (nxt : left_iterator) :
      Reachable b → b.left_seq = .ok ls → a ∈ ls →
      b.erase_left_at { node := some a } = .ok (b1, nxt) → Reachable b1
  | erase_right_at (b b1 : bimap L R) (a : Nat) (rs : List Nat) (nxt : right_iterator) :
      Reachable b → b.right_seq = .ok rs → a ∈ rs →
      b.erase_right_at { node := some a } = .ok (b1, nxt) → Reachable b1

/-- Containers that a client can build when both key types have default values:
`Reachable` extended by `at_left_or_default` and `at_right_or_default`. -/
inductive ReachableD {L R : Type} [Inhabited L] [Inhabited R] : bimap L R → Prop where
  | empty (lmem : Mem L) (rmem : Mem R) (cl : L → L → Bool) (cr : R → R → Bool)
      (hl : StrictWeakOrder cl) (hr : StrictWeakOrder cr) :
      ReachableD (bimap.empty lmem rmem cl cr)
  | insert (b b1 : bimap L R) (l : L) (r : R) (it : left_iterator) :
      ReachableD b → b.insert l r = .ok (b1, it) → ReachableD b1
  | erase_left (b b1 : bimap L R) (k : L) (res : Bool) :
      ReachableD b → b.erase_left k = .ok (b1, res) → ReachableD b1
  | erase_right (b b1 : bimap L R) (k : R) (res : Bool) :
      ReachableD b → b.erase_right k = .ok (b1, res) → ReachableD b1
  | erase_left_at (b b1 : bimap L R) (a : Nat) (ls : List Nat) (nxt : left_iterator) :
      ReachableD b → b.left_seq = .ok ls → a ∈ ls →
      b.erase_left_at { node := some a } = .ok (b1, nxt) → ReachableD b1
  | erase_right_at (b b1 : bimap L R) (a : Nat) (rs : List Nat) (nxt : right_iterator) :
      ReachableD b → b.right_seq = .ok rs → a ∈ rs →
      b.erase_right_at { node := some a } = .ok (b1, nxt) → ReachableD b1
  | at_left_or_default (b b1 : bimap L R) (k : L) (v : R) :
      ReachableD b → b.at_left_or_default k = .ok (b1, v) → ReachableD b1
  | at_right_or_default (b b1 : bimap L R) (k : R) (v : L) :
      ReachableD b → b.at_right_or_default k = .ok (b1, v) → ReachableD b1

/-- Containers obtained from `b` by any sequence of `insert`, `erase_left` and
`erase_right` (by key, or by a cursor that references a pair of the container). -/
inductive Mutated {L R : Type} (b : bimap L R) : bimap L R → Prop where
  | refl : Mutated b b
  | insert (b1 b2 : bimap L R) (l : L) (r : R) (it : left_iterator) :
      Mutated b b1 → b1.insert l r = .ok (b2, it) → Mutated b b2
  | erase_left (b1 b2 : bimap L R) (k : L) (res : Bool) :
      Mutated b b1 → b1.erase_left k = .ok (b2, res) → Mutated b b2
  | erase_right (b1 b2 : bimap L R) (k : R) (res : Bool) :
      Mutated b b1 → b1.erase_right k = .ok (b2, res) → Mutated b b2
  | erase_left_at (b1 b2 : bimap L R) (a : Nat) (ls : List Nat) (nxt : left_iterator) :
      Mutated b b1 → b1.left_seq = .ok ls → a ∈ ls →
      b1.erase_left_at { node := some a } = .ok (b2, nxt) → Mutated b b2
  | erase_right_at (b1 b2 : bimap L R) (a : Nat) (rs : List Nat) (nxt : right_iterator) :
      Mutated b b1 → b1.right_seq = .ok rs → a ∈ rs →
      b1.erase_right_at { node := some a } = .ok (b2, nxt) → Mutated b b2

/-- The step from `b` to `b1` keeps the container valid, allocates upwards, keeps the
records of `b` apart from one it allocates, and writes no other record. -/
def LocalStep {L R : Type} (b b1 : bimap L R) : Prop :=
  b1.valid ∧ b.brk ≤ b1.brk ∧
  (∀ ls ls1, b.left_seq = .ok ls → b1.left_seq = .ok ls1 → ∀ a ∈ ls1, a ∈ ls ∨ a = b.brk) ∧
  (∀ ls, b.left_seq = .ok ls → ∀ a, a ≠ b.brk → a ∉ ls →
    b1.lmem a = b.lmem a ∧ b1.rmem a = b.rmem a)

/-- The valid container `b` lives apart from the records that `a` allocated: its own
records and its next allocation lie above them, and the memories of `b` hold the records
of `a` as the memories of `a` do. -/
def Apart {L R : Type} (a b : bimap L R) : Prop :=
  b.valid ∧ a.brk ≤ b.brk ∧
  (∀ ls, b.left_seq = .ok ls → ∀ c ∈ ls, a.brk ≤ c) ∧
  (∀ c, c < a.brk → b.lmem c = a.lmem c ∧ b.rmem c = a.rmem c)

/-- Shape of the left tree of `bimap135`: record 2 at the root, record 1 its left child,
record 0 the left child of record 1. -/
def shape135 : BT := .node (.node (.node .leaf 0 .leaf) 1 .leaf) 2 .leaf

/-- Subtree-size invariant (spec §3) on the shape `t`: the cached size of every node is
`1 + size(left child) + size(right child)`, the size of a null child being 0. -/
def SizeInv {T : Type} (m : Mem T) : BT → Prop
  | .leaf => True
  | .node l a r =>
    (m a).size = 1 + node_size m l.ptr + node_size m r.ptr ∧ SizeInv m l ∧ SizeInv m r

/-- List/tree agreement (spec §3): the in-order traversal of the tree returns a sequence
`ys`, following `next` from `get_first_node()` visits exactly `ys`, and `prev` is the
inverse of `next` along `ys`, which starts and ends with null links. -/
def ListAgrees {T : Type} (t : tree T) (m : Mem T) (fuel : Nat) : Prop :=
  ∃ ys, in_order m fuel t.root = .ok ys ∧
    (∃ first, t.get_first_node m fuel = .ok first ∧ walk m fuel first = .ok ys) ∧
    Linked m none ys none

/-- Pairs held by the records `xs` of a container. -/
def bimap.pairs_of {L R : Type} (b : bimap L R) (xs : List Nat) : List (L × R) :=
  xs.map fun a => ((b.lmem a).value, (b.rmem a).value)

/-- The keys of the records `x` of `a` and `y` of `b` pass the test of `operator==`:
the left keys are equivalent under the left comparator of `a`, the right keys under the
right comparator of `b`. -/
def bimap.same_pair {L R : Type} (a b : bimap L R) (x y : Nat) : Bool :=
  equiv a.left_cmp (a.lmem x).value (b.lmem y).value &&
    equiv b.right_cmp (a.rmem x).value (b.rmem y).value

/-- Values, list links: the fields that rotations never write. -/
def SameData {T : Type} (m m' : Mem T) : Prop :=
  ∀ a, (m' a).value = (m a).value ∧ (m' a).next = (m a).next ∧ (m' a).prev = (m a).prev

/-- Tree links of the record `a` agree in `m` and `m'`. -/
def SameLinks {T : Type} (m m' : Mem T) (a : Nat) : Prop :=
  (m' a).parent = (m a).parent ∧ (m' a).left = (m a).left ∧ (m' a).right = (m a).right

/-- Path of a node after `rotate` was applied to its parent: `f1` leads to the
parent, `f2` from the parent to the grandparent. -/
def zig_ctx (f1 f2 : Frame) : List Frame :=
  if f1.is_left then
    if f2.is_left then [⟨true, f1.addr, .node f1.sib f2.addr f2.sib⟩]
    else [⟨false, f2.addr, f2.sib⟩, ⟨true, f1.addr, f1.sib⟩]
  else
    if f2.is_left then [⟨true, f2.addr, f2.sib⟩, ⟨false, f1.addr, f1.sib⟩]
    else [⟨false, f1.addr, .node f2.sib f2.addr f1.sib⟩]

/-- Shape after `rotate` lifts the root of `t` over the parent given by `f`. -/
def rot (f : Frame) : BT → BT
  | .leaf => .leaf
  | .node l x r =>
    if f.is_left then .node l x (.node r f.addr f.sib) else .node (.node f.sib f.addr l) x r

/-! ## Reading a field after a write -/

@[simp] theorem set_parent_value {T : Type} (m : Mem T) (a : Nat) (v : Option Nat) (b : Nat) :
    (set_parent m a v b).value = (m b).value := by
  unfold set_parent; by_cases h : b = a <;> simp [Function.update, h]

@[simp] theorem set_parent_size {T : Type} (m : Mem T) (a : Nat) (v : Option Nat) (b : Nat) :
    (set_parent m a v b).size = (m b).size := by
  unfold set_parent; by_cases h : b = a <;> simp [Function.update, h]

@[simp] theorem set_parent_parent {T : Type} (m : Mem T) (a : Nat) (v : Option Nat) (b : Nat) :
    (set_parent m a v b).parent = if b = a then v else (m b).parent := by
  unfold set_parent; by_cases h : b = a <;> simp [Function.update, h]

@[simp] theorem set_parent_left {T : Type} (m : Mem T) (a : Nat) (v : Option Nat) (b : Nat) :
    (set_parent m a v b).left = (m b).left := by
  unfold set_parent; by_cases h : b = a <;> simp [Function.update, h]

@[simp] theorem set_parent_right {T : Type} (m : Mem T) (a : Nat) (v : Option Nat) (b : Nat) :
    (set_parent m a v b).right = (m b).right := by
  unfold set_parent; by_cases h : b = a <;> simp [Function.update, h]

@[simp] theorem set_parent_next {T : Type} (m : Mem T) (a : Nat) (v : Option Nat) (b : Nat) :
    (set_parent m a v b).next = (m b).next := by
  unfold set_parent; by_cases h : b = a <;> simp [Function.update, h]

@[simp] theorem set_parent_prev {T : Type} (m : Mem T) (a : Nat) (v : Option Nat) (b : Nat) :
    (set_parent m a v b).prev = (m b).prev := by
  unfold set_parent; by_cases h : b = a <;> simp [Function.update, h]

@[simp] theorem set_left_value {T : Type} (m : Mem T) (a : Nat) (v : Option Nat) (b : Nat) :
    (set_left m a v b).value = (m b).value := by
  unfold set_left; by_cases h : b = a <;> simp [Function.update, h]

@[simp] theorem set_left_size {T : Type} (m : Mem T) (a : Nat) (v : Option Nat) (b : Nat) :
    (set_left m a v b).size = (m b).size := by
  unfold set_left; by_cases h : b = a <;> simp [Function.update, h]

@[simp] theorem set_left_parent {T : Type} (m : Mem T) (a : Nat) (v : Option Nat) (b : Nat) :
    (set_left m a v b).parent = (m b).parent := by
  unfold set_left; by_cases h : b = a <;> simp [Function.update, h]

@[simp] theorem set_left_left {T : Type} (m : Mem T) (a : Nat) (v : Option Nat) (b : Nat) :
    (set_left m a v b).left = if b = a then v else (m b).left := by
  unfold set_left; by_cases h : b = a <;> simp [Function.update, h]

@[simp] theorem set_left_right {T : Type} (m : Mem T) (a : Nat) (v : Option Nat) (b : Nat) :
    (set_left m a v b).right = (m b).right := by
  unfold set_left; by_cases h : b = a <;> simp [Function.update, h]

@[simp] theorem set_left_next {T : Type} (m : Mem T) (a : Nat) (v : Option Nat) (b : Nat) :
    (set_left m a v b).next = (m b).next := by
  unfold set_left; by_cases h : b = a <;> simp [Function.update, h]

@[simp] theorem set_left_prev {T : Type} (m : Mem T) (a : Nat) (v : Option Nat) (b : Nat) :
    (set_left m a v b).prev = (m b).prev := by
  unfold set_left; by_cases h : b = a <;> simp [Function.update, h]

@[simp] theorem set_right_value {T : Type} (m : Mem T) (a : Nat) (v : Option Nat) (b : Nat) :
    (set_right m a v b).value = (m b).value := by
  unfold set_right; by_cases h : b = a <;> simp [Function.update, h]

@[simp] theorem set_right_size {T : Type} (m : Mem T) (a : Nat) (v : Option Nat) (b : Nat) :
    (set_right m a v b).size = (m b).size := by
  unfold set_right; by_cases h : b = a <;> simp [Function.update, h]

@[simp] theorem set_right_parent {T : Type} (m : Mem T) (a : Nat) (v : Option Nat) (b : Nat) :
    (set_right m a v b).parent = (m b).parent := by
  unfold set_right; by_cases h : b = a <;> simp [Function.update, h]

@[simp] theorem set_right_left {T : Type} (m : Mem T) (a : Nat) (v : Option Nat) (b : Nat) :
    (set_right m a v b).left = (m b).left := by
  unfold set_right; by_cases h : b = a <;> simp [Function.update, h]

@[simp] theorem set_right_right {T : Type} (m : Mem T) (a : Nat) (v : Option Nat) (b : Nat) :
    (set_right m a v b).right = if b = a then v else (m b).right := by
  unfold set_right; by_cases h : b = a <;> simp [Function.update, h]

@[simp] theorem set_right_next {T : Type} (m : Mem T) (a : Nat) (v : Option Nat) (b : Nat) :
    (set_right m a v b).next = (m b).next := by
  unfold set_right; by_cases h : b = a <;> simp [Function.update, h]

@[simp] theorem set_right_prev {T : Type} (m : Mem T) (a : Nat) (v : Option Nat) (b : Nat) :
    (set_right m a v b).prev = (m b).prev := by
  unfold set_right; by_cases h : b = a <;> simp [Function.update, h]

@[simp] theorem set_next_value {T : Type} (m : Mem T) (a : Nat) (v : Option Nat) (b : Nat) :
    (set_next m a v b).value = (m b).value := by
  unfold set_next; by_cases h : b = a <;> simp [Function.update, h]

@[simp] theorem set_next_size {T : Type} (m : Mem T) (a : Nat) (v : Option Nat) (b : Nat) :
    (set_next m a v b).size = (m b).size := by
  unfold set_next; by_cases h : b = a <;> simp [Function.update, h]

@[simp] theorem set_next_parent {T : Type} (m : Mem T) (a : Nat) (v : Option Nat) (b : Nat) :
    (set_next m a v b).parent = (m b).parent := by
  unfold set_next; by_cases h : b = a <;> simp [Function.update, h]

@[simp] theorem set_next_left {T : Type} (m : Mem T) (a : Nat) (v : Option Nat) (b : Nat) :
    (set_next m a v b).left = (m b).left := by
  unfold set_next; by_cases h : b = a <;> simp [Function.update, h]

@[simp] theorem set_next_right {T : Type} (m : Mem T) (a : Nat) (v : Option Nat) (b : Nat) :
    (set_next m a v b).right = (m b).right := by
  unfold set_next; by_cases h : b = a <;> simp [Function.update, h]

@[simp] theorem set_next_next {T : Type} (m : Mem T) (a : Nat) (v : Option Nat) (b : Nat) :
    (set_next m a v b).next = if b = a then v else (m b).next := by
  unfold set_next; by_cases h : b = a <;> simp [Function.update, h]

@[simp] theorem set_next_prev {T : Type} (m : Mem T) (a : Nat) (v : Option Nat) (b : Nat) :
    (set_next m a v b).prev = (m b).prev := by
  unfold set_next; by_cases h : b = a <;> simp [Function.update, h]

@[simp] theorem set_prev_value {T : Type} (m : Mem T) (a : Nat) (v : Option Nat) (b : Nat) :
    (set_prev m a v b).value = (m b).value := by
  unfold set_prev; by_cases h : b = a <;> simp [Function.update, h]

@[simp] theorem set_prev_size {T : Type} (m : Mem T) (a : Nat) (v : Option Nat) (b : Nat) :
    (set_prev m a v b).size = (m b).size := by
  unfold set_prev; by_cases h : b = a <;> simp [Function.update, h]

@[simp] theorem set_prev_parent {T : Type} (m : Mem T) (a : Nat) (v : Option Nat) (b : Nat) :
    (set_prev m a v b).parent = (m b).parent := by
  unfold set_prev; by_cases h : b = a <;> simp [Function.update, h]

@[simp] theorem set_prev_left {T : Type} (m : Mem T) (a : Nat) (v : Option Nat) (b : Nat) :
    (set_prev m a v b).left = (m b).left := by
  unfold set_prev; by_cases h : b = a <;> simp [Function.update, h]

@[simp] theorem set_prev_right {T : Type} (m : Mem T) (a : Nat) (v : Option Nat) (b : Nat) :
    (set_prev m a v b).right = (m b).right := by
  unfold set_prev; by_cases h : b = a <;> simp [Function.update, h]

@[simp] theorem set_prev_next {T : Type} (m : Mem T) (a : Nat) (v : Option Nat) (b : Nat) :
    (set_prev m a v b).next = (m b).next := by
  unfold set_prev; by_cases h : b = a <;> simp [Function.update, h]

@[simp] theorem set_prev_prev {T : Type} (m : Mem T) (a : Nat) (v : Option Nat) (b : Nat) :
    (set_prev m a v b).prev = if b = a then v else (m b).prev := by
  unfold set_prev; by_cases h : b = a <;> simp [Function.update, h]

@[simp] theorem set_size_value {T : Type} (m : Mem T) (a : Nat) (v : Nat) (b : Nat) :
    (set_size m a v b).value = (m b).value := by
  unfold set_size; by_cases h : b = a <;> simp [Function.update, h]

@[simp] theorem set_size_size {T : Type} (m : Mem T) (a : Nat) (v : Nat) (b : Nat) :
    (set_size m a v b).size = if b = a then v else (m b).size := by
  unfold set_size; by_cases h : b = a <;> simp [Function.update, h]

@[simp] theorem set_size_parent {T : Type} (m : Mem T) (a : Nat) (v : Nat) (b : Nat) :
    (set_size m a v b).parent = (m b).parent := by
  unfold set_size; by_cases h : b = a <;> simp [Function.update, h]

@[simp] theorem set_size_left {T : Type} (m : Mem T) (a : Nat) (v : Nat) (b : Nat) :
    (set_size m a v b).left = (m b).left := by
  unfold set_size; by_cases h : b = a <;> simp [Function.update, h]

@[simp] theorem set_size_right {T : Type} (m : Mem T) (a : Nat) (v : Nat) (b : Nat) :
    (set_size m a v b).right = (m b).right := by
  unfold set_size; by_cases h : b = a <;> simp [Function.update, h]

@[simp] theorem set_size_next {T : Type} (m : Mem T) (a : Nat) (v : Nat) (b : Nat) :
    (set_size m a v b).next = (m b).next := by
  unfold set_size; by_cases h : b = a <;> simp [Function.update, h]

@[simp] theorem set_size_prev {T : Type} (m : Mem T) (a : Nat) (v : Nat) (b : Nat) :
    (set_size m a v b).prev = (m b).prev := by
  unfold set_size; by_cases h : b = a <;> simp [Function.update, h]

@[simp] theorem fix_size_value {T : Type} (m : Mem T) (c : Option Nat) (b : Nat) :
    (fix_size m c b).value = (m b).value := by
  cases c <;> simp [fix_size]

@[simp] theorem fix_size_parent {T : Type} (m : Mem T) (c : Option Nat) (b : Nat) :
    (fix_size m c b).parent = (m b).parent := by
  cases c <;> simp [fix_size]

@[simp] theorem fix_size_left {T : Type} (m : Mem T) (c : Option Nat) (b : Nat) :
    (fix_size m c b).left = (m b).left := by
  cases c <;> simp [fix_size]

@[simp] theorem fix_size_right {T : Type} (m : Mem T) (c : Option Nat) (b : Nat) :
    (fix_size m c b).right = (m b).right := by
  cases c <;> simp [fix_size]

@[simp] theorem fix_size_next {T : Type} (m : Mem T) (c : Option Nat) (b : Nat) :
    (fix_size m c b).next = (m b).next := by
  cases c <;> simp [fix_size]

@[simp] theorem fix_size_prev {T : Type} (m : Mem T) (c : Option Nat) (b : Nat) :
    (fix_size m c b).prev = (m b).prev := by
  cases c <;> simp [fix_size]

/-! ## Shapes, paths and their representation in memory -/

theorem BT.ptr_mem {t : BT} {a : Nat} (h : t.ptr = some a) : a ∈ t.toList := by
  cases t with
  | leaf => simp [BT.ptr] at h
  | node l b r =>
    simp only [BT.ptr, Option.some.injEq] at h
    simp [BT.toList, h]

theorem BT.ptr_ne_of_not_mem {t : BT} {a : Nat} (h : a ∉ t.toList) : t.ptr ≠ some a :=
  fun hp => h (BT.ptr_mem hp)

theorem BT.ptr_eq_none_iff {t : BT} : t.ptr = none ↔ t = .leaf := by
  cases t <;> simp [BT.ptr]

theorem BT.toList_eq_nil_iff {t : BT} : t.toList = [] ↔ t = .leaf := by
  cases t <;> simp [BT.toList]

theorem SameLinks_refl {T : Type} (m : Mem T) (a : Nat) : SameLinks m m a :=
  ⟨rfl, rfl, rfl⟩

theorem SameLinks_trans {T : Type} {m1 m2 m3 : Mem T} {a : Nat}
    (h12 : SameLinks m1 m2 a) (h23 : SameLinks m2 m3 a) : SameLinks m1 m3 a :=
  ⟨h23.1.trans h12.1, h23.2.1.trans h12.2.1, h23.2.2.trans h12.2.2⟩

theorem SameData_refl {T : Type} (m : Mem T) : SameData m m := fun _ => ⟨rfl, rfl, rfl⟩

theorem SameData_trans {T : Type} {m1 m2 m3 : Mem T}
    (h12 : SameData m1 m2) (h23 : SameData m2 m3) : SameData m1 m3 := fun a =>
  ⟨(h23 a).1.trans (h12 a).1, (h23 a).2.1.trans (h12 a).2.1, (h23 a).2.2.trans (h12 a).2.2⟩

theorem IsTree_congr {T : Type} {m m' : Mem T} {t : BT} :
    ∀ {par : Option Nat}, (∀ a ∈ t.toList, SameLinks m m' a) → IsTree m par t → IsTree m' par t := by
  induction t with
  | leaf => intro _ _ _; trivial
  | node l a r ihl ihr =>
    intro par hs h
    obtain ⟨h1, h2, h3, h4, h5⟩ := h
    have ha := hs a (by simp [BT.toList])
    refine ⟨ha.1.trans h1, ha.2.1.trans h2, ha.2.2.trans h3, ?_, ?_⟩
    · exact ihl (fun b hb => hs b (by simp [BT.toList, hb])) h4
    · exact ihr (fun b hb => hs b (by simp [BT.toList, hb])) h5

/-- Re-rooting a shape under another parent: only the parent link of its root may differ. -/
theorem IsTree_reparent {T : Type} {m m' : Mem T} {t : BT} {par par' : Option Nat}
    (h : IsTree m par t)
    (hroot : ∀ a, t.ptr = some a →
      (m' a).parent = par' ∧ (m' a).left = (m a).left ∧ (m' a).right = (m a).right)
    (hrest : ∀ a ∈ t.toList, t.ptr ≠ some a → SameLinks m m' a)
    (hnd : t.toList.Nodup) : IsTree m' par' t := by
  cases t with
  | leaf => trivial
  | node l a r =>
    obtain ⟨_, h2, h3, h4, h5⟩ := h
    have ha := hroot a rfl
    simp only [BT.toList, List.nodup_append, List.nodup_cons] at hnd
    obtain ⟨_, ⟨har, _⟩, hdisj⟩ := hnd
    have hal : a ∉ l.toList := fun hm => hdisj hm (by simp)
    refine ⟨ha.1, ha.2.1.trans h2, ha.2.2.trans h3, ?_, ?_⟩
    · refine IsTree_congr (fun b hb => hrest b (by simp [BT.toList, hb]) ?_) h4
      simp only [BT.ptr, ne_eq, Option.some.injEq]
      rintro rfl; exact hal hb
    · refine IsTree_congr (fun b hb => hrest b (by simp [BT.toList, hb]) ?_) h5
      simp only [BT.ptr, ne_eq, Option.some.injEq]
      rintro rfl; exact har hb

theorem IsCtx_congr {T : Type} {m m' : Mem T} {ctx : List Frame} :
    ∀ {c root : Option Nat}, (∀ a ∈ ctxList ctx, SameLinks m m' a) →
      IsCtx m ctx c root → IsCtx m' ctx c root := by
  induction ctx with
  | nil => intro c root _ h; exact h
  | cons f rest ih =>
    intro c root hs h
    obtain ⟨h1, h2, h3, h4⟩ := h
    have hf := hs f.addr (by simp [ctxList])
    refine ⟨?_, hf.1.trans h2, ?_, ?_⟩
    · by_cases hd : f.is_left
      · simp only [hd, if_true] at h1 ⊢
        exact ⟨hf.2.1.trans h1.1, hf.2.2.trans h1.2⟩
      · simp only [hd] at h1 ⊢
        exact ⟨hf.2.2.trans h1.1, hf.2.1.trans h1.2⟩
    · exact IsTree_congr (fun b hb => hs b (by simp [ctxList, hb])) h3
    · exact ih (fun b hb => hs b (by simp [ctxList, hb])) h4

theorem toList_plug (ctx : List Frame) :
    ∀ t : BT, (plug ctx t).toList = ctxBefore ctx ++ t.toList ++ ctxAfter ctx := by
  induction ctx with
  | nil => intro t; simp [plug, ctxBefore, ctxAfter]
  | cons f rest ih =>
    intro t
    by_cases hd : f.is_left
    · simp [plug, ctxBefore, ctxAfter, hd, ih, BT.toList]
    · simp [plug, ctxBefore, ctxAfter, hd, ih, BT.toList]

theorem ctxList_perm (ctx : List Frame) :
    (ctxList ctx).Perm (ctxBefore ctx ++ ctxAfter ctx) := by
  induction ctx with
  | nil => simp [ctxList, ctxBefore, ctxAfter]
  | cons f rest ih =>
    by_cases hd : f.is_left
    · simp only [ctxList, ctxBefore, ctxAfter, hd, if_true]
      have h1 : (f.addr :: f.sib.toList ++ ctxList rest).Perm
          (f.addr :: f.sib.toList ++ (ctxBefore rest ++ ctxAfter rest)) :=
        List.Perm.append_left _ ih
      refine h1.trans ?_
      have h0 : ((f.addr :: f.sib.toList) ++ ctxBefore rest).Perm
          (ctxBefore rest ++ (f.addr :: f.sib.toList)) := List.perm_append_comm
      have h2 := h0.append_right (ctxAfter rest)
      simpa [List.append_assoc] using h2
    · simp only [ctxList, ctxBefore, ctxAfter, hd]
      have h1 : (f.addr :: f.sib.toList ++ ctxList rest).Perm
          (f.addr :: f.sib.toList ++ (ctxBefore rest ++ ctxAfter rest)) :=
        List.Perm.append_left _ ih
      refine h1.trans ?_
      have h2 : (f.addr :: f.sib.toList).Perm (f.sib.toList ++ [f.addr]) := by
        have h0 : ([f.addr] ++ f.sib.toList).Perm (f.sib.toList ++ [f.addr]) :=
          List.perm_append_comm
        simpa using h0
      have h3 := (h2.append_right (ctxBefore rest ++ ctxAfter rest))
      refine h3.trans ?_
      have h0 : ((f.sib.toList ++ [f.addr]) ++ ctxBefore rest).Perm
          (ctxBefore rest ++ (f.sib.toList ++ [f.addr])) := List.perm_append_comm
      have h4 := h0.append_right (ctxAfter rest)
      simpa [List.append_assoc] using h4

theorem plug_perm (ctx : List Frame) (t : BT) :
    (plug ctx t).toList.Perm (t.toList ++ ctxList ctx) := by
  rw [toList_plug]
  have h1 : (ctxBefore ctx ++ t.toList ++ ctxAfter ctx).Perm
      (t.toList ++ ctxBefore ctx ++ ctxAfter ctx) :=
    (List.perm_append_comm).append_right _
  refine h1.trans ?_
  rw [List.append_assoc]
  exact List.Perm.append_left _ (ctxList_perm ctx).symm

theorem plug_ptr_cons (f : Frame) (rest : List Frame) (t : BT) :
    plug (f :: rest) t = plug rest (plug [f] t) := by
  by_cases hd : f.is_left <;> simp [plug, hd]

theorem plug_iff {T : Type} (m : Mem T) (root : Option Nat) (ctx : List Frame) :
    ∀ t : BT, (IsTree m none (plug ctx t) ∧ root = (plug ctx t).ptr) ↔
      (IsCtx m ctx t.ptr root ∧ IsTree m (ctxPar ctx) t) := by
  induction ctx with
  | nil => intro t; simp [plug, IsCtx, ctxPar, and_comm]
  | cons f rest ih =>
    intro t
    by_cases hd : f.is_left
    · have e : plug (f :: rest) t = plug rest (.node t f.addr f.sib) := by simp [plug, hd]
      rw [e, ih]
      show _ ↔ ((if f.is_left then _ else _) ∧ _ ∧ _ ∧ _) ∧ _
      rw [if_pos hd]
      show (_ ∧ (_ ∧ _ ∧ _ ∧ _ ∧ _)) ↔ _
      simp only [BT.ptr, ctxPar]
      tauto
    · have e : plug (f :: rest) t = plug rest (.node f.sib f.addr t) := by simp [plug, hd]
      rw [e, ih]
      show _ ↔ ((if f.is_left then _ else _) ∧ _ ∧ _ ∧ _) ∧ _
      rw [if_neg hd]
      show (_ ∧ (_ ∧ _ ∧ _ ∧ _ ∧ _)) ↔ _
      simp only [BT.ptr, ctxPar]
      tauto

theorem exists_ctx {t : BT} {x : Nat} (h : x ∈ t.toList) :
    ∃ ctx l r, t = plug ctx (.node l x r) := by
  induction t with
  | leaf => simp [BT.toList] at h
  | node l a r ihl ihr =>
    simp only [BT.toList, List.mem_append, List.mem_cons] at h
    rcases h with h | h | h
    · obtain ⟨ctx, l', r', e⟩ := ihl h
      refine ⟨ctx ++ [⟨true, a, r⟩], l', r', ?_⟩
      rw [e]
      clear e ihl ihr h
      generalize BT.node l' x r' = s
      induction ctx generalizing s with
      | nil => simp [plug]
      | cons f rest ih => by_cases hd : f.is_left <;> simp [plug, hd, ih]
    · subst h; exact ⟨[], l, r, rfl⟩
    · obtain ⟨ctx, l', r', e⟩ := ihr h
      refine ⟨ctx ++ [⟨false, a, l⟩], l', r', ?_⟩
      rw [e]
      clear e ihl ihr h
      generalize BT.node l' x r' = s
      induction ctx generalizing s with
      | nil => simp [plug]
      | cons f rest ih => by_cases hd : f.is_left <;> simp [plug, hd, ih]

/-! ## Rotation -/

theorem rotate_right_links_parent {T : Type} (m : Mem T) (x p a : Nat) :
    (rotate_right_links m x p a).parent =
      if (m x).right = some a then some p
      else if a = p then some x
      else if a = x then (m p).parent else (m a).parent := by
  unfold rotate_right_links
  cases h : (m x).right with
  | none => simp
  | some r =>
    simp only [set_parent_parent, set_left_parent, set_right_parent, Option.some.injEq]
    by_cases h1 : a = r
    · simp [h1]
    · have : ¬ r = a := fun e => h1 e.symm
      simp [h1, this]

theorem rotate_right_links_left {T : Type} (m : Mem T) (x p a : Nat) :
    (rotate_right_links m x p a).left = if a = p then (m x).right else (m a).left := by
  unfold rotate_right_links
  cases h : (m x).right <;> simp

theorem rotate_right_links_right {T : Type} (m : Mem T) (x p a : Nat) :
    (rotate_right_links m x p a).right = if a = x then some p else (m a).right := by
  unfold rotate_right_links
  cases h : (m x).right <;> simp

theorem rotate_right_links_data {T : Type} (m : Mem T) (x p : Nat) :
    SameData m (rotate_right_links m x p) := by
  intro a
  unfold rotate_right_links
  cases h : (m x).right <;> simp

theorem rotate_right_links_frame {T : Type} (m : Mem T) (x p a : Nat)
    (hx : a ≠ x) (hp : a ≠ p) (hr : (m x).right ≠ some a) :
    rotate_right_links m x p a = m a := by
  unfold rotate_right_links
  cases h : (m x).right with
  | none => simp [set_parent, set_left, set_right, Function.update, hx, hp]
  | some r =>
    have : a ≠ r := by rintro rfl; exact hr h
    simp [set_parent, set_left, set_right, Function.update, hx, hp, this]

theorem rotate_left_links_parent {T : Type} (m : Mem T) (x p a : Nat) :
    (rotate_left_links m x p a).parent =
      if (m x).left = some a then some p
      else if a = p then some x
      else if a = x then (m p).parent else (m a).parent := by
  unfold rotate_left_links
  cases h : (m x).left with
  | none => simp
  | some r =>
    simp only [set_parent_parent, set_left_parent, set_right_parent, Option.some.injEq]
    by_cases h1 : a = r
    · simp [h1]
    · have : ¬ r = a := fun e => h1 e.symm
      simp [h1, this]

theorem rotate_left_links_right {T : Type} (m : Mem T) (x p a : Nat) :
    (rotate_left_links m x p a).right = if a = p then (m x).left else (m a).right := by
  unfold rotate_left_links
  cases h : (m x).left <;> simp

theorem rotate_left_links_left {T : Type} (m : Mem T) (x p a : Nat) :
    (rotate_left_links m x p a).left = if a = x then some p else (m a).left := by
  unfold rotate_left_links
  cases h : (m x).left <;> simp

theorem rotate_left_links_data {T : Type} (m : Mem T) (x p : Nat) :
    SameData m (rotate_left_links m x p) := by
  intro a
  unfold rotate_left_links
  cases h : (m x).left <;> simp

theorem rotate_left_links_frame {T : Type} (m : Mem T) (x p a : Nat)
    (hx : a ≠ x) (hp : a ≠ p) (hr : (m x).left ≠ some a) :
    rotate_left_links m x p a = m a := by
  unfold rotate_left_links
  cases h : (m x).left with
  | none => simp [set_parent, set_left, set_right, Function.update, hx, hp]
  | some r =>
    have : a ≠ r := by rintro rfl; exact hr h
    simp [set_parent, set_left, set_right, Function.update, hx, hp, this]

theorem SameLinks.of_eq {T : Type} {m m' : Mem T} {a : Nat} (h : m' a = m a) :
    SameLinks m m' a := by
  simp [SameLinks, h]

theorem rotate_right_links_spec {T : Type} (m : Mem T) (par : Option Nat) (l r s : BT) (x p : Nat)
    (h : IsTree m par (.node (.node l x r) p s))
    (hnd : (BT.node (.node l x r) p s).toList.Nodup) :
    IsTree (rotate_right_links m x p) par (.node l x (.node r p s)) ∧
    (∀ a, a ∉ (BT.node (.node l x r) p s).toList → rotate_right_links m x p a = m a) := by
  obtain ⟨hp1, hp2, hp3, ⟨hx1, hx2, hx3, hl, hr⟩, hs⟩ := h
  simp only [BT.toList, List.nodup_append, List.nodup_cons, List.mem_append, List.mem_cons,
    List.append_assoc, List.disjoint_cons_left, List.disjoint_cons_right,
    List.disjoint_append_right, not_or] at hnd
  obtain ⟨hndl, ⟨⟨hxr, hndr⟩, ⟨hps, hnds⟩, ⟨⟨hpx, hpr⟩, hxs, hrs⟩⟩, ⟨hxl, hlr⟩, hpl, hls⟩ := hnd
  have hxp : x ≠ p := fun e => hpx e.symm
  have hrx : r.ptr ≠ some x := BT.ptr_ne_of_not_mem hxr
  have hrp : r.ptr ≠ some p := BT.ptr_ne_of_not_mem hpr
  refine ⟨⟨?_, ?_, ?_, ?_, ?_, ?_, ?_, ?_, ?_⟩, ?_⟩
  · simp [rotate_right_links_parent, hx3, hrx, hxp, hp1]
  · simp [rotate_right_links_left, hxp, hx2]
  · simp [rotate_right_links_right, BT.ptr]
  · refine IsTree_congr (fun a ha => ?_) hl
    have hax : a ≠ x := by rintro rfl; exact hxl ha
    have hap : a ≠ p := by rintro rfl; exact hpl ha
    have har : r.ptr ≠ some a := BT.ptr_ne_of_not_mem (fun hm => hlr ha hm)
    exact SameLinks.of_eq (rotate_right_links_frame m x p a hax hap (by rwa [hx3]))
  · simp [rotate_right_links_parent, hx3, hrp, hpx]
  · simp [rotate_right_links_left, hx3]
  · simp [rotate_right_links_right, hpx, hp3]
  · refine IsTree_reparent hr (fun a ha => ?_) (fun a ha hne => ?_) hndr
    · have hax : a ≠ x := by rintro rfl; exact hxr (BT.ptr_mem ha)
      have hap : a ≠ p := by rintro rfl; exact hpr (BT.ptr_mem ha)
      simp [rotate_right_links_parent, rotate_right_links_left, rotate_right_links_right,
        hx3, ha, hax, hap]
    · have hax : a ≠ x := by rintro rfl; exact hxr ha
      have hap : a ≠ p := by rintro rfl; exact hpr ha
      exact SameLinks.of_eq (rotate_right_links_frame m x p a hax hap (by rwa [hx3]))
  · refine IsTree_congr (fun a ha => ?_) hs
    have hax : a ≠ x := by rintro rfl; exact hxs ha
    have hap : a ≠ p := by rintro rfl; exact hps ha
    have har : r.ptr ≠ some a := BT.ptr_ne_of_not_mem (fun hm => hrs hm ha)
    exact SameLinks.of_eq (rotate_right_links_frame m x p a hax hap (by rwa [hx3]))
  · intro a ha
    simp only [BT.toList, List.mem_append, List.mem_cons, List.append_assoc, not_or] at ha
    obtain ⟨hal, ⟨hax, har⟩, hap, has⟩ := ha
    exact rotate_right_links_frame m x p a hax hap
      (by rw [hx3]; exact BT.ptr_ne_of_not_mem har)

theorem rotate_left_links_spec {T : Type} (m : Mem T) (par : Option Nat) (l r s : BT) (x p : Nat)
    (h : IsTree m par (.node s p (.node l x r)))
    (hnd : (BT.node s p (.node l x r)).toList.Nodup) :
    IsTree (rotate_left_links m x p) par (.node (.node s p l) x r) ∧
    (∀ a, a ∉ (BT.node s p (.node l x r)).toList → rotate_left_links m x p a = m a) := by
  obtain ⟨hp1, hp2, hp3, hs, ⟨hx1, hx2, hx3, hl, hr⟩⟩ := h
  simp only [BT.toList, List.nodup_append, List.nodup_cons, List.mem_append, List.mem_cons,
    List.append_assoc, List.disjoint_cons_left, List.disjoint_cons_right,
    List.disjoint_append_right, not_or] at hnd
  obtain ⟨hnds, ⟨⟨hpl, hpx, hpr⟩, hndl, ⟨hxr, hndr⟩, hxl, hlr⟩, hps, hsl, hxs, hsr⟩ := hnd
  have hxp : x ≠ p := fun e => hpx e.symm
  have hlx : l.ptr ≠ some x := BT.ptr_ne_of_not_mem hxl
  have hlp : l.ptr ≠ some p := BT.ptr_ne_of_not_mem hpl
  refine ⟨⟨?_, ?_, ?_, ⟨?_, ?_, ?_, ?_, ?_⟩, ?_⟩, ?_⟩
  · simp [rotate_left_links_parent, hx2, hlx, hxp, hp1]
  · simp [rotate_left_links_left, BT.ptr]
  · simp [rotate_left_links_right, hxp, hx3]
  · simp [rotate_left_links_parent, hx2, hlp, hpx]
  · simp [rotate_left_links_left, hpx, hp2]
  · simp [rotate_left_links_right, hx2]
  · refine IsTree_congr (fun a ha => ?_) hs
    have hax : a ≠ x := by rintro rfl; exact hxs ha
    have hap : a ≠ p := by rintro rfl; exact hps ha
    have har : l.ptr ≠ some a := BT.ptr_ne_of_not_mem (fun hm => hsl ha hm)
    exact SameLinks.of_eq (rotate_left_links_frame m x p a hax hap (by rwa [hx2]))
  · refine IsTree_reparent hl (fun a ha => ?_) (fun a ha hne => ?_) hndl
    · have hax : a ≠ x := by rintro rfl; exact hxl (BT.ptr_mem ha)
      have hap : a ≠ p := by rintro rfl; exact hpl (BT.ptr_mem ha)
      simp [rotate_left_links_parent, rotate_left_links_left, rotate_left_links_right,
        hx2, ha, hax, hap]
    · have hax : a ≠ x := by rintro rfl; exact hxl ha
      have hap : a ≠ p := by rintro rfl; exact hpl ha
      exact SameLinks.of_eq (rotate_left_links_frame m x p a hax hap (by rwa [hx2]))
  · refine IsTree_congr (fun a ha => ?_) hr
    have hax : a ≠ x := by rintro rfl; exact hxr ha
    have hap : a ≠ p := by rintro rfl; exact hpr ha
    have har : l.ptr ≠ some a := BT.ptr_ne_of_not_mem (fun hm => hlr hm ha)
    exact SameLinks.of_eq (rotate_left_links_frame m x p a hax hap (by rwa [hx2]))
  · intro a ha
    simp only [BT.toList, List.mem_append, List.mem_cons, List.append_assoc, not_or] at ha
    obtain ⟨has, hap, hal, hax, har⟩ := ha
    exact rotate_left_links_frame m x p a hax hap
      (by rw [hx2]; exact BT.ptr_ne_of_not_mem hal)

theorem set_left_ne {T : Type} (m : Mem T) {a g : Nat} (v : Option Nat) (h : a ≠ g) :
    set_left m g v a = m a := by simp [set_left, Function.update, h]

theorem set_right_ne {T : Type} (m : Mem T) {a g : Nat} (v : Option Nat) (h : a ≠ g) :
    set_right m g v a = m a := by simp [set_right, Function.update, h]

theorem set_parent_ne {T : Type} (m : Mem T) {a g : Nat} (v : Option Nat) (h : a ≠ g) :
    set_parent m g v a = m a := by simp [set_parent, Function.update, h]

theorem set_next_ne {T : Type} (m : Mem T) {a g : Nat} (v : Option Nat) (h : a ≠ g) :
    set_next m g v a = m a := by simp [set_next, Function.update, h]

theorem set_prev_ne {T : Type} (m : Mem T) {a g : Nat} (v : Option Nat) (h : a ≠ g) :
    set_prev m g v a = m a := by simp [set_prev, Function.update, h]

theorem set_size_ne {T : Type} (m : Mem T) {a g : Nat} (v : Nat) (h : a ≠ g) :
    set_size m g v a = m a := by simp [set_size, Function.update, h]

theorem fix_size_ne {T : Type} (m : Mem T) {a : Nat} (c : Option Nat) (h : c ≠ some a) :
    fix_size m c a = m a := by
  cases c with
  | none => rfl
  | some g =>
    have : a ≠ g := by rintro rfl; exact h rfl
    simp [fix_size, set_size_ne m _ this]

theorem fix_size_links {T : Type} (m : Mem T) (c : Option Nat) (a : Nat) :
    SameLinks m (fix_size m c) a := by simp [SameLinks]

theorem fix_size_data {T : Type} (m : Mem T) (c : Option Nat) : SameData m (fix_size m c) := by
  intro a; simp

theorem rotate_relink_data {T : Type} (m : Mem T) (c p : Nat) :
    SameData m (rotate_relink m c p) := by
  intro a
  unfold rotate_relink
  cases (m p).parent with
  | none => simp
  | some g => by_cases h : (m g).left = some p <;> simp [h]

theorem rotate_relink_spec {T : Type} (m : Mem T) (rest : List Frame) (root : Option Nat)
    (c p : Nat) (hctx : IsCtx m rest (some p) root) (hpar : (m p).parent = ctxPar rest)
    (hp : p ∉ ctxList rest) (hnd : (ctxList rest).Nodup) :
    IsCtx (rotate_relink m c p) rest (some c) (if ctxPar rest = none then some c else root) ∧
    (∀ a, a ∉ ctxList rest → rotate_relink m c p a = m a) := by
  cases rest with
  | nil =>
    have e : rotate_relink m c p = m := by
      unfold rotate_relink; rw [hpar]; rfl
    rw [e]
    exact ⟨by simp [IsCtx, ctxPar], fun _ _ => rfl⟩
  | cons fg rest' =>
    obtain ⟨h1, h2, h3, h4⟩ := hctx
    simp only [ctxList, List.cons_append, List.nodup_cons, List.mem_cons, List.mem_append,
      List.nodup_append, not_or] at hnd hp
    obtain ⟨⟨hgs, hgr⟩, hnds, hndr, hdisj⟩ := hnd
    obtain ⟨hpg, hps, hpr⟩ := hp
    have hsib : ∀ a ∈ fg.sib.toList, a ≠ fg.addr := by
      rintro a ha rfl; exact hgs ha
    have hrest : ∀ a ∈ ctxList rest', a ≠ fg.addr := by
      rintro a ha rfl; exact hgr ha
    simp only [ctxPar, reduceCtorEq, if_false]
    by_cases hd : fg.is_left
    · simp only [hd, if_true] at h1
      have e : rotate_relink m c p = set_left m fg.addr (some c) := by
        unfold rotate_relink; rw [hpar]; simp [ctxPar, h1.1]
      rw [e]
      refine ⟨⟨?_, ?_, ?_, ?_⟩, ?_⟩
      · simp [hd, h1.2]
      · simp [h2]
      · exact IsTree_congr (fun a ha => SameLinks.of_eq (set_left_ne m _ (hsib a ha))) h3
      · exact IsCtx_congr (fun a ha => SameLinks.of_eq (set_left_ne m _ (hrest a ha))) h4
      · intro a ha
        simp only [ctxList, List.cons_append, List.mem_cons, List.mem_append, not_or] at ha
        exact set_left_ne m _ ha.1
    · simp only [hd] at h1
      simp only [Bool.false_eq_true, if_false] at h1
      have hne : (m fg.addr).left ≠ some p := by
        rw [h1.2]; exact BT.ptr_ne_of_not_mem hps
      have e : rotate_relink m c p = set_right m fg.addr (some c) := by
        unfold rotate_relink; rw [hpar]; simp [ctxPar, hne]
      rw [e]
      refine ⟨⟨?_, ?_, ?_, ?_⟩, ?_⟩
      · simp [hd, h1.2]
      · simp [h2]
      · exact IsTree_congr (fun a ha => SameLinks.of_eq (set_right_ne m _ (hsib a ha))) h3
      · exact IsCtx_congr (fun a ha => SameLinks.of_eq (set_right_ne m _ (hrest a ha))) h4
      · intro a ha
        simp only [ctxList, List.cons_append, List.mem_cons, List.mem_append, not_or] at ha
        exact set_right_ne m _ ha.1

theorem rotate_eq {T : Type} (t : tree T) (m : Mem T) (c p : Nat) (h : (m c).parent = some p)
    (m2 : Mem T)
    (hm2 : m2 = if (rotate_relink m c p p).left = some c
      then rotate_right_links (rotate_relink m c p) c p
      else rotate_left_links (rotate_relink m c p) c p) :
    t.rotate m (some c) =
      (if (m2 c).parent = none then { t with root := some c } else t,
        fix_size (fix_size (fix_size m2 (m2 c).left) (m2 c).right) (some c)) := by
  subst hm2
  simp [tree.rotate, h]

theorem rotate_spec {T : Type} (cmp : T → T → Bool) (m : Mem T) (root : Option Nat) (f : Frame)
    (rest : List Frame) (l r : BT) (x : Nat)
    (hctx : IsCtx m (f :: rest) (some x) root)
    (htree : IsTree m (some f.addr) (.node l x r))
    (hnd : ((BT.node l x r).toList ++ ctxList (f :: rest)).Nodup) :
    IsCtx (tree.rotate ⟨root, cmp⟩ m (some x)).2 rest (some x)
      (tree.rotate ⟨root, cmp⟩ m (some x)).1.root ∧
    IsTree (tree.rotate ⟨root, cmp⟩ m (some x)).2 (ctxPar rest) (rot f (.node l x r)) ∧
    (tree.rotate ⟨root, cmp⟩ m (some x)).1.comparator = cmp ∧
    SameData m (tree.rotate ⟨root, cmp⟩ m (some x)).2 ∧
    (∀ a, a ∉ (BT.node l x r).toList ++ ctxList (f :: rest) →
      (tree.rotate ⟨root, cmp⟩ m (some x)).2 a = m a) := by
  obtain ⟨hc1, hc2, hc3, hc4⟩ := hctx
  have hx1 : (m x).parent = some f.addr := htree.1
  -- distinctness
  have hnd' := hnd
  simp only [ctxList, List.nodup_append, List.nodup_cons, List.mem_append, List.mem_cons,
    List.cons_append, List.disjoint_cons_right, List.disjoint_append_right, not_or] at hnd'
  obtain ⟨hndt, ⟨⟨hps, hpr⟩, hnds, hndr, hsr⟩, hpt, hts, htr⟩ := hnd'
  have hpr' : f.addr ∉ ctxList rest := hpr
  -- the shape under the parent's parent
  let T0 : BT := if f.is_left then .node (.node l x r) f.addr f.sib
    else .node f.sib f.addr (.node l x r)
  have hT0mem : ∀ a, a ∈ T0.toList ↔ a ∈ (BT.node l x r).toList ∨ a = f.addr ∨ a ∈ f.sib.toList := by
    intro a
    by_cases hd : f.is_left
    · simp only [T0, hd, if_true]; simp [BT.toList]; tauto
    · simp only [T0, hd]; simp [BT.toList]; tauto
  have hT0nd : T0.toList.Nodup := by
    have hp : (BT.node l x r).toList.Perm (BT.node l x r).toList := List.Perm.refl _
    by_cases hd : f.is_left
    · simp only [T0, hd, if_true]
      simp only [BT.toList] at hndt hpt hts ⊢
      rw [List.nodup_append]
      refine ⟨hndt, List.nodup_cons.mpr ⟨hps, hnds⟩, ?_⟩
      simp only [List.disjoint_cons_right]
      exact ⟨hpt, hts⟩
    · simp only [T0, hd]
      simp only [Bool.false_eq_true, if_false]
      simp only [BT.toList] at hndt hpt hts ⊢
      rw [List.nodup_append]
      refine ⟨hnds, List.nodup_cons.mpr ⟨hpt, hndt⟩, ?_⟩
      simp only [List.disjoint_cons_right]
      exact ⟨hps, hts.symm⟩
  have hT0 : IsTree m (ctxPar rest) T0 := by
    by_cases hd : f.is_left
    · simp only [hd, if_true] at hc1
      simp only [T0, hd, if_true]
      exact ⟨hc2, by simp [hc1.1, BT.ptr], hc1.2, htree, hc3⟩
    · simp only [hd] at hc1
      simp only [Bool.false_eq_true, if_false] at hc1
      simp only [T0, hd]
      exact ⟨hc2, hc1.2, by simp [hc1.1, BT.ptr], hc3, htree⟩
  have hT0ctx : ∀ a ∈ T0.toList, a ∉ ctxList rest := by
    intro a ha hr
    rcases (hT0mem a).1 ha with h | h | h
    · exact htr h hr
    · exact hpr (h ▸ hr)
    · exact hsr h hr
  -- grandparent relink
  obtain ⟨hR1, hR2⟩ := rotate_relink_spec m rest root x f.addr hc4 hc2 hpr' hndr
  have hT1 : IsTree (rotate_relink m x f.addr) (ctxPar rest) T0 :=
    IsTree_congr (fun a ha => SameLinks.of_eq (hR2 a (hT0ctx a ha))) hT0
  have hpl : (rotate_relink m x f.addr f.addr).left = (m f.addr).left := by
    rw [hR2 f.addr hpr']
  have hxs : x ∉ f.sib.toList := fun h => hts (by simp [BT.toList]) h
  -- the surgery
  obtain ⟨m2, hm2⟩ : ∃ m2 : Mem T, m2 = if (rotate_relink m x f.addr f.addr).left = some x
      then rotate_right_links (rotate_relink m x f.addr) x f.addr
      else rotate_left_links (rotate_relink m x f.addr) x f.addr := ⟨_, rfl⟩
  rw [rotate_eq _ m x f.addr hx1 m2 hm2]
  have key : IsTree m2 (ctxPar rest) (rot f (.node l x r)) ∧
      (∀ a, a ∉ T0.toList → m2 a = rotate_relink m x f.addr a) ∧
      SameData (rotate_relink m x f.addr) m2 := by
    by_cases hd : f.is_left
    · simp only [hd, if_true] at hc1
      rw [hpl, hc1.1] at hm2
      simp only [if_true] at hm2
      subst hm2
      simp only [T0, hd, if_true] at hT1 hT0nd ⊢
      have := rotate_right_links_spec _ _ _ _ _ _ _ hT1 hT0nd
      refine ⟨?_, this.2, rotate_right_links_data _ _ _⟩
      simpa [rot, hd] using this.1
    · simp only [hd] at hc1
      simp only [Bool.false_eq_true, if_false] at hc1
      have hne : (m f.addr).left ≠ some x := by
        rw [hc1.2]; exact BT.ptr_ne_of_not_mem hxs
      rw [hpl, if_neg hne] at hm2
      subst hm2
      simp only [T0, hd] at hT1 hT0nd ⊢
      simp only [Bool.false_eq_true, if_false] at hT1 hT0nd ⊢
      have := rotate_left_links_spec _ _ _ _ _ _ _ hT1 hT0nd
      refine ⟨?_, this.2, rotate_left_links_data _ _ _⟩
      simpa [rot, hd] using this.1
  obtain ⟨hK1, hK2, hK3⟩ := key
  have hxpar : (m2 x).parent = ctxPar rest := by
    have := hK1
    by_cases hd : f.is_left
    · simp only [rot, hd, if_true] at this; exact this.1
    · simp only [rot, hd] at this; exact this.1
  have hctx2 : IsCtx m2 rest (some x) (if ctxPar rest = none then some x else root) := by
    refine IsCtx_congr (fun a ha => SameLinks.of_eq (hK2 a ?_)) hR1
    intro hm; exact hT0ctx a hm ha
  refine ⟨?_, ?_, ?_, ?_, ?_⟩
  · refine IsCtx_congr (fun a _ => ?_) ?_ (m := m2)
    · simp [SameLinks]
    · rw [hxpar]
      by_cases hn : ctxPar rest = none
      · simpa [hn] using hctx2
      · simpa [hn] using hctx2
  · exact IsTree_congr (fun a _ => by simp [SameLinks]) hK1
  · by_cases hn : (m2 x).parent = none <;> simp [hn]
  · intro a
    have h1 := rotate_relink_data m x f.addr a
    have h2 := hK3 a
    simp only [fix_size_value, fix_size_next, fix_size_prev]
    exact ⟨h2.1.trans h1.1, h2.2.1.trans h1.2.1, h2.2.2.trans h1.2.2⟩
  · intro a ha
    simp only [ctxList, List.mem_append, List.mem_cons, List.cons_append, not_or] at ha
    obtain ⟨hat, hap, has, har⟩ := ha
    have haT0 : a ∉ T0.toList := by
      intro hm
      rcases (hT0mem a).1 hm with h | h | h
      · exact hat h
      · exact hap h
      · exact has h
    have hax : a ≠ x := by
      rintro rfl; exact hat (by simp [BT.toList])
    have hchild : (m2 x).left ≠ some a ∧ (m2 x).right ≠ some a := by
      have := hK1
      by_cases hd : f.is_left
      · simp only [rot, hd, if_true] at this
        obtain ⟨_, h2, h3, _, _⟩ := this
        rw [h2, h3]
        refine ⟨BT.ptr_ne_of_not_mem (fun hm => hat (by simp [BT.toList, hm])), ?_⟩
        simp only [BT.ptr, ne_eq, Option.some.injEq]
        exact fun e => hap e.symm
      · simp only [rot, hd] at this
        obtain ⟨_, h2, h3, _, _⟩ := this
        rw [h2, h3]
        refine ⟨?_, BT.ptr_ne_of_not_mem (fun hm => hat (by simp [BT.toList, hm]))⟩
        simp only [BT.ptr, ne_eq, Option.some.injEq]
        exact fun e => hap e.symm
    have hxa : some x ≠ some a := by
      simp only [ne_eq, Option.some.injEq]; exact fun e => hax e.symm
    show fix_size (fix_size (fix_size m2 (m2 x).left) (m2 x).right) (some x) a = m a
    rw [fix_size_ne _ _ hxa, fix_size_ne _ _ hchild.2,
      fix_size_ne _ _ hchild.1, hK2 a haT0, hR2 a har]

/-! ## Rebalancing -/

theorem plug_append (mid rest : List Frame) :
    ∀ t : BT, plug (mid ++ rest) t = plug rest (plug mid t) := by
  induction mid with
  | nil => intro t; rfl
  | cons f mid' ih =>
    intro t
    by_cases hd : f.is_left <;> simp [plug, hd, ih]

theorem refocus {T : Type} (m : Mem T) (root : Option Nat) (rest mid : List Frame) :
    ∀ t : BT, (IsCtx m rest (plug mid t).ptr root ∧ IsTree m (ctxPar rest) (plug mid t)) ↔
      (IsCtx m (mid ++ rest) t.ptr root ∧ IsTree m (ctxPar (mid ++ rest)) t) := by
  induction mid with
  | nil => intro t; simp [plug]
  | cons f mid' ih =>
    intro t
    by_cases hd : f.is_left
    · have e : plug (f :: mid') t = plug mid' (.node t f.addr f.sib) := by simp [plug, hd]
      rw [e, ih]
      show _ ↔ ((if f.is_left then _ else _) ∧ _ ∧ _ ∧ _) ∧ _
      rw [if_pos hd]
      show (_ ∧ (_ ∧ _ ∧ _ ∧ _ ∧ _)) ↔ _
      simp only [BT.ptr, ctxPar]
      tauto
    · have e : plug (f :: mid') t = plug mid' (.node f.sib f.addr t) := by simp [plug, hd]
      rw [e, ih]
      show _ ↔ ((if f.is_left then _ else _) ∧ _ ∧ _ ∧ _) ∧ _
      rw [if_neg hd]
      show (_ ∧ (_ ∧ _ ∧ _ ∧ _ ∧ _)) ↔ _
      simp only [BT.ptr, ctxPar]
      tauto

theorem rot_toList (f : Frame) (l r : BT) (x : Nat) :
    (rot f (.node l x r)).toList = (plug [f] (.node l x r)).toList := by
  by_cases hd : f.is_left <;> simp [rot, plug, hd, BT.toList]

theorem plug_toList_congr (ctx : List Frame) {t t' : BT} (h : t.toList = t'.toList) :
    (plug ctx t).toList = (plug ctx t').toList := by
  rw [toList_plug, toList_plug, h]

theorem rot_node (f : Frame) (l r : BT) (x : Nat) :
    ∃ l' r', rot f (.node l x r) = .node l' x r' := by
  by_cases hd : f.is_left
  · exact ⟨l, .node r f.addr f.sib, by simp [rot, hd]⟩
  · exact ⟨.node f.sib f.addr l, r, by simp [rot, hd]⟩

theorem plug_one_node (f : Frame) (t : BT) :
    ∃ l' r', plug [f] t = .node l' f.addr r' := by
  by_cases hd : f.is_left
  · exact ⟨t, f.sib, by simp [plug, hd]⟩
  · exact ⟨f.sib, t, by simp [plug, hd]⟩

theorem zig_ctx_plug (f1 f2 : Frame) (t : BT) :
    ∀ lp rp, plug [f1] t = .node lp f1.addr rp →
      plug (zig_ctx f1 f2) t = rot f2 (.node lp f1.addr rp) := by
  intro lp rp h
  by_cases h1 : f1.is_left <;> by_cases h2 : f2.is_left <;>
    simp [plug, h1] at h <;> obtain ⟨rfl, rfl⟩ := h <;> simp [zig_ctx, plug, rot, h1, h2]

theorem zig_ctx_cons (f1 f2 : Frame) :
    ∃ fm tl, zig_ctx f1 f2 = fm :: tl ∧ tl.length ≤ 1 := by
  by_cases h1 : f1.is_left <;> by_cases h2 : f2.is_left
  · exact ⟨⟨true, f1.addr, .node f1.sib f2.addr f2.sib⟩, [], by simp [zig_ctx, h1, h2], by simp⟩
  · exact ⟨⟨false, f2.addr, f2.sib⟩, [⟨true, f1.addr, f1.sib⟩], by simp [zig_ctx, h1, h2],
      by simp⟩
  · exact ⟨⟨true, f2.addr, f2.sib⟩, [⟨false, f1.addr, f1.sib⟩], by simp [zig_ctx, h1, h2],
      by simp⟩
  · exact ⟨⟨false, f1.addr, .node f2.sib f2.addr f1.sib⟩, [], by simp [zig_ctx, h1, h2],
      by simp⟩

theorem tree_eta {T : Type} (t : tree T) (cmp : T → T → Bool) (h : t.comparator = cmp) :
    t = ⟨t.root, cmp⟩ := by
  cases t; simp at h; simp [h]

theorem rotate_plug {T : Type} (cmp : T → T → Bool) (m : Mem T) (root : Option Nat) (f : Frame)
    (rest : List Frame) (l r : BT) (x : Nat)
    (hctx : IsCtx m (f :: rest) (some x) root)
    (htree : IsTree m (some f.addr) (.node l x r))
    (hnd : (plug (f :: rest) (.node l x r)).toList.Nodup) :
    ∃ root' m', tree.rotate ⟨root, cmp⟩ m (some x) = (⟨root', cmp⟩, m') ∧
      IsCtx m' rest (some x) root' ∧
      IsTree m' (ctxPar rest) (rot f (.node l x r)) ∧
      SameData m m' ∧
      (∀ a, a ∉ (plug (f :: rest) (.node l x r)).toList → m' a = m a) ∧
      (plug rest (rot f (.node l x r))).toList = (plug (f :: rest) (.node l x r)).toList := by
  have hperm := plug_perm (f :: rest) (.node l x r)
  have hnd' := hperm.nodup_iff.mp hnd
  obtain ⟨h1, h2, h3, h4, h5⟩ := rotate_spec cmp m root f rest l r x hctx htree hnd'
  refine ⟨(tree.rotate ⟨root, cmp⟩ m (some x)).1.root, (tree.rotate ⟨root, cmp⟩ m (some x)).2,
    ?_, h1, h2, h4, ?_, ?_⟩
  · have := tree_eta _ _ h3
    exact Prod.ext this rfl
  · intro a ha
    exact h5 a (fun hm => ha (hperm.mem_iff.mpr hm))
  · have e : plug (f :: rest) (.node l x r) = plug rest (plug [f] (.node l x r)) :=
      plug_append [f] rest _
    rw [e]
    exact plug_toList_congr rest (rot_toList f l r x)

/-! ## Cached subtree sizes under `fix_size` and `rotate` -/

theorem fix_size_size {T : Type} (m : Mem T) (c : Option Nat) (a : Nat) :
    (fix_size m c a).size =
      if c = some a then 1 + node_size m (m a).left + node_size m (m a).right
      else (m a).size := by
  cases c with
  | none => simp [fix_size]
  | some g =>
    by_cases h : g = a
    · subst h; simp [fix_size]
    · have h' : a ≠ g := fun e => h e.symm
      simp [fix_size, h, h']

theorem node_size_congr {T : Type} {m m' : Mem T} {t : BT}
    (h : ∀ a ∈ t.toList, (m' a).size = (m a).size) : node_size m' t.ptr = node_size m t.ptr := by
  cases t with
  | leaf => rfl
  | node l a r => exact h a (by simp [BT.toList])

theorem SizeInv_congr {T : Type} {m m' : Mem T} {t : BT} :
    (∀ a ∈ t.toList, (m' a).size = (m a).size) → SizeInv m t → SizeInv m' t := by
  induction t with
  | leaf => intro _ _; trivial
  | node l a r ihl ihr =>
    intro h hs
    obtain ⟨h1, h2, h3⟩ := hs
    have hl : ∀ b ∈ l.toList, (m' b).size = (m b).size :=
      fun b hb => h b (by simp [BT.toList, hb])
    have hr : ∀ b ∈ r.toList, (m' b).size = (m b).size :=
      fun b hb => h b (by simp [BT.toList, hb])
    refine ⟨?_, ihl hl h2, ihr hr h3⟩
    rw [h a (by simp [BT.toList]), node_size_congr hl, node_size_congr hr]
    exact h1

/-- Under the size invariant the cached size of the root is the number of nodes. -/
theorem SizeInv_count {T : Type} {m : Mem T} {t : BT} (h : SizeInv m t) :
    node_size m t.ptr = t.toList.length := by
  induction t with
  | leaf => rfl
  | node l a r ihl ihr =>
    obtain ⟨h1, h2, h3⟩ := h
    show (m a).size = _
    rw [h1, ihl h2, ihr h3]
    simp only [BT.toList, List.length_append, List.length_cons]
    omega

theorem SizeInv_plug {T : Type} {m : Mem T} (ctx : List Frame) :
    ∀ t : BT, SizeInv m (plug ctx t) → SizeInv m t ∧ ∀ f ∈ ctx, SizeInv m f.sib := by
  induction ctx with
  | nil => intro t h; exact ⟨h, fun f hf => by simp at hf⟩
  | cons f rest ih =>
    intro t h
    by_cases hd : f.is_left
    · have e : plug (f :: rest) t = plug rest (.node t f.addr f.sib) := by simp [plug, hd]
      rw [e] at h
      obtain ⟨h1, h2⟩ := ih _ h
      refine ⟨h1.2.1, fun g hg => ?_⟩
      simp only [List.mem_cons] at hg
      rcases hg with rfl | hg
      · exact h1.2.2
      · exact h2 g hg
    · have e : plug (f :: rest) t = plug rest (.node f.sib f.addr t) := by simp [plug, hd]
      rw [e] at h
      obtain ⟨h1, h2⟩ := ih _ h
      refine ⟨h1.2.2, fun g hg => ?_⟩
      simp only [List.mem_cons] at hg
      rcases hg with rfl | hg
      · exact h1.2.1
      · exact h2 g hg

/-- After `fix_size` on the root of a shape whose two subtrees satisfy the size
invariant, the whole shape does. -/
theorem fix_size_root {T : Type} {m : Mem T} {par : Option Nat} {l r : BT} {a : Nat}
    (ht : IsTree m par (.node l a r)) (hnd : (BT.node l a r).toList.Nodup)
    (hl : SizeInv m l) (hr : SizeInv m r) : SizeInv (fix_size m (some a)) (.node l a r) := by
  obtain ⟨_, h2, h3, _, _⟩ := ht
  simp only [BT.toList, List.nodup_append, List.nodup_cons, List.disjoint_cons_right] at hnd
  obtain ⟨_, ⟨har, _⟩, hal, _⟩ := hnd
  have hsl : ∀ b ∈ l.toList, (fix_size m (some a) b).size = (m b).size := by
    intro b hb
    rw [fix_size_ne _ _ (by simp only [ne_eq, Option.some.injEq]; rintro rfl; exact hal hb)]
  have hsr : ∀ b ∈ r.toList, (fix_size m (some a) b).size = (m b).size := by
    intro b hb
    rw [fix_size_ne _ _ (by simp only [ne_eq, Option.some.injEq]; rintro rfl; exact har hb)]
  refine ⟨?_, SizeInv_congr hsl hl, SizeInv_congr hsr hr⟩
  rw [fix_size_size, if_pos rfl, h2, h3, node_size_congr hsl, node_size_congr hsr]

/-- Variant of `fix_size_root` for a pointer to a shape that may be empty, whose root
may hold any size. -/
theorem fix_size_ptr {T : Type} {m : Mem T} {par : Option Nat} {t : BT}
    (ht : IsTree m par t) (hnd : t.toList.Nodup)
    (hk : ∀ l a r, t = .node l a r → SizeInv m l ∧ SizeInv m r) :
    SizeInv (fix_size m t.ptr) t := by
  cases t with
  | leaf => trivial
  | node l a r =>
    obtain ⟨h1, h2⟩ := hk l a r rfl
    exact fix_size_root ht hnd h1 h2

theorem rotate_relink_size {T : Type} (m : Mem T) (c p a : Nat) :
    (rotate_relink m c p a).size = (m a).size := by
  unfold rotate_relink
  cases h : (m p).parent with
  | none => rfl
  | some g =>
    simp only []
    by_cases h2 : (m g).left = some p <;> simp [h2]

theorem rotate_right_links_size {T : Type} (m : Mem T) (x p a : Nat) :
    (rotate_right_links m x p a).size = (m a).size := by
  unfold rotate_right_links
  cases h : (m x).right <;> simp

theorem rotate_left_links_size {T : Type} (m : Mem T) (x p a : Nat) :
    (rotate_left_links m x p a).size = (m a).size := by
  unfold rotate_left_links
  cases h : (m x).left <;> simp

/-- The memory after `rotate` is the memory after the link surgery, which writes no
size, with `fix_size` applied to the two children of `cur` and to `cur`. -/
theorem rotate_sizes_eq {T : Type} (t : tree T) (m : Mem T) (c p : Nat)
    (h : (m c).parent = some p) :
    ∃ m2 : Mem T, (∀ a, (m2 a).size = (m a).size) ∧
      (t.rotate m (some c)).2 =
        fix_size (fix_size (fix_size m2 (m2 c).left) (m2 c).right) (some c) := by
  refine ⟨if (rotate_relink m c p p).left = some c
      then rotate_right_links (rotate_relink m c p) c p
      else rotate_left_links (rotate_relink m c p) c p, ?_, ?_⟩
  · intro a
    by_cases h2 : (rotate_relink m c p p).left = some c
    · rw [if_pos h2, rotate_right_links_size, rotate_relink_size]
    · rw [if_neg h2, rotate_left_links_size, rotate_relink_size]
  · rw [rotate_eq t m c p h _ rfl]

/-- The three `fix_size` calls at the end of `rotate`, on a memory whose links form the
shape `.node L x R`: if the subtrees below the roots of `L` and `R` satisfy the size
invariant, the whole shape does afterwards, and no other size is written. -/
theorem fix3_sized {T : Type} (m2 : Mem T) (par : Option Nat) (L R : BT) (x : Nat)
    (ht : IsTree m2 par (.node L x R)) (hnd : (BT.node L x R).toList.Nodup)
    (hL : ∀ l a r, L = .node l a r → SizeInv m2 l ∧ SizeInv m2 r)
    (hR : ∀ l a r, R = .node l a r → SizeInv m2 l ∧ SizeInv m2 r) :
    SizeInv (fix_size (fix_size (fix_size m2 (m2 x).left) (m2 x).right) (some x))
        (.node L x R) ∧
      ∀ a, a ≠ x → L.ptr ≠ some a → R.ptr ≠ some a →
        (fix_size (fix_size (fix_size m2 (m2 x).left) (m2 x).right) (some x) a).size =
          (m2 a).size := by
  obtain ⟨h1, h2, h3, h4, h5⟩ := ht
  have hnd' := hnd
  simp only [BT.toList, List.nodup_append, List.nodup_cons, List.disjoint_cons_right] at hnd'
  obtain ⟨hndL, ⟨hxR, hndR⟩, hxL, hLR⟩ := hnd'
  rw [h2, h3]
  have hL3 : SizeInv (fix_size m2 L.ptr) L := fix_size_ptr h4 hndL hL
  have hRL : ∀ b ∈ R.toList, L.ptr ≠ some b := fun b hb =>
    BT.ptr_ne_of_not_mem (fun h => hLR h hb)
  have hLRp : ∀ b ∈ L.toList, R.ptr ≠ some b := fun b hb =>
    BT.ptr_ne_of_not_mem (fun h => hLR hb h)
  have hR3 : IsTree (fix_size m2 L.ptr) (some x) R :=
    IsTree_congr (fun a _ => fix_size_links _ _ _) h5
  have hR3k : ∀ l a r, R = .node l a r →
      SizeInv (fix_size m2 L.ptr) l ∧ SizeInv (fix_size m2 L.ptr) r := by
    intro l a r e
    obtain ⟨g1, g2⟩ := hR l a r e
    subst e
    exact ⟨SizeInv_congr (fun b hb => by
        rw [fix_size_ne _ _ (hRL b (by simp [BT.toList, hb]))]) g1,
      SizeInv_congr (fun b hb => by
        rw [fix_size_ne _ _ (hRL b (by simp [BT.toList, hb]))]) g2⟩
  have hR4 : SizeInv (fix_size (fix_size m2 L.ptr) R.ptr) R := fix_size_ptr hR3 hndR hR3k
  have hL4 : SizeInv (fix_size (fix_size m2 L.ptr) R.ptr) L :=
    SizeInv_congr (fun b hb => by rw [fix_size_ne _ _ (hLRp b hb)]) hL3
  have ht4 : IsTree (fix_size (fix_size m2 L.ptr) R.ptr) par (.node L x R) :=
    IsTree_congr (fun a _ => SameLinks_trans (fix_size_links _ _ _) (fix_size_links _ _ _))
      ⟨h1, h2, h3, h4, h5⟩
  refine ⟨fix_size_root ht4 hnd hL4 hR4, ?_⟩
  intro a hax hla hra
  rw [fix_size_ne _ _ (by simp only [ne_eq, Option.some.injEq]; exact fun e => hax e.symm),
    fix_size_ne _ _ hra, fix_size_ne _ _ hla]

theorem SizeInv_kids {T : Type} {m : Mem T} {t : BT} (h : SizeInv m t) :
    ∀ l a r, t = .node l a r → SizeInv m l ∧ SizeInv m r := by
  intro l a r e
  subst e
  exact ⟨h.2.1, h.2.2⟩

/-- Sizes after `rotate` of `x` over its parent: the rotated shape satisfies the size
invariant when the three subtrees hanging from `x` and the parent do, and the sizes of
the records other than the two rotated ones are as before. -/
theorem rotate_sized {T : Type} (cmp : T → T → Bool) (m : Mem T) (root : Option Nat) (f : Frame)
    (rest : List Frame) (l r : BT) (x : Nat)
    (hctx : IsCtx m (f :: rest) (some x) root)
    (htree : IsTree m (some f.addr) (.node l x r))
    (hnd : (plug (f :: rest) (.node l x r)).toList.Nodup)
    (hl : SizeInv m l) (hr : SizeInv m r) (hs : SizeInv m f.sib) :
    SizeInv (tree.rotate ⟨root, cmp⟩ m (some x)).2 (rot f (.node l x r)) ∧
      ∀ a, a ≠ x → a ≠ f.addr →
        ((tree.rotate ⟨root, cmp⟩ m (some x)).2 a).size = (m a).size := by
  obtain ⟨root', m', hrot, _, h2, _, _, _⟩ := rotate_plug cmp m root f rest l r x hctx htree hnd
  obtain ⟨m2, hm2, hm2eq⟩ := rotate_sizes_eq ⟨root, cmp⟩ m x f.addr htree.1
  have hm' : m' = (tree.rotate ⟨root, cmp⟩ m (some x)).2 := by rw [hrot]
  rw [← hm'] at hm2eq
  have hlinks : ∀ a, SameLinks m' m2 a := by
    intro a
    rw [hm2eq]
    simp [SameLinks]
  have ht2 : IsTree m2 (ctxPar rest) (rot f (.node l x r)) :=
    IsTree_congr (fun a _ => hlinks a) h2
  have hndrot : (rot f (.node l x r)).toList.Nodup := by
    rw [rot_toList]
    have e : plug (f :: rest) (.node l x r) = plug rest (plug [f] (.node l x r)) :=
      plug_append [f] rest _
    rw [e, toList_plug] at hnd
    exact (List.nodup_append.mp (List.nodup_append.mp hnd).1).2.1
  have c2 : ∀ {t : BT}, SizeInv m t → SizeInv m2 t :=
    fun h => SizeInv_congr (fun a _ => hm2 a) h
  rw [← hm', hm2eq]
  by_cases hd : f.is_left
  · have e : rot f (.node l x r) = .node l x (.node r f.addr f.sib) := by simp [rot, hd]
    rw [e] at ht2 hndrot ⊢
    obtain ⟨g1, g2⟩ := fix3_sized m2 _ _ _ x ht2 hndrot (SizeInv_kids (c2 hl))
      (by
        intro l0 a0 r0 e0
        cases e0
        exact ⟨c2 hr, c2 hs⟩)
    refine ⟨g1, fun a hax hap => ?_⟩
    by_cases hla : l.ptr = some a
    · -- the root of `l` is recomputed to the value it had
      have h3 := g1.2.1
      cases l with
      | leaf => simp [BT.ptr] at hla
      | node ll la lr =>
        simp only [BT.ptr, Option.some.injEq] at hla
        subst hla
        have e1 := h3.1
        have e2 := hl.1
        have hll : node_size (fix_size (fix_size (fix_size m2 (m2 x).left) (m2 x).right) (some x))
            ll.ptr = node_size m ll.ptr := by
          rw [SizeInv_count h3.2.1, SizeInv_count hl.2.1]
        have hlr : node_size (fix_size (fix_size (fix_size m2 (m2 x).left) (m2 x).right) (some x))
            lr.ptr = node_size m lr.ptr := by
          rw [SizeInv_count h3.2.2, SizeInv_count hl.2.2]
        rw [e1, e2, hll, hlr]
    · rw [g2 a hax hla (by simp only [BT.ptr, ne_eq, Option.some.injEq]; exact fun e => hap e.symm)]
      exact hm2 a
  · have e : rot f (.node l x r) = .node (.node f.sib f.addr l) x r := by simp [rot, hd]
    rw [e] at ht2 hndrot ⊢
    obtain ⟨g1, g2⟩ := fix3_sized m2 _ _ _ x ht2 hndrot
      (by
        intro l0 a0 r0 e0
        cases e0
        exact ⟨c2 hs, c2 hl⟩)
      (SizeInv_kids (c2 hr))
    refine ⟨g1, fun a hax hap => ?_⟩
    by_cases hra : r.ptr = some a
    · have h3 := g1.2.2
      cases r with
      | leaf => simp [BT.ptr] at hra
      | node rl ra rr =>
        simp only [BT.ptr, Option.some.injEq] at hra
        subst hra
        have e1 := h3.1
        have e2 := hr.1
        have hll : node_size (fix_size (fix_size (fix_size m2 (m2 x).left) (m2 x).right) (some x))
            rl.ptr = node_size m rl.ptr := by
          rw [SizeInv_count h3.2.1, SizeInv_count hr.2.1]
        have hlr : node_size (fix_size (fix_size (fix_size m2 (m2 x).left) (m2 x).right) (some x))
            rr.ptr = node_size m rr.ptr := by
          rw [SizeInv_count h3.2.2, SizeInv_count hr.2.2]
        rw [e1, e2, hll, hlr]
    · rw [g2 a hax (by simp only [BT.ptr, ne_eq, Option.some.injEq]; exact fun e => hap e.symm)
        hra]
      exact hm2 a

theorem balance_root {T : Type} (t : tree T) (m : Mem T) (c k : Nat)
    (h : (m c).parent = none) :
    tree.balance (k + 1) t m (some c) = .ok ({ t with root := some c }, fix_size m (some c)) := by
  simp [tree.balance, h]

theorem balance_zig {T : Type} (t : tree T) (m : Mem T) (c p k : Nat)
    (h : (m c).parent = some p) (hp : (m p).parent = none) :
    tree.balance (k + 1) t m (some c) =
      .ok ({ (t.rotate m (some c)).1 with root := some c }, (t.rotate m (some c)).2) := by
  simp [tree.balance, h, hp]

theorem balance_zigzig {T : Type} (t : tree T) (m : Mem T) (c p g k : Nat)
    (h : (m c).parent = some p) (hp : (m p).parent = some g) :
    tree.balance (k + 1) t m (some c) =
      tree.balance k ((t.rotate m (some p)).1.rotate (t.rotate m (some p)).2 (some c)).1
        ((t.rotate m (some p)).1.rotate (t.rotate m (some p)).2 (some c)).2 (some c) := by
  simp [tree.balance, h, hp]

theorem sib_mem_ctxList {ctx : List Frame} {f : Frame} {a : Nat} (hf : f ∈ ctx)
    (ha : a ∈ f.sib.toList) : a ∈ ctxList ctx := by
  induction ctx with
  | nil => simp at hf
  | cons g rest ih =>
    simp only [List.mem_cons] at hf
    simp only [ctxList, List.cons_append, List.mem_cons, List.mem_append]
    rcases hf with rfl | hf
    · exact Or.inr (Or.inl ha)
    · exact Or.inr (Or.inr (ih hf))

theorem plug_nodup_ctx {g : Frame} {c : List Frame} {t : BT}
    (h : (plug (g :: c) t).toList.Nodup) :
    ∀ a ∈ ctxList c, a ≠ g.addr ∧ a ∉ t.toList := by
  have h2 := (plug_perm (g :: c) t).nodup_iff.mp h
  simp only [ctxList, List.nodup_append, List.nodup_cons, List.mem_append, List.cons_append,
    List.disjoint_cons_right, List.disjoint_append_right, not_or] at h2
  obtain ⟨_, ⟨⟨_, hgc⟩, _, _, _⟩, _, _, htc⟩ := h2
  intro a ha
  exact ⟨by rintro rfl; exact hgc ha, fun hat => htc hat ha⟩

theorem plug_one_sized {T : Type} {m : Mem T} {f : Frame} {t lp rp : BT} {a : Nat}
    (hp : plug [f] t = .node lp a rp) (ht : SizeInv m t) (hs : SizeInv m f.sib) :
    SizeInv m lp ∧ SizeInv m rp := by
  by_cases hd : f.is_left
  · simp only [plug, hd, if_true, BT.node.injEq] at hp
    obtain ⟨rfl, _, rfl⟩ := hp
    exact ⟨ht, hs⟩
  · simp only [plug, hd, Bool.false_eq_true, if_false, BT.node.injEq] at hp
    obtain ⟨rfl, _, rfl⟩ := hp
    exact ⟨hs, ht⟩

/-- Rebalancing along a path, with the cached sizes: when the subtrees hanging from the
path and the subtree of the node satisfy the size invariant, whatever the sizes cached on
the path, the whole tree satisfies it afterwards. -/
theorem balance_ctx_sized {T : Type} (cmp : T → T → Bool) :
    ∀ (n : Nat) (ctx : List Frame), ctx.length ≤ n →
    ∀ (m : Mem T) (root : Option Nat) (l r : BT) (x fuel : Nat),
      ctx.length < fuel →
      IsCtx m ctx (some x) root → IsTree m (ctxPar ctx) (.node l x r) →
      (plug ctx (.node l x r)).toList.Nodup →
      ∃ m' l' r', tree.balance fuel ⟨root, cmp⟩ m (some x) = .ok (⟨some x, cmp⟩, m') ∧
        IsTree m' none (.node l' x r') ∧
        (BT.node l' x r').toList = (plug ctx (.node l x r)).toList ∧
        SameData m m' ∧ (∀ a, a ∉ (plug ctx (.node l x r)).toList → m' a = m a) ∧
        ((∀ f ∈ ctx, SizeInv m f.sib) → SizeInv m (.node l x r) →
          SizeInv m' (.node l' x r')) := by
  intro n
  induction n with
  | zero =>
    intro ctx hlen m root l r x fuel hfuel hctx htree hnd
    have hnil : ctx = [] := List.length_eq_zero.mp (Nat.le_zero.mp hlen)
    subst hnil
    obtain ⟨k, rfl⟩ : ∃ k, fuel = k + 1 := ⟨fuel - 1, by simp at hfuel; omega⟩
    have hx1 : (m x).parent = none := htree.1
    refine ⟨fix_size m (some x), l, r, ?_, ?_, rfl, fix_size_data _ _, ?_, ?_⟩
    · rw [balance_root _ _ _ _ hx1]
    · exact IsTree_congr (fun a _ => fix_size_links _ _ _) htree
    · intro a ha
      refine fix_size_ne _ _ ?_
      simp only [ne_eq, Option.some.injEq]
      rintro rfl
      exact ha (by simp [plug, BT.toList])
    · intro _ hs
      exact fix_size_root htree hnd hs.2.1 hs.2.2
  | succ n ih =>
    intro ctx hlen m root l r x fuel hfuel hctx htree hnd
    match ctx, hlen, hfuel, hctx, htree, hnd with
    | [], hlen, hfuel, hctx, htree, hnd =>
      exact ih [] (by simp) m root l r x fuel hfuel hctx htree hnd
    | [f], hlen, hfuel, hctx, htree, hnd =>
      obtain ⟨k, rfl⟩ : ∃ k, fuel = k + 1 := ⟨fuel - 1, by simp at hfuel; omega⟩
      have hx1 : (m x).parent = some f.addr := htree.1
      have hp1 : (m f.addr).parent = none := hctx.2.1
      obtain ⟨root', m', hrot, h1, h2, h3, h4, h5⟩ :=
        rotate_plug cmp m root f [] l r x hctx htree hnd
      obtain ⟨l', r', hlr⟩ := rot_node f l r x
      refine ⟨m', l', r', ?_, ?_, ?_, h3, h4, ?_⟩
      · rw [balance_zig _ _ _ _ _ hx1 hp1, hrot]
      · rw [← hlr]; exact h2
      · rw [← hlr, ← h5]; rfl
      · intro hsib hfoc
        have hs := (rotate_sized cmp m root f [] l r x hctx htree hnd hfoc.2.1 hfoc.2.2
          (hsib f (by simp))).1
        rw [hrot] at hs
        rw [← hlr]
        exact hs
    | f1 :: f2 :: rest, hlen, hfuel, hctx, htree, hnd =>
      obtain ⟨k, rfl⟩ : ∃ k, fuel = k + 1 := ⟨fuel - 1, by simp at hfuel; omega⟩
      have hx1 : (m x).parent = some f1.addr := htree.1
      have hp1 : (m f1.addr).parent = some f2.addr := hctx.2.1
      -- focus on the parent
      obtain ⟨lp, rp, hp⟩ := plug_one_node f1 (.node l x r)
      have hfocus := (refocus m root (f2 :: rest) [f1] (.node l x r)).mpr ⟨hctx, htree⟩
      rw [hp] at hfocus
      have hnd1 : (plug (f2 :: rest) (.node lp f1.addr rp)).toList.Nodup := by
        rw [← hp, ← plug_append]; exact hnd
      obtain ⟨root1, m1, hrot1, h11, h12, h13, h14, h15⟩ :=
        rotate_plug cmp m root f2 rest lp rp f1.addr hfocus.1 hfocus.2 hnd1
      -- focus on the node again
      rw [← zig_ctx_plug f1 f2 (.node l x r) lp rp hp] at h12 h15
      have hfocus2 := (refocus m1 root1 rest (zig_ctx f1 f2) (.node l x r)).mp
        ⟨by
          have : (plug (zig_ctx f1 f2) (.node l x r)).ptr = some f1.addr := by
            rw [zig_ctx_plug f1 f2 (.node l x r) lp rp hp]
            obtain ⟨l', r', e⟩ := rot_node f2 lp rp f1.addr
            rw [e]; rfl
          rw [this]; exact h11, h12⟩
      obtain ⟨fm, tl, hz, htl⟩ := zig_ctx_cons f1 f2
      rw [hz] at hfocus2 h15
      have hnd2 : (plug (fm :: tl ++ rest) (.node l x r)).toList.Nodup := by
        rw [plug_append, h15, ← hp, ← plug_append]; exact hnd
      obtain ⟨root2, m2, hrot2, h21, h22, h23, h24, h25⟩ :=
        rotate_plug cmp m1 root1 fm (tl ++ rest) l r x hfocus2.1 hfocus2.2 hnd2
      obtain ⟨l2, r2, hlr2⟩ := rot_node fm l r x
      rw [hlr2] at h22 h25
      have hlen2 : (tl ++ rest).length ≤ n := by
        simp only [List.length_append, List.length_cons] at hlen ⊢; omega
      have hfuel2 : (tl ++ rest).length < k := by
        simp only [List.length_append, List.length_cons] at hfuel ⊢; omega
      have hlist : (plug (tl ++ rest) (.node l2 x r2)).toList =
          (plug (f1 :: f2 :: rest) (.node l x r)).toList := by
        rw [h25]
        show (plug ((fm :: tl) ++ rest) (.node l x r)).toList = _
        rw [plug_append, h15, ← hp, ← plug_append]; rfl
      have hnd3 : (plug (tl ++ rest) (.node l2 x r2)).toList.Nodup := by
        rw [hlist]; exact hnd
      obtain ⟨m', l', r', hb, hb1, hb2, hb3, hb4, hb5⟩ :=
        ih (tl ++ rest) hlen2 m2 root2 l2 r2 x k hfuel2 h21 h22 hnd3
      have hsize : (∀ f ∈ f1 :: f2 :: rest, SizeInv m f.sib) → SizeInv m (.node l x r) →
          SizeInv m' (.node l' x r') := by
        intro hsib hfoc
        obtain ⟨hlp, hrp⟩ := plug_one_sized hp hfoc (hsib f1 (by simp))
        obtain ⟨s1, s2⟩ := rotate_sized cmp m root f2 rest lp rp f1.addr hfocus.1 hfocus.2 hnd1
          hlp hrp (hsib f2 (by simp))
        rw [hrot1] at s1 s2
        simp only [] at s1 s2
        rw [← zig_ctx_plug f1 f2 (.node l x r) lp rp hp, hz] at s1
        obtain ⟨t1, t2⟩ := SizeInv_plug (fm :: tl) _ s1
        obtain ⟨u1, u2⟩ := rotate_sized cmp m1 root1 fm (tl ++ rest) l r x hfocus2.1 hfocus2.2
          hnd2 t1.2.1 t1.2.2 (t2 fm (by simp))
        rw [hrot2] at u1 u2
        simp only [] at u1 u2
        rw [hlr2] at u1
        have hc2 := plug_nodup_ctx hnd2
        have hc1 := plug_nodup_ctx hnd1
        refine hb5 (fun f hf => ?_) u1
        simp only [List.mem_append] at hf
        have hfmem : f ∈ tl ++ rest := List.mem_append.mpr hf
        have hm2 : ∀ a ∈ f.sib.toList, (m2 a).size = (m1 a).size := by
          intro a ha
          have := hc2 a (sib_mem_ctxList hfmem ha)
          exact u2 a (by rintro rfl; exact this.2 (by simp [BT.toList])) this.1
        rcases hf with hf | hf
        · exact SizeInv_congr hm2 (t2 f (by simp [hf]))
        · refine SizeInv_congr hm2 (SizeInv_congr (fun a ha => ?_) (hsib f (by simp [hf])))
          have := hc1 a (sib_mem_ctxList hf ha)
          exact s2 a (by rintro rfl; exact this.2 (by simp [BT.toList])) this.1
      refine ⟨m', l', r', ?_, hb1, hb2.trans hlist, SameData_trans (SameData_trans h13 h23) hb3, ?_,
        hsize⟩
      · rw [balance_zigzig _ _ _ _ _ _ hx1 hp1, hrot1]
        simp only []
        rw [hrot2]
        exact hb
      · intro a ha
        have ha2 : a ∉ (plug (fm :: (tl ++ rest)) (.node l x r)).toList := by
          rw [← h25, hlist]; exact ha
        have ha1 : a ∉ (plug (f2 :: rest) (.node lp f1.addr rp)).toList := by
          rw [← hp, ← plug_append]; exact ha
        rw [hb4 a (by rw [hlist]; exact ha), h24 a ha2, h14 a ha1]

theorem balance_ctx {T : Type} (cmp : T → T → Bool) :
    ∀ (n : Nat) (ctx : List Frame), ctx.length ≤ n →
    ∀ (m : Mem T) (root : Option Nat) (l r : BT) (x fuel : Nat),
      ctx.length < fuel →
      IsCtx m ctx (some x) root → IsTree m (ctxPar ctx) (.node l x r) →
      (plug ctx (.node l x r)).toList.Nodup →
      ∃ m' l' r', tree.balance fuel ⟨root, cmp⟩ m (some x) = .ok (⟨some x, cmp⟩, m') ∧
        IsTree m' none (.node l' x r') ∧
        (BT.node l' x r').toList = (plug ctx (.node l x r)).toList ∧
        SameData m m' ∧ (∀ a, a ∉ (plug ctx (.node l x r)).toList → m' a = m a) := by
  intro n ctx hlen m root l r x fuel hfuel hctx htree hnd
  obtain ⟨m', l', r', h1, h2, h3, h4, h5, _⟩ :=
    balance_ctx_sized cmp n ctx hlen m root l r x fuel hfuel hctx htree hnd
  exact ⟨m', l', r', h1, h2, h3, h4, h5⟩

theorem ctx_length_le (ctx : List Frame) : ctx.length ≤ (ctxList ctx).length := by
  induction ctx with
  | nil => simp
  | cons f rest ih =>
    simp only [ctxList, List.length_cons, List.cons_append, List.length_append] at ih ⊢
    omega

theorem ctx_length_lt (ctx : List Frame) (l r : BT) (x : Nat) :
    ctx.length < (plug ctx (.node l x r)).toList.length := by
  have h := (plug_perm ctx (.node l x r)).length_eq
  have h2 := ctx_length_le ctx
  rw [h]
  simp only [BT.toList, List.length_append, List.length_cons]
  omega

/-- Rebalancing from any node of a tree: the node becomes the root and the in-order
sequence, the values and the list links stay. -/
theorem balance_spec {T : Type} (cmp : T → T → Bool) (m : Mem T) (root : Option Nat) (t : BT)
    (x fuel : Nat) (ht : IsTree m none t) (hroot : root = t.ptr) (hnd : t.toList.Nodup)
    (hx : x ∈ t.toList) (hfuel : t.toList.length ≤ fuel) :
    ∃ m' l' r', tree.balance fuel ⟨root, cmp⟩ m (some x) = .ok (⟨some x, cmp⟩, m') ∧
      IsTree m' none (.node l' x r') ∧
      (BT.node l' x r').toList = t.toList ∧
      SameData m m' ∧ (∀ a, a ∉ t.toList → m' a = m a) := by
  obtain ⟨ctx, l, r, rfl⟩ := exists_ctx hx
  have h := (plug_iff m root ctx (.node l x r)).mp ⟨ht, hroot⟩
  exact balance_ctx cmp ctx.length ctx (Nat.le_refl _) m root l r x fuel
    (Nat.lt_of_lt_of_le (ctx_length_lt ctx l r x) hfuel) h.1 h.2 hnd

theorem balance_spec_sized {T : Type} (cmp : T → T → Bool) (m : Mem T) (root : Option Nat)
    (t : BT) (x fuel : Nat) (ht : IsTree m none t) (hroot : root = t.ptr) (hnd : t.toList.Nodup)
    (hx : x ∈ t.toList) (hfuel : t.toList.length ≤ fuel) :
    ∃ m' l' r', tree.balance fuel ⟨root, cmp⟩ m (some x) = .ok (⟨some x, cmp⟩, m') ∧
      IsTree m' none (.node l' x r') ∧
      (BT.node l' x r').toList = t.toList ∧
      SameData m m' ∧ (∀ a, a ∉ t.toList → m' a = m a) ∧
      (SizeInv m t → SizeInv m' (.node l' x r')) := by
  obtain ⟨ctx, l, r, rfl⟩ := exists_ctx hx
  have h := (plug_iff m root ctx (.node l x r)).mp ⟨ht, hroot⟩
  obtain ⟨m', l', r', h1, h2, h3, h4, h5, h6⟩ :=
    balance_ctx_sized cmp ctx.length ctx (Nat.le_refl _) m root l r x fuel
      (Nat.lt_of_lt_of_le (ctx_length_lt ctx l r x) hfuel) h.1 h.2 hnd
  refine ⟨m', l', r', h1, h2, h3, h4, h5, fun hs => ?_⟩
  obtain ⟨g1, g2⟩ := SizeInv_plug ctx _ hs
  exact h6 g2 g1

/-! ## Strict weak orders -/

theorem StrictWeakOrder.asymm {T : Type} {cmp : T → T → Bool} (h : StrictWeakOrder cmp)
    {a b : T} (hab : cmp a b = true) : cmp b a = false := by
  cases hba : cmp b a with
  | false => rfl
  | true =>
    have := h.trans a b a hab hba
    rw [h.irrefl] at this
    exact absurd this (by simp)

/-- From `b < a` and `¬ v < a` follows `b < v`. -/
theorem StrictWeakOrder.lt_of_lt_of_not_lt {T : Type} {cmp : T → T → Bool}
    (h : StrictWeakOrder cmp) {b a v : T} (hba : cmp b a = true) (hva : cmp v a = false) :
    cmp b v = true := by
  cases hbv : cmp b v with
  | true => rfl
  | false =>
    exfalso
    cases hvb : cmp v b with
    | true =>
      have := h.trans v b a hvb hba
      rw [hva] at this; exact absurd this (by simp)
    | false =>
      cases hav : cmp a v with
      | true =>
        have := h.trans b a v hba hav
        rw [hbv] at this; exact absurd this (by simp)
      | false =>
        have := (h.incomp_trans b v a hbv hvb hva hav).1
        rw [hba] at this; exact absurd this (by simp)

/-- From `¬ a < v` and `a < b` follows `v < b`. -/
theorem StrictWeakOrder.lt_of_not_lt_of_lt {T : Type} {cmp : T → T → Bool}
    (h : StrictWeakOrder cmp) {a b v : T} (hav : cmp a v = false) (hab : cmp a b = true) :
    cmp v b = true := by
  cases hvb : cmp v b with
  | true => rfl
  | false =>
    exfalso
    cases hbv : cmp b v with
    | true =>
      have := h.trans a b v hab hbv
      rw [hav] at this; exact absurd this (by simp)
    | false =>
      cases hva : cmp v a with
      | true =>
        have := h.trans v a b hva hab
        rw [hvb] at this; exact absurd this (by simp)
      | false =>
        have := (h.incomp_trans a v b hav hva hvb hbv).1
        rw [hab] at this; exact absurd this (by simp)

theorem nat_less_swo : StrictWeakOrder nat_less := by
  refine ⟨fun a => ?_, fun a b c => ?_, fun a b c => ?_⟩
  · simp [nat_less]
  · simp only [nat_less, decide_eq_true_eq]; omega
  · simp only [nat_less, decide_eq_false_iff_not, decide_eq_true_eq]; omega

/-! ## Descent -/

theorem find_place_loop_spec {T : Type} (cmp : T → T → Bool) (m : Mem T) (v : T) :
    ∀ (t : BT) (x : Nat) (ctx : List Frame) (par : Option Nat) (fuel : Nat),
      t.ptr = some x → IsTree m par t → t.toList.length ≤ fuel → PathOK cmp m v ctx →
      ∃ ctx' l' a r', find_place_loop cmp m v fuel x = .ok a ∧
        plug ctx t = plug ctx' (.node l' a r') ∧ PathOK cmp m v ctx' ∧
        (cmp (m a).value v = true → r' = .leaf) ∧
        (cmp (m a).value v = false → cmp v (m a).value = true → l' = .leaf) := by
  intro t
  induction t with
  | leaf => intro x ctx par fuel h; simp [BT.ptr] at h
  | node l tx r ihl ihr =>
    intro x ctx par fuel h ht hfuel hpath
    simp only [BT.ptr, Option.some.injEq] at h
    subst h
    obtain ⟨k, rfl⟩ : ∃ k, fuel = k + 1 :=
      ⟨fuel - 1, by simp [BT.toList] at hfuel; omega⟩
    obtain ⟨h1, h2, h3, h4, h5⟩ := ht
    simp only [BT.toList, List.length_append, List.length_cons] at hfuel
    unfold find_place_loop
    cases hc1 : cmp (m tx).value v with
    | true =>
      simp only [if_true]
      cases hr : r with
      | leaf =>
        subst hr
        simp only [h3, BT.ptr]
        exact ⟨ctx, l, tx, .leaf, rfl, rfl, hpath, fun _ => rfl,
          (fun h => by rw [hc1] at h; cases h)⟩
      | node rl y rr =>
        subst hr
        simp only [h3, BT.ptr]
        have hp' : PathOK cmp m v (⟨false, tx, l⟩ :: ctx) := by
          intro f hf
          simp only [List.mem_cons] at hf
          rcases hf with rfl | hf
          · simpa using hc1
          · exact hpath f hf
        obtain ⟨ctx', l', a, r', e1, e2, e3, e4, e5⟩ :=
          ihr y (⟨false, tx, l⟩ :: ctx) (some tx) k rfl h5 (by omega) hp'
        refine ⟨ctx', l', a, r', e1, ?_, e3, e4, e5⟩
        rw [← e2]; simp [plug]
    | false =>
      simp only [Bool.false_eq_true, if_false]
      cases hc2 : cmp v (m tx).value with
      | true =>
        simp only [if_true]
        cases hl : l with
        | leaf =>
          subst hl
          simp only [h2, BT.ptr]
          exact ⟨ctx, .leaf, tx, r, rfl, rfl, hpath, (fun h => by rw [hc1] at h; cases h),
            fun _ _ => rfl⟩
        | node ll y lr =>
          subst hl
          simp only [h2, BT.ptr]
          have hp' : PathOK cmp m v (⟨true, tx, r⟩ :: ctx) := by
            intro f hf
            simp only [List.mem_cons] at hf
            rcases hf with rfl | hf
            · simpa using ⟨hc1, hc2⟩
            · exact hpath f hf
          obtain ⟨ctx', l', a, r', e1, e2, e3, e4, e5⟩ :=
            ihl y (⟨true, tx, r⟩ :: ctx) (some tx) k rfl h4 (by omega) hp'
          refine ⟨ctx', l', a, r', e1, ?_, e3, e4, e5⟩
          rw [← e2]; simp [plug]
      | false =>
        simp only [Bool.false_eq_true, if_false]
        exact ⟨ctx, l, tx, r, rfl, rfl, hpath, (fun h => by rw [hc1] at h; cases h),
          (fun _ h => by rw [hc2] at h; cases h)⟩

theorem path_bounds {T : Type} {cmp : T → T → Bool} (hswo : StrictWeakOrder cmp) (m : Mem T)
    (v : T) : ∀ (ctx : List Frame) (t : BT), PathOK cmp m v ctx →
      Ascending cmp m (plug ctx t).toList →
      Below cmp m v (ctxBefore ctx) ∧ Above cmp m v (ctxAfter ctx) := by
  intro ctx
  induction ctx with
  | nil =>
    intro t _ _
    exact ⟨fun b hb => (by simp [ctxBefore] at hb), fun b hb => (by simp [ctxAfter] at hb)⟩
  | cons f rest ih =>
    intro t hpath hasc
    have hf := hpath f (by simp)
    have hrest : PathOK cmp m v rest := fun g hg => hpath g (by simp [hg])
    by_cases hd : f.is_left
    · simp only [hd, if_true] at hf
      have e : plug (f :: rest) t = plug rest (.node t f.addr f.sib) := by simp [plug, hd]
      rw [e] at hasc
      obtain ⟨ihb, iha⟩ := ih _ hrest hasc
      refine ⟨by simpa [ctxBefore, hd] using ihb, ?_⟩
      rw [toList_plug] at hasc
      unfold Ascending at hasc
      simp only [BT.toList, List.pairwise_append, List.pairwise_cons] at hasc
      intro b hb
      simp only [ctxAfter, hd, if_true, List.cons_append, List.mem_cons, List.mem_append] at hb
      rcases hb with rfl | hb | hb
      · exact hf.2
      · have := hasc.1.2.1.2.1.1 b hb
        exact hswo.trans _ _ _ hf.2 this
      · exact iha b hb
    · simp only [hd] at hf
      simp only [Bool.false_eq_true, if_false] at hf
      have e : plug (f :: rest) t = plug rest (.node f.sib f.addr t) := by simp [plug, hd]
      rw [e] at hasc
      obtain ⟨ihb, iha⟩ := ih _ hrest hasc
      refine ⟨?_, by simpa [ctxAfter, hd] using iha⟩
      rw [toList_plug] at hasc
      unfold Ascending at hasc
      simp only [BT.toList, List.pairwise_append, List.pairwise_cons] at hasc
      intro b hb
      simp only [ctxBefore, hd, Bool.false_eq_true, if_false, List.mem_append,
        List.mem_singleton] at hb
      rcases hb with (hb | hb) | rfl
      · exact ihb b hb
      · have := hasc.1.2.1.2.2 b hb f.addr (by simp)
        exact hswo.trans _ _ _ this hf
      · exact hf

/-! ## `find_place` and `find` on a tree that satisfies its invariant -/

theorem find_place_empty {T : Type} (cmp : T → T → Bool) (m : Mem T) (fuel : Nat) (v : T) :
    tree.find_place ⟨none, cmp⟩ m fuel v = .ok none := rfl

theorem find_place_spec {T : Type} {cmp : T → T → Bool} (hswo : StrictWeakOrder cmp)
    (m : Mem T) (root : Option Nat) (t : BT) (fuel : Nat) (v : T)
    (hinv : TreeInv cmp m root t) (hfuel : t.toList.length ≤ fuel) (hne : t ≠ .leaf) :
    ∃ ctx l a r, tree.find_place ⟨root, cmp⟩ m fuel v = .ok (some a) ∧
      t = plug ctx (.node l a r) ∧
      Below cmp m v (ctxBefore ctx ++ l.toList) ∧ Above cmp m v (r.toList ++ ctxAfter ctx) ∧
      (cmp (m a).value v = true → r = .leaf) ∧
      (cmp (m a).value v = false → cmp v (m a).value = true → l = .leaf) := by
  obtain ⟨x, hx⟩ : ∃ x, t.ptr = some x := by
    cases t with
    | leaf => exact absurd rfl hne
    | node l x r => exact ⟨x, rfl⟩
  obtain ⟨ctx, l, a, r, e1, e2, e3, e4, e5⟩ :=
    find_place_loop_spec cmp m v t x [] none fuel hx hinv.shape hfuel
      (fun f hf => by simp at hf)
  simp only [plug] at e2
  have hasc := hinv.sorted
  rw [e2] at hasc
  obtain ⟨hb, ha⟩ := path_bounds hswo m v ctx _ e3 hasc
  rw [toList_plug] at hasc
  unfold Ascending at hasc
  simp only [BT.toList, List.pairwise_append, List.pairwise_cons] at hasc
  refine ⟨ctx, l, a, r, ?_, e2, ?_, ?_, e4, e5⟩
  · simp only [tree.find_place, hinv.root_eq, hx, e1]; rfl
  · intro b hb'
    simp only [List.mem_append] at hb'
    rcases hb' with hb' | hb'
    · exact hb b hb'
    · have hba : cmp (m b).value (m a).value = true := hasc.1.2.1.2.2 b hb' a (by simp)
      cases hc1 : cmp (m a).value v with
      | true => exact hswo.trans _ _ _ hba hc1
      | false =>
        cases hc2 : cmp v (m a).value with
        | true =>
          have := e5 hc1 hc2
          subst this
          simp [BT.toList] at hb'
        | false => exact hswo.lt_of_lt_of_not_lt hba hc2
  · intro b hb'
    simp only [List.mem_append] at hb'
    rcases hb' with hb' | hb'
    · have hab : cmp (m a).value (m b).value = true := hasc.1.2.1.2.1.1 b hb'
      cases hc1 : cmp (m a).value v with
      | true =>
        have := e4 hc1
        subst this
        simp [BT.toList] at hb'
      | false => exact hswo.lt_of_not_lt_of_lt hc1 hab
    · exact ha b hb'

/-- List view of `find_place`: the anchor splits the in-order sequence into keys
below the query and keys above it. -/
theorem find_place_list {T : Type} {cmp : T → T → Bool} (hswo : StrictWeakOrder cmp)
    (m : Mem T) (root : Option Nat) (t : BT) (fuel : Nat) (v : T)
    (hinv : TreeInv cmp m root t) (hfuel : t.toList.length ≤ fuel) (hne : t ≠ .leaf) :
    ∃ pre a post, tree.find_place ⟨root, cmp⟩ m fuel v = .ok (some a) ∧
      t.toList = pre ++ a :: post ∧ Below cmp m v pre ∧ Above cmp m v post := by
  obtain ⟨ctx, l, a, r, h1, h2, h3, h4, _, _⟩ := find_place_spec hswo m root t fuel v hinv hfuel hne
  refine ⟨ctxBefore ctx ++ l.toList, a, r.toList ++ ctxAfter ctx, h1, ?_, h3, h4⟩
  rw [h2, toList_plug]
  simp [BT.toList]

theorem not_equiv_of_below {T : Type} {cmp : T → T → Bool} {m : Mem T} {v : T} {xs : List Nat}
    (h : Below cmp m v xs) : ∀ b ∈ xs, equiv cmp (m b).value v = false := by
  intro b hb
  simp [equiv, h b hb]

theorem not_equiv_of_above {T : Type} {cmp : T → T → Bool} {m : Mem T} {v : T} {xs : List Nat}
    (h : Above cmp m v xs) : ∀ b ∈ xs, equiv cmp (m b).value v = false := by
  intro b hb
  simp [equiv, h b hb]

/-- Method `find` returns the record whose key is equivalent to the query, and null
exactly when the tree has no such record. -/
theorem find_spec {T : Type} {cmp : T → T → Bool} (hswo : StrictWeakOrder cmp)
    (m : Mem T) (root : Option Nat) (t : BT) (fuel : Nat) (v : T)
    (hinv : TreeInv cmp m root t) (hfuel : t.toList.length ≤ fuel) :
    (∃ a, tree.find ⟨root, cmp⟩ m fuel v = .ok (some a) ∧ a ∈ t.toList ∧
        equiv cmp (m a).value v = true ∧
        tree.find_place ⟨root, cmp⟩ m fuel v = .ok (some a)) ∨
    (tree.find ⟨root, cmp⟩ m fuel v = .ok none ∧
        ∀ b ∈ t.toList, equiv cmp (m b).value v = false) := by
  by_cases hne : t = .leaf
  · subst hne
    right
    have hr : root = none := hinv.root_eq
    subst hr
    exact ⟨rfl, fun b hb => by simp [BT.toList] at hb⟩
  · obtain ⟨pre, a, post, h1, h2, h3, h4⟩ := find_place_list hswo m root t fuel v hinv hfuel hne
    cases he : equiv cmp (m a).value v with
    | true =>
      left
      refine ⟨a, ?_, by rw [h2]; simp, he, h1⟩
      simp only [tree.find, h1]
      simp only [equiv] at he
      simp [he]
    | false =>
      right
      refine ⟨?_, ?_⟩
      · simp only [tree.find, h1]
        simp only [equiv] at he
        simp [he]
      · intro b hb
        rw [h2] at hb
        simp only [List.mem_append, List.mem_cons] at hb
        rcases hb with hb | rfl | hb
        · exact not_equiv_of_below h3 b hb
        · exact he
        · exact not_equiv_of_above h4 b hb

/-- In an ascending sequence at most one record has a key equivalent to `v`. -/
theorem equiv_unique {T : Type} {cmp : T → T → Bool} (hswo : StrictWeakOrder cmp) {m : Mem T}
    {xs : List Nat} (hasc : Ascending cmp m xs) {v : T} {a b : Nat} (ha : a ∈ xs) (hb : b ∈ xs)
    (hea : equiv cmp (m a).value v = true) (heb : equiv cmp (m b).value v = true) : a = b := by
  simp only [equiv, Bool.and_eq_true, Bool.not_eq_true'] at hea heb
  have hab : cmp (m a).value (m b).value = false ∧ cmp (m b).value (m a).value = false :=
    hswo.incomp_trans _ _ _ hea.1 hea.2 heb.2 heb.1
  induction xs with
  | nil => simp at ha
  | cons c rest ih =>
    have hasc' : Ascending cmp m rest := (List.pairwise_cons.mp hasc).2
    have hc := (List.pairwise_cons.mp hasc).1
    simp only [List.mem_cons] at ha hb
    rcases ha with rfl | ha <;> rcases hb with rfl | hb
    · rfl
    · have := hc b hb; rw [hab.1] at this; cases this
    · have := hc a ha; rw [hab.2] at this; cases this
    · exact ih hasc' ha hb

/-! ## List links -/

theorem Linked_congr {T : Type} {m m' : Mem T} {xs : List Nat} :
    ∀ {p n : Option Nat},
      (∀ a ∈ xs, (m' a).next = (m a).next ∧ (m' a).prev = (m a).prev) →
      Linked m p xs n → Linked m' p xs n := by
  induction xs with
  | nil => intro _ _ _ _; trivial
  | cons a rest ih =>
    intro p n hs h
    obtain ⟨h1, h2, h3⟩ := h
    have ha := hs a (by simp)
    exact ⟨ha.2.trans h1, ha.1.trans h2, ih (fun b hb => hs b (by simp [hb])) h3⟩

theorem Linked_of_SameData {T : Type} {m m' : Mem T} {xs : List Nat} {p n : Option Nat}
    (hd : SameData m m') (h : Linked m p xs n) : Linked m' p xs n :=
  Linked_congr (fun a _ => ⟨(hd a).2.1, (hd a).2.2⟩) h

theorem Ascending_of_SameData {T : Type} {cmp : T → T → Bool} {m m' : Mem T} {xs : List Nat}
    (hd : ∀ a, (m' a).value = (m a).value) (h : Ascending cmp m xs) : Ascending cmp m' xs := by
  unfold Ascending at h ⊢
  refine h.imp ?_
  intro a b hab
  rw [hd a, hd b]; exact hab

theorem first_or_append (xs ys : List Nat) (n : Option Nat) :
    first_or (xs ++ ys) n = first_or xs (first_or ys n) := by
  cases xs <;> simp [first_or]

theorem last_or_append (p : Option Nat) (xs ys : List Nat) :
    last_or p (xs ++ ys) = last_or (last_or p xs) ys := by
  induction xs generalizing p with
  | nil => simp [last_or]
  | cons a rest ih => simp [last_or, ih]

theorem Linked_append {T : Type} (m : Mem T) (xs ys : List Nat) :
    ∀ (p n : Option Nat), Linked m p (xs ++ ys) n ↔
      (Linked m p xs (first_or ys n) ∧ Linked m (last_or p xs) ys n) := by
  induction xs with
  | nil => intro p n; simp [Linked, last_or]
  | cons a rest ih =>
    intro p n
    show ((m a).prev = p ∧ (m a).next = first_or (rest ++ ys) n ∧
        Linked m (some a) (rest ++ ys) n) ↔
      ((m a).prev = p ∧ (m a).next = first_or rest (first_or ys n) ∧
        Linked m (some a) rest (first_or ys n)) ∧ Linked m (last_or (some a) rest) ys n
    rw [ih, first_or_append]
    tauto

theorem walk_spec {T : Type} (m : Mem T) :
    ∀ (xs : List Nat) (p : Option Nat) (fuel : Nat), Linked m p xs none → xs.length ≤ fuel →
      walk m fuel (first_or xs none) = .ok xs := by
  intro xs
  induction xs with
  | nil => intro p fuel _ _; cases fuel <;> simp [first_or, walk]
  | cons a rest ih =>
    intro p fuel h hfuel
    obtain ⟨k, rfl⟩ : ∃ k, fuel = k + 1 := ⟨fuel - 1, by simp at hfuel; omega⟩
    obtain ⟨_, h2, h3⟩ := h
    have e := ih (some a) k h3 (by simpa using hfuel)
    show walk m (k + 1) (some a) = .ok (a :: rest)
    rw [walk, h2, e]

theorem leftmost_spec {T : Type} (m : Mem T) :
    ∀ (t : BT) (x : Nat) (par : Option Nat) (fuel : Nat), t.ptr = some x → IsTree m par t →
      t.toList.length ≤ fuel →
      ∃ a rest, leftmost m fuel x = .ok a ∧ t.toList = a :: rest := by
  intro t
  induction t with
  | leaf => intro x par fuel h; simp [BT.ptr] at h
  | node l tx r ihl _ =>
    intro x par fuel h ht hfuel
    simp only [BT.ptr, Option.some.injEq] at h
    subst h
    obtain ⟨k, rfl⟩ : ∃ k, fuel = k + 1 :=
      ⟨fuel - 1, by simp [BT.toList] at hfuel; omega⟩
    obtain ⟨_, h2, _, h4, _⟩ := ht
    simp only [BT.toList, List.length_append, List.length_cons] at hfuel
    unfold leftmost
    cases hl : l with
    | leaf =>
      subst hl
      simp only [h2, BT.ptr]
      exact ⟨tx, r.toList, rfl, by simp [BT.toList]⟩
    | node ll y lr =>
      subst hl
      simp only [h2, BT.ptr]
      obtain ⟨a, rest, e1, e2⟩ := ihl y (some tx) k rfl h4 (by omega)
      refine ⟨a, rest ++ tx :: r.toList, e1, ?_⟩
      show (BT.node ll y lr).toList ++ tx :: r.toList = _
      rw [e2]; simp

theorem rightmost_spec {T : Type} (m : Mem T) :
    ∀ (t : BT) (x : Nat) (par : Option Nat) (fuel : Nat), t.ptr = some x → IsTree m par t →
      t.toList.length ≤ fuel →
      ∃ a init, rightmost m fuel x = .ok a ∧ t.toList = init ++ [a] := by
  intro t
  induction t with
  | leaf => intro x par fuel h; simp [BT.ptr] at h
  | node l tx r _ ihr =>
    intro x par fuel h ht hfuel
    simp only [BT.ptr, Option.some.injEq] at h
    subst h
    obtain ⟨k, rfl⟩ : ∃ k, fuel = k + 1 :=
      ⟨fuel - 1, by simp [BT.toList] at hfuel; omega⟩
    obtain ⟨_, _, h3, _, h5⟩ := ht
    simp only [BT.toList, List.length_append, List.length_cons] at hfuel
    unfold rightmost
    cases hr : r with
    | leaf =>
      subst hr
      simp only [h3, BT.ptr]
      exact ⟨tx, l.toList, rfl, by simp [BT.toList]⟩
    | node rl y rr =>
      subst hr
      simp only [h3, BT.ptr]
      obtain ⟨a, init, e1, e2⟩ := ihr y (some tx) k rfl h5 (by omega)
      refine ⟨a, l.toList ++ tx :: init, e1, ?_⟩
      show l.toList ++ tx :: (BT.node rl y rr).toList = _
      rw [e2]; simp

theorem get_first_node_spec {T : Type} (cmp : T → T → Bool) (m : Mem T) (root : Option Nat)
    (t : BT) (fuel : Nat) (ht : IsTree m none t) (hroot : root = t.ptr)
    (hfuel : t.toList.length ≤ fuel) :
    tree.get_first_node ⟨root, cmp⟩ m fuel = .ok (first_or t.toList none) := by
  subst hroot
  cases t with
  | leaf => rfl
  | node l x r =>
    obtain ⟨a, rest, e1, e2⟩ := leftmost_spec m (.node l x r) x none fuel rfl ht hfuel
    simp only [tree.get_first_node, BT.ptr, e1, e2, first_or]
    rfl

theorem get_last_node_spec {T : Type} (cmp : T → T → Bool) (m : Mem T) (root : Option Nat)
    (t : BT) (fuel : Nat) (ht : IsTree m none t) (hroot : root = t.ptr)
    (hfuel : t.toList.length ≤ fuel) :
    tree.get_last_node ⟨root, cmp⟩ m fuel = .ok (last_or none t.toList) := by
  subst hroot
  cases t with
  | leaf => rfl
  | node l x r =>
    obtain ⟨a, init, e1, e2⟩ := rightmost_spec m (.node l x r) x none fuel rfl ht hfuel
    simp only [tree.get_last_node, BT.ptr, e1, e2, last_or_append, last_or]
    rfl

/-- A duplicate-free list of addresses below `n` has at most `n` entries. -/
theorem length_le_of_nodup_lt {xs : List Nat} {n : Nat} (hnd : xs.Nodup)
    (hlt : ∀ a ∈ xs, a < n) : xs.length ≤ n := by
  have h1 : xs.toFinset ⊆ Finset.range n := by
    intro a ha
    simp only [List.mem_toFinset] at ha
    simpa using hlt a ha
  have h2 := Finset.card_le_card h1
  rw [List.toFinset_card_of_nodup hnd, Finset.card_range] at h2
  exact h2

theorem nodup_split_unique {xs ys xs' ys' : List Nat} {a : Nat}
    (hnd : (xs ++ a :: ys).Nodup) (h : xs ++ a :: ys = xs' ++ a :: ys') :
    xs = xs' ∧ ys = ys' := by
  induction xs generalizing xs' with
  | nil =>
    cases xs' with
    | nil => simpa using h
    | cons b rest =>
      simp only [List.nil_append, List.cons_append, List.cons.injEq] at h
      obtain ⟨rfl, h⟩ := h
      simp only [List.nil_append, List.nodup_cons] at hnd
      exact absurd (by rw [h]; simp) hnd.1
  | cons c rest ih =>
    cases xs' with
    | nil =>
      simp only [List.nil_append, List.cons_append, List.cons.injEq] at h
      obtain ⟨rfl, h⟩ := h
      simp only [List.cons_append, List.nodup_cons, List.mem_append, List.mem_cons, true_or,
        or_true, not_true_eq_false, false_and] at hnd
    | cons b rest' =>
      simp only [List.cons_append, List.cons.injEq] at h
      obtain ⟨rfl, h⟩ := h
      simp only [List.cons_append, List.nodup_cons] at hnd
      obtain ⟨e1, e2⟩ := ih hnd.2 h
      exact ⟨by rw [e1], e2⟩

/-! ## The writes of `insert` and `erase` -/

theorem splice_right_parent {T : Type} (m : Mem T) (a x b : Nat) :
    (splice_right m a x b).parent = if b = x then some a else (m b).parent := by
  unfold splice_right
  simp only [set_right_next, set_parent_next]
  cases h : (m a).next <;> simp [h]

theorem splice_right_left {T : Type} (m : Mem T) (a x b : Nat) :
    (splice_right m a x b).left = (m b).left := by
  unfold splice_right
  simp only [set_right_next, set_parent_next]
  cases h : (m a).next <;> simp [h]

theorem splice_right_right {T : Type} (m : Mem T) (a x b : Nat) :
    (splice_right m a x b).right = if b = a then some x else (m b).right := by
  unfold splice_right
  simp only [set_right_next, set_parent_next]
  cases h : (m a).next <;> simp [h]

theorem splice_right_value {T : Type} (m : Mem T) (a x b : Nat) :
    (splice_right m a x b).value = (m b).value := by
  unfold splice_right
  simp only [set_right_next, set_parent_next]
  cases h : (m a).next <;> simp [h]

theorem splice_right_next {T : Type} (m : Mem T) (a x b : Nat) :
    (splice_right m a x b).next =
      if b = a then some x else if b = x then (m a).next else (m b).next := by
  unfold splice_right
  simp only [set_right_next, set_parent_next]
  cases h : (m a).next <;> simp [h]

theorem splice_right_prev {T : Type} (m : Mem T) (a x b : Nat) :
    (splice_right m a x b).prev =
      if b = x then some a else if (m a).next = some b then some x else (m b).prev := by
  unfold splice_right
  simp only [set_right_next, set_parent_next]
  cases h : (m a).next with
  | none => simp
  | some n =>
    by_cases hbn : b = n
    · simp [hbn]
    · have : ¬ n = b := fun e => hbn e.symm
      simp [hbn, this]

theorem splice_left_parent {T : Type} (m : Mem T) (a x b : Nat) :
    (splice_left m a x b).parent = if b = x then some a else (m b).parent := by
  unfold splice_left
  simp only [set_left_prev, set_parent_prev]
  cases h : (m a).prev <;> simp [h]

theorem splice_left_right {T : Type} (m : Mem T) (a x b : Nat) :
    (splice_left m a x b).right = (m b).right := by
  unfold splice_left
  simp only [set_left_prev, set_parent_prev]
  cases h : (m a).prev <;> simp [h]

theorem splice_left_left {T : Type} (m : Mem T) (a x b : Nat) :
    (splice_left m a x b).left = if b = a then some x else (m b).left := by
  unfold splice_left
  simp only [set_left_prev, set_parent_prev]
  cases h : (m a).prev <;> simp [h]

theorem splice_left_value {T : Type} (m : Mem T) (a x b : Nat) :
    (splice_left m a x b).value = (m b).value := by
  unfold splice_left
  simp only [set_left_prev, set_parent_prev]
  cases h : (m a).prev <;> simp [h]

theorem splice_left_prev {T : Type} (m : Mem T) (a x b : Nat) :
    (splice_left m a x b).prev =
      if b = a then some x else if b = x then (m a).prev else (m b).prev := by
  unfold splice_left
  simp only [set_left_prev, set_parent_prev]
  cases h : (m a).prev <;> simp [h]

theorem splice_left_next {T : Type} (m : Mem T) (a x b : Nat) :
    (splice_left m a x b).next =
      if b = x then some a else if (m a).prev = some b then some x else (m b).next := by
  unfold splice_left
  simp only [set_left_prev, set_parent_prev]
  cases h : (m a).prev with
  | none => simp
  | some n =>
    by_cases hbn : b = n
    · simp [hbn]
    · have : ¬ n = b := fun e => hbn e.symm
      simp [hbn, this]

theorem unlink_links {T : Type} (m : Mem T) (a b : Nat) : SameLinks m (unlink m a) b := by
  unfold unlink
  cases h1 : (m a).prev with
  | none =>
    simp only []
    cases h2 : (m a).next <;> simp [SameLinks]
  | some p =>
    simp only []
    cases h2 : (set_next m p (m a).next a).next <;> simp [SameLinks]

theorem unlink_value {T : Type} (m : Mem T) (a b : Nat) :
    (unlink m a b).value = (m b).value := by
  unfold unlink
  cases h1 : (m a).prev with
  | none =>
    simp only []
    cases h2 : (m a).next <;> simp
  | some p =>
    simp only []
    cases h2 : (set_next m p (m a).next a).next <;> simp

theorem unlink_next {T : Type} (m : Mem T) (a b : Nat) :
    (unlink m a b).next = if (m a).prev = some b then (m a).next else (m b).next := by
  unfold unlink
  cases h1 : (m a).prev with
  | none =>
    simp only []
    cases h2 : (m a).next <;> simp
  | some p =>
    simp only []
    have hb : (some p = some b) ↔ b = p := by
      constructor
      · intro h; exact (Option.some.inj h).symm
      · intro h; rw [h]
    cases h2 : (set_next m p (m a).next a).next <;> simp [hb]

theorem unlink_prev {T : Type} (m : Mem T) (a b : Nat) :
    (unlink m a b).prev = if (m a).next = some b then (m a).prev else (m b).prev := by
  unfold unlink
  have key : ∀ p, (set_next m p (m a).next a).next = (m a).next := by
    intro p
    by_cases h : a = p <;> simp [h]
  cases h1 : (m a).prev with
  | none =>
    simp only []
    cases h2 : (m a).next with
    | none => simp
    | some n =>
      by_cases hbn : b = n
      · simp [hbn, h1]
      · have : ¬ n = b := fun e => hbn e.symm
        simp [hbn, this]
  | some p =>
    simp only []
    rw [key p]
    cases h2 : (m a).next with
    | none => simp
    | some n =>
      by_cases hbn : b = n
      · simp [hbn, h1]
      · have : ¬ n = b := fun e => hbn e.symm
        simp [hbn, this]

theorem splice_right_size {T : Type} (m : Mem T) (a x b : Nat) :
    (splice_right m a x b).size = (m b).size := by
  unfold splice_right
  simp only [set_right_next, set_parent_next]
  cases h : (m a).next <;> simp [h]

theorem splice_left_size {T : Type} (m : Mem T) (a x b : Nat) :
    (splice_left m a x b).size = (m b).size := by
  unfold splice_left
  simp only [set_left_prev, set_parent_prev]
  cases h : (m a).prev <;> simp [h]

theorem unlink_size {T : Type} (m : Mem T) (a b : Nat) :
    (unlink m a b).size = (m b).size := by
  unfold unlink
  cases h1 : (m a).prev with
  | none =>
    simp only []
    cases h2 : (m a).next <;> simp
  | some p =>
    simp only []
    cases h2 : (set_next m p (m a).next a).next <;> simp

theorem first_or_mem {xs : List Nat} {n : Option Nat} {b : Nat}
    (h : first_or xs n = some b) (hn : n ≠ some b) : b ∈ xs := by
  cases xs with
  | nil => exact absurd h hn
  | cons a rest =>
    simp only [first_or, Option.some.injEq] at h
    simp [h]

theorem last_or_mem {xs : List Nat} :
    ∀ {p : Option Nat} {b : Nat}, last_or p xs = some b → p ≠ some b → b ∈ xs := by
  induction xs with
  | nil => intro p b h hp; exact absurd h hp
  | cons a rest ih =>
    intro p b h hp
    simp only [last_or] at h
    by_cases hab : a = b
    · simp [hab]
    · have := ih h (by simpa using hab)
      simp [this]

theorem Linked_anchor {T : Type} {m : Mem T} {pre post : List Nat} {a : Nat} {p n : Option Nat}
    (h : Linked m p (pre ++ a :: post) n) :
    (m a).prev = last_or p pre ∧ (m a).next = first_or post n := by
  have := ((Linked_append m pre (a :: post) p n).mp h).2
  exact ⟨this.1, this.2.1⟩

/-- Splice of `x` right after `a`. -/
theorem Linked_insert_after {T : Type} {m m' : Mem T} (a x : Nat) (post : List Nat)
    (hnext : ∀ b, (m' b).next =
      if b = a then some x else if b = x then (m a).next else (m b).next)
    (hprev : ∀ b, (m' b).prev =
      if b = x then some a else if (m a).next = some b then some x else (m b).prev) :
    ∀ (pre : List Nat) (p : Option Nat), Linked m p (pre ++ a :: post) none →
      (pre ++ a :: post).Nodup → x ∉ pre ++ a :: post →
      Linked m' p (pre ++ a :: x :: post) none := by
  intro pre
  induction pre with
  | nil =>
    intro p h hnd hx
    obtain ⟨h1, h2, h3⟩ := h
    simp only [List.nil_append, List.nodup_cons, List.mem_cons, not_or] at hnd hx
    have hax : a ≠ x := fun e => hx.1 e.symm
    have hna : (m a).next ≠ some a := by
      rw [h2]; intro e; exact hnd.1 (first_or_mem e (by simp))
    refine ⟨?_, ?_, ?_, ?_, ?_⟩
    · rw [hprev a]; simp [hax, hna, h1]
    · rw [hnext a]; simp [first_or]
    · rw [hprev x]; simp
    · rw [hnext x]; simp [hx.1, h2]
    · cases post with
      | nil => trivial
      | cons d post' =>
        obtain ⟨g1, g2, g3⟩ := h3
        simp only [first_or] at h2
        simp only [List.mem_cons, not_or, List.nodup_cons] at hnd hx
        have hdx : d ≠ x := fun e => hx.2.1 e.symm
        have hda : d ≠ a := fun e => hnd.1.1 e.symm
        refine ⟨?_, ?_, ?_⟩
        · rw [hprev d]; simp [hdx, h2]
        · rw [hnext d]; simp [hdx, hda, g2]
        · refine Linked_congr (fun b hb => ?_) g3
          have hba : b ≠ a := by rintro rfl; exact hnd.1.2 hb
          have hbx : b ≠ x := by rintro rfl; exact hx.2.2 hb
          have hbd : d ≠ b := by rintro rfl; exact hnd.2.1 hb
          rw [hnext b, hprev b, h2]
          simp [hba, hbx, hbd]
  | cons c rest ih =>
    intro p h hnd hx
    have hA := (Linked_anchor h).2
    have h' : (m c).prev = p ∧ (m c).next = first_or (rest ++ a :: post) none ∧
        Linked m (some c) (rest ++ a :: post) none := h
    obtain ⟨h1, h2, h3⟩ := h'
    simp only [List.cons_append, List.nodup_cons] at hnd
    simp only [List.cons_append, List.mem_cons, not_or] at hx
    have hcx : c ≠ x := fun e => hx.1 e.symm
    have hca : c ≠ a := fun e => hnd.1 (by simp [e])
    have hnc : (m a).next ≠ some c := by
      rw [hA]; intro e
      exact hnd.1 (by simp [first_or_mem e (by simp)])
    show (m' c).prev = p ∧ (m' c).next = first_or (rest ++ a :: x :: post) none ∧
      Linked m' (some c) (rest ++ a :: x :: post) none
    refine ⟨?_, ?_, ?_⟩
    · rw [hprev c]; simp [hcx, hnc, h1]
    · rw [hnext c]
      simp only [hca, hcx, if_false]
      rw [h2, first_or_append, first_or_append]; rfl
    · exact ih (some c) h3 hnd.2 hx.2

/-- Splice of `x` right before `a`. -/
theorem Linked_insert_before {T : Type} {m m' : Mem T} (a x : Nat) (post : List Nat)
    (hprev : ∀ b, (m' b).prev =
      if b = a then some x else if b = x then (m a).prev else (m b).prev)
    (hnext : ∀ b, (m' b).next =
      if b = x then some a else if (m a).prev = some b then some x else (m b).next) :
    ∀ (pre : List Nat) (p : Option Nat), Linked m p (pre ++ a :: post) none →
      (pre ++ a :: post).Nodup → x ∉ pre ++ a :: post →
      (∀ b ∈ pre ++ a :: post, p ≠ some b) →
      Linked m' p (pre ++ x :: a :: post) none := by
  intro pre
  induction pre with
  | nil =>
    intro p h hnd hx hp
    obtain ⟨h1, h2, h3⟩ := h
    simp only [List.nil_append, List.nodup_cons, List.mem_cons, not_or] at hnd hx
    have hax : a ≠ x := fun e => hx.1 e.symm
    have hpa : (m a).prev ≠ some a := by rw [h1]; exact hp a (by simp)
    refine ⟨?_, ?_, ?_, ?_, ?_⟩
    · rw [hprev x]; simp [hx.1, h1]
    · rw [hnext x]; simp [first_or]
    · rw [hprev a]; simp
    · rw [hnext a]; simp [hax, hpa, h2]
    · refine Linked_congr (fun b hb => ?_) h3
      have hba : b ≠ a := by rintro rfl; exact hnd.1 hb
      have hbx : b ≠ x := by rintro rfl; exact hx.2 hb
      have hpb : (m a).prev ≠ some b := by rw [h1]; exact hp b (by simp [hb])
      rw [hnext b, hprev b]
      simp [hba, hbx, hpb]
  | cons c rest ih =>
    intro p h hnd hx hp
    have hA := (Linked_anchor h).1
    have h' : (m c).prev = p ∧ (m c).next = first_or (rest ++ a :: post) none ∧
        Linked m (some c) (rest ++ a :: post) none := h
    obtain ⟨h1, h2, h3⟩ := h'
    simp only [List.cons_append, List.nodup_cons] at hnd
    simp only [List.cons_append, List.mem_cons, not_or] at hx
    have hcx : c ≠ x := fun e => hx.1 e.symm
    have hca : c ≠ a := fun e => hnd.1 (by simp [e])
    show (m' c).prev = p ∧ (m' c).next = first_or (rest ++ x :: a :: post) none ∧
      Linked m' (some c) (rest ++ x :: a :: post) none
    refine ⟨?_, ?_, ?_⟩
    · rw [hprev c]; simp [hcx, hca, h1]
    · rw [hnext c]
      simp only [hcx, if_false]
      cases rest with
      | nil =>
        simp only [last_or] at hA
        simp [hA, first_or]
      | cons d rest' =>
        have hne : (m a).prev ≠ some c := by
          rw [hA]
          intro e
          simp only [last_or] at e
          have hcd : d ≠ c := by
            rintro rfl; exact hnd.1 (by simp)
          have := last_or_mem e (by simpa using hcd)
          exact hnd.1 (by simp [this])
        simp only [hne, if_false]
        rw [h2]; rfl
    · refine ih (some c) h3 hnd.2 hx.2 ?_
      intro b hb
      simp only [ne_eq, Option.some.injEq]
      rintro rfl
      exact hnd.1 hb

/-- Unlink of `a`. -/
theorem Linked_unlink {T : Type} {m m' : Mem T} (a : Nat) (post : List Nat)
    (hnext : ∀ b, (m' b).next = if (m a).prev = some b then (m a).next else (m b).next)
    (hprev : ∀ b, (m' b).prev = if (m a).next = some b then (m a).prev else (m b).prev) :
    ∀ (pre : List Nat) (p : Option Nat), Linked m p (pre ++ a :: post) none →
      (pre ++ a :: post).Nodup → (∀ b ∈ pre ++ a :: post, p ≠ some b) →
      Linked m' p (pre ++ post) none := by
  intro pre
  induction pre with
  | nil =>
    intro p h hnd hp
    obtain ⟨h1, h2, h3⟩ := h
    simp only [List.nil_append, List.nodup_cons] at hnd ⊢
    cases post with
    | nil => trivial
    | cons d post' =>
      obtain ⟨g1, g2, g3⟩ := h3
      simp only [first_or] at h2
      simp only [List.nodup_cons, List.mem_cons, not_or] at hnd
      have hpd : (m a).prev ≠ some d := by rw [h1]; exact hp d (by simp)
      refine ⟨?_, ?_, ?_⟩
      · rw [hprev d]; simp [h2, h1]
      · rw [hnext d]; simp [hpd, g2]
      · refine Linked_congr (fun b hb => ?_) g3
        have hpb : (m a).prev ≠ some b := by rw [h1]; exact hp b (by simp [hb])
        have hdb : d ≠ b := by rintro rfl; exact hnd.2.1 hb
        rw [hnext b, hprev b, h2]
        simp [hpb, hdb]
  | cons c rest ih =>
    intro p h hnd hp
    have hA := Linked_anchor h
    have h' : (m c).prev = p ∧ (m c).next = first_or (rest ++ a :: post) none ∧
        Linked m (some c) (rest ++ a :: post) none := h
    obtain ⟨h1, h2, h3⟩ := h'
    simp only [List.cons_append, List.nodup_cons] at hnd
    have hnc : (m a).next ≠ some c := by
      rw [hA.2]; intro e
      exact hnd.1 (by simp [first_or_mem e (by simp)])
    show (m' c).prev = p ∧ (m' c).next = first_or (rest ++ post) none ∧
      Linked m' (some c) (rest ++ post) none
    refine ⟨?_, ?_, ?_⟩
    · rw [hprev c]; simp [hnc, h1]
    · rw [hnext c]
      cases rest with
      | nil =>
        have : (m a).prev = some c := by rw [hA.1]; rfl
        simp [this, hA.2]
      | cons d rest' =>
        have hne : (m a).prev ≠ some c := by
          rw [hA.1]
          intro e
          simp only [last_or] at e
          have hcd : d ≠ c := by
            rintro rfl; exact hnd.1 (by simp)
          have := last_or_mem e (by simpa using hcd)
          exact hnd.1 (by simp [this])
        simp only [hne, if_false]
        rw [h2]; rfl
    · refine ih (some c) h3 hnd.2 ?_
      intro b hb
      simp only [ne_eq, Option.some.injEq]
      rintro rfl
      exact hnd.1 hb

/-! ## `tree::insert` -/

/-- Rebalancing keeps the invariant of a tree and its in-order sequence. -/
theorem balance_inv {T : Type} (cmp : T → T → Bool) (m : Mem T) (root : Option Nat) (t : BT)
    (x fuel : Nat) (hinv : TreeInv cmp m root t) (hx : x ∈ t.toList)
    (hfuel : t.toList.length ≤ fuel) :
    ∃ m' l' r', tree.balance fuel ⟨root, cmp⟩ m (some x) = .ok (⟨some x, cmp⟩, m') ∧
      TreeInv cmp m' (some x) (.node l' x r') ∧ (BT.node l' x r').toList = t.toList ∧
      SameData m m' ∧ (∀ a, a ∉ t.toList → m' a = m a) := by
  obtain ⟨m', l', r', h1, h2, h3, h4, h5⟩ :=
    balance_spec cmp m root t x fuel hinv.shape hinv.root_eq hinv.nodup hx hfuel
  refine ⟨m', l', r', h1, ⟨h2, rfl, ?_, ?_, ?_⟩, h3, h4, h5⟩
  · rw [h3]; exact hinv.nodup
  · rw [h3]; exact Ascending_of_SameData (fun a => (h4 a).1) hinv.sorted
  · rw [h3]; exact Linked_of_SameData h4 hinv.linked

/-- Rebalancing from the node at the lower end of a given path, on a tree that satisfies
its invariant. -/
theorem balance_inv_ctx {T : Type} (cmp : T → T → Bool) (m : Mem T) (root : Option Nat)
    (ctx : List Frame) (l r : BT) (x fuel : Nat)
    (hinv : TreeInv cmp m root (plug ctx (.node l x r)))
    (hfuel : (plug ctx (.node l x r)).toList.length ≤ fuel) :
    ∃ m' l' r', tree.balance fuel ⟨root, cmp⟩ m (some x) = .ok (⟨some x, cmp⟩, m') ∧
      TreeInv cmp m' (some x) (.node l' x r') ∧
      (BT.node l' x r').toList = (plug ctx (.node l x r)).toList ∧
      SameData m m' ∧ (∀ a, a ∉ (plug ctx (.node l x r)).toList → m' a = m a) ∧
      ((∀ f ∈ ctx, SizeInv m f.sib) → SizeInv m (.node l x r) →
        SizeInv m' (.node l' x r')) := by
  have h := (plug_iff m root ctx (.node l x r)).mp ⟨hinv.shape, hinv.root_eq⟩
  obtain ⟨m', l', r', h1, h2, h3, h4, h5, h6⟩ :=
    balance_ctx_sized cmp ctx.length ctx (Nat.le_refl _) m root l r x fuel
      (Nat.lt_of_lt_of_le (ctx_length_lt ctx l r x) hfuel) h.1 h.2 hinv.nodup
  refine ⟨m', l', r', h1, ⟨h2, rfl, ?_, ?_, ?_⟩, h3, h4, h5, h6⟩
  · rw [h3]; exact hinv.nodup
  · rw [h3]; exact Ascending_of_SameData (fun a => (h4 a).1) hinv.sorted
  · rw [h3]; exact Linked_of_SameData h4 hinv.linked

theorem Ascending_insert {T : Type} {cmp : T → T → Bool} {m : Mem T} {pre post : List Nat}
    {x : Nat} (h : Ascending cmp m (pre ++ post)) (hb : Below cmp m (m x).value pre)
    (ha : Above cmp m (m x).value post) : Ascending cmp m (pre ++ x :: post) := by
  unfold Ascending at h ⊢
  rw [List.pairwise_append] at h ⊢
  refine ⟨h.1, List.pairwise_cons.mpr ⟨fun b hb' => ha b hb', h.2.1⟩, ?_⟩
  intro a ha' b hb'
  simp only [List.mem_cons] at hb'
  rcases hb' with rfl | hb'
  · exact hb a ha'
  · exact h.2.2 a ha' b hb'

theorem plug_mem_ctx {ctx : List Frame} {t : BT} {a : Nat}
    (hnd : (plug ctx t).toList.Nodup) (ha : a ∈ t.toList) : a ∉ ctxList ctx := by
  have h := (plug_perm ctx t).nodup_iff.mp hnd
  rw [List.nodup_append] at h
  exact fun hc => h.2.2 ha hc

theorem not_mem_ctx_of_not_mem {ctx : List Frame} {t : BT} {x : Nat}
    (hx : x ∉ (plug ctx t).toList) : x ∉ ctxList ctx ∧ x ∉ t.toList := by
  have h := (plug_perm ctx t).mem_iff (a := x)
  simp only [List.mem_append] at h
  exact ⟨fun hc => hx (h.mpr (Or.inr hc)), fun hc => hx (h.mpr (Or.inl hc))⟩

theorem splice_right_frame {T : Type} (m : Mem T) (a x b : Nat) (hba : b ≠ a) (hbx : b ≠ x)
    (hn : (m a).next ≠ some b) : splice_right m a x b = m b := by
  unfold splice_right
  simp only [set_right_next, set_parent_next]
  cases h : (m a).next with
  | none => simp [set_prev_ne, set_next_ne, set_parent_ne, set_right_ne, hba, hbx]
  | some n =>
    have hbn : b ≠ n := by rintro rfl; exact hn h
    simp [set_prev_ne, set_next_ne, set_parent_ne, set_right_ne, hba, hbx, hbn]

theorem splice_left_frame {T : Type} (m : Mem T) (a x b : Nat) (hba : b ≠ a) (hbx : b ≠ x)
    (hn : (m a).prev ≠ some b) : splice_left m a x b = m b := by
  unfold splice_left
  simp only [set_left_prev, set_parent_prev]
  cases h : (m a).prev with
  | none => simp [set_prev_ne, set_next_ne, set_parent_ne, set_left_ne, hba, hbx]
  | some n =>
    have hbn : b ≠ n := by rintro rfl; exact hn h
    simp [set_prev_ne, set_next_ne, set_parent_ne, set_left_ne, hba, hbx, hbn]

/-- The list neighbours of a record of a closed list belong to the list. -/
theorem Linked_closed {T : Type} {m : Mem T} {xs : List Nat} {a b : Nat}
    (h : Linked m none xs none) (ha : a ∈ xs) :
    ((m a).next = some b → b ∈ xs) ∧ ((m a).prev = some b → b ∈ xs) := by
  obtain ⟨pre, post, rfl⟩ := List.append_of_mem ha
  obtain ⟨h1, h2⟩ := Linked_anchor h
  constructor
  · intro hb
    rw [h2] at hb
    have := first_or_mem hb (by simp)
    simp [this]
  · intro hb
    rw [h1] at hb
    have := last_or_mem hb (by simp)
    simp [this]

/-- Specification of `tree::insert` with the frame, the place of the new node next to the
anchor that `find_place` returns, and the cached sizes. -/
theorem tree_insert_sized {T : Type} {cmp : T → T → Bool} (hswo : StrictWeakOrder cmp)
    (m : Mem T) (root : Option Nat) (t : BT) (x fuel : Nat)
    (hinv : TreeInv cmp m root t) (hx : x ∉ t.toList)
    (hfresh : (m x).parent = none ∧ (m x).left = none ∧ (m x).right = none ∧
      (m x).next = none ∧ (m x).prev = none)
    (hne : ∀ b ∈ t.toList, equiv cmp (m b).value (m x).value = false)
    (hfuel : t.toList.length + 1 ≤ fuel) :
    ∃ m' t', tree.insert fuel ⟨root, cmp⟩ m x = .ok (⟨t'.ptr, cmp⟩, m') ∧
      TreeInv cmp m' t'.ptr t' ∧
      (∃ pre post, t.toList = pre ++ post ∧ t'.toList = pre ++ x :: post) ∧
      (∀ b, (m' b).value = (m b).value) ∧
      (∀ b, b ≠ x → b ∉ t.toList → m' b = m b) ∧
      (∀ a, tree.find_place ⟨root, cmp⟩ m fuel (m x).value = .ok (some a) →
        (cmp (m a).value (m x).value = true →
          ∃ pre post, t.toList = pre ++ a :: post ∧ t'.toList = pre ++ a :: x :: post) ∧
        (cmp (m a).value (m x).value = false →
          ∃ pre post, t.toList = pre ++ a :: post ∧ t'.toList = pre ++ x :: a :: post)) ∧
      (SizeInv m t → (m x).size = 1 → SizeInv m' t') := by
  by_cases hleaf : t = .leaf
  · subst hleaf
    have hr : root = none := hinv.root_eq
    subst hr
    refine ⟨m, .node .leaf x .leaf, rfl, ⟨?_, rfl, ?_, ?_, ?_⟩, ⟨[], [], rfl, rfl⟩, fun _ => rfl,
      fun _ _ _ => rfl, fun a ha => (by cases ha), fun _ h1 => ⟨by simp [h1, node_size, BT.ptr],
        trivial, trivial⟩⟩
    · exact ⟨hfresh.1, hfresh.2.1, hfresh.2.2.1, trivial, trivial⟩
    · simp [BT.toList]
    · simp [Ascending, BT.toList]
    · exact ⟨hfresh.2.2.2.2, hfresh.2.2.2.1, trivial⟩
  · obtain ⟨ctx, l, a, r, h1, h2, h3, h4, h5, h6⟩ :=
      find_place_spec hswo m root t fuel (m x).value hinv (by omega) hleaf
    have hroot : ∃ r0, root = some r0 := by
      rw [hinv.root_eq]
      cases t with
      | leaf => exact absurd rfl hleaf
      | node _ y _ => exact ⟨y, rfl⟩
    obtain ⟨r0, hr0⟩ := hroot
    subst hr0
    have hlist : t.toList = (ctxBefore ctx ++ l.toList) ++ a :: (r.toList ++ ctxAfter ctx) := by
      rw [h2, toList_plug]; simp [BT.toList]
    have hat : a ∈ t.toList := by rw [hlist]; simp
    have hnea := hne a hat
    have hax : a ≠ x := by rintro rfl; exact hx hat
    have hxctx := not_mem_ctx_of_not_mem (by rw [← h2]; exact hx : x ∉ (plug ctx (.node l a r)).toList)
    have hnd := hinv.nodup
    have hactx : a ∉ ctxList ctx :=
      plug_mem_ctx (by rw [← h2]; exact hnd) (by simp [BT.toList])
    have hshape := (plug_iff m (some r0) ctx (.node l a r)).mp
      ⟨by rw [← h2]; exact hinv.shape, by rw [← h2]; exact hinv.root_eq⟩
    obtain ⟨hctx, hpar, hleft, hright, hl, hr⟩ := hshape
    have hxl : x ∉ l.toList := fun h => hxctx.2 (by simp [BT.toList, h])
    have hxr : x ∉ r.toList := fun h => hxctx.2 (by simp [BT.toList, h])
    have hndsub := ((plug_perm ctx (.node l a r)).nodup_iff.mp (by rw [← h2]; exact hnd))
    have hal : a ∉ l.toList := by
      intro h
      have := (List.nodup_append.mp hndsub).1
      simp only [BT.toList] at this
      exact (List.nodup_append.mp this).2.2 h (by simp)
    have har : a ∉ r.toList := by
      intro h
      have := (List.nodup_append.mp hndsub).1
      simp only [BT.toList, List.nodup_append, List.nodup_cons] at this
      exact this.2.1.1 h
    cases hc1 : cmp (m a).value (m x).value with
    | true =>
      have hrl := h5 hc1
      subst hrl
      -- memory after the writes, and the shape with the new leaf
      have hfield : ∀ b, b ≠ a → b ≠ x → SameLinks m (splice_right m a x) b := by
        intro b hba hbx
        simp [SameLinks, splice_right_parent, splice_right_left, splice_right_right, hba, hbx]
      have hT1 : IsTree (splice_right m a x) none (plug ctx (.node l a (.node .leaf x .leaf))) ∧
          (some r0) = (plug ctx (.node l a (.node .leaf x .leaf))).ptr := by
        refine (plug_iff _ (some r0) ctx _).mpr ⟨?_, ?_, ?_, ?_, ?_, ?_⟩
        · refine IsCtx_congr (fun b hb => hfield b ?_ ?_) hctx
          · rintro rfl; exact hactx hb
          · rintro rfl; exact hxctx.1 hb
        · simp [splice_right_parent, hax, hpar]
        · simp [splice_right_left, hleft]
        · simp [splice_right_right, BT.ptr]
        · refine IsTree_congr (fun b hb => hfield b ?_ ?_) hl
          · rintro rfl; exact hal hb
          · rintro rfl; exact hxl hb
        · exact ⟨by simp [splice_right_parent], by simp [splice_right_left, hfresh.2.1, BT.ptr],
            by simp [splice_right_right, hax.symm, hfresh.2.2.1, BT.ptr], trivial, trivial⟩
      have hlist1 : (plug ctx (.node l a (.node .leaf x .leaf))).toList =
          (ctxBefore ctx ++ l.toList) ++ a :: x :: ctxAfter ctx := by
        rw [toList_plug]; simp [BT.toList]
      simp only [BT.toList, List.nil_append] at hlist h4
      have hinv1 : TreeInv cmp (splice_right m a x) (some r0)
          (plug ctx (.node l a (.node .leaf x .leaf))) := by
        refine ⟨hT1.1, hT1.2, ?_, ?_, ?_⟩
        · rw [hlist1]
          rw [hlist] at hnd hx
          have hperm : ((ctxBefore ctx ++ l.toList) ++ a :: x :: ctxAfter ctx).Perm
              (x :: ((ctxBefore ctx ++ l.toList) ++ a :: ctxAfter ctx)) := by
            have h0 : (((ctxBefore ctx ++ l.toList) ++ [a]) ++ x :: ctxAfter ctx).Perm
                (x :: (((ctxBefore ctx ++ l.toList) ++ [a]) ++ ctxAfter ctx)) :=
              List.perm_middle
            simpa [List.append_assoc] using h0
          exact hperm.nodup_iff.mpr (List.nodup_cons.mpr ⟨hx, hnd⟩)
        · rw [hlist1]
          refine Ascending_of_SameData (m := m) (fun b => (splice_right_value m a x b)) ?_
          have hasc := hinv.sorted
          rw [hlist] at hasc
          have hasc0 : Ascending cmp m (((ctxBefore ctx ++ l.toList) ++ [a]) ++ ctxAfter ctx) := by
            simpa [List.append_assoc] using hasc
          have : Ascending cmp m (((ctxBefore ctx ++ l.toList) ++ [a]) ++ x :: ctxAfter ctx) :=
            Ascending_insert hasc0
            (by
              intro b hb
              simp only [List.mem_append, List.mem_singleton] at hb
              rcases hb with hb | rfl
              · exact h3 b (by simpa using hb)
              · exact hc1)
            h4
          simpa [List.append_assoc] using this
        · rw [hlist1]
          have hlk := hinv.linked
          rw [hlist] at hlk hnd hx
          exact Linked_insert_after a x (ctxAfter ctx) (splice_right_next m a x)
            (splice_right_prev m a x) _ none hlk hnd hx
      have hplug : plug ctx (.node l a (.node .leaf x .leaf)) =
          plug (⟨false, a, l⟩ :: ctx) (.node .leaf x .leaf) := by simp [plug]
      obtain ⟨m', l', r', hb1, hb2, hb3', hb4, hb5', hb6⟩ :=
        balance_inv_ctx cmp (splice_right m a x) (some r0) (⟨false, a, l⟩ :: ctx) .leaf .leaf x
          fuel (by rw [← hplug]; exact hinv1)
          (by rw [← hplug, hlist1]; rw [hlist] at hfuel; simp at hfuel ⊢; omega)
      have hb3 : (BT.node l' x r').toList =
          (plug ctx (.node l a (.node .leaf x .leaf))).toList := by rw [hplug]; exact hb3'
      have hb5 : ∀ c, c ∉ (plug ctx (.node l a (.node .leaf x .leaf))).toList →
          m' c = splice_right m a x c := by rw [hplug]; exact hb5'
      have hsz : SizeInv m t → (m x).size = 1 → SizeInv m' (.node l' x r') := by
        intro hs h1
        rw [h2] at hs
        obtain ⟨g1, g2⟩ := SizeInv_plug ctx _ hs
        refine hb6 (fun f hf => ?_) ⟨by simp [splice_right_size, h1, node_size, BT.ptr],
          trivial, trivial⟩
        simp only [List.mem_cons] at hf
        rcases hf with rfl | hf
        · exact SizeInv_congr (fun b _ => splice_right_size m a x b) g1.2.1
        · exact SizeInv_congr (fun b _ => splice_right_size m a x b) (g2 f hf)
      have hframe : ∀ b, b ≠ x → b ∉ t.toList → m' b = m b := by
        intro b hbx hbt
        have hcl := Linked_closed (b := b) hinv.linked hat
        rw [hb5 b (by
          rw [hlist1]
          rw [hlist] at hbt
          simp only [List.mem_append, List.mem_cons, not_or] at hbt ⊢
          exact ⟨hbt.1, hbt.2.1, hbx, hbt.2.2⟩)]
        exact splice_right_frame m a x b (by rintro rfl; exact hbt hat) hbx
          (fun h => hbt (hcl.1 h))
      have hanchor : ∀ a', tree.find_place ⟨some r0, cmp⟩ m fuel (m x).value = .ok (some a') →
          (cmp (m a').value (m x).value = true →
            ∃ pre post, t.toList = pre ++ a' :: post ∧
              (BT.node l' x r').toList = pre ++ a' :: x :: post) ∧
          (cmp (m a').value (m x).value = false →
            ∃ pre post, t.toList = pre ++ a' :: post ∧
              (BT.node l' x r').toList = pre ++ x :: a' :: post) := by
        intro a' ha'
        rw [h1] at ha'
        cases ha'
        refine ⟨fun _ => ⟨ctxBefore ctx ++ l.toList, ctxAfter ctx, hlist, ?_⟩, fun h => ?_⟩
        · rw [hb3, hlist1]
        · rw [hc1] at h; cases h
      refine ⟨m', .node l' x r', ?_, hb2, ⟨(ctxBefore ctx ++ l.toList) ++ [a], ctxAfter ctx, ?_, ?_⟩, ?_,
        hframe, hanchor, hsz⟩
      · simp only [tree.insert, h1]
        simp only [equiv] at hnea
        simp only [hnea, hc1, insert_right, splice_right_right, if_true]
        exact hb1
      · rw [hlist]; simp
      · rw [hb3, hlist1]; simp
      · intro b; rw [(hb4 b).1, splice_right_value]
    | false =>
      have hc2 : cmp (m x).value (m a).value = true := by
        simp only [equiv, hc1] at hnea
        simpa using hnea
      have hll := h6 hc1 hc2
      subst hll
      have hfield : ∀ b, b ≠ a → b ≠ x → SameLinks m (splice_left m a x) b := by
        intro b hba hbx
        simp [SameLinks, splice_left_parent, splice_left_left, splice_left_right, hba, hbx]
      have hT1 : IsTree (splice_left m a x) none (plug ctx (.node (.node .leaf x .leaf) a r)) ∧
          (some r0) = (plug ctx (.node (.node .leaf x .leaf) a r)).ptr := by
        refine (plug_iff _ (some r0) ctx _).mpr ⟨?_, ?_, ?_, ?_, ?_, ?_⟩
        · refine IsCtx_congr (fun b hb => hfield b ?_ ?_) hctx
          · rintro rfl; exact hactx hb
          · rintro rfl; exact hxctx.1 hb
        · simp [splice_left_parent, hax, hpar]
        · simp [splice_left_left, BT.ptr]
        · simp [splice_left_right, hright]
        · exact ⟨by simp [splice_left_parent],
            by simp [splice_left_left, hax.symm, hfresh.2.1, BT.ptr],
            by simp [splice_left_right, hfresh.2.2.1, BT.ptr], trivial, trivial⟩
        · refine IsTree_congr (fun b hb => hfield b ?_ ?_) hr
          · rintro rfl; exact har hb
          · rintro rfl; exact hxr hb
      have hlist1 : (plug ctx (.node (.node .leaf x .leaf) a r)).toList =
          ctxBefore ctx ++ x :: a :: (r.toList ++ ctxAfter ctx) := by
        rw [toList_plug]; simp [BT.toList]
      simp only [BT.toList, List.append_nil] at hlist h3
      have hinv1 : TreeInv cmp (splice_left m a x) (some r0)
          (plug ctx (.node (.node .leaf x .leaf) a r)) := by
        refine ⟨hT1.1, hT1.2, ?_, ?_, ?_⟩
        · rw [hlist1]
          rw [hlist] at hnd hx
          have hperm : (ctxBefore ctx ++ x :: a :: (r.toList ++ ctxAfter ctx)).Perm
              (x :: (ctxBefore ctx ++ a :: (r.toList ++ ctxAfter ctx))) :=
            List.perm_middle
          exact hperm.nodup_iff.mpr (List.nodup_cons.mpr ⟨hx, hnd⟩)
        · rw [hlist1]
          refine Ascending_of_SameData (m := m) (fun b => (splice_left_value m a x b)) ?_
          have hasc := hinv.sorted
          rw [hlist] at hasc
          refine Ascending_insert hasc h3 ?_
          intro b hb
          simp only [List.mem_cons] at hb
          rcases hb with rfl | hb
          · exact hc2
          · exact h4 b hb
        · rw [hlist1]
          have hlk := hinv.linked
          rw [hlist] at hlk hnd hx
          refine Linked_insert_before a x _ (splice_left_prev m a x)
            (splice_left_next m a x) _ none hlk hnd hx (fun _ _ => by simp)
      have hplug : plug ctx (.node (.node .leaf x .leaf) a r) =
          plug (⟨true, a, r⟩ :: ctx) (.node .leaf x .leaf) := by simp [plug]
      obtain ⟨m', l', r', hb1, hb2, hb3', hb4, hb5', hb6⟩ :=
        balance_inv_ctx cmp (splice_left m a x) (some r0) (⟨true, a, r⟩ :: ctx) .leaf .leaf x
          fuel (by rw [← hplug]; exact hinv1)
          (by rw [← hplug, hlist1]; rw [hlist] at hfuel; simp at hfuel ⊢; omega)
      have hb3 : (BT.node l' x r').toList =
          (plug ctx (.node (.node .leaf x .leaf) a r)).toList := by rw [hplug]; exact hb3'
      have hb5 : ∀ c, c ∉ (plug ctx (.node (.node .leaf x .leaf) a r)).toList →
          m' c = splice_left m a x c := by rw [hplug]; exact hb5'
      have hsz : SizeInv m t → (m x).size = 1 → SizeInv m' (.node l' x r') := by
        intro hs h1
        rw [h2] at hs
        obtain ⟨g1, g2⟩ := SizeInv_plug ctx _ hs
        refine hb6 (fun f hf => ?_) ⟨by simp [splice_left_size, h1, node_size, BT.ptr],
          trivial, trivial⟩
        simp only [List.mem_cons] at hf
        rcases hf with rfl | hf
        · exact SizeInv_congr (fun b _ => splice_left_size m a x b) g1.2.2
        · exact SizeInv_congr (fun b _ => splice_left_size m a x b) (g2 f hf)
      have hframe : ∀ b, b ≠ x → b ∉ t.toList → m' b = m b := by
        intro b hbx hbt
        have hcl := Linked_closed (b := b) hinv.linked hat
        rw [hb5 b (by
          rw [hlist1]
          rw [hlist] at hbt
          simp only [List.mem_append, List.mem_cons, not_or] at hbt ⊢
          exact ⟨hbt.1, hbx, hbt.2.1, hbt.2.2⟩)]
        exact splice_left_frame m a x b (by rintro rfl; exact hbt hat) hbx
          (fun h => hbt (hcl.2 h))
      have hanchor : ∀ a', tree.find_place ⟨some r0, cmp⟩ m fuel (m x).value = .ok (some a') →
          (cmp (m a').value (m x).value = true →
            ∃ pre post, t.toList = pre ++ a' :: post ∧
              (BT.node l' x r').toList = pre ++ a' :: x :: post) ∧
          (cmp (m a').value (m x).value = false →
            ∃ pre post, t.toList = pre ++ a' :: post ∧
              (BT.node l' x r').toList = pre ++ x :: a' :: post) := by
        intro a' ha'
        rw [h1] at ha'
        cases ha'
        refine ⟨fun h => ?_, fun _ => ⟨ctxBefore ctx, r.toList ++ ctxAfter ctx, hlist, ?_⟩⟩
        · rw [hc1] at h; cases h
        · rw [hb3, hlist1]
      refine ⟨m', .node l' x r', ?_, hb2, ⟨ctxBefore ctx, a :: (r.toList ++ ctxAfter ctx), ?_, ?_⟩, ?_,
        hframe, hanchor, hsz⟩
      · simp only [tree.insert, h1]
        simp only [equiv] at hnea
        simp only [hc1, hc2, insert_left, splice_left_left, if_true]
        simpa using hb1
      · rw [hlist]
      · rw [hb3, hlist1]
      · intro b; rw [(hb4 b).1, splice_left_value]

/-- Specification of `tree::insert`, with the frame: records outside the tree other than
the new one are not written. -/
theorem tree_insert_full {T : Type} {cmp : T → T → Bool} (hswo : StrictWeakOrder cmp)
    (m : Mem T) (root : Option Nat) (t : BT) (x fuel : Nat)
    (hinv : TreeInv cmp m root t) (hx : x ∉ t.toList)
    (hfresh : (m x).parent = none ∧ (m x).left = none ∧ (m x).right = none ∧
      (m x).next = none ∧ (m x).prev = none)
    (hne : ∀ b ∈ t.toList, equiv cmp (m b).value (m x).value = false)
    (hfuel : t.toList.length + 1 ≤ fuel) :
    ∃ m' t', tree.insert fuel ⟨root, cmp⟩ m x = .ok (⟨t'.ptr, cmp⟩, m') ∧
      TreeInv cmp m' t'.ptr t' ∧
      (∃ pre post, t.toList = pre ++ post ∧ t'.toList = pre ++ x :: post) ∧
      (∀ b, (m' b).value = (m b).value) ∧
      (∀ b, b ≠ x → b ∉ t.toList → m' b = m b) := by
  obtain ⟨m', t', h1, h2, h3, h4, h5, _⟩ :=
    tree_insert_sized hswo m root t x fuel hinv hx hfresh hne hfuel
  exact ⟨m', t', h1, h2, h3, h4, h5⟩

theorem tree_insert_spec {T : Type} {cmp : T → T → Bool} (hswo : StrictWeakOrder cmp)
    (m : Mem T) (root : Option Nat) (t : BT) (x fuel : Nat)
    (hinv : TreeInv cmp m root t) (hx : x ∉ t.toList)
    (hfresh : (m x).parent = none ∧ (m x).left = none ∧ (m x).right = none ∧
      (m x).next = none ∧ (m x).prev = none)
    (hne : ∀ b ∈ t.toList, equiv cmp (m b).value (m x).value = false)
    (hfuel : t.toList.length + 1 ≤ fuel) :
    ∃ m' t', tree.insert fuel ⟨root, cmp⟩ m x = .ok (⟨t'.ptr, cmp⟩, m') ∧
      TreeInv cmp m' t'.ptr t' ∧
      (∃ pre post, t.toList = pre ++ post ∧ t'.toList = pre ++ x :: post) ∧
      (∀ b, (m' b).value = (m b).value) := by
  obtain ⟨m', t', h1, h2, h3, h4, _⟩ :=
    tree_insert_full hswo m root t x fuel hinv hx hfresh hne hfuel
  exact ⟨m', t', h1, h2, h3, h4⟩

/-! ## `tree::erase` -/

theorem erase_detach_sized {T : Type} (cmp : T → T → Bool) (m : Mem T) (root : Option Nat)
    (t : BT) (a fuel : Nat) (pre post : List Nat)
    (ht : IsTree m none t) (hroot : root = t.ptr) (hnd : t.toList.Nodup)
    (hlist : t.toList = pre ++ a :: post) (hfuel : t.toList.length ≤ fuel) :
    ∃ m' l' r', erase_detach fuel ⟨root, cmp⟩ m a = .ok (⟨some a, cmp⟩, m', r'.ptr) ∧
      (m' a).left = l'.ptr ∧ IsTree m' (some a) l' ∧ IsTree m' none r' ∧
      l'.toList = pre ∧ r'.toList = post ∧ SameData m m' ∧
      (∀ b, b ∉ t.toList → m' b = m b) ∧
      (SizeInv m t → SizeInv m' l' ∧ SizeInv m' r') := by
  obtain ⟨m3, l', r', h1, h2, h3, h4, h5, h6⟩ :=
    balance_spec_sized cmp m root t a fuel ht hroot hnd (by rw [hlist]; simp) hfuel
  have hsplit : l'.toList = pre ∧ r'.toList = post := by
    have e : l'.toList ++ a :: r'.toList = pre ++ a :: post := by
      rw [← hlist, ← h3]; rfl
    exact nodup_split_unique (by rw [e, ← hlist]; exact hnd) e
  have hnd' : (l'.toList ++ a :: r'.toList).Nodup := by
    have : (BT.node l' a r').toList.Nodup := by rw [h3]; exact hnd
    exact this
  simp only [List.nodup_append, List.nodup_cons, List.disjoint_cons_right] at hnd'
  obtain ⟨hndl, ⟨har, hndr⟩, hal, hlr⟩ := hnd'
  obtain ⟨g1, g2, g3, g4, g5⟩ := h2
  let m5 : Mem T := match r'.ptr with
    | none => set_right m3 a none
    | some r => set_parent (set_right m3 a none) r none
  have hm5links : ∀ b, b ≠ a → r'.ptr ≠ some b → SameLinks m3 m5 b := by
    intro b hba hbr
    simp only [m5]
    cases hr : r'.ptr with
    | none => simp [SameLinks, hba]
    | some r =>
      have : b ≠ r := by rintro rfl; exact hbr hr
      simp [SameLinks, hba, this]
  have hm5data : SameData m3 m5 := by
    intro b
    simp only [m5]
    cases hr : r'.ptr <;> simp
  have hframe : ∀ b, b ∉ t.toList → fix_size m5 (some a) b = m b := by
    intro b hb
    have hb' : b ∉ l'.toList ++ a :: r'.toList := by
      have e : (BT.node l' a r').toList = l'.toList ++ a :: r'.toList := rfl
      rw [← e, h3]; exact hb
    simp only [List.mem_append, List.mem_cons, not_or] at hb'
    have hbr : r'.ptr ≠ some b := BT.ptr_ne_of_not_mem hb'.2.2
    rw [fix_size_ne _ _ (by simpa using Ne.symm hb'.2.1), ← h5 b hb]
    simp only [m5]
    cases hr : r'.ptr with
    | none => exact set_right_ne _ _ hb'.2.1
    | some r =>
      have hbr' : b ≠ r := by rintro rfl; exact hbr hr
      show set_parent (set_right m3 a none) r none b = m3 b
      rw [set_parent_ne _ _ hbr', set_right_ne _ _ hb'.2.1]
  have hm5size : ∀ b, (m5 b).size = (m3 b).size := by
    intro b
    simp only [m5]
    cases hr : r'.ptr <;> simp
  have hsize : SizeInv m t → SizeInv (fix_size m5 (some a)) l' ∧
      SizeInv (fix_size m5 (some a)) r' := by
    intro hs
    have hs3 := h6 hs
    refine ⟨SizeInv_congr (fun b hb => ?_) hs3.2.1, SizeInv_congr (fun b hb => ?_) hs3.2.2⟩
    · rw [fix_size_ne _ _ (by simp only [ne_eq, Option.some.injEq]; rintro rfl; exact hal hb),
        hm5size]
    · rw [fix_size_ne _ _ (by simp only [ne_eq, Option.some.injEq]; rintro rfl; exact har hb),
        hm5size]
  refine ⟨fix_size m5 (some a), l', r', ?_, ?_, ?_, ?_, hsplit.1, hsplit.2, ?_, hframe, hsize⟩
  · simp only [erase_detach, h1, g3]
  · simp only [fix_size_left, m5]
    cases hr : r'.ptr <;> simp [g2]
  · refine IsTree_congr (fun b hb => ?_) g4
    have hba : b ≠ a := by rintro rfl; exact hal hb
    have hbr : r'.ptr ≠ some b := BT.ptr_ne_of_not_mem (fun h => hlr hb h)
    exact SameLinks_trans (hm5links b hba hbr) (fix_size_links _ _ _)
  · refine IsTree_reparent g5 (fun b hb => ?_) (fun b hb hne => ?_) hndr
    · have hba : b ≠ a := by rintro rfl; exact har (BT.ptr_mem hb)
      simp only [fix_size_parent, fix_size_left, fix_size_right, m5, hb]
      simp [hba]
    · have hba : b ≠ a := by rintro rfl; exact har hb
      exact SameLinks_trans (hm5links b hba hne) (fix_size_links _ _ _)
  · exact SameData_trans (SameData_trans h4 hm5data) (fix_size_data _ _)

theorem erase_detach_full {T : Type} (cmp : T → T → Bool) (m : Mem T) (root : Option Nat)
    (t : BT) (a fuel : Nat) (pre post : List Nat)
    (ht : IsTree m none t) (hroot : root = t.ptr) (hnd : t.toList.Nodup)
    (hlist : t.toList = pre ++ a :: post) (hfuel : t.toList.length ≤ fuel) :
    ∃ m' l' r', erase_detach fuel ⟨root, cmp⟩ m a = .ok (⟨some a, cmp⟩, m', r'.ptr) ∧
      (m' a).left = l'.ptr ∧ IsTree m' (some a) l' ∧ IsTree m' none r' ∧
      l'.toList = pre ∧ r'.toList = post ∧ SameData m m' ∧
      (∀ b, b ∉ t.toList → m' b = m b) := by
  obtain ⟨m', l', r', h1, h2, h3, h4, h5, h6, h7, h8, _⟩ :=
    erase_detach_sized cmp m root t a fuel pre post ht hroot hnd hlist hfuel
  exact ⟨m', l', r', h1, h2, h3, h4, h5, h6, h7, h8⟩

theorem erase_detach_spec {T : Type} (cmp : T → T → Bool) (m : Mem T) (root : Option Nat)
    (t : BT) (a fuel : Nat) (pre post : List Nat)
    (ht : IsTree m none t) (hroot : root = t.ptr) (hnd : t.toList.Nodup)
    (hlist : t.toList = pre ++ a :: post) (hfuel : t.toList.length ≤ fuel) :
    ∃ m' l' r', erase_detach fuel ⟨root, cmp⟩ m a = .ok (⟨some a, cmp⟩, m', r'.ptr) ∧
      (m' a).left = l'.ptr ∧ IsTree m' (some a) l' ∧ IsTree m' none r' ∧
      l'.toList = pre ∧ r'.toList = post ∧ SameData m m' := by
  obtain ⟨m', l', r', h1, h2, h3, h4, h5, h6, h7, _⟩ :=
    erase_detach_full cmp m root t a fuel pre post ht hroot hnd hlist hfuel
  exact ⟨m', l', r', h1, h2, h3, h4, h5, h6, h7⟩

theorem balance_none {T : Type} (fuel : Nat) (t : tree T) (m : Mem T) :
    tree.balance fuel t m none = .ok (t, m) := by
  cases fuel <;> simp [tree.balance]

theorem erase_join_sized {T : Type} (cmp : T → T → Bool) (m : Mem T) (l' r' : BT) (fuel : Nat)
    (hl : IsTree m none l') (hr : IsTree m none r') (hnd : (l'.toList ++ r'.toList).Nodup)
    (hne : ¬ (l'.ptr = none ∧ r'.ptr = none)) (hfuel : l'.toList.length ≤ fuel) :
    ∃ m' t', erase_join fuel ⟨l'.ptr, cmp⟩ m r'.ptr = .ok (⟨t'.ptr, cmp⟩, m') ∧
      IsTree m' none t' ∧ t'.toList = l'.toList ++ r'.toList ∧ SameData m m' ∧
      (∀ b, b ∉ l'.toList ++ r'.toList → m' b = m b) ∧
      (SizeInv m l' → SizeInv m r' → SizeInv m' t') := by
  have hlast := get_last_node_spec cmp m l'.ptr l' fuel hl rfl hfuel
  rw [List.nodup_append] at hnd
  obtain ⟨hndl, hndr, hdisj⟩ := hnd
  cases hl' : l' with
  | leaf =>
    subst hl'
    cases hr' : r' with
    | leaf => subst hr'; exact absurd ⟨rfl, rfl⟩ hne
    | node rl r rr =>
      subst hr'
      refine ⟨fix_size (set_parent m r none) (some r), .node rl r rr, ?_, ?_, by simp [BT.toList],
        ?_, ?_, ?_⟩
      · simp only [BT.ptr, BT.toList, last_or] at hlast
        simp only [erase_join, BT.ptr, hlast, balance_none]
      · refine IsTree_congr (fun b _ => ?_) hr
        have hp : (m r).parent = none := hr.1
        by_cases hb : b = r
        · subst hb; simp [SameLinks, hp]
        · simp [SameLinks, hb]
      · intro b; simp
      · intro b hb
        have hbr : b ≠ r := by rintro rfl; exact hb (by simp [BT.toList])
        rw [fix_size_ne _ _ (by simpa using Ne.symm hbr), set_parent_ne _ _ hbr]
      · intro _ hsr
        have hT : IsTree (set_parent m r none) none (.node rl r rr) := by
          refine IsTree_congr (fun b _ => ?_) hr
          have hp : (m r).parent = none := hr.1
          by_cases hb : b = r
          · subst hb; simp [SameLinks, hp]
          · simp [SameLinks, hb]
        exact fix_size_root hT hndr (SizeInv_congr (fun b _ => by simp) hsr.2.1)
          (SizeInv_congr (fun b _ => by simp) hsr.2.2)
  | node ll y lr =>
    rw [← hl']
    obtain ⟨init, z, hz⟩ : ∃ init z, l'.toList = init ++ [z] := by
      rcases List.eq_nil_or_concat l'.toList with h | ⟨init, z, h⟩
      · rw [hl'] at h; simp [BT.toList] at h
      · exact ⟨init, z, by simpa using h⟩
    have hzl : z ∈ l'.toList := by rw [hz]; simp
    have hlastz : last_or none l'.toList = some z := by
      rw [hz, last_or_append]; rfl
    rw [hlastz] at hlast
    obtain ⟨m8, l2, r2, h1, h2, h3, h4, h5, h6⟩ :=
      balance_spec_sized cmp m l'.ptr l' z fuel hl rfl hndl hzl hfuel
    have hr2 : r2 = .leaf := by
      have e : l2.toList ++ z :: r2.toList = init ++ z :: [] := by
        rw [← hz, ← h3]; rfl
      have := (nodup_split_unique (by rw [e, ← hz]; exact hndl) e).2
      exact BT.toList_eq_nil_iff.mp this
    subst hr2
    have hnd2 : (l2.toList ++ [z]).Nodup := by
      have : (BT.node l2 z .leaf).toList.Nodup := by rw [h3]; exact hndl
      simpa [BT.toList] using this
    have hzl2 : z ∉ l2.toList := by
      intro h
      exact (List.nodup_append.mp hnd2).2.2 h (by simp)
    have hl2sub : ∀ b ∈ l2.toList, b ∈ l'.toList := by
      intro b hb; rw [← h3]; simp [BT.toList, hb]
    have hzr : z ∉ r'.toList := fun h => hdisj hzl h
    have hr8 : IsTree m8 none r' :=
      IsTree_congr (fun b hb => SameLinks.of_eq (h5 b (fun h => hdisj h hb))) hr
    obtain ⟨g1, g2, g3, g4, _⟩ := h2
    let m10 : Mem T := match r'.ptr with
      | none => set_right m8 z r'.ptr
      | some rr => set_parent (set_right m8 z r'.ptr) rr (some z)
    have hm10links : ∀ b, b ≠ z → r'.ptr ≠ some b → SameLinks m8 m10 b := by
      intro b hbz hbr
      simp only [m10]
      cases hrp : r'.ptr with
      | none => simp [SameLinks, hbz]
      | some rr =>
        have : b ≠ rr := by rintro rfl; exact hbr hrp
        simp [SameLinks, hbz, this]
    have hm10data : SameData m8 m10 := by
      intro b
      simp only [m10]
      cases hrp : r'.ptr <;> simp
    have hrz : r'.ptr ≠ some z := BT.ptr_ne_of_not_mem hzr
    refine ⟨fix_size m10 (some z), .node l2 z r', ?_, ⟨?_, ?_, ?_, ?_, ?_⟩, ?_, ?_, ?_, ?_⟩
    · simp only [erase_join, hlast, h1]
      simp only [set_right_right, if_true]
      rfl
    · simp only [fix_size_parent, m10]
      cases hrp : r'.ptr with
      | none => simp [g1]
      | some rr =>
        have : z ≠ rr := by rintro rfl; exact hrz hrp
        simp [g1, this]
    · simp only [fix_size_left, m10]
      cases hrp : r'.ptr <;> simp [g2]
    · simp only [fix_size_right, m10]
      cases hrp : r'.ptr <;> simp
    · refine IsTree_congr (fun b hb => ?_) g4
      have hbz : b ≠ z := by rintro rfl; exact hzl2 hb
      have hbr : r'.ptr ≠ some b := BT.ptr_ne_of_not_mem (fun h => hdisj (hl2sub b hb) h)
      exact SameLinks_trans (hm10links b hbz hbr) (fix_size_links _ _ _)
    · refine IsTree_reparent hr8 (fun b hb => ?_) (fun b hb hne' => ?_) hndr
      · have hbz : b ≠ z := by rintro rfl; exact hzr (BT.ptr_mem hb)
        simp only [fix_size_parent, fix_size_left, fix_size_right, m10, hb]
        simp [hbz]
      · have hbz : b ≠ z := by rintro rfl; exact hzr hb
        exact SameLinks_trans (hm10links b hbz hne') (fix_size_links _ _ _)
    · have : l2.toList ++ [z] = l'.toList := by
        rw [← h3]; simp [BT.toList]
      rw [← this]; simp [BT.toList]
    · exact SameData_trans (SameData_trans h4 hm10data) (fix_size_data _ _)
    · intro b hb
      simp only [List.mem_append, not_or] at hb
      have hbz : b ≠ z := by rintro rfl; exact hb.1 hzl
      have hbr : r'.ptr ≠ some b := BT.ptr_ne_of_not_mem hb.2
      rw [fix_size_ne _ _ (by simpa using Ne.symm hbz), ← h5 b hb.1]
      simp only [m10]
      cases hrp : r'.ptr with
      | none => exact set_right_ne _ _ hbz
      | some rr =>
        have hbr' : b ≠ rr := by rintro rfl; exact hbr hrp
        show set_parent (set_right m8 z (some rr)) rr (some z) b = m8 b
        rw [set_parent_ne _ _ hbr', set_right_ne _ _ hbz]
    · intro hsl hsr
      have hs8 := h6 hsl
      have hm10size : ∀ b, (m10 b).size = (m8 b).size := by
        intro b
        simp only [m10]
        cases hrp : r'.ptr <;> simp
      have hsr8 : SizeInv m8 r' :=
        SizeInv_congr (fun b hb => by rw [h5 b (fun h => hdisj h hb)]) hsr
      have hT : IsTree m10 none (.node l2 z r') := by
        refine ⟨?_, ?_, ?_, ?_, ?_⟩
        · simp only [m10]
          cases hrp : r'.ptr with
          | none => simp [g1]
          | some rr =>
            have : z ≠ rr := by rintro rfl; exact hrz hrp
            simp [g1, this]
        · simp only [m10]
          cases hrp : r'.ptr <;> simp [g2]
        · simp only [m10]
          cases hrp : r'.ptr <;> simp
        · refine IsTree_congr (fun b hb => ?_) g4
          have hbz : b ≠ z := by rintro rfl; exact hzl2 hb
          have hbr : r'.ptr ≠ some b := BT.ptr_ne_of_not_mem (fun h => hdisj (hl2sub b hb) h)
          exact hm10links b hbz hbr
        · refine IsTree_reparent hr8 (fun b hb => ?_) (fun b hb hne' => ?_) hndr
          · have hbz : b ≠ z := by rintro rfl; exact hzr (BT.ptr_mem hb)
            simp only [m10, hb]
            simp [hbz]
          · have hbz : b ≠ z := by rintro rfl; exact hzr hb
            exact hm10links b hbz hne'
      have hndt : (BT.node l2 z r').toList.Nodup := by
        simp only [BT.toList, List.nodup_append, List.nodup_cons, List.disjoint_cons_right]
        refine ⟨(List.nodup_append.mp hnd2).1, ⟨hzr, hndr⟩, hzl2, ?_⟩
        intro b hb hbr
        exact hdisj (hl2sub b hb) hbr
      exact fix_size_root hT hndt (SizeInv_congr (fun b _ => hm10size b) hs8.2.1)
        (SizeInv_congr (fun b _ => hm10size b) hsr8)

theorem erase_join_full {T : Type} (cmp : T → T → Bool) (m : Mem T) (l' r' : BT) (fuel : Nat)
    (hl : IsTree m none l') (hr : IsTree m none r') (hnd : (l'.toList ++ r'.toList).Nodup)
    (hne : ¬ (l'.ptr = none ∧ r'.ptr = none)) (hfuel : l'.toList.length ≤ fuel) :
    ∃ m' t', erase_join fuel ⟨l'.ptr, cmp⟩ m r'.ptr = .ok (⟨t'.ptr, cmp⟩, m') ∧
      IsTree m' none t' ∧ t'.toList = l'.toList ++ r'.toList ∧ SameData m m' ∧
      (∀ b, b ∉ l'.toList ++ r'.toList → m' b = m b) := by
  obtain ⟨m', t', h1, h2, h3, h4, h5, _⟩ := erase_join_sized cmp m l' r' fuel hl hr hnd hne hfuel
  exact ⟨m', t', h1, h2, h3, h4, h5⟩

theorem erase_join_spec {T : Type} (cmp : T → T → Bool) (m : Mem T) (l' r' : BT) (fuel : Nat)
    (hl : IsTree m none l') (hr : IsTree m none r') (hnd : (l'.toList ++ r'.toList).Nodup)
    (hne : ¬ (l'.ptr = none ∧ r'.ptr = none)) (hfuel : l'.toList.length ≤ fuel) :
    ∃ m' t', erase_join fuel ⟨l'.ptr, cmp⟩ m r'.ptr = .ok (⟨t'.ptr, cmp⟩, m') ∧
      IsTree m' none t' ∧ t'.toList = l'.toList ++ r'.toList ∧ SameData m m' := by
  obtain ⟨m', t', h1, h2, h3, h4, _⟩ := erase_join_full cmp m l' r' fuel hl hr hnd hne hfuel
  exact ⟨m', t', h1, h2, h3, h4⟩

theorem Ascending_remove {T : Type} {cmp : T → T → Bool} {m : Mem T} {pre post : List Nat}
    {a : Nat} (h : Ascending cmp m (pre ++ a :: post)) : Ascending cmp m (pre ++ post) := by
  unfold Ascending at h ⊢
  refine h.sublist ?_
  exact List.Sublist.append (List.Sublist.refl _) (List.sublist_cons_self _ _)

theorem nodup_remove {pre post : List Nat} {a : Nat} (h : (pre ++ a :: post).Nodup) :
    (pre ++ post).Nodup :=
  h.sublist (List.Sublist.append (List.Sublist.refl _) (List.sublist_cons_self _ _))

theorem unlink_frame {T : Type} (m : Mem T) (a b : Nat) (hp : (m a).prev ≠ some b)
    (hn : (m a).next ≠ some b) : unlink m a b = m b := by
  unfold unlink
  cases h1 : (m a).prev with
  | none =>
    simp only []
    cases h2 : (m a).next with
    | none => rfl
    | some n =>
      have hbn : b ≠ n := by rintro rfl; exact hn h2
      show set_prev m n _ b = m b
      exact set_prev_ne _ _ hbn
  | some p =>
    have hbp : b ≠ p := by rintro rfl; exact hp h1
    simp only []
    cases h2 : (set_next m p (m a).next a).next with
    | none => exact set_next_ne _ _ hbp
    | some n =>
      have hbn : b ≠ n := by
        rintro rfl
        by_cases hap : a = p
        · subst hap
          simp at h2
          exact hn h2
        · simp [set_next_ne _ _ hap] at h2
          exact hn h2
      show set_prev (set_next m p (m a).next) n _ b = m b
      rw [set_prev_ne _ _ hbn, set_next_ne _ _ hbp]

/-- Specification of `tree::erase` with the frame and the cached sizes. -/
theorem tree_erase_sized {T : Type} {cmp : T → T → Bool} (hswo : StrictWeakOrder cmp)
    (m : Mem T) (root : Option Nat) (t : BT) (fuel : Nat) (v : T) (a : Nat)
    (hinv : TreeInv cmp m root t) (ha : a ∈ t.toList)
    (hea : equiv cmp (m a).value v = true) (hfuel : t.toList.length ≤ fuel) :
    ∃ m' t', tree.erase fuel ⟨root, cmp⟩ m v = .ok (⟨t'.ptr, cmp⟩, m') ∧
      TreeInv cmp m' t'.ptr t' ∧
      (∃ pre post, t.toList = pre ++ a :: post ∧ t'.toList = pre ++ post) ∧
      (∀ b, (m' b).value = (m b).value) ∧
      (∀ b, b ∉ t.toList → m' b = m b) ∧
      (SizeInv m t → SizeInv m' t') := by
  -- the descent finds `a`
  have hfp : tree.find_place ⟨root, cmp⟩ m fuel v = .ok (some a) := by
    rcases find_spec hswo m root t fuel v hinv hfuel with ⟨a', _, h2, h3, h4⟩ | ⟨_, h2⟩
    · have := equiv_unique hswo hinv.sorted h2 ha h3 hea
      rw [← this]; exact h4
    · have := h2 a ha
      rw [hea] at this; cases this
  obtain ⟨pre, post, hlist⟩ := List.append_of_mem ha
  have hnd := hinv.nodup
  have hcmp : cmp (m a).value v = false ∧ cmp v (m a).value = false := by
    simpa [equiv] using hea
  -- after the unlink
  have ht2 : IsTree (unlink m a) none t :=
    IsTree_congr (fun b _ => unlink_links m a b) hinv.shape
  have hlk2 : Linked (unlink m a) none (pre ++ post) none := by
    have hlk := hinv.linked
    rw [hlist] at hlk hnd
    exact Linked_unlink a post (unlink_next m a) (unlink_prev m a) pre none hlk hnd
      (fun _ _ => by simp)
  obtain ⟨m6, l', r', hd1, hd2, hd3, hd4, hd5, hd6, hd7, hd8, hd9⟩ :=
    erase_detach_sized cmp (unlink m a) root t a fuel pre post ht2 hinv.root_eq hnd hlist hfuel
  have hnd' : (l'.toList ++ a :: r'.toList).Nodup := by
    rw [hd5, hd6, ← hlist]; exact hnd
  have hndlr : (l'.toList ++ r'.toList).Nodup := nodup_remove hnd'
  have hdisj := (List.nodup_append.mp hndlr).2.2
  -- the promoted left subtree is re-rooted
  let m7 : Mem T := match l'.ptr with
    | none => m6
    | some r => set_parent m6 r none
  have hm7data : SameData m6 m7 := by
    intro b
    simp only [m7]
    cases l'.ptr <;> simp
  have hm7links : ∀ b, l'.ptr ≠ some b → SameLinks m6 m7 b := by
    intro b hb
    simp only [m7]
    cases hlp : l'.ptr with
    | none => exact SameLinks_refl _ _
    | some r =>
      have : b ≠ r := by rintro rfl; exact hb hlp
      simp [SameLinks, this]
  have hl7 : IsTree m7 none l' := by
    refine IsTree_reparent hd3 (fun b hb => ?_) (fun b _ hne => hm7links b hne)
      (List.nodup_append.mp hndlr).1
    simp only [m7, hb]
    simp
  have hr7 : IsTree m7 none r' :=
    IsTree_congr (fun b hb => hm7links b (BT.ptr_ne_of_not_mem (fun h => hdisj h hb))) hd4
  have hvalue7 : ∀ b, (m7 b).value = (m b).value := by
    intro b
    rw [(hm7data b).1, (hd7 b).1, unlink_value]
  have hframe7 : ∀ b, b ∉ t.toList → m7 b = m b := by
    intro b hb
    have hcl := Linked_closed (b := b) hinv.linked ha
    have hbl : b ∉ l'.toList := by
      rw [hd5]; intro h; exact hb (by rw [hlist]; simp [h])
    have e : m7 b = m6 b := by
      simp only [m7]
      cases hlp : l'.ptr with
      | none => rfl
      | some r =>
        have : b ≠ r := by rintro rfl; exact BT.ptr_ne_of_not_mem hbl hlp
        exact set_parent_ne _ _ this
    rw [e, hd8 b hb]
    exact unlink_frame m a b (fun h => hb (hcl.2 h)) (fun h => hb (hcl.1 h))
  have hsize7 : SizeInv m t → SizeInv m7 l' ∧ SizeInv m7 r' := by
    intro hs
    have hs2 : SizeInv (unlink m a) t := SizeInv_congr (fun b _ => unlink_size m a b) hs
    obtain ⟨g1, g2⟩ := hd9 hs2
    have hm7size : ∀ b, (m7 b).size = (m6 b).size := by
      intro b
      simp only [m7]
      cases l'.ptr <;> simp
    exact ⟨SizeInv_congr (fun b _ => hm7size b) g1, SizeInv_congr (fun b _ => hm7size b) g2⟩
  have hunfold : tree.erase fuel ⟨root, cmp⟩ m v =
      if l'.ptr = none ∧ r'.ptr = none then .ok (⟨l'.ptr, cmp⟩, m7)
      else erase_join fuel ⟨l'.ptr, cmp⟩ m7 r'.ptr := by
    simp only [tree.erase, hfp, hcmp, unlink_value, hd1]
    simp only [Bool.or_self, Bool.false_eq_true, if_false, Bool.not_false, Bool.and_self, if_true]
    rw [hd2]
  by_cases hboth : l'.ptr = none ∧ r'.ptr = none
  · have hl0 : l' = .leaf := BT.ptr_eq_none_iff.mp hboth.1
    have hr0 : r' = .leaf := BT.ptr_eq_none_iff.mp hboth.2
    subst hl0 hr0
    simp only [BT.toList] at hd5 hd6
    subst hd5 hd6
    refine ⟨m7, .leaf, ?_, ⟨trivial, rfl, by simp [BT.toList], by simp [Ascending, BT.toList],
      trivial⟩, ⟨[], [], hlist, rfl⟩, hvalue7, hframe7, fun _ => trivial⟩
    rw [hunfold, if_pos hboth]
  · have hfuel' : l'.toList.length ≤ fuel := by
      rw [hd5]; rw [hlist] at hfuel
      simp only [List.length_append, List.length_cons] at hfuel; omega
    obtain ⟨m', t', hj1, hj2, hj3, hj4, hj5, hj6⟩ :=
      erase_join_sized cmp m7 l' r' fuel hl7 hr7 hndlr hboth hfuel'
    have hvalue : ∀ b, (m' b).value = (m b).value := by
      intro b; rw [(hj4 b).1, hvalue7]
    have hframe : ∀ b, b ∉ t.toList → m' b = m b := by
      intro b hb
      rw [hj5 b (by
        rw [hd5, hd6]
        intro h
        refine hb ?_
        rw [hlist]
        simp only [List.mem_append, List.mem_cons] at h ⊢
        tauto), hframe7 b hb]
    refine ⟨m', t', ?_, ⟨hj2, rfl, ?_, ?_, ?_⟩, ⟨pre, post, hlist, ?_⟩, hvalue, hframe,
      fun hs => hj6 (hsize7 hs).1 (hsize7 hs).2⟩
    · rw [hunfold, if_neg hboth]; exact hj1
    · rw [hj3]; exact hndlr
    · rw [hj3, hd5, hd6]
      refine Ascending_of_SameData (m := m) hvalue ?_
      have := hinv.sorted
      rw [hlist] at this
      exact Ascending_remove this
    · rw [hj3, hd5, hd6]
      exact Linked_of_SameData (SameData_trans (SameData_trans hd7 hm7data) hj4) hlk2
    · rw [hj3, hd5, hd6]

/-- Specification of `tree::erase`, with the frame: records outside the tree are not
written. -/
theorem tree_erase_full {T : Type} {cmp : T → T → Bool} (hswo : StrictWeakOrder cmp)
    (m : Mem T) (root : Option Nat) (t : BT) (fuel : Nat) (v : T) (a : Nat)
    (hinv : TreeInv cmp m root t) (ha : a ∈ t.toList)
    (hea : equiv cmp (m a).value v = true) (hfuel : t.toList.length ≤ fuel) :
    ∃ m' t', tree.erase fuel ⟨root, cmp⟩ m v = .ok (⟨t'.ptr, cmp⟩, m') ∧
      TreeInv cmp m' t'.ptr t' ∧
      (∃ pre post, t.toList = pre ++ a :: post ∧ t'.toList = pre ++ post) ∧
      (∀ b, (m' b).value = (m b).value) ∧
      (∀ b, b ∉ t.toList → m' b = m b) := by
  obtain ⟨m', t', h1, h2, h3, h4, h5, _⟩ :=
    tree_erase_sized hswo m root t fuel v a hinv ha hea hfuel
  exact ⟨m', t', h1, h2, h3, h4, h5⟩

theorem tree_erase_spec {T : Type} {cmp : T → T → Bool} (hswo : StrictWeakOrder cmp)
    (m : Mem T) (root : Option Nat) (t : BT) (fuel : Nat) (v : T) (a : Nat)
    (hinv : TreeInv cmp m root t) (ha : a ∈ t.toList)
    (hea : equiv cmp (m a).value v = true) (hfuel : t.toList.length ≤ fuel) :
    ∃ m' t', tree.erase fuel ⟨root, cmp⟩ m v = .ok (⟨t'.ptr, cmp⟩, m') ∧
      TreeInv cmp m' t'.ptr t' ∧
      (∃ pre post, t.toList = pre ++ a :: post ∧ t'.toList = pre ++ post) ∧
      (∀ b, (m' b).value = (m b).value) := by
  obtain ⟨m', t', h1, h2, h3, h4, _⟩ := tree_erase_full hswo m root t fuel v a hinv ha hea hfuel
  exact ⟨m', t', h1, h2, h3, h4⟩

/-! ## The container -/

theorem TreeInv_congr {T : Type} {cmp : T → T → Bool} {m m' : Mem T} {root : Option Nat}
    {t : BT} (h : ∀ a ∈ t.toList, m' a = m a) (hinv : TreeInv cmp m root t) :
    TreeInv cmp m' root t := by
  refine ⟨IsTree_congr (fun a ha => SameLinks.of_eq (h a ha)) hinv.shape, hinv.root_eq,
    hinv.nodup, ?_, Linked_congr (fun a ha => by rw [h a ha]; exact ⟨rfl, rfl⟩) hinv.linked⟩
  have := hinv.sorted
  unfold Ascending at this ⊢
  refine List.Pairwise.imp_of_mem ?_ this
  intro a b ha hb hab
  rw [h a ha, h b hb]; exact hab

theorem find_none {T : Type} {cmp : T → T → Bool} (hswo : StrictWeakOrder cmp)
    (m : Mem T) (root : Option Nat) (t : BT) (fuel : Nat) (v : T)
    (hinv : TreeInv cmp m root t) (hfuel : t.toList.length ≤ fuel)
    (h : ∀ b ∈ t.toList, equiv cmp (m b).value v = false) :
    tree.find ⟨root, cmp⟩ m fuel v = .ok none := by
  rcases find_spec hswo m root t fuel v hinv hfuel with ⟨a, _, h2, h3, _⟩ | ⟨h1, _⟩
  · rw [h a h2] at h3; cases h3
  · exact h1

theorem find_some {T : Type} {cmp : T → T → Bool} (hswo : StrictWeakOrder cmp)
    (m : Mem T) (root : Option Nat) (t : BT) (fuel : Nat) (v : T) (a : Nat)
    (hinv : TreeInv cmp m root t) (hfuel : t.toList.length ≤ fuel)
    (ha : a ∈ t.toList) (hea : equiv cmp (m a).value v = true) :
    tree.find ⟨root, cmp⟩ m fuel v = .ok (some a) := by
  rcases find_spec hswo m root t fuel v hinv hfuel with ⟨a', h1, h2, h3, _⟩ | ⟨_, h2⟩
  · rw [← equiv_unique hswo hinv.sorted h2 ha h3 hea]; exact h1
  · rw [h2 a ha] at hea; cases hea

theorem tree_length_le {T : Type} {cmp : T → T → Bool} {m : Mem T} {root : Option Nat} {t : BT}
    {brk : Nat} (hinv : TreeInv cmp m root t) (hlt : ∀ a ∈ t.toList, a < brk) :
    t.toList.length ≤ brk :=
  length_le_of_nodup_lt hinv.nodup hlt

theorem left_seq_of_valid {L R : Type} (b : bimap L R) (tl : BT)
    (hcl : b.left_tree.comparator = b.left_cmp)
    (hT : TreeInv b.left_cmp b.lmem b.left_tree.root tl) (hlt : ∀ a ∈ tl.toList, a < b.brk) :
    b.left_seq = .ok tl.toList := by
  obtain ⟨⟨lroot, lcmp⟩, rt, cl, cr, n, lmem, rmem, brk⟩ := b
  simp only at hcl hT hlt
  subst hcl
  have hfuel : tl.toList.length ≤ brk + 1 := Nat.le_succ_of_le (tree_length_le hT hlt)
  simp only [bimap.left_seq, bimap.begin_left, bimap.fuel]
  rw [get_first_node_spec lcmp lmem lroot tl (brk + 1) hT.shape hT.root_eq hfuel]
  exact walk_spec lmem tl.toList none (brk + 1) hT.linked hfuel

theorem right_seq_of_valid {L R : Type} (b : bimap L R) (tr : BT)
    (hcr : b.right_tree.comparator = b.right_cmp)
    (hT : TreeInv b.right_cmp b.rmem b.right_tree.root tr) (hlt : ∀ a ∈ tr.toList, a < b.brk) :
    b.right_seq = .ok tr.toList := by
  obtain ⟨lt, ⟨rroot, rcmp⟩, cl, cr, n, lmem, rmem, brk⟩ := b
  simp only at hcr hT hlt
  subst hcr
  have hfuel : tr.toList.length ≤ brk + 1 := Nat.le_succ_of_le (tree_length_le hT hlt)
  simp only [bimap.right_seq, bimap.begin_right, bimap.fuel]
  rw [get_first_node_spec rcmp rmem rroot tr (brk + 1) hT.shape hT.root_eq hfuel]
  exact walk_spec rmem tr.toList none (brk + 1) hT.linked hfuel

theorem valid_empty {L R : Type} (lmem : Mem L) (rmem : Mem R) (cl : L → L → Bool)
    (cr : R → R → Bool) (hl : StrictWeakOrder cl) (hr : StrictWeakOrder cr) :
    (bimap.empty lmem rmem cl cr).valid := by
  refine ⟨hl, hr, rfl, rfl, .leaf, .leaf, ?_, ?_, List.Perm.refl _, ?_, rfl⟩
  · exact ⟨trivial, rfl, by simp [BT.toList], by simp [Ascending, BT.toList], trivial⟩
  · exact ⟨trivial, rfl, by simp [BT.toList], by simp [Ascending, BT.toList], trivial⟩
  · intro a ha; simp [BT.toList] at ha

/-! ## `bimap::insert` -/

theorem insert_fresh_full {L R : Type} (b : bimap L R) (l : L) (r : R) (tl tr : BT)
    (swoL : StrictWeakOrder b.left_cmp) (swoR : StrictWeakOrder b.right_cmp)
    (hcl : b.left_tree.comparator = b.left_cmp) (hcr : b.right_tree.comparator = b.right_cmp)
    (hTL : TreeInv b.left_cmp b.lmem b.left_tree.root tl)
    (hTR : TreeInv b.right_cmp b.rmem b.right_tree.root tr)
    (hltl : ∀ a ∈ tl.toList, a < b.brk) (hltr : ∀ a ∈ tr.toList, a < b.brk)
    (hl : ∀ a ∈ tl.toList, equiv b.left_cmp (b.lmem a).value l = false)
    (hr : ∀ a ∈ tr.toList, equiv b.right_cmp (b.rmem a).value r = false) :
    ∃ b' tl' tr', b.insert l r = .ok (b', ⟨some b.brk⟩) ∧
      b'.left_cmp = b.left_cmp ∧ b'.right_cmp = b.right_cmp ∧
      b'.left_tree.comparator = b.left_cmp ∧ b'.right_tree.comparator = b.right_cmp ∧
      TreeInv b.left_cmp b'.lmem b'.left_tree.root tl' ∧
      TreeInv b.right_cmp b'.rmem b'.right_tree.root tr' ∧
      (∃ pre post, tl.toList = pre ++ post ∧ tl'.toList = pre ++ b.brk :: post) ∧
      (∃ pre post, tr.toList = pre ++ post ∧ tr'.toList = pre ++ b.brk :: post) ∧
      b'.brk = b.brk + 1 ∧ b'.bimap_size = b.bimap_size + 1 ∧
      (∀ a, a ≠ b.brk →
        (b'.lmem a).value = (b.lmem a).value ∧ (b'.rmem a).value = (b.rmem a).value) ∧
      (b'.lmem b.brk).value = l ∧ (b'.rmem b.brk).value = r ∧
      (∀ a, a ≠ b.brk → a ∉ tl.toList → a ∉ tr.toList →
        b'.lmem a = b.lmem a ∧ b'.rmem a = b.rmem a) := by
  obtain ⟨⟨lroot, lcmp⟩, ⟨rroot, rcmp⟩, cl, cr, n, lmem, rmem, brk⟩ := b
  simp only at hcl hcr hTL hTR hltl hltr hl hr swoL swoR
  subst hcl hcr
  have hfl : tl.toList.length ≤ brk := tree_length_le hTL hltl
  have hfr : tr.toList.length ≤ brk := tree_length_le hTR hltr
  have hfindl := find_none swoL lmem lroot tl (brk + 1) l hTL (by omega) hl
  have hfindr := find_none swoR rmem rroot tr (brk + 1) r hTR (by omega) hr
  have hbl : brk ∉ tl.toList := fun h => Nat.lt_irrefl _ (hltl brk h)
  have hbr : brk ∉ tr.toList := fun h => Nat.lt_irrefl _ (hltr brk h)
  -- the memories with the new record
  have hupl : ∀ a, a ≠ brk → Function.update lmem brk (base_node.new l) a = lmem a :=
    fun a ha => Function.update_noteq ha _ _
  have hupr : ∀ a, a ≠ brk → Function.update rmem brk (base_node.new r) a = rmem a :=
    fun a ha => Function.update_noteq ha _ _
  have hTL1 : TreeInv lcmp (Function.update lmem brk (base_node.new l)) lroot tl :=
    TreeInv_congr (fun a ha => hupl a (by rintro rfl; exact hbl ha)) hTL
  have hTR1 : TreeInv rcmp (Function.update rmem brk (base_node.new r)) rroot tr :=
    TreeInv_congr (fun a ha => hupr a (by rintro rfl; exact hbr ha)) hTR
  obtain ⟨lmem', tl', hi1, hi2, hi3, hi4, hi5⟩ :=
    tree_insert_full swoL (Function.update lmem brk (base_node.new l)) lroot tl brk (brk + 2)
      hTL1 hbl (by simp [base_node.new])
      (by
        intro a ha
        have hne : a ≠ brk := by rintro rfl; exact hbl ha
        rw [hupl a hne]
        simpa [base_node.new] using hl a ha)
      (by omega)
  obtain ⟨rmem', tr', hj1, hj2, hj3, hj4, hj5⟩ :=
    tree_insert_full swoR (Function.update rmem brk (base_node.new r)) rroot tr brk (brk + 2)
      hTR1 hbr (by simp [base_node.new])
      (by
        intro a ha
        have hne : a ≠ brk := by rintro rfl; exact hbr ha
        rw [hupr a hne]
        simpa [base_node.new] using hr a ha)
      (by omega)
  refine ⟨⟨⟨tl'.ptr, lcmp⟩, ⟨tr'.ptr, rcmp⟩, lcmp, rcmp, n + 1, lmem', rmem', brk + 1⟩, tl', tr',
    ?_, rfl, rfl, rfl, rfl, hi2, hj2, hi3, hj3, rfl, rfl, ?_, ?_, ?_, ?_⟩
  · simp only [bimap.insert, bimap.fuel, hfindl, hfindr, bimap.insert_new, hi1, hj1]
  · intro a ha
    exact ⟨by rw [hi4 a, hupl a ha], by rw [hj4 a, hupr a ha]⟩
  · show (lmem' brk).value = l
    rw [hi4 brk]; simp [base_node.new]
  · show (rmem' brk).value = r
    rw [hj4 brk]; simp [base_node.new]
  · intro a ha hal har
    exact ⟨(hi5 a ha hal).trans (hupl a ha), (hj5 a ha har).trans (hupr a ha)⟩

theorem insert_fresh {L R : Type} (b : bimap L R) (l : L) (r : R) (tl tr : BT)
    (swoL : StrictWeakOrder b.left_cmp) (swoR : StrictWeakOrder b.right_cmp)
    (hcl : b.left_tree.comparator = b.left_cmp) (hcr : b.right_tree.comparator = b.right_cmp)
    (hTL : TreeInv b.left_cmp b.lmem b.left_tree.root tl)
    (hTR : TreeInv b.right_cmp b.rmem b.right_tree.root tr)
    (hltl : ∀ a ∈ tl.toList, a < b.brk) (hltr : ∀ a ∈ tr.toList, a < b.brk)
    (hl : ∀ a ∈ tl.toList, equiv b.left_cmp (b.lmem a).value l = false)
    (hr : ∀ a ∈ tr.toList, equiv b.right_cmp (b.rmem a).value r = false) :
    ∃ b' tl' tr', b.insert l r = .ok (b', ⟨some b.brk⟩) ∧
      b'.left_cmp = b.left_cmp ∧ b'.right_cmp = b.right_cmp ∧
      b'.left_tree.comparator = b.left_cmp ∧ b'.right_tree.comparator = b.right_cmp ∧
      TreeInv b.left_cmp b'.lmem b'.left_tree.root tl' ∧
      TreeInv b.right_cmp b'.rmem b'.right_tree.root tr' ∧
      (∃ pre post, tl.toList = pre ++ post ∧ tl'.toList = pre ++ b.brk :: post) ∧
      (∃ pre post, tr.toList = pre ++ post ∧ tr'.toList = pre ++ b.brk :: post) ∧
      b'.brk = b.brk + 1 ∧ b'.bimap_size = b.bimap_size + 1 ∧
      (∀ a, a ≠ b.brk →
        (b'.lmem a).value = (b.lmem a).value ∧ (b'.rmem a).value = (b.rmem a).value) ∧
      (b'.lmem b.brk).value = l ∧ (b'.rmem b.brk).value = r := by
  obtain ⟨b', tl', tr', h1, h2, h3, h4, h5, h6, h7, h8, h9, h10, h11, h12, h13, h14, _⟩ :=
    insert_fresh_full b l r tl tr swoL swoR hcl hcr hTL hTR hltl hltr hl hr
  exact ⟨b', tl', tr', h1, h2, h3, h4, h5, h6, h7, h8, h9, h10, h11, h12, h13, h14⟩

/-- Validity in unfolded form, with the shapes as data. -/
theorem valid_intro {L R : Type} (b : bimap L R) (tl tr : BT)
    (swoL : StrictWeakOrder b.left_cmp) (swoR : StrictWeakOrder b.right_cmp)
    (hcl : b.left_tree.comparator = b.left_cmp) (hcr : b.right_tree.comparator = b.right_cmp)
    (hTL : TreeInv b.left_cmp b.lmem b.left_tree.root tl)
    (hTR : TreeInv b.right_cmp b.rmem b.right_tree.root tr)
    (hperm : tl.toList.Perm tr.toList) (hlt : ∀ a ∈ tl.toList, a < b.brk)
    (hsize : b.bimap_size = tl.toList.length) : b.valid :=
  ⟨swoL, swoR, hcl, hcr, tl, tr, hTL, hTR, hperm, hlt, hsize⟩

theorem insert_fresh_valid_full {L R : Type} (b : bimap L R) (l : L) (r : R) (ls rs : List Nat)
    (hv : b.valid) (hls : b.left_seq = .ok ls) (hrs : b.right_seq = .ok rs)
    (hl : ∀ a ∈ ls, equiv b.left_cmp (b.lmem a).value l = false)
    (hr : ∀ a ∈ rs, equiv b.right_cmp (b.rmem a).value r = false) :
    ∃ b', b.insert l r = .ok (b', ⟨some b.brk⟩) ∧ b'.valid ∧
      b'.left_cmp = b.left_cmp ∧ b'.right_cmp = b.right_cmp ∧
      b'.bimap_size = b.bimap_size + 1 ∧ b.brk ∉ ls ∧ b.brk ∉ rs ∧
      (∃ pre post, ls = pre ++ post ∧ b'.left_seq = .ok (pre ++ b.brk :: post)) ∧
      (∃ pre post, rs = pre ++ post ∧ b'.right_seq = .ok (pre ++ b.brk :: post)) ∧
      (∀ a, a ≠ b.brk →
        (b'.lmem a).value = (b.lmem a).value ∧ (b'.rmem a).value = (b.rmem a).value) ∧
      (b'.lmem b.brk).value = l ∧ (b'.rmem b.brk).value = r ∧
      b'.brk = b.brk + 1 ∧
      (∀ a, a ≠ b.brk → a ∉ ls → b'.lmem a = b.lmem a ∧ b'.rmem a = b.rmem a) := by
  obtain ⟨swoL, swoR, hcl, hcr, tl, tr, hTL, hTR, hperm, hlt, hsize⟩ := hv
  have hltr : ∀ a ∈ tr.toList, a < b.brk := fun a ha => hlt a (hperm.mem_iff.mpr ha)
  have e1 := left_seq_of_valid b tl hcl hTL hlt
  have e2 := right_seq_of_valid b tr hcr hTR hltr
  rw [hls] at e1; rw [hrs] at e2
  cases e1; cases e2
  obtain ⟨b', tl', tr', h1, h2, h3, h4, h5, h6, h7, ⟨p1, q1, h8, h8'⟩, ⟨p2, q2, h9, h9'⟩, h10, h11,
    h12, h13, h14, h15⟩ := insert_fresh_full b l r tl tr swoL swoR hcl hcr hTL hTR hlt hltr hl hr
  have hperm' : tl'.toList.Perm tr'.toList := by
    rw [h8', h9']
    have a1 : (p1 ++ b.brk :: q1).Perm (b.brk :: tl.toList) := by
      rw [h8]; exact List.perm_middle
    have a2 : (p2 ++ b.brk :: q2).Perm (b.brk :: tr.toList) := by
      rw [h9]; exact List.perm_middle
    exact a1.trans ((List.Perm.cons _ hperm).trans a2.symm)
  have hlt' : ∀ a ∈ tl'.toList, a < b'.brk := by
    intro a ha
    rw [h10]
    rw [h8'] at ha
    simp only [List.mem_append, List.mem_cons] at ha
    have : a = b.brk ∨ a ∈ tl.toList := by
      rw [h8]; simp only [List.mem_append]; tauto
    rcases this with rfl | h
    · exact Nat.lt_succ_self _
    · exact Nat.lt_succ_of_lt (hlt a h)
  have hsize' : b'.bimap_size = tl'.toList.length := by
    rw [h11, hsize, h8', h8]; simp only [List.length_append, List.length_cons]; omega
  have hltr' : ∀ a ∈ tr'.toList, a < b'.brk := fun a ha => hlt' a (hperm'.mem_iff.mpr ha)
  have hTL' : TreeInv b'.left_cmp b'.lmem b'.left_tree.root tl' := by rw [h2]; exact h6
  have hTR' : TreeInv b'.right_cmp b'.rmem b'.right_tree.root tr' := by rw [h3]; exact h7
  refine ⟨b', h1, valid_intro b' tl' tr' (by rw [h2]; exact swoL) (by rw [h3]; exact swoR)
    (by rw [h4, h2]) (by rw [h5, h3]) hTL' hTR' hperm' hlt' hsize', h2, h3, h11,
    fun h => Nat.lt_irrefl _ (hlt _ h), fun h => Nat.lt_irrefl _ (hltr _ h),
    ⟨p1, q1, h8, ?_⟩, ⟨p2, q2, h9, ?_⟩, h12, h13, h14, h10,
    fun a ha hal => h15 a ha hal (fun h => hal (hperm.mem_iff.mpr h))⟩
  · rw [left_seq_of_valid b' tl' (by rw [h4, h2]) hTL' hlt', h8']
  · rw [right_seq_of_valid b' tr' (by rw [h5, h3]) hTR' hltr', h9']

theorem insert_fresh_valid {L R : Type} (b : bimap L R) (l : L) (r : R) (ls rs : List Nat)
    (hv : b.valid) (hls : b.left_seq = .ok ls) (hrs : b.right_seq = .ok rs)
    (hl : ∀ a ∈ ls, equiv b.left_cmp (b.lmem a).value l = false)
    (hr : ∀ a ∈ rs, equiv b.right_cmp (b.rmem a).value r = false) :
    ∃ b', b.insert l r = .ok (b', ⟨some b.brk⟩) ∧ b'.valid ∧
      b'.left_cmp = b.left_cmp ∧ b'.right_cmp = b.right_cmp ∧
      b'.bimap_size = b.bimap_size + 1 ∧ b.brk ∉ ls ∧ b.brk ∉ rs ∧
      (∃ pre post, ls = pre ++ post ∧ b'.left_seq = .ok (pre ++ b.brk :: post)) ∧
      (∃ pre post, rs = pre ++ post ∧ b'.right_seq = .ok (pre ++ b.brk :: post)) ∧
      (∀ a, a ≠ b.brk →
        (b'.lmem a).value = (b.lmem a).value ∧ (b'.rmem a).value = (b.rmem a).value) ∧
      (b'.lmem b.brk).value = l ∧ (b'.rmem b.brk).value = r := by
  obtain ⟨b', h1, h2, h3, h4, h5, h6, h7, h8, h9, h10, h11, h12, _⟩ :=
    insert_fresh_valid_full b l r ls rs hv hls hrs hl hr
  exact ⟨b', h1, h2, h3, h4, h5, h6, h7, h8, h9, h10, h11, h12⟩

theorem insert_collision {L R : Type} (b : bimap L R) (l : L) (r : R) (ls rs : List Nat)
    (hv : b.valid) (hls : b.left_seq = .ok ls) (hrs : b.right_seq = .ok rs)
    (h : (∃ a ∈ ls, equiv b.left_cmp (b.lmem a).value l = true) ∨
      (∃ a ∈ rs, equiv b.right_cmp (b.rmem a).value r = true)) :
    b.insert l r = .ok (b, b.end_left) := by
  obtain ⟨swoL, swoR, hcl, hcr, tl, tr, hTL, hTR, hperm, hlt, hsize⟩ := hv
  have hltr : ∀ a ∈ tr.toList, a < b.brk := fun a ha => hlt a (hperm.mem_iff.mpr ha)
  have e1 := left_seq_of_valid b tl hcl hTL hlt
  have e2 := right_seq_of_valid b tr hcr hTR hltr
  rw [hls] at e1; rw [hrs] at e2
  cases e1; cases e2
  obtain ⟨⟨lroot, lcmp⟩, ⟨rroot, rcmp⟩, cl, cr, n, lmem, rmem, brk⟩ := b
  simp only at hcl hcr hTL hTR hlt hltr h swoL swoR
  subst hcl hcr
  have hfl : tl.toList.length ≤ brk := tree_length_le hTL hlt
  have hfr : tr.toList.length ≤ brk := tree_length_le hTR hltr
  rcases find_spec swoL lmem lroot tl (brk + 1) l hTL (by omega) with
    ⟨a, h1, _, _, _⟩ | ⟨h1, h2⟩
  · simp only [bimap.insert, bimap.fuel, h1]
  · rcases h with ⟨a, ha, hea⟩ | ⟨a, ha, hea⟩
    · rw [h2 a ha] at hea; cases hea
    · have h3 := find_some swoR rmem rroot tr (brk + 1) r a hTR (by omega) ha hea
      simp only [bimap.insert, bimap.fuel, h1, h3]

/-! ## `bimap::erase_left`, `bimap::erase_right` and the lookups -/

theorem erase_middle {pre post : List Nat} {a : Nat} (hnd : (pre ++ a :: post).Nodup) :
    (pre ++ a :: post).erase a = pre ++ post := by
  have ha : a ∉ pre := by
    intro h
    exact (List.nodup_append.mp hnd).2.2 h (by simp)
  rw [List.erase_append_right _ ha]
  simp

theorem equiv_self {T : Type} {cmp : T → T → Bool} (hswo : StrictWeakOrder cmp) (x : T) :
    equiv cmp x x = true := by
  simp [equiv, hswo.irrefl]

theorem perm_remove {pre post pre' post' : List Nat} {a : Nat}
    (h : (pre ++ a :: post).Perm (pre' ++ a :: post')) : (pre ++ post).Perm (pre' ++ post') := by
  have h1 : (a :: (pre ++ post)).Perm (pre ++ a :: post) := List.perm_middle.symm
  have h2 : (pre' ++ a :: post').Perm (a :: (pre' ++ post')) := List.perm_middle
  exact ((h1.trans h).trans h2).cons_inv

theorem erase_left_present_full {L R : Type} (b : bimap L R) (k : L) (a : Nat) (ls rs : List Nat)
    (hv : b.valid) (hls : b.left_seq = .ok ls) (hrs : b.right_seq = .ok rs)
    (ha : a ∈ ls) (hea : equiv b.left_cmp (b.lmem a).value k = true) :
    ∃ b', b.erase_left k = .ok (b', true) ∧ b'.valid ∧
      b'.left_cmp = b.left_cmp ∧ b'.right_cmp = b.right_cmp ∧
      b'.bimap_size + 1 = b.bimap_size ∧
      b'.left_seq = .ok (ls.erase a) ∧ b'.right_seq = .ok (rs.erase a) ∧
      (∀ c, (b'.lmem c).value = (b.lmem c).value ∧ (b'.rmem c).value = (b.rmem c).value) ∧
      b'.brk = b.brk ∧ (∀ c, c ∉ ls → b'.lmem c = b.lmem c ∧ b'.rmem c = b.rmem c) := by
  obtain ⟨swoL, swoR, hcl, hcr, tl, tr, hTL, hTR, hperm, hlt, hsize⟩ := hv
  have hltr : ∀ a ∈ tr.toList, a < b.brk := fun a ha => hlt a (hperm.mem_iff.mpr ha)
  have e1 := left_seq_of_valid b tl hcl hTL hlt
  have e2 := right_seq_of_valid b tr hcr hTR hltr
  rw [hls] at e1; rw [hrs] at e2
  cases e1; cases e2
  obtain ⟨⟨lroot, lcmp⟩, ⟨rroot, rcmp⟩, cl, cr, n, lmem, rmem, brk⟩ := b
  simp only at hcl hcr hTL hTR hlt hltr hea swoL swoR hsize
  subst hcl hcr
  have hfl : tl.toList.length ≤ brk := tree_length_le hTL hlt
  have hfr : tr.toList.length ≤ brk := tree_length_le hTR hltr
  have har : a ∈ tr.toList := hperm.mem_iff.mp ha
  have hfind := find_some swoL lmem lroot tl (brk + 1) k a hTL (by omega) ha hea
  obtain ⟨rmem', tr', hr1, hr2, ⟨p2, q2, hr3, hr3'⟩, hr4, hr5⟩ :=
    tree_erase_full swoR rmem rroot tr (brk + 1) (rmem a).value a hTR har
      (equiv_self swoR _) (by omega)
  obtain ⟨lmem', tl', hl1, hl2, ⟨p1, q1, hl3, hl3'⟩, hl4, hl5⟩ :=
    tree_erase_full swoL lmem lroot tl (brk + 1) k a hTL ha hea (by omega)
  have hperm' : tl'.toList.Perm tr'.toList := by
    rw [hl3', hr3']
    rw [hl3, hr3] at hperm
    exact perm_remove hperm
  have hlt' : ∀ c ∈ tl'.toList, c < brk := by
    intro c hc
    refine hlt c ?_
    rw [hl3]; rw [hl3'] at hc
    simp only [List.mem_append, List.mem_cons] at hc ⊢
    tauto
  have hltr' : ∀ c ∈ tr'.toList, c < brk := fun c hc => hlt' c (hperm'.mem_iff.mpr hc)
  have hlen : tl.toList.length = tl'.toList.length + 1 := by
    rw [hl3, hl3']; simp only [List.length_append, List.length_cons]; omega
  have hv' : bimap.valid (⟨⟨tl'.ptr, lcmp⟩, ⟨tr'.ptr, rcmp⟩, lcmp, rcmp, n - 1, lmem', rmem', brk⟩ :
      bimap L R) :=
    ⟨swoL, swoR, rfl, rfl, tl', tr', hl2, hr2, hperm', hlt', by
      show n - 1 = tl'.toList.length
      omega⟩
  refine ⟨⟨⟨tl'.ptr, lcmp⟩, ⟨tr'.ptr, rcmp⟩, lcmp, rcmp, n - 1, lmem', rmem', brk⟩, ?_, hv', rfl,
    rfl, ?_, ?_, ?_, fun c => ⟨hl4 c, hr4 c⟩, rfl, ?_⟩
  · simp only [bimap.erase_left, bimap.at_left, bimap.fuel, hfind, hr1, hl1]
  · show n - 1 + 1 = n
    omega
  · rw [left_seq_of_valid _ tl' rfl hl2 hlt', hl3', hl3, erase_middle (by rw [← hl3]; exact hTL.nodup)]
  · rw [right_seq_of_valid _ tr' rfl hr2 hltr', hr3', hr3,
      erase_middle (by rw [← hr3]; exact hTR.nodup)]
  · intro c hc
    exact ⟨hl5 c hc, hr5 c (fun h => hc (hperm.mem_iff.mpr h))⟩

theorem erase_right_present_full {L R : Type} (b : bimap L R) (k : R) (a : Nat) (ls rs : List Nat)
    (hv : b.valid) (hls : b.left_seq = .ok ls) (hrs : b.right_seq = .ok rs)
    (ha : a ∈ rs) (hea : equiv b.right_cmp (b.rmem a).value k = true) :
    ∃ b', b.erase_right k = .ok (b', true) ∧ b'.valid ∧
      b'.left_cmp = b.left_cmp ∧ b'.right_cmp = b.right_cmp ∧
      b'.bimap_size + 1 = b.bimap_size ∧
      b'.left_seq = .ok (ls.erase a) ∧ b'.right_seq = .ok (rs.erase a) ∧
      (∀ c, (b'.lmem c).value = (b.lmem c).value ∧ (b'.rmem c).value = (b.rmem c).value) ∧
      b'.brk = b.brk ∧ (∀ c, c ∉ ls → b'.lmem c = b.lmem c ∧ b'.rmem c = b.rmem c) := by
  obtain ⟨swoL, swoR, hcl, hcr, tl, tr, hTL, hTR, hperm, hlt, hsize⟩ := hv
  have hltr : ∀ a ∈ tr.toList, a < b.brk := fun a ha => hlt a (hperm.mem_iff.mpr ha)
  have e1 := left_seq_of_valid b tl hcl hTL hlt
  have e2 := right_seq_of_valid b tr hcr hTR hltr
  rw [hls] at e1; rw [hrs] at e2
  cases e1; cases e2
  obtain ⟨⟨lroot, lcmp⟩, ⟨rroot, rcmp⟩, cl, cr, n, lmem, rmem, brk⟩ := b
  simp only at hcl hcr hTL hTR hlt hltr hea swoL swoR hsize
  subst hcl hcr
  have hfl : tl.toList.length ≤ brk := tree_length_le hTL hlt
  have hfr : tr.toList.length ≤ brk := tree_length_le hTR hltr
  have hal : a ∈ tl.toList := hperm.mem_iff.mpr ha
  have hfind := find_some swoR rmem rroot tr (brk + 1) k a hTR (by omega) ha hea
  obtain ⟨lmem', tl', hl1, hl2, ⟨p1, q1, hl3, hl3'⟩, hl4, hl5⟩ :=
    tree_erase_full swoL lmem lroot tl (brk + 1) (lmem a).value a hTL hal
      (equiv_self swoL _) (by omega)
  obtain ⟨rmem', tr', hr1, hr2, ⟨p2, q2, hr3, hr3'⟩, hr4, hr5⟩ :=
    tree_erase_full swoR rmem rroot tr (brk + 1) k a hTR ha hea (by omega)
  have hperm' : tl'.toList.Perm tr'.toList := by
    rw [hl3', hr3']
    rw [hl3, hr3] at hperm
    exact perm_remove hperm
  have hlt' : ∀ c ∈ tl'.toList, c < brk := by
    intro c hc
    refine hlt c ?_
    rw [hl3]; rw [hl3'] at hc
    simp only [List.mem_append, List.mem_cons] at hc ⊢
    tauto
  have hltr' : ∀ c ∈ tr'.toList, c < brk := fun c hc => hlt' c (hperm'.mem_iff.mpr hc)
  have hlen : tl.toList.length = tl'.toList.length + 1 := by
    rw [hl3, hl3']; simp only [List.length_append, List.length_cons]; omega
  have hv' : bimap.valid (⟨⟨tl'.ptr, lcmp⟩, ⟨tr'.ptr, rcmp⟩, lcmp, rcmp, n - 1, lmem', rmem', brk⟩ :
      bimap L R) :=
    ⟨swoL, swoR, rfl, rfl, tl', tr', hl2, hr2, hperm', hlt', by
      show n - 1 = tl'.toList.length
      omega⟩
  refine ⟨⟨⟨tl'.ptr, lcmp⟩, ⟨tr'.ptr, rcmp⟩, lcmp, rcmp, n - 1, lmem', rmem', brk⟩, ?_, hv', rfl,
    rfl, ?_, ?_, ?_, fun c => ⟨hl4 c, hr4 c⟩, rfl, ?_⟩
  · simp only [bimap.erase_right, bimap.at_right, bimap.fuel, hfind, hr1, hl1]
  · show n - 1 + 1 = n
    omega
  · rw [left_seq_of_valid _ tl' rfl hl2 hlt', hl3', hl3, erase_middle (by rw [← hl3]; exact hTL.nodup)]
  · rw [right_seq_of_valid _ tr' rfl hr2 hltr', hr3', hr3,
      erase_middle (by rw [← hr3]; exact hTR.nodup)]
  · intro c hc
    exact ⟨hl5 c hc, hr5 c (fun h => hc (hperm.mem_iff.mpr h))⟩

theorem erase_left_at_present_full {L R : Type} (b : bimap L R) (a : Nat) (ls rs : List Nat)
    (hv : b.valid) (hls : b.left_seq = .ok ls) (hrs : b.right_seq = .ok rs) (ha : a ∈ ls) :
    ∃ b', b.erase_left_at ⟨some a⟩ = .ok (b', ⟨(b.lmem a).next⟩) ∧ b'.valid ∧
      b'.left_cmp = b.left_cmp ∧ b'.right_cmp = b.right_cmp ∧
      b'.bimap_size + 1 = b.bimap_size ∧
      b'.left_seq = .ok (ls.erase a) ∧ b'.right_seq = .ok (rs.erase a) ∧
      (∀ c, (b'.lmem c).value = (b.lmem c).value ∧ (b'.rmem c).value = (b.rmem c).value) ∧
      b'.brk = b.brk ∧ (∀ c, c ∉ ls → b'.lmem c = b.lmem c ∧ b'.rmem c = b.rmem c) := by
  obtain ⟨swoL, swoR, hcl, hcr, tl, tr, hTL, hTR, hperm, hlt, hsize⟩ := hv
  have hltr : ∀ a ∈ tr.toList, a < b.brk := fun a ha => hlt a (hperm.mem_iff.mpr ha)
  have e1 := left_seq_of_valid b tl hcl hTL hlt
  have e2 := right_seq_of_valid b tr hcr hTR hltr
  rw [hls] at e1; rw [hrs] at e2
  cases e1; cases e2
  obtain ⟨⟨lroot, lcmp⟩, ⟨rroot, rcmp⟩, cl, cr, n, lmem, rmem, brk⟩ := b
  simp only at hcl hcr hTL hTR hlt hltr swoL swoR hsize
  subst hcl hcr
  have hfl : tl.toList.length ≤ brk := tree_length_le hTL hlt
  have hfr : tr.toList.length ≤ brk := tree_length_le hTR hltr
  have har : a ∈ tr.toList := hperm.mem_iff.mp ha
  obtain ⟨rmem', tr', hr1, hr2, ⟨p2, q2, hr3, hr3'⟩, hr4, hr5⟩ :=
    tree_erase_full swoR rmem rroot tr (brk + 1) (rmem a).value a hTR har
      (equiv_self swoR _) (by omega)
  obtain ⟨lmem', tl', hl1, hl2, ⟨p1, q1, hl3, hl3'⟩, hl4, hl5⟩ :=
    tree_erase_full swoL lmem lroot tl (brk + 1) (lmem a).value a hTL ha
      (equiv_self swoL _) (by omega)
  have hperm' : tl'.toList.Perm tr'.toList := by
    rw [hl3', hr3']
    rw [hl3, hr3] at hperm
    exact perm_remove hperm
  have hlt' : ∀ c ∈ tl'.toList, c < brk := by
    intro c hc
    refine hlt c ?_
    rw [hl3]; rw [hl3'] at hc
    simp only [List.mem_append, List.mem_cons] at hc ⊢
    tauto
  have hltr' : ∀ c ∈ tr'.toList, c < brk := fun c hc => hlt' c (hperm'.mem_iff.mpr hc)
  have hlen : tl.toList.length = tl'.toList.length + 1 := by
    rw [hl3, hl3']; simp only [List.length_append, List.length_cons]; omega
  have hv' : bimap.valid (⟨⟨tl'.ptr, lcmp⟩, ⟨tr'.ptr, rcmp⟩, lcmp, rcmp, n - 1, lmem', rmem', brk⟩ :
      bimap L R) :=
    ⟨swoL, swoR, rfl, rfl, tl', tr', hl2, hr2, hperm', hlt', by
      show n - 1 = tl'.toList.length
      omega⟩
  refine ⟨⟨⟨tl'.ptr, lcmp⟩, ⟨tr'.ptr, rcmp⟩, lcmp, rcmp, n - 1, lmem', rmem', brk⟩, ?_, hv', rfl,
    rfl, ?_, ?_, ?_, fun c => ⟨hl4 c, hr4 c⟩, rfl, ?_⟩
  · simp only [bimap.erase_left_at, bimap.incr_left, bimap.deref_left, bimap.deref_right,
      left_iterator.flip, bimap.fuel, hr1, hl1]
  · show n - 1 + 1 = n
    omega
  · rw [left_seq_of_valid _ tl' rfl hl2 hlt', hl3', hl3, erase_middle (by rw [← hl3]; exact hTL.nodup)]
  · rw [right_seq_of_valid _ tr' rfl hr2 hltr', hr3', hr3,
      erase_middle (by rw [← hr3]; exact hTR.nodup)]
  · intro c hc
    exact ⟨hl5 c hc, hr5 c (fun h => hc (hperm.mem_iff.mpr h))⟩

theorem erase_right_at_present_full {L R : Type} (b : bimap L R) (a : Nat) (ls rs : List Nat)
    (hv : b.valid) (hls : b.left_seq = .ok ls) (hrs : b.right_seq = .ok rs) (ha : a ∈ rs) :
    ∃ b', b.erase_right_at ⟨some a⟩ = .ok (b', ⟨(b.rmem a).next⟩) ∧ b'.valid ∧
      b'.left_cmp = b.left_cmp ∧ b'.right_cmp = b.right_cmp ∧
      b'.bimap_size + 1 = b.bimap_size ∧
      b'.left_seq = .ok (ls.erase a) ∧ b'.right_seq = .ok (rs.erase a) ∧
      (∀ c, (b'.lmem c).value = (b.lmem c).value ∧ (b'.rmem c).value = (b.rmem c).value) ∧
      b'.brk = b.brk ∧ (∀ c, c ∉ ls → b'.lmem c = b.lmem c ∧ b'.rmem c = b.rmem c) := by
  obtain ⟨swoL, swoR, hcl, hcr, tl, tr, hTL, hTR, hperm, hlt, hsize⟩ := hv
  have hltr : ∀ a ∈ tr.toList, a < b.brk := fun a ha => hlt a (hperm.mem_iff.mpr ha)
  have e1 := left_seq_of_valid b tl hcl hTL hlt
  have e2 := right_seq_of_valid b tr hcr hTR hltr
  rw [hls] at e1; rw [hrs] at e2
  cases e1; cases e2
  obtain ⟨⟨lroot, lcmp⟩, ⟨rroot, rcmp⟩, cl, cr, n, lmem, rmem, brk⟩ := b
  simp only at hcl hcr hTL hTR hlt hltr swoL swoR hsize
  subst hcl hcr
  have hfl : tl.toList.length ≤ brk := tree_length_le hTL hlt
  have hfr : tr.toList.length ≤ brk := tree_length_le hTR hltr
  have hal : a ∈ tl.toList := hperm.mem_iff.mpr ha
  obtain ⟨rmem', tr', hr1, hr2, ⟨p2, q2, hr3, hr3'⟩, hr4, hr5⟩ :=
    tree_erase_full swoR rmem rroot tr (brk + 1) (rmem a).value a hTR ha
      (equiv_self swoR _) (by omega)
  obtain ⟨lmem', tl', hl1, hl2, ⟨p1, q1, hl3, hl3'⟩, hl4, hl5⟩ :=
    tree_erase_full swoL lmem lroot tl (brk + 1) (lmem a).value a hTL hal
      (equiv_self swoL _) (by omega)
  have hperm' : tl'.toList.Perm tr'.toList := by
    rw [hl3', hr3']
    rw [hl3, hr3] at hperm
    exact perm_remove hperm
  have hlt' : ∀ c ∈ tl'.toList, c < brk := by
    intro c hc
    refine hlt c ?_
    rw [hl3]; rw [hl3'] at hc
    simp only [List.mem_append, List.mem_cons] at hc ⊢
    tauto
  have hltr' : ∀ c ∈ tr'.toList, c < brk := fun c hc => hlt' c (hperm'.mem_iff.mpr hc)
  have hlen : tl.toList.length = tl'.toList.length + 1 := by
    rw [hl3, hl3']; simp only [List.length_append, List.length_cons]; omega
  have hv' : bimap.valid (⟨⟨tl'.ptr, lcmp⟩, ⟨tr'.ptr, rcmp⟩, lcmp, rcmp, n - 1, lmem', rmem', brk⟩ :
      bimap L R) :=
    ⟨swoL, swoR, rfl, rfl, tl', tr', hl2, hr2, hperm', hlt', by
      show n - 1 = tl'.toList.length
      omega⟩
  refine ⟨⟨⟨tl'.ptr, lcmp⟩, ⟨tr'.ptr, rcmp⟩, lcmp, rcmp, n - 1, lmem', rmem', brk⟩, ?_, hv', rfl,
    rfl, ?_, ?_, ?_, fun c => ⟨hl4 c, hr4 c⟩, rfl, ?_⟩
  · simp only [bimap.erase_right_at, bimap.incr_right, bimap.deref_left, bimap.deref_right,
      right_iterator.flip, bimap.fuel, hr1, hl1]
  · show n - 1 + 1 = n
    omega
  · rw [left_seq_of_valid _ tl' rfl hl2 hlt', hl3', hl3, erase_middle (by rw [← hl3]; exact hTL.nodup)]
  · rw [right_seq_of_valid _ tr' rfl hr2 hltr', hr3', hr3,
      erase_middle (by rw [← hr3]; exact hTR.nodup)]
  · intro c hc
    exact ⟨hl5 c hc, hr5 c (fun h => hc (hperm.mem_iff.mpr h))⟩

theorem erase_left_present {L R : Type} (b : bimap L R) (k : L) (a : Nat) (ls rs : List Nat)
    (hv : b.valid) (hls : b.left_seq = .ok ls) (hrs : b.right_seq = .ok rs)
    (ha : a ∈ ls) (hea : equiv b.left_cmp (b.lmem a).value k = true) :
    ∃ b', b.erase_left k = .ok (b', true) ∧ b'.valid ∧
      b'.left_cmp = b.left_cmp ∧ b'.right_cmp = b.right_cmp ∧
      b'.bimap_size + 1 = b.bimap_size ∧
      b'.left_seq = .ok (ls.erase a) ∧ b'.right_seq = .ok (rs.erase a) ∧
      (∀ c, (b'.lmem c).value = (b.lmem c).value ∧ (b'.rmem c).value = (b.rmem c).value) := by
  obtain ⟨b', h1, h2, h3, h4, h5, h6, h7, h8, _⟩ := erase_left_present_full b k a ls rs hv hls hrs ha hea
  exact ⟨b', h1, h2, h3, h4, h5, h6, h7, h8⟩

theorem erase_right_present {L R : Type} (b : bimap L R) (k : R) (a : Nat) (ls rs : List Nat)
    (hv : b.valid) (hls : b.left_seq = .ok ls) (hrs : b.right_seq = .ok rs)
    (ha : a ∈ rs) (hea : equiv b.right_cmp (b.rmem a).value k = true) :
    ∃ b', b.erase_right k = .ok (b', true) ∧ b'.valid ∧
      b'.left_cmp = b.left_cmp ∧ b'.right_cmp = b.right_cmp ∧
      b'.bimap_size + 1 = b.bimap_size ∧
      b'.left_seq = .ok (ls.erase a) ∧ b'.right_seq = .ok (rs.erase a) ∧
      (∀ c, (b'.lmem c).value = (b.lmem c).value ∧ (b'.rmem c).value = (b.rmem c).value) := by
  obtain ⟨b', h1, h2, h3, h4, h5, h6, h7, h8, _⟩ := erase_right_present_full b k a ls rs hv hls hrs ha hea
  exact ⟨b', h1, h2, h3, h4, h5, h6, h7, h8⟩

theorem erase_left_at_present {L R : Type} (b : bimap L R) (a : Nat) (ls rs : List Nat)
    (hv : b.valid) (hls : b.left_seq = .ok ls) (hrs : b.right_seq = .ok rs) (ha : a ∈ ls) :
    ∃ b', b.erase_left_at ⟨some a⟩ = .ok (b', ⟨(b.lmem a).next⟩) ∧ b'.valid ∧
      b'.left_cmp = b.left_cmp ∧ b'.right_cmp = b.right_cmp ∧
      b'.bimap_size + 1 = b.bimap_size ∧
      b'.left_seq = .ok (ls.erase a) ∧ b'.right_seq = .ok (rs.erase a) ∧
      (∀ c, (b'.lmem c).value = (b.lmem c).value ∧ (b'.rmem c).value = (b.rmem c).value) := by
  obtain ⟨b', h1, h2, h3, h4, h5, h6, h7, h8, _⟩ := erase_left_at_present_full b a ls rs hv hls hrs ha
  exact ⟨b', h1, h2, h3, h4, h5, h6, h7, h8⟩

theorem erase_right_at_present {L R : Type} (b : bimap L R) (a : Nat) (ls rs : List Nat)
    (hv : b.valid) (hls : b.left_seq = .ok ls) (hrs : b.right_seq = .ok rs) (ha : a ∈ rs) :
    ∃ b', b.erase_right_at ⟨some a⟩ = .ok (b', ⟨(b.rmem a).next⟩) ∧ b'.valid ∧
      b'.left_cmp = b.left_cmp ∧ b'.right_cmp = b.right_cmp ∧
      b'.bimap_size + 1 = b.bimap_size ∧
      b'.left_seq = .ok (ls.erase a) ∧ b'.right_seq = .ok (rs.erase a) ∧
      (∀ c, (b'.lmem c).value = (b.lmem c).value ∧ (b'.rmem c).value = (b.rmem c).value) := by
  obtain ⟨b', h1, h2, h3, h4, h5, h6, h7, h8, _⟩ := erase_right_at_present_full b a ls rs hv hls hrs ha
  exact ⟨b', h1, h2, h3, h4, h5, h6, h7, h8⟩

theorem find_left_none {L R : Type} (b : bimap L R) (k : L) (ls : List Nat)
    (hv : b.valid) (hls : b.left_seq = .ok ls)
    (h : ∀ c ∈ ls, equiv b.left_cmp (b.lmem c).value k = false) :
    b.left_tree.find b.lmem b.fuel k = .ok none := by
  obtain ⟨swoL, swoR, hcl, hcr, tl, tr, hTL, hTR, hperm, hlt, hsize⟩ := hv
  have e1 := left_seq_of_valid b tl hcl hTL hlt
  rw [hls] at e1
  cases e1
  obtain ⟨⟨lroot, lcmp⟩, rt, cl, cr, n, lmem, rmem, brk⟩ := b
  simp only at hcl hTL hlt h swoL
  subst hcl
  exact find_none swoL lmem lroot tl (brk + 1) k hTL
    (Nat.le_succ_of_le (tree_length_le hTL hlt)) h

theorem find_left_some {L R : Type} (b : bimap L R) (k : L) (a : Nat) (ls : List Nat)
    (hv : b.valid) (hls : b.left_seq = .ok ls) (ha : a ∈ ls)
    (hea : equiv b.left_cmp (b.lmem a).value k = true) :
    b.left_tree.find b.lmem b.fuel k = .ok (some a) := by
  obtain ⟨swoL, swoR, hcl, hcr, tl, tr, hTL, hTR, hperm, hlt, hsize⟩ := hv
  have e1 := left_seq_of_valid b tl hcl hTL hlt
  rw [hls] at e1
  cases e1
  obtain ⟨⟨lroot, lcmp⟩, rt, cl, cr, n, lmem, rmem, brk⟩ := b
  simp only at hcl hTL hlt hea swoL
  subst hcl
  exact find_some swoL lmem lroot tl (brk + 1) k a hTL
    (Nat.le_succ_of_le (tree_length_le hTL hlt)) ha hea

theorem find_right_none {L R : Type} (b : bimap L R) (k : R) (rs : List Nat)
    (hv : b.valid) (hrs : b.right_seq = .ok rs)
    (h : ∀ c ∈ rs, equiv b.right_cmp (b.rmem c).value k = false) :
    b.right_tree.find b.rmem b.fuel k = .ok none := by
  obtain ⟨swoL, swoR, hcl, hcr, tl, tr, hTL, hTR, hperm, hlt, hsize⟩ := hv
  have hltr : ∀ a ∈ tr.toList, a < b.brk := fun a ha => hlt a (hperm.mem_iff.mpr ha)
  have e1 := right_seq_of_valid b tr hcr hTR hltr
  rw [hrs] at e1
  cases e1
  obtain ⟨lt, ⟨rroot, rcmp⟩, cl, cr, n, lmem, rmem, brk⟩ := b
  simp only at hcr hTR hltr h swoR
  subst hcr
  exact find_none swoR rmem rroot tr (brk + 1) k hTR
    (Nat.le_succ_of_le (tree_length_le hTR hltr)) h

theorem find_right_some {L R : Type} (b : bimap L R) (k : R) (a : Nat) (rs : List Nat)
    (hv : b.valid) (hrs : b.right_seq = .ok rs) (ha : a ∈ rs)
    (hea : equiv b.right_cmp (b.rmem a).value k = true) :
    b.right_tree.find b.rmem b.fuel k = .ok (some a) := by
  obtain ⟨swoL, swoR, hcl, hcr, tl, tr, hTL, hTR, hperm, hlt, hsize⟩ := hv
  have hltr : ∀ a ∈ tr.toList, a < b.brk := fun a ha => hlt a (hperm.mem_iff.mpr ha)
  have e1 := right_seq_of_valid b tr hcr hTR hltr
  rw [hrs] at e1
  cases e1
  obtain ⟨lt, ⟨rroot, rcmp⟩, cl, cr, n, lmem, rmem, brk⟩ := b
  simp only at hcr hTR hltr hea swoR
  subst hcr
  exact find_some swoR rmem rroot tr (brk + 1) k a hTR
    (Nat.le_succ_of_le (tree_length_le hTR hltr)) ha hea

/-- In a valid container the records with a left key equivalent to `k` are at most one. -/
theorem left_equiv_unique {L R : Type} (b : bimap L R) (k : L) (ls : List Nat)
    (hv : b.valid) (hls : b.left_seq = .ok ls) {a c : Nat} (ha : a ∈ ls) (hc : c ∈ ls)
    (hea : equiv b.left_cmp (b.lmem a).value k = true)
    (hec : equiv b.left_cmp (b.lmem c).value k = true) : a = c := by
  obtain ⟨swoL, swoR, hcl, hcr, tl, tr, hTL, hTR, hperm, hlt, hsize⟩ := hv
  have e1 := left_seq_of_valid b tl hcl hTL hlt
  rw [hls] at e1
  cases e1
  exact equiv_unique swoL hTL.sorted ha hc hea hec

theorem right_equiv_unique {L R : Type} (b : bimap L R) (k : R) (rs : List Nat)
    (hv : b.valid) (hrs : b.right_seq = .ok rs) {a c : Nat} (ha : a ∈ rs) (hc : c ∈ rs)
    (hea : equiv b.right_cmp (b.rmem a).value k = true)
    (hec : equiv b.right_cmp (b.rmem c).value k = true) : a = c := by
  obtain ⟨swoL, swoR, hcl, hcr, tl, tr, hTL, hTR, hperm, hlt, hsize⟩ := hv
  have hltr : ∀ a ∈ tr.toList, a < b.brk := fun a ha => hlt a (hperm.mem_iff.mpr ha)
  have e1 := right_seq_of_valid b tr hcr hTR hltr
  rw [hrs] at e1
  cases e1
  exact equiv_unique swoR hTR.sorted ha hc hea hec

theorem seq_nodup {L R : Type} (b : bimap L R) (ls rs : List Nat)
    (hv : b.valid) (hls : b.left_seq = .ok ls) (hrs : b.right_seq = .ok rs) :
    ls.Nodup ∧ rs.Nodup ∧ ls.Perm rs ∧ b.bimap_size = ls.length ∧
      Ascending b.left_cmp b.lmem ls ∧ Ascending b.right_cmp b.rmem rs := by
  obtain ⟨swoL, swoR, hcl, hcr, tl, tr, hTL, hTR, hperm, hlt, hsize⟩ := hv
  have hltr : ∀ a ∈ tr.toList, a < b.brk := fun a ha => hlt a (hperm.mem_iff.mpr ha)
  have e1 := left_seq_of_valid b tl hcl hTL hlt
  have e2 := right_seq_of_valid b tr hcr hTR hltr
  rw [hls] at e1; rw [hrs] at e2
  cases e1; cases e2
  exact ⟨hTL.nodup, hTR.nodup, hperm, hsize, hTL.sorted, hTR.sorted⟩

theorem seq_exists {L R : Type} (b : bimap L R) (hv : b.valid) :
    ∃ ls rs, b.left_seq = .ok ls ∧ b.right_seq = .ok rs := by
  obtain ⟨swoL, swoR, hcl, hcr, tl, tr, hTL, hTR, hperm, hlt, hsize⟩ := hv
  have hltr : ∀ a ∈ tr.toList, a < b.brk := fun a ha => hlt a (hperm.mem_iff.mpr ha)
  exact ⟨tl.toList, tr.toList, left_seq_of_valid b tl hcl hTL hlt,
    right_seq_of_valid b tr hcr hTR hltr⟩

theorem find_skip {p : Nat → Bool} :
    ∀ (pre rest : List Nat), (∀ b ∈ pre, p b = false) → (pre ++ rest).find? p = rest.find? p := by
  intro pre
  induction pre with
  | nil => intro rest _; rfl
  | cons c pre' ih =>
    intro rest h
    have hc := h c (by simp)
    simp only [List.cons_append, List.find?_cons, hc]
    exact ih rest (fun b hb => h b (by simp [hb]))

theorem find_none_of_all {p : Nat → Bool} (xs : List Nat) (h : ∀ b ∈ xs, p b = false) :
    xs.find? p = none := by
  have := find_skip xs [] h
  simpa using this

/-- The locate-then-step computation of the lower bound on a non-empty tree. -/
theorem lower_bound_core {T : Type} {cmp : T → T → Bool} (hswo : StrictWeakOrder cmp)
    (m : Mem T) (root : Option Nat) (t : BT) (fuel : Nat) (q : T)
    (hinv : TreeInv cmp m root t) (hfuel : t.toList.length ≤ fuel) (hne : t ≠ .leaf) :
    ∃ f, tree.find_place ⟨root, cmp⟩ m fuel q = .ok (some f) ∧
      (if !cmp (m f).value q then some f else (m f).next) =
        t.toList.find? (fun a => !cmp (m a).value q) := by
  obtain ⟨pre, a, post, h1, h2, h3, h4⟩ := find_place_list hswo m root t fuel q hinv hfuel hne
  refine ⟨a, h1, ?_⟩
  have hpre : ∀ b ∈ pre, (fun a => !cmp (m a).value q) b = false := by
    intro b hb; simp [h3 b hb]
  rw [h2, find_skip pre _ hpre]
  cases hc : cmp (m a).value q with
  | false => simp [List.find?_cons, hc]
  | true =>
    have hlk := hinv.linked
    rw [h2] at hlk
    have hnext := (Linked_anchor hlk).2
    simp only [Bool.not_true, Bool.false_eq_true, if_false, List.find?_cons, hc]
    rw [hnext]
    cases post with
    | nil => rfl
    | cons d post' =>
      have hd : cmp (m d).value q = false := hswo.asymm (h4 d (by simp))
      simp [first_or, List.find?_cons, hd]

theorem erase_left_absent {L R : Type} (b : bimap L R) (k : L) (ls : List Nat)
    (hv : b.valid) (hls : b.left_seq = .ok ls)
    (h : ∀ c ∈ ls, equiv b.left_cmp (b.lmem c).value k = false) :
    b.erase_left k = .ok (b, false) := by
  have := find_left_none b k ls hv hls h
  simp only [bimap.erase_left, this]

theorem erase_right_absent {L R : Type} (b : bimap L R) (k : R) (rs : List Nat)
    (hv : b.valid) (hrs : b.right_seq = .ok rs)
    (h : ∀ c ∈ rs, equiv b.right_cmp (b.rmem c).value k = false) :
    b.erase_right k = .ok (b, false) := by
  have := find_right_none b k rs hv hrs h
  simp only [bimap.erase_right, this]

theorem exists_equiv_of_not_all {T : Type} {cmp : T → T → Bool} {m : Mem T} {k : T}
    {xs : List Nat} (h : ¬ ∀ c ∈ xs, equiv cmp (m c).value k = false) :
    ∃ c ∈ xs, equiv cmp (m c).value k = true := by
  by_contra hne
  apply h
  intro c hc
  cases he : equiv cmp (m c).value k with
  | false => rfl
  | true => exact absurd ⟨c, hc, he⟩ hne

theorem valid_insert {L R : Type} (b b1 : bimap L R) (l : L) (r : R) (it : left_iterator)
    (hv : b.valid) (h : b.insert l r = .ok (b1, it)) : b1.valid := by
  obtain ⟨ls, rs, hls, hrs⟩ := seq_exists b hv
  by_cases hfresh : (∀ a ∈ ls, equiv b.left_cmp (b.lmem a).value l = false) ∧
      (∀ a ∈ rs, equiv b.right_cmp (b.rmem a).value r = false)
  · obtain ⟨b', h1, h2, _⟩ := insert_fresh_valid b l r ls rs hv hls hrs hfresh.1 hfresh.2
    rw [h1] at h
    cases h
    exact h2
  · have hcol : (∃ a ∈ ls, equiv b.left_cmp (b.lmem a).value l = true) ∨
        (∃ a ∈ rs, equiv b.right_cmp (b.rmem a).value r = true) := by
      by_cases h1 : ∀ a ∈ ls, equiv b.left_cmp (b.lmem a).value l = false
      · right
        exact exists_equiv_of_not_all (fun h2 => hfresh ⟨h1, h2⟩)
      · left
        exact exists_equiv_of_not_all h1
    rw [insert_collision b l r ls rs hv hls hrs hcol] at h
    cases h
    exact hv

theorem valid_erase_left {L R : Type} (b b1 : bimap L R) (k : L) (res : Bool)
    (hv : b.valid) (h : b.erase_left k = .ok (b1, res)) : b1.valid := by
  obtain ⟨ls, rs, hls, hrs⟩ := seq_exists b hv
  by_cases habs : ∀ c ∈ ls, equiv b.left_cmp (b.lmem c).value k = false
  · rw [erase_left_absent b k ls hv hls habs] at h
    cases h
    exact hv
  · obtain ⟨a, ha, hea⟩ := exists_equiv_of_not_all habs
    obtain ⟨b', h1, h2, _⟩ := erase_left_present b k a ls rs hv hls hrs ha hea
    rw [h1] at h
    cases h
    exact h2

theorem valid_erase_right {L R : Type} (b b1 : bimap L R) (k : R) (res : Bool)
    (hv : b.valid) (h : b.erase_right k = .ok (b1, res)) : b1.valid := by
  obtain ⟨ls, rs, hls, hrs⟩ := seq_exists b hv
  by_cases habs : ∀ c ∈ rs, equiv b.right_cmp (b.rmem c).value k = false
  · rw [erase_right_absent b k rs hv hrs habs] at h
    cases h
    exact hv
  · obtain ⟨a, ha, hea⟩ := exists_equiv_of_not_all habs
    obtain ⟨b', h1, h2, _⟩ := erase_right_present b k a ls rs hv hls hrs ha hea
    rw [h1] at h
    cases h
    exact h2

theorem valid_of_reachable {L R : Type} (b : bimap L R) (h : Reachable b) : b.valid := by
  induction h with
  | empty lmem rmem cl cr hl hr => exact valid_empty lmem rmem cl cr hl hr
  | insert b b1 l r it _ hins ih => exact valid_insert b b1 l r it ih hins
  | erase_left b b1 k res _ her ih => exact valid_erase_left b b1 k res ih her
  | erase_right b b1 k res _ her ih => exact valid_erase_right b b1 k res ih her
  | erase_left_at b b1 a ls nxt _ hls ha her ih =>
    obtain ⟨ls', rs, hls', hrs⟩ := seq_exists b ih
    rw [hls] at hls'
    cases hls'
    obtain ⟨b', h1, h2, _⟩ := erase_left_at_present b a ls rs ih hls hrs ha
    rw [h1] at her
    cases her
    exact h2
  | erase_right_at b b1 a rs nxt _ hrs ha her ih =>
    obtain ⟨ls, rs', hls, hrs'⟩ := seq_exists b ih
    rw [hrs] at hrs'
    cases hrs'
    obtain ⟨b', h1, h2, _⟩ := erase_right_at_present b a ls rs ih hls hrs ha
    rw [h1] at her
    cases her
    exact h2

theorem insert_all_spec {L R : Type} (ps : List (L × R)) :
    ∀ (b : bimap L R) (ls rs : List Nat), b.valid → b.left_seq = .ok ls → b.right_seq = .ok rs →
      ps.Pairwise (fun p q => equiv b.left_cmp p.1 q.1 = false) →
      ps.Pairwise (fun p q => equiv b.right_cmp p.2 q.2 = false) →
      (∀ a ∈ ls, ∀ p ∈ ps, equiv b.left_cmp (b.lmem a).value p.1 = false) →
      (∀ a ∈ rs, ∀ p ∈ ps, equiv b.right_cmp (b.rmem a).value p.2 = false) →
      ∃ b', b.insert_all ps = .ok b' ∧ b'.valid ∧ b'.size = b.size + ps.length := by
  induction ps with
  | nil =>
    intro b ls rs hv _ _ _ _ _ _
    exact ⟨b, rfl, hv, rfl⟩
  | cons p ps ih =>
    intro b ls rs hv hls hrs hpl hpr hkl hkr
    obtain ⟨b', h1, h2, h3, h4, h5, h6, h7, ⟨p1, q1, h8, h8'⟩, ⟨p2, q2, h9, h9'⟩, h10, h11, h12⟩ :=
      insert_fresh_valid b p.1 p.2 ls rs hv hls hrs
        (fun a ha => hkl a ha p (by simp)) (fun a ha => hkr a ha p (by simp))
    have hpl' := List.pairwise_cons.mp hpl
    have hpr' := List.pairwise_cons.mp hpr
    obtain ⟨b'', g1, g2, g3⟩ := ih b' _ _ h2 h8' h9'
      (by rw [h3]; exact hpl'.2) (by rw [h4]; exact hpr'.2)
      (by
        intro a ha q hq
        rw [h3]
        by_cases hab : a = b.brk
        · subst hab; rw [h11]; exact hpl'.1 q hq
        · rw [(h10 a hab).1]
          refine hkl a ?_ q (by simp [hq])
          rw [h8]
          simp only [List.mem_append, List.mem_cons] at ha ⊢
          tauto)
      (by
        intro a ha q hq
        rw [h4]
        by_cases hab : a = b.brk
        · subst hab; rw [h12]; exact hpr'.1 q hq
        · rw [(h10 a hab).2]
          refine hkr a ?_ q (by simp [hq])
          rw [h9]
          simp only [List.mem_append, List.mem_cons] at ha ⊢
          tauto)
    refine ⟨b'', ?_, g2, ?_⟩
    · simp only [bimap.insert_all, h1]
      exact g1
    · rw [g3]
      simp only [bimap.size, h5, List.length_cons]
      omega

theorem insert_or_self_eq {L R : Type} (b b1 : bimap L R) (l : L) (r : R) (it : left_iterator)
    (h : b.insert l r = .ok (b1, it)) : b.insert_or_self l r = b1 := by
  simp [bimap.insert_or_self, h]

theorem bimap0_valid : bimap0.valid := valid_empty _ _ _ _ nat_less_swo nat_less_swo

theorem bimap1_insert : bimap0.insert 1 10 = .ok (bimap1, ⟨some 0⟩) := rfl

theorem bimap13_insert : bimap1.insert 3 30 = .ok (bimap13, ⟨some 1⟩) := rfl

theorem bimap135_insert : bimap13.insert 5 50 = .ok (bimap135, ⟨some 2⟩) := rfl

theorem bimap1_valid : bimap1.valid := valid_insert _ _ _ _ _ bimap0_valid bimap1_insert

theorem bimap13_valid : bimap13.valid := valid_insert _ _ _ _ _ bimap1_valid bimap13_insert

theorem bimap135_valid : bimap135.valid := valid_insert _ _ _ _ _ bimap13_valid bimap135_insert

theorem bimap135_left_seq : bimap135.left_seq = .ok [0, 1, 2] := rfl

theorem bimap135_right_seq : bimap135.right_seq = .ok [0, 1, 2] := rfl

theorem bimap15_erase : bimap135.erase_left 3 = .ok (bimap15, true) := rfl

theorem bimap15_keys : bimap15.left_keys = .ok [1, 5] ∧ bimap15.right_keys = .ok [10, 50] :=
  ⟨rfl, rfl⟩

theorem bimap135_reachable : Reachable bimap135 :=
  Reachable.insert bimap13 bimap135 5 50 _
    (Reachable.insert bimap1 bimap13 3 30 _
      (Reachable.insert bimap0 bimap1 1 10 _
        (Reachable.empty mem0 mem0 nat_less nat_less nat_less_swo nat_less_swo) bimap1_insert)
      bimap13_insert)
    bimap135_insert

theorem bimap15_reachable : Reachable bimap15 :=
  Reachable.erase_left bimap135 bimap15 3 true bimap135_reachable bimap15_erase

/-! ## The claims -/

/-- C1: in a valid container, `insert(l, r)` of a pair whose left key is equivalent to
no stored left key and whose right key is equivalent to no stored right key returns a
left cursor to a new pair: the size grows by exactly one, the cursor dereferences to
`l` and its flip to `r`, and the container stays valid.  Consequently inserting any
list of pairs with pairwise inequivalent left keys and pairwise inequivalent right
keys into an empty container succeeds and yields a size equal to the number of pairs. -/
theorem C1_insert_fresh {L R : Type} (b : bimap L R) (l : L) (r : R) (ls rs : List Nat)
    (hv : b.valid) (hls : b.left_seq = .ok ls) (hrs : b.right_seq = .ok rs)
    (hl : ∀ a ∈ ls, equiv b.left_cmp (b.lmem a).value l = false)
    (hr : ∀ a ∈ rs, equiv b.right_cmp (b.rmem a).value r = false) :
    (∃ b' it, b.insert l r = .ok (b', it) ∧ b'.valid ∧ b'.size = b.size + 1 ∧
      b'.deref_left it = .ok l ∧ b'.deref_right it.flip = .ok r) ∧
    (∀ (ps : List (L × R)) (lm : Mem L) (rm : Mem R),
      ps.Pairwise (fun p q => equiv b.left_cmp p.1 q.1 = false) →
      ps.Pairwise (fun p q => equiv b.right_cmp p.2 q.2 = false) →
      ∃ b', (bimap.empty lm rm b.left_cmp b.right_cmp).insert_all ps = .ok b' ∧
        b'.size = ps.length) := by
  refine ⟨?_, ?_⟩
  · obtain ⟨b', h1, h2, _, _, h5, _, _, _, _, _, h11, h12⟩ :=
      insert_fresh_valid b l r ls rs hv hls hrs hl hr
    refine ⟨b', ⟨some b.brk⟩, h1, h2, h5, ?_, ?_⟩
    · simp only [bimap.deref_left, h11]
    · simp only [bimap.deref_right, left_iterator.flip, h12]
  · intro ps lm rm hpl hpr
    obtain ⟨b', h1, _, h3⟩ := insert_all_spec ps (bimap.empty lm rm b.left_cmp b.right_cmp) [] []
      (valid_empty lm rm _ _ hv.1 hv.2.1) rfl rfl hpl hpr
      (fun a ha => by simp at ha) (fun a ha => by simp at ha)
    refine ⟨b', h1, ?_⟩
    rw [h3]
    simp [bimap.size, bimap.empty]

/-- Witness of C1: inserting (5, 50) into the container holding (1, 10) and (3, 30). -/
theorem C1_insert_fresh_witness :
    bimap13.valid ∧ bimap13.left_seq = .ok [0, 1] ∧ bimap13.right_seq = .ok [0, 1] ∧
    (∀ a ∈ [0, 1], equiv bimap13.left_cmp (bimap13.lmem a).value 5 = false) ∧
    (∀ a ∈ [0, 1], equiv bimap13.right_cmp (bimap13.rmem a).value 50 = false) ∧
    ((∃ b' it, bimap13.insert 5 50 = .ok (b', it) ∧ b'.valid ∧ b'.size = bimap13.size + 1 ∧
      b'.deref_left it = .ok 5 ∧ b'.deref_right it.flip = .ok 50) ∧
    (∀ (ps : List (Nat × Nat)) (lm : Mem Nat) (rm : Mem Nat),
      ps.Pairwise (fun p q => equiv bimap13.left_cmp p.1 q.1 = false) →
      ps.Pairwise (fun p q => equiv bimap13.right_cmp p.2 q.2 = false) →
      ∃ b', (bimap.empty lm rm bimap13.left_cmp bimap13.right_cmp).insert_all ps = .ok b' ∧
        b'.size = ps.length)) :=
  ⟨bimap13_valid, rfl, rfl, by decide, by decide,
    C1_insert_fresh bimap13 5 50 [0, 1] [0, 1] bimap13_valid rfl rfl (by decide) (by decide)⟩

/-- C2: in a valid container, `insert(l, r)` with `l` equivalent to a stored left key or
`r` equivalent to a stored right key returns `end_left()` and the container it returns is
the one it was given: the size and both ordered sequences are unchanged. -/
theorem C2_insert_rejects {L R : Type} (b : bimap L R) (l : L) (r : R) (ls rs : List Nat)
    (hv : b.valid) (hls : b.left_seq = .ok ls) (hrs : b.right_seq = .ok rs)
    (h : (∃ a ∈ ls, equiv b.left_cmp (b.lmem a).value l = true) ∨
      (∃ a ∈ rs, equiv b.right_cmp (b.rmem a).value r = true)) :
    ∃ b', b.insert l r = .ok (b', b.end_left) ∧ b' = b ∧ b'.size = b.size ∧
      b'.left_seq = .ok ls ∧ b'.right_seq = .ok rs :=
  ⟨b, insert_collision b l r ls rs hv hls hrs h, rfl, rfl, hls, hrs⟩

/-- Witness of C2: (1, 99) collides on the left key only, in the container with left keys
1, 3, 5. -/
theorem C2_insert_rejects_witness :
    bimap135.valid ∧ bimap135.left_seq = .ok [0, 1, 2] ∧ bimap135.right_seq = .ok [0, 1, 2] ∧
    ((∃ a ∈ [0, 1, 2], equiv bimap135.left_cmp (bimap135.lmem a).value 1 = true) ∨
      (∃ a ∈ [0, 1, 2], equiv bimap135.right_cmp (bimap135.rmem a).value 99 = true)) ∧
    ∃ b', bimap135.insert 1 99 = .ok (b', bimap135.end_left) ∧ b' = bimap135 ∧
      b'.size = bimap135.size ∧ b'.left_seq = .ok [0, 1, 2] ∧ b'.right_seq = .ok [0, 1, 2] :=
  ⟨bimap135_valid, rfl, rfl, Or.inl ⟨0, by simp, rfl⟩,
    C2_insert_rejects bimap135 1 99 [0, 1, 2] [0, 1, 2] bimap135_valid rfl rfl
      (Or.inl ⟨0, by simp, rfl⟩)⟩

/-- C3: in every container reachable from an empty one (with strict weak orders as
comparators) by `insert`, `erase_left` and `erase_right` (by key or by a cursor at a
stored pair), iterating from `begin_left()` to `end_left()` terminates and yields strictly
ascending left keys, and iterating from `begin_right()` to `end_right()` yields strictly
ascending right keys. -/
theorem C3_iteration_ascending {L R : Type} (b : bimap L R) (h : Reachable b) :
    ∃ lk rk, b.left_keys = .ok lk ∧ lk.Pairwise (fun x y => b.left_cmp x y = true) ∧
      b.right_keys = .ok rk ∧ rk.Pairwise (fun x y => b.right_cmp x y = true) := by
  have hv := valid_of_reachable b h
  obtain ⟨ls, rs, hls, hrs⟩ := seq_exists b hv
  obtain ⟨_, _, _, _, h5, h6⟩ := seq_nodup b ls rs hv hls hrs
  refine ⟨ls.map fun a => (b.lmem a).value, rs.map fun a => (b.rmem a).value, ?_, ?_, ?_, ?_⟩
  · simp only [bimap.left_keys, hls]
  · exact List.pairwise_map.mpr h5
  · simp only [bimap.right_keys, hrs]
  · exact List.pairwise_map.mpr h6

/-- Witness of C3: the container built by inserting (1, 10), (3, 30), (5, 50) and then
erasing the left key 3. -/
theorem C3_iteration_ascending_witness :
    Reachable bimap15 ∧
    ∃ lk rk, bimap15.left_keys = .ok lk ∧
      lk.Pairwise (fun x y => bimap15.left_cmp x y = true) ∧
      bimap15.right_keys = .ok rk ∧ rk.Pairwise (fun x y => bimap15.right_cmp x y = true) :=
  ⟨bimap15_reachable, C3_iteration_ascending bimap15 bimap15_reachable⟩

theorem ne_of_mem_erase {xs : List Nat} {a c : Nat} (hnd : xs.Nodup) (h : c ∈ xs.erase a) :
    c ≠ a := by
  rintro rfl
  exact (List.Nodup.not_mem_erase hnd) h

/-- C4: in a valid container holding a record `a` whose left key is equivalent to `k`,
`erase_left(k)` returns true; afterwards `find_left(k)` and `find_right` of the right key
of `a` are end cursors, the size has dropped by exactly one, and both ordered sequences are
the former ones with `a` removed, every other record keeping its keys.  Symmetrically for
`erase_right`. -/
theorem C4_erase_present {L R : Type} (b : bimap L R) (ls rs : List Nat)
    (hv : b.valid) (hls : b.left_seq = .ok ls) (hrs : b.right_seq = .ok rs) :
    (∀ (k : L) (a : Nat), a ∈ ls → equiv b.left_cmp (b.lmem a).value k = true →
      ∃ b', b.erase_left k = .ok (b', true) ∧ b'.valid ∧
        b'.find_left k = .ok b'.end_left ∧
        b'.find_right (b.rmem a).value = .ok b'.end_right ∧
        b'.size + 1 = b.size ∧
        b'.left_seq = .ok (ls.erase a) ∧ b'.right_seq = .ok (rs.erase a) ∧
        (∀ c, (b'.lmem c).value = (b.lmem c).value ∧ (b'.rmem c).value = (b.rmem c).value)) ∧
    (∀ (k : R) (a : Nat), a ∈ rs → equiv b.right_cmp (b.rmem a).value k = true →
      ∃ b', b.erase_right k = .ok (b', true) ∧ b'.valid ∧
        b'.find_right k = .ok b'.end_right ∧
        b'.find_left (b.lmem a).value = .ok b'.end_left ∧
        b'.size + 1 = b.size ∧
        b'.left_seq = .ok (ls.erase a) ∧ b'.right_seq = .ok (rs.erase a) ∧
        (∀ c, (b'.lmem c).value = (b.lmem c).value ∧ (b'.rmem c).value = (b.rmem c).value)) := by
  obtain ⟨hndl, hndr, hperm, _, hascl, hascr⟩ := seq_nodup b ls rs hv hls hrs
  have hswoL := hv.1
  have hswoR := hv.2.1
  refine ⟨?_, ?_⟩
  · intro k a ha hea
    have har : a ∈ rs := hperm.mem_iff.mp ha
    obtain ⟨b', h1, h2, h3, h4, h5, h6, h7, h8⟩ :=
      erase_left_present b k a ls rs hv hls hrs ha hea
    have hnl : ∀ c ∈ ls.erase a, equiv b'.left_cmp (b'.lmem c).value k = false := by
      intro c hc
      rw [h3, (h8 c).1]
      cases he : equiv b.left_cmp (b.lmem c).value k with
      | false => rfl
      | true =>
        exact absurd (equiv_unique hswoL hascl (List.mem_of_mem_erase hc) ha he hea)
          (ne_of_mem_erase hndl hc)
    have hnr : ∀ c ∈ rs.erase a,
        equiv b'.right_cmp (b'.rmem c).value (b.rmem a).value = false := by
      intro c hc
      rw [h4, (h8 c).2]
      cases he : equiv b.right_cmp (b.rmem c).value (b.rmem a).value with
      | false => rfl
      | true =>
        exact absurd (equiv_unique hswoR hascr (List.mem_of_mem_erase hc) har he
          (equiv_self hswoR _)) (ne_of_mem_erase hndr hc)
    refine ⟨b', h1, h2, ?_, ?_, h5, h6, h7, h8⟩
    · simp only [bimap.find_left, find_left_none b' k _ h2 h6 hnl]; rfl
    · simp only [bimap.find_right, find_right_none b' _ _ h2 h7 hnr]; rfl
  · intro k a ha hea
    have hal : a ∈ ls := hperm.mem_iff.mpr ha
    obtain ⟨b', h1, h2, h3, h4, h5, h6, h7, h8⟩ :=
      erase_right_present b k a ls rs hv hls hrs ha hea
    have hnr : ∀ c ∈ rs.erase a, equiv b'.right_cmp (b'.rmem c).value k = false := by
      intro c hc
      rw [h4, (h8 c).2]
      cases he : equiv b.right_cmp (b.rmem c).value k with
      | false => rfl
      | true =>
        exact absurd (equiv_unique hswoR hascr (List.mem_of_mem_erase hc) ha he hea)
          (ne_of_mem_erase hndr hc)
    have hnl : ∀ c ∈ ls.erase a,
        equiv b'.left_cmp (b'.lmem c).value (b.lmem a).value = false := by
      intro c hc
      rw [h3, (h8 c).1]
      cases he : equiv b.left_cmp (b.lmem c).value (b.lmem a).value with
      | false => rfl
      | true =>
        exact absurd (equiv_unique hswoL hascl (List.mem_of_mem_erase hc) hal he
          (equiv_self hswoL _)) (ne_of_mem_erase hndl hc)
    refine ⟨b', h1, h2, ?_, ?_, h5, h6, h7, h8⟩
    · simp only [bimap.find_right, find_right_none b' k _ h2 h7 hnr]; rfl
    · simp only [bimap.find_left, find_left_none b' _ _ h2 h6 hnl]; rfl

/-- C5: in a valid container, `erase_left(k)` for a `k` equivalent to no stored left key
returns false and the container it was given (size and both ordered sequences unchanged);
symmetrically for `erase_right`. -/
theorem C5_erase_absent {L R : Type} (b : bimap L R) (ls rs : List Nat)
    (hv : b.valid) (hls : b.left_seq = .ok ls) (hrs : b.right_seq = .ok rs) :
    (∀ k : L, (∀ a ∈ ls, equiv b.left_cmp (b.lmem a).value k = false) →
      ∃ b', b.erase_left k = .ok (b', false) ∧ b' = b ∧ b'.size = b.size ∧
        b'.left_seq = .ok ls ∧ b'.right_seq = .ok rs) ∧
    (∀ k : R, (∀ a ∈ rs, equiv b.right_cmp (b.rmem a).value k = false) →
      ∃ b', b.erase_right k = .ok (b', false) ∧ b' = b ∧ b'.size = b.size ∧
        b'.left_seq = .ok ls ∧ b'.right_seq = .ok rs) :=
  ⟨fun k h => ⟨b, erase_left_absent b k ls hv hls h, rfl, rfl, hls, hrs⟩,
    fun k h => ⟨b, erase_right_absent b k rs hv hrs h, rfl, rfl, hls, hrs⟩⟩

/-- C6: in a valid container, `at_left(k)` signals `out_of_range` exactly when no stored
left key is equivalent to `k`; when the record `a` has a left key equivalent to `k`, it
returns the right value of `a`, and `a` is the only such record.  Symmetrically for
`at_right`. -/
theorem C6_at_checked {L R : Type} (b : bimap L R) (ls rs : List Nat)
    (hv : b.valid) (hls : b.left_seq = .ok ls) (hrs : b.right_seq = .ok rs) :
    (∀ k : L,
      (b.at_left k = .error .out_of_range ↔
        ∀ a ∈ ls, equiv b.left_cmp (b.lmem a).value k = false) ∧
      (∀ a ∈ ls, equiv b.left_cmp (b.lmem a).value k = true →
        b.at_left k = .ok (b.rmem a).value ∧
        ∀ c ∈ ls, equiv b.left_cmp (b.lmem c).value k = true → c = a)) ∧
    (∀ k : R,
      (b.at_right k = .error .out_of_range ↔
        ∀ a ∈ rs, equiv b.right_cmp (b.rmem a).value k = false) ∧
      (∀ a ∈ rs, equiv b.right_cmp (b.rmem a).value k = true →
        b.at_right k = .ok (b.lmem a).value ∧
        ∀ c ∈ rs, equiv b.right_cmp (b.rmem c).value k = true → c = a)) := by
  refine ⟨fun k => ?_, fun k => ?_⟩
  · have hsome : ∀ a ∈ ls, equiv b.left_cmp (b.lmem a).value k = true →
        b.at_left k = .ok (b.rmem a).value := by
      intro a ha hea
      simp only [bimap.at_left, find_left_some b k a ls hv hls ha hea]
    refine ⟨⟨?_, ?_⟩, ?_⟩
    · intro herr a ha
      cases he : equiv b.left_cmp (b.lmem a).value k with
      | false => rfl
      | true => rw [hsome a ha he] at herr; cases herr
    · intro h
      simp only [bimap.at_left, find_left_none b k ls hv hls h]
    · intro a ha hea
      exact ⟨hsome a ha hea, fun c hc hec => left_equiv_unique b k ls hv hls hc ha hec hea⟩
  · have hsome : ∀ a ∈ rs, equiv b.right_cmp (b.rmem a).value k = true →
        b.at_right k = .ok (b.lmem a).value := by
      intro a ha hea
      simp only [bimap.at_right, find_right_some b k a rs hv hrs ha hea]
    refine ⟨⟨?_, ?_⟩, ?_⟩
    · intro herr a ha
      cases he : equiv b.right_cmp (b.rmem a).value k with
      | false => rfl
      | true => rw [hsome a ha he] at herr; cases herr
    · intro h
      simp only [bimap.at_right, find_right_none b k rs hv hrs h]
    · intro a ha hea
      exact ⟨hsome a ha hea, fun c hc hec => right_equiv_unique b k rs hv hrs hc ha hec hea⟩

/-- C7: in a valid container `find_left(k)` always returns a cursor; it is `end_left()`
exactly when no stored left key is equivalent to `k`, and otherwise it references a stored
record and dereferences to a key equivalent to `k`.  Symmetrically for `find_right`. -/
theorem C7_find {L R : Type} (b : bimap L R) (ls rs : List Nat)
    (hv : b.valid) (hls : b.left_seq = .ok ls) (hrs : b.right_seq = .ok rs) :
    (∀ k : L, ∃ it, b.find_left k = .ok it ∧
      (it = b.end_left ↔ ∀ a ∈ ls, equiv b.left_cmp (b.lmem a).value k = false) ∧
      (it ≠ b.end_left → ∃ a x, it.node = some a ∧ a ∈ ls ∧ b.deref_left it = .ok x ∧
        equiv b.left_cmp x k = true)) ∧
    (∀ k : R, ∃ it, b.find_right k = .ok it ∧
      (it = b.end_right ↔ ∀ a ∈ rs, equiv b.right_cmp (b.rmem a).value k = false) ∧
      (it ≠ b.end_right → ∃ a x, it.node = some a ∧ a ∈ rs ∧ b.deref_right it = .ok x ∧
        equiv b.right_cmp x k = true)) := by
  refine ⟨fun k => ?_, fun k => ?_⟩
  · by_cases habs : ∀ a ∈ ls, equiv b.left_cmp (b.lmem a).value k = false
    · refine ⟨b.end_left, ?_, ⟨fun _ => habs, fun _ => rfl⟩, fun h => absurd rfl h⟩
      simp only [bimap.find_left, find_left_none b k ls hv hls habs]; rfl
    · obtain ⟨a, ha, hea⟩ := exists_equiv_of_not_all habs
      refine ⟨⟨some a⟩, ?_, ⟨fun h => ?_, fun h => absurd h habs⟩,
        fun _ => ⟨a, (b.lmem a).value, rfl, ha, rfl, hea⟩⟩
      · simp only [bimap.find_left, find_left_some b k a ls hv hls ha hea]; rfl
      · simp [bimap.end_left] at h
  · by_cases habs : ∀ a ∈ rs, equiv b.right_cmp (b.rmem a).value k = false
    · refine ⟨b.end_right, ?_, ⟨fun _ => habs, fun _ => rfl⟩, fun h => absurd rfl h⟩
      simp only [bimap.find_right, find_right_none b k rs hv hrs habs]; rfl
    · obtain ⟨a, ha, hea⟩ := exists_equiv_of_not_all habs
      refine ⟨⟨some a⟩, ?_, ⟨fun h => ?_, fun h => absurd h habs⟩,
        fun _ => ⟨a, (b.rmem a).value, rfl, ha, rfl, hea⟩⟩
      · simp only [bimap.find_right, find_right_some b k a rs hv hrs ha hea]; rfl
      · simp [bimap.end_right] at h

/-- C8 (the code departs from it): on the container with left keys 1, 3, 5 (right keys
10, 30, 50), `upper_bound_left(3)` returns the cursor at the record with key 3, not at its
successor 5, and `upper_bound_right(30)` returns the cursor at the record with key 30. -/
theorem C8_upper_bound_equal_key :
    bimap135.valid ∧ bimap135.left_keys = .ok [1, 3, 5] ∧
    bimap135.upper_bound_left 3 = .ok ⟨some 1⟩ ∧ bimap135.deref_left ⟨some 1⟩ = .ok 3 ∧
    bimap135.right_keys = .ok [10, 30, 50] ∧
    bimap135.upper_bound_right 30 = .ok ⟨some 1⟩ ∧ bimap135.deref_right ⟨some 1⟩ = .ok 30 :=
  ⟨bimap135_valid, rfl, rfl, rfl, rfl, rfl, rfl⟩

/-- C9: in a valid non-empty container `lower_bound_left(q)` returns the cursor at the
first record in left order whose key is not less than `q`, or `end_left()` when every
stored key is less than `q`.  Same for `lower_bound_right`. -/
theorem C9_lower_bound {L R : Type} (b : bimap L R) (ls rs : List Nat)
    (hv : b.valid) (hls : b.left_seq = .ok ls) (hrs : b.right_seq = .ok rs) (hne : ls ≠ []) :
    (∀ q : L, b.lower_bound_left q =
      .ok ⟨ls.find? (fun a => !b.left_cmp (b.lmem a).value q)⟩) ∧
    (∀ q : R, b.lower_bound_right q =
      .ok ⟨rs.find? (fun a => !b.right_cmp (b.rmem a).value q)⟩) := by
  obtain ⟨swoL, swoR, hcl, hcr, tl, tr, hTL, hTR, hperm, hlt, hsize⟩ := hv
  have hltr : ∀ a ∈ tr.toList, a < b.brk := fun a ha => hlt a (hperm.mem_iff.mpr ha)
  have e1 := left_seq_of_valid b tl hcl hTL hlt
  have e2 := right_seq_of_valid b tr hcr hTR hltr
  rw [hls] at e1; rw [hrs] at e2
  cases e1; cases e2
  have hnel : tl ≠ .leaf := fun h => hne (by rw [h]; rfl)
  have hner : tr ≠ .leaf := by
    intro h
    apply hne
    have : tr.toList = [] := by rw [h]; rfl
    rw [this] at hperm
    exact List.Perm.eq_nil hperm
  obtain ⟨⟨lroot, lcmp⟩, ⟨rroot, rcmp⟩, cl, cr, n, lmem, rmem, brk⟩ := b
  simp only at hcl hcr hTL hTR hlt hltr swoL swoR
  subst hcl hcr
  have hfl : tl.toList.length ≤ brk + 1 := Nat.le_succ_of_le (tree_length_le hTL hlt)
  have hfr : tr.toList.length ≤ brk + 1 := Nat.le_succ_of_le (tree_length_le hTR hltr)
  refine ⟨fun q => ?_, fun q => ?_⟩
  · obtain ⟨f, h1, h2⟩ := lower_bound_core swoL lmem lroot tl (brk + 1) q hTL hfl hnel
    simp only [bimap.lower_bound_left, bimap.fuel, h1, bimap.end_left]
    rw [← h2]
    cases hc : lcmp (lmem f).value q with
    | false => simp
    | true =>
      simp only [Bool.not_true, Bool.false_eq_true, if_false]
      cases (lmem f).next <;> rfl
  · obtain ⟨f, h1, h2⟩ := lower_bound_core swoR rmem rroot tr (brk + 1) q hTR hfr hner
    simp only [bimap.lower_bound_right, bimap.fuel, h1, bimap.end_right]
    rw [← h2]
    cases hc : rcmp (rmem f).value q with
    | false => simp
    | true =>
      simp only [Bool.not_true, Bool.false_eq_true, if_false]
      cases (rmem f).next <;> rfl

/-- C10 (the code departs from it): on an empty container each of the four bound queries
dereferences the null pointer that `find_place` returns. -/
theorem C10_bounds_on_empty {L R : Type} (lmem : Mem L) (rmem : Mem R) (cl : L → L → Bool)
    (cr : R → R → Bool) (q : L) (q' : R) :
    (bimap.empty lmem rmem cl cr).lower_bound_left q = .error .null_deref ∧
    (bimap.empty lmem rmem cl cr).upper_bound_left q = .error .null_deref ∧
    (bimap.empty lmem rmem cl cr).lower_bound_right q' = .error .null_deref ∧
    (bimap.empty lmem rmem cl cr).upper_bound_right q' = .error .null_deref :=
  ⟨rfl, rfl, rfl, rfl⟩

/-- Witness of C4: erasing the left key 3, held by record 1, from the container with the
pairs (1, 10), (3, 30), (5, 50). -/
theorem C4_erase_present_witness :
    bimap135.valid ∧ bimap135.left_seq = .ok [0, 1, 2] ∧ bimap135.right_seq = .ok [0, 1, 2] ∧
    1 ∈ [0, 1, 2] ∧ equiv bimap135.left_cmp (bimap135.lmem 1).value 3 = true ∧
    ∃ b', bimap135.erase_left 3 = .ok (b', true) ∧ b'.valid ∧
      b'.find_left 3 = .ok b'.end_left ∧
      b'.find_right (bimap135.rmem 1).value = .ok b'.end_right ∧
      b'.size + 1 = bimap135.size ∧
      b'.left_seq = .ok ([0, 1, 2].erase 1) ∧ b'.right_seq = .ok ([0, 1, 2].erase 1) ∧
      (∀ c, (b'.lmem c).value = (bimap135.lmem c).value ∧
        (b'.rmem c).value = (bimap135.rmem c).value) :=
  ⟨bimap135_valid, rfl, rfl, by decide, rfl,
    (C4_erase_present bimap135 [0, 1, 2] [0, 1, 2] bimap135_valid rfl rfl).1 3 1
      (by decide) rfl⟩

/-- Witness of C5: the left key 4 is absent from the container with left keys 1, 3, 5. -/
theorem C5_erase_absent_witness :
    bimap135.valid ∧ bimap135.left_seq = .ok [0, 1, 2] ∧ bimap135.right_seq = .ok [0, 1, 2] ∧
    (∀ a ∈ [0, 1, 2], equiv bimap135.left_cmp (bimap135.lmem a).value 4 = false) ∧
    ∃ b', bimap135.erase_left 4 = .ok (b', false) ∧ b' = bimap135 ∧
      b'.size = bimap135.size ∧ b'.left_seq = .ok [0, 1, 2] ∧ b'.right_seq = .ok [0, 1, 2] :=
  ⟨bimap135_valid, rfl, rfl, by decide,
    (C5_erase_absent bimap135 [0, 1, 2] [0, 1, 2] bimap135_valid rfl rfl).1 4 (by decide)⟩

/-- Witness of C6: `at_left(1)` is 10 in the container with the pairs (1, 10), (3, 30),
(5, 50). -/
theorem C6_at_checked_witness :
    bimap135.valid ∧ bimap135.left_seq = .ok [0, 1, 2] ∧ bimap135.right_seq = .ok [0, 1, 2] ∧
    0 ∈ [0, 1, 2] ∧ equiv bimap135.left_cmp (bimap135.lmem 0).value 1 = true ∧
    bimap135.at_left 1 = .ok (bimap135.rmem 0).value ∧ (bimap135.rmem 0).value = 10 :=
  ⟨bimap135_valid, rfl, rfl, by decide, rfl,
    (((C6_at_checked bimap135 [0, 1, 2] [0, 1, 2] bimap135_valid rfl rfl).1 1).2 0
      (by decide) rfl).1, rfl⟩

/-- Witness of C7: `find_left` in the container with left keys 1, 3, 5. -/
theorem C7_find_witness :
    bimap135.valid ∧ bimap135.left_seq = .ok [0, 1, 2] ∧ bimap135.right_seq = .ok [0, 1, 2] ∧
    ∃ it, bimap135.find_left 3 = .ok it ∧
      (it = bimap135.end_left ↔
        ∀ a ∈ [0, 1, 2], equiv bimap135.left_cmp (bimap135.lmem a).value 3 = false) ∧
      (it ≠ bimap135.end_left → ∃ a x, it.node = some a ∧ a ∈ [0, 1, 2] ∧
        bimap135.deref_left it = .ok x ∧ equiv bimap135.left_cmp x 3 = true) :=
  ⟨bimap135_valid, rfl, rfl,
    (C7_find bimap135 [0, 1, 2] [0, 1, 2] bimap135_valid rfl rfl).1 3⟩

/-- Witness of C9: `lower_bound_left(2)` on left keys 1, 3, 5 is the cursor at 3. -/
theorem C9_lower_bound_witness :
    bimap135.valid ∧ bimap135.left_seq = .ok [0, 1, 2] ∧ bimap135.right_seq = .ok [0, 1, 2] ∧
    [0, 1, 2] ≠ [] ∧
    bimap135.lower_bound_left 2 = .ok ⟨some 1⟩ ∧ bimap135.deref_left ⟨some 1⟩ = .ok 3 :=
  ⟨bimap135_valid, rfl, rfl, by decide,
    (C9_lower_bound bimap135 [0, 1, 2] [0, 1, 2] bimap135_valid rfl rfl (by decide)).1 2, rfl⟩

/-! ## Equality of containers -/

/-- What validity says about the left view: where iteration starts, the threading of
the records, and the bound on their number. -/
theorem valid_left_view {L R : Type} (b : bimap L R) (ls : List Nat) (hv : b.valid)
    (hls : b.left_seq = .ok ls) :
    b.begin_left = .ok ⟨first_or ls none⟩ ∧ Linked b.lmem none ls none ∧
      ls.length ≤ b.brk ∧ (∀ a ∈ ls, a < b.brk) := by
  obtain ⟨swoL, swoR, hcl, hcr, tl, tr, hTL, hTR, hperm, hlt, hsize⟩ := hv
  have e1 := left_seq_of_valid b tl hcl hTL hlt
  rw [hls] at e1
  cases e1
  have hlen := tree_length_le hTL hlt
  refine ⟨?_, hTL.linked, hlen, hlt⟩
  obtain ⟨⟨lroot, lcmp⟩, rt, cl, cr, n, lmem, rmem, brk⟩ := b
  simp only at hcl hTL hlt hlen
  subst hcl
  simp only [bimap.begin_left, bimap.fuel]
  rw [get_first_node_spec lcmp lmem lroot tl (brk + 1) hTL.shape hTL.root_eq (by omega)]
  rfl

theorem valid_right_view {L R : Type} (b : bimap L R) (rs : List Nat) (hv : b.valid)
    (hrs : b.right_seq = .ok rs) :
    b.begin_right = .ok ⟨first_or rs none⟩ ∧ Linked b.rmem none rs none ∧
      rs.length ≤ b.brk ∧ (∀ a ∈ rs, a < b.brk) := by
  obtain ⟨swoL, swoR, hcl, hcr, tl, tr, hTL, hTR, hperm, hlt, hsize⟩ := hv
  have hltr : ∀ a ∈ tr.toList, a < b.brk := fun a ha => hlt a (hperm.mem_iff.mpr ha)
  have e1 := right_seq_of_valid b tr hcr hTR hltr
  rw [hrs] at e1
  cases e1
  have hlen := tree_length_le hTR hltr
  refine ⟨?_, hTR.linked, hlen, hltr⟩
  obtain ⟨lt, ⟨rroot, rcmp⟩, cl, cr, n, lmem, rmem, brk⟩ := b
  simp only at hcr hTR hltr hlen
  subst hcr
  simp only [bimap.begin_right, bimap.fuel]
  rw [get_first_node_spec rcmp rmem rroot tr (brk + 1) hTR.shape hTR.root_eq (by omega)]
  rfl

/-- The loop of `operator==` over two threaded lists: it answers whether every pair of
records at the same position passes the key test, up to the shorter length. -/
theorem eq_loop_spec {L R : Type} (a b : bimap L R) :
    ∀ (xs ys : List Nat) (p q : Option Nat) (fuel : Nat),
      Linked a.lmem p xs none → Linked b.lmem q ys none → xs.length ≤ fuel →
      a.eq_loop b fuel ⟨first_or xs none⟩ ⟨first_or ys none⟩ =
        .ok ((List.zip xs ys).all fun pr => a.same_pair b pr.1 pr.2) := by
  intro xs
  induction xs with
  | nil =>
    intro ys p q fuel _ _ _
    cases fuel <;> simp [bimap.eq_loop, first_or, left_iterator.eq, bimap.end_left]
  | cons x xs ih =>
    intro ys p q fuel hx hy hfuel
    cases ys with
    | nil =>
      cases fuel <;> simp [bimap.eq_loop, first_or, left_iterator.eq, bimap.end_left]
    | cons y ys =>
      obtain ⟨k, rfl⟩ : ∃ k, fuel = k + 1 := ⟨fuel - 1, by simp at hfuel; omega⟩
      obtain ⟨_, hx2, hx3⟩ := hx
      obtain ⟨_, hy2, hy3⟩ := hy
      have hrec := ih ys (some x) (some y) k hx3 hy3 (by simp at hfuel; omega)
      show a.eq_loop b (k + 1) ⟨some x⟩ ⟨some y⟩ = _
      simp only [bimap.eq_loop, left_iterator.eq, bimap.end_left, bimap.deref_left,
        bimap.deref_right, left_iterator.flip, bimap.incr_left, hx2, hy2]
      simp only [reduceCtorEq, decide_False, Bool.or_self, Bool.false_eq_true, if_false]
      rw [hrec, List.zip_cons_cons, List.all_cons]
      cases h1 : a.left_cmp (a.lmem x).value (b.lmem y).value <;>
        cases h2 : a.left_cmp (b.lmem y).value (a.lmem x).value <;>
        cases h3 : b.right_cmp (a.rmem x).value (b.rmem y).value <;>
        cases h4 : b.right_cmp (b.rmem y).value (a.rmem x).value <;>
        simp [bimap.same_pair, equiv, h1, h2, h3, h4]

/-- The answer of `operator==` on valid containers. -/
theorem operator_eq_spec {L R : Type} (a b : bimap L R) (la lb : List Nat)
    (hva : a.valid) (hvb : b.valid) (hla : a.left_seq = .ok la) (hlb : b.left_seq = .ok lb) :
    a.operator_eq b =
      .ok (decide (a.size = b.size) &&
        (List.zip la lb).all fun pr => a.same_pair b pr.1 pr.2) := by
  obtain ⟨ha1, ha2, ha3, _⟩ := valid_left_view a la hva hla
  obtain ⟨hb1, hb2, _, _⟩ := valid_left_view b lb hvb hlb
  by_cases hs : a.size = b.size
  · simp only [bimap.operator_eq, hs, ne_eq, not_true_eq_false, if_false, ha1, hb1, decide_True,
      Bool.true_and]
    exact eq_loop_spec a b la lb none none a.fuel ha2 hb2 (by simp [bimap.fuel]; omega)
  · simp [bimap.operator_eq, hs]

/-! ## Lookups, cursors, moves -/

theorem at_left_some {L R : Type} (b : bimap L R) (k : L) (a : Nat) (ls : List Nat)
    (hv : b.valid) (hls : b.left_seq = .ok ls) (ha : a ∈ ls)
    (hea : equiv b.left_cmp (b.lmem a).value k = true) :
    b.at_left k = .ok (b.rmem a).value := by
  simp only [bimap.at_left, find_left_some b k a ls hv hls ha hea]

theorem at_right_some {L R : Type} (b : bimap L R) (k : R) (a : Nat) (rs : List Nat)
    (hv : b.valid) (hrs : b.right_seq = .ok rs) (ha : a ∈ rs)
    (hea : equiv b.right_cmp (b.rmem a).value k = true) :
    b.at_right k = .ok (b.lmem a).value := by
  simp only [bimap.at_right, find_right_some b k a rs hv hrs ha hea]

theorem equiv_symm {T : Type} (cmp : T → T → Bool) (x y : T) :
    equiv cmp x y = equiv cmp y x := by
  simp only [equiv, Bool.and_comm]

/-- Iteration over the left view from the head of a suffix of the sequence. -/
theorem walk_left_suffix {L R : Type} (b : bimap L R) (pre post : List Nat) (hv : b.valid)
    (hls : b.left_seq = .ok (pre ++ post)) :
    walk b.lmem b.fuel (first_or post none) = .ok post := by
  obtain ⟨_, h2, h3, _⟩ := valid_left_view b _ hv hls
  have h4 := ((Linked_append b.lmem pre post none none).mp h2).2
  refine walk_spec b.lmem post _ b.fuel h4 ?_
  simp only [List.length_append] at h3
  simp only [bimap.fuel]; omega

theorem walk_right_suffix {L R : Type} (b : bimap L R) (pre post : List Nat) (hv : b.valid)
    (hrs : b.right_seq = .ok (pre ++ post)) :
    walk b.rmem b.fuel (first_or post none) = .ok post := by
  obtain ⟨_, h2, h3, _⟩ := valid_right_view b _ hv hrs
  have h4 := ((Linked_append b.rmem pre post none none).mp h2).2
  refine walk_spec b.rmem post _ b.fuel h4 ?_
  simp only [List.length_append] at h3
  simp only [bimap.fuel]; omega

/-- A valid container of size 0 has nothing to iterate over. -/
theorem begin_of_size_zero {L R : Type} (b : bimap L R) (hv : b.valid) (h0 : b.size = 0) :
    b.begin_left = .ok b.end_left ∧ b.begin_right = .ok b.end_right ∧
      b.left_seq = .ok [] ∧ b.right_seq = .ok [] := by
  obtain ⟨ls, rs, hls, hrs⟩ := seq_exists b hv
  obtain ⟨_, _, hperm, hsize, _, _⟩ := seq_nodup b ls rs hv hls hrs
  have hl : ls = [] := List.length_eq_zero.mp (by rw [← hsize]; exact h0)
  subst hl
  have hr : rs = [] := hperm.nil_eq.symm
  subst hr
  exact ⟨(valid_left_view b [] hv hls).1, (valid_right_view b [] hv hrs).1, hls, hrs⟩

/-! ## Claims on equality, moves, cursors and lookups -/

/-- C12: for valid containers `a` and `b`, `a == b` returns, and it is true exactly when
the sizes are equal and, pairing the records at the same position of the two left-order
sequences, the left keys are equivalent (under the left comparator, the one of `a`) and
the right keys reached by `flip` are equivalent (under the right comparator, the one of
`b`); `a != b` returns the negation. -/
theorem C12_operator_eq {L R : Type} (a b : bimap L R) (la lb : List Nat)
    (hva : a.valid) (hvb : b.valid) (hla : a.left_seq = .ok la) (hlb : b.left_seq = .ok lb) :
    ∃ res, a.operator_eq b = .ok res ∧
      (res = true ↔ a.size = b.size ∧ ∀ pr ∈ List.zip la lb,
        equiv a.left_cmp (a.lmem pr.1).value (b.lmem pr.2).value = true ∧
        equiv b.right_cmp (a.rmem pr.1).value (b.rmem pr.2).value = true) ∧
      a.operator_ne b = .ok (!res) := by
  have h := operator_eq_spec a b la lb hva hvb hla hlb
  refine ⟨_, h, ?_, ?_⟩
  · simp only [Bool.and_eq_true, decide_eq_true_eq, List.all_eq_true, bimap.same_pair]
  · simp only [bimap.operator_ne, h]

/-- Witness of C12: the container with the pairs (1, 10), (3, 30), (5, 50) against the
one with the pairs (1, 10), (5, 50). -/
theorem C12_operator_eq_witness :
    bimap135.valid ∧ bimap15.valid ∧ bimap135.left_seq = .ok [0, 1, 2] ∧
    bimap15.left_seq = .ok [0, 2] ∧
    ∃ res, bimap135.operator_eq bimap15 = .ok res ∧
      (res = true ↔ bimap135.size = bimap15.size ∧ ∀ pr ∈ List.zip [0, 1, 2] [0, 2],
        equiv bimap135.left_cmp (bimap135.lmem pr.1).value (bimap15.lmem pr.2).value = true ∧
        equiv bimap15.right_cmp (bimap135.rmem pr.1).value (bimap15.rmem pr.2).value = true) ∧
      bimap135.operator_ne bimap15 = .ok (!res) :=
  ⟨bimap135_valid, valid_of_reachable _ bimap15_reachable, rfl, rfl,
    C12_operator_eq bimap135 bimap15 [0, 1, 2] [0, 2] bimap135_valid
      (valid_of_reachable _ bimap15_reachable) rfl rfl⟩

/-- C14 fails as stated: move-assigning the container with the pairs (1, 10), (3, 30),
(5, 50) to the valid container that holds the pair (1, 10) leaves the source with that
pair: its size is 1 and `begin_left()` is not `end_left()`. -/
theorem C14_source_keeps_destination :
    bimap1.valid ∧ bimap135.valid ∧
    (bimap1.move_assign bimap135).2.size = 1 ∧
    (bimap1.move_assign bimap135).2.size ≠ 0 ∧
    (bimap1.move_assign bimap135).2.begin_left = .ok ⟨some 0⟩ ∧
    (bimap1.move_assign bimap135).2.begin_left ≠
      .ok (bimap1.move_assign bimap135).2.end_left ∧
    (bimap1.move_assign bimap135).2.left_pairs = .ok [(1, 10)] :=
  ⟨bimap1_valid, bimap135_valid, rfl, by decide, rfl,
    (fun h => by
      have h2 : (Except.ok ⟨some 0⟩ : Except Err left_iterator) = .ok ⟨none⟩ := h
      simp at h2), rfl⟩

/-- C14 (amended): move assignment exchanges the members.  The destination holds the
roots, comparators and count, hence the size and the pair sequence, that the source held;
the source holds those that the destination held, and is a valid container.  It is empty
when the destination was: in particular after move construction. -/
theorem C14_move_exchanges {L R : Type} (d s : bimap L R) (hd : d.valid) (hs : s.valid) :
    (d.move_assign s).1 = s ∧ (d.move_assign s).2 = d ∧
    (d.move_assign s).1.left_tree.root = s.left_tree.root ∧
    (d.move_assign s).1.right_tree.root = s.right_tree.root ∧
    (d.move_assign s).1.left_cmp = s.left_cmp ∧ (d.move_assign s).1.right_cmp = s.right_cmp ∧
    (d.move_assign s).1.size = s.size ∧ (d.move_assign s).1.left_pairs = s.left_pairs ∧
    (d.move_assign s).1.valid ∧ (d.move_assign s).2.valid ∧
    (d.size = 0 → (d.move_assign s).2.size = 0 ∧
      (d.move_assign s).2.begin_left = .ok (d.move_assign s).2.end_left) ∧
    (∀ (lmem : Mem L) (rmem : Mem R) (cl0 : L → L → Bool) (cr0 : R → R → Bool),
      (bimap.move_construct lmem rmem cl0 cr0 s).1 = s ∧
      (bimap.move_construct lmem rmem cl0 cr0 s).2.size = 0 ∧
      (bimap.move_construct lmem rmem cl0 cr0 s).2.begin_left =
        .ok (bimap.move_construct lmem rmem cl0 cr0 s).2.end_left) := by
  have e1 : (d.move_assign s).1 = s := rfl
  have e2 : (d.move_assign s).2 = d := rfl
  refine ⟨e1, e2, rfl, rfl, rfl, rfl, rfl, rfl, by rw [e1]; exact hs, by rw [e2]; exact hd,
    fun h0 => ?_, fun lmem rmem cl0 cr0 => ⟨rfl, rfl, ?_⟩⟩
  · rw [e2]
    exact ⟨h0, (begin_of_size_zero d hd h0).1⟩
  · cases hf : (bimap.empty lmem rmem cl0 cr0).fuel <;> rfl

/-- Witness of C14: the container with the pairs (1, 10), (3, 30), (5, 50) is
move-assigned to the one that holds the pair (1, 10). -/
theorem C14_move_exchanges_witness :
    bimap1.valid ∧ bimap135.valid ∧ (bimap1.move_assign bimap135).1 = bimap135 ∧
    (bimap1.move_assign bimap135).2 = bimap1 :=
  ⟨bimap1_valid, bimap135_valid,
    (C14_move_exchanges bimap1 bimap135 bimap1_valid bimap135_valid).1,
    (C14_move_exchanges bimap1 bimap135 bimap1_valid bimap135_valid).2.1⟩

/-- C17: `flip` composed with itself gives back the cursor, which references the same
record throughout, for left and for right cursors, end cursors included; `flip` of an end
cursor is the end cursor of the other dimension. -/
theorem C17_flip_involution {L R : Type} (b : bimap L R) (it : left_iterator)
    (jt : right_iterator) :
    it.flip.flip = it ∧ it.flip.flip.eq it = true ∧ it.flip.node = it.node ∧
    jt.flip.flip = jt ∧ jt.flip.flip.eq jt = true ∧ jt.flip.node = jt.node ∧
    b.end_left.flip = b.end_right ∧ b.end_right.flip = b.end_left := by
  obtain ⟨n⟩ := it
  obtain ⟨k⟩ := jt
  cases n <;> cases k <;>
    simp [left_iterator.flip, right_iterator.flip, left_iterator.eq, right_iterator.eq,
      bimap.end_left, bimap.end_right]

/-- C19: in a valid container, for a key `l` equivalent to a stored left key,
`at_left(l)` returns a right key `r`, `at_right(r)` returns a left key, and that key is
equivalent to `l` under the left comparator; symmetrically `at_left(at_right(r))` is
equivalent to `r` under the right comparator for a key `r` equivalent to a stored right
key. -/
theorem C19_lookups_inverse {L R : Type} (b : bimap L R) (ls rs : List Nat)
    (hv : b.valid) (hls : b.left_seq = .ok ls) (hrs : b.right_seq = .ok rs) :
    (∀ (l : L) (a : Nat), a ∈ ls → equiv b.left_cmp (b.lmem a).value l = true →
      ∃ r l', b.at_left l = .ok r ∧ b.at_right r = .ok l' ∧ equiv b.left_cmp l' l = true) ∧
    (∀ (r : R) (a : Nat), a ∈ rs → equiv b.right_cmp (b.rmem a).value r = true →
      ∃ l r', b.at_right r = .ok l ∧ b.at_left l = .ok r' ∧
        equiv b.right_cmp r' r = true) := by
  obtain ⟨_, _, hperm, _, _, _⟩ := seq_nodup b ls rs hv hls hrs
  refine ⟨fun l a ha hea => ?_, fun r a ha hea => ?_⟩
  · exact ⟨_, _, at_left_some b l a ls hv hls ha hea,
      at_right_some b _ a rs hv hrs (hperm.mem_iff.mp ha) (equiv_self hv.2.1 _), hea⟩
  · exact ⟨_, _, at_right_some b r a rs hv hrs ha hea,
      at_left_some b _ a ls hv hls (hperm.mem_iff.mpr ha) (equiv_self hv.1 _), hea⟩

/-- Witness of C19: the left key 3 of the container with the pairs (1, 10), (3, 30),
(5, 50). -/
theorem C19_lookups_inverse_witness :
    bimap135.valid ∧ bimap135.left_seq = .ok [0, 1, 2] ∧ bimap135.right_seq = .ok [0, 1, 2] ∧
    1 ∈ [0, 1, 2] ∧ equiv bimap135.left_cmp (bimap135.lmem 1).value 3 = true ∧
    ∃ r l', bimap135.at_left 3 = .ok r ∧ bimap135.at_right r = .ok l' ∧
      equiv bimap135.left_cmp l' 3 = true :=
  ⟨bimap135_valid, rfl, rfl, by decide, rfl,
    (C19_lookups_inverse bimap135 [0, 1, 2] [0, 1, 2] bimap135_valid rfl rfl).1 3 1
      (by decide) rfl⟩

/-- C16: in a valid container, `erase_left(it)` for a cursor at the record `a` of the
left-order sequence `pre ++ a :: post` returns; the container stays valid, its size
decreases by 1, the record leaves both sequences while the other records keep their
places and keys; the returned cursor is at the head of `post`, or is `end_left()` when
`post` is empty, and iterating on from it yields exactly `post`.  Symmetrically for
`erase_right(it)`. -/
theorem C16_erase_at_cursor {L R : Type} (b : bimap L R) (ls rs : List Nat)
    (hv : b.valid) (hls : b.left_seq = .ok ls) (hrs : b.right_seq = .ok rs) :
    (∀ (a : Nat) (pre post : List Nat), ls = pre ++ a :: post →
      ∃ b' nxt, b.erase_left_at ⟨some a⟩ = .ok (b', nxt) ∧ b'.valid ∧
        b'.size + 1 = b.size ∧
        b'.left_seq = .ok (pre ++ post) ∧ b'.right_seq = .ok (rs.erase a) ∧
        a ∉ pre ++ post ∧ a ∉ rs.erase a ∧
        (∀ c, (b'.lmem c).value = (b.lmem c).value ∧ (b'.rmem c).value = (b.rmem c).value) ∧
        nxt.node = first_or post none ∧ (post = [] → nxt = b'.end_left) ∧
        walk b'.lmem b'.fuel nxt.node = .ok post) ∧
    (∀ (a : Nat) (pre post : List Nat), rs = pre ++ a :: post →
      ∃ b' nxt, b.erase_right_at ⟨some a⟩ = .ok (b', nxt) ∧ b'.valid ∧
        b'.size + 1 = b.size ∧
        b'.right_seq = .ok (pre ++ post) ∧ b'.left_seq = .ok (ls.erase a) ∧
        a ∉ pre ++ post ∧ a ∉ ls.erase a ∧
        (∀ c, (b'.lmem c).value = (b.lmem c).value ∧ (b'.rmem c).value = (b.rmem c).value) ∧
        nxt.node = first_or post none ∧ (post = [] → nxt = b'.end_right) ∧
        walk b'.rmem b'.fuel nxt.node = .ok post) := by
  obtain ⟨hndl, hndr, hperm, _, _, _⟩ := seq_nodup b ls rs hv hls hrs
  refine ⟨fun a pre post hsplit => ?_, fun a pre post hsplit => ?_⟩
  · subst hsplit
    obtain ⟨b', h1, h2, _, _, h5, h6, h7, h8⟩ :=
      erase_left_at_present b a _ rs hv hls hrs (by simp)
    have hnext : (b.lmem a).next = first_or post none :=
      (Linked_anchor (valid_left_view b _ hv hls).2.1).2
    rw [erase_middle hndl] at h6
    refine ⟨b', ⟨(b.lmem a).next⟩, h1, h2, h5, h6, h7, ?_, ?_, h8, hnext, ?_, ?_⟩
    · have := List.Nodup.not_mem_erase (a := a) hndl
      rwa [erase_middle hndl] at this
    · exact List.Nodup.not_mem_erase hndr
    · intro hp
      subst hp
      simp only [hnext, first_or, bimap.end_left]
    · show walk b'.lmem b'.fuel (b.lmem a).next = .ok post
      rw [hnext]
      exact walk_left_suffix b' pre post h2 h6
  · subst hsplit
    obtain ⟨b', h1, h2, _, _, h5, h6, h7, h8⟩ :=
      erase_right_at_present b a ls _ hv hls hrs (by simp)
    have hnext : (b.rmem a).next = first_or post none :=
      (Linked_anchor (valid_right_view b _ hv hrs).2.1).2
    rw [erase_middle hndr] at h7
    refine ⟨b', ⟨(b.rmem a).next⟩, h1, h2, h5, h7, h6, ?_, ?_, h8, hnext, ?_, ?_⟩
    · have := List.Nodup.not_mem_erase (a := a) hndr
      rwa [erase_middle hndr] at this
    · exact List.Nodup.not_mem_erase hndl
    · intro hp
      subst hp
      simp only [hnext, first_or, bimap.end_right]
    · show walk b'.rmem b'.fuel (b.rmem a).next = .ok post
      rw [hnext]
      exact walk_right_suffix b' pre post h2 h7

/-- Witness of C16: the cursor at the pair (3, 30), record 1, of the container with the
pairs (1, 10), (3, 30), (5, 50); the returned cursor is at record 2, the pair (5, 50). -/
theorem C16_erase_at_cursor_witness :
    bimap135.valid ∧ bimap135.left_seq = .ok [0, 1, 2] ∧ bimap135.right_seq = .ok [0, 1, 2] ∧
    [0, 1, 2] = [0] ++ 1 :: [2] ∧
    ∃ b' nxt, bimap135.erase_left_at ⟨some 1⟩ = .ok (b', nxt) ∧ b'.valid ∧
      b'.size + 1 = bimap135.size ∧
      b'.left_seq = .ok ([0] ++ [2]) ∧ b'.right_seq = .ok ([0, 1, 2].erase 1) ∧
      1 ∉ [0] ++ [2] ∧ 1 ∉ [0, 1, 2].erase 1 ∧
      (∀ c, (b'.lmem c).value = (bimap135.lmem c).value ∧
        (b'.rmem c).value = (bimap135.rmem c).value) ∧
      nxt.node = first_or [2] none ∧ (([2] : List Nat) = [] → nxt = b'.end_left) ∧
      walk b'.lmem b'.fuel nxt.node = .ok [2] :=
  ⟨bimap135_valid, rfl, rfl, rfl,
    (C16_erase_at_cursor bimap135 [0, 1, 2] [0, 1, 2] bimap135_valid rfl rfl).1 1 [0] [2] rfl⟩

/-! ## Insertion order -/

theorem left_pairs_eq {L R : Type} (b : bimap L R) (ls : List Nat)
    (hls : b.left_seq = .ok ls) : b.left_pairs = .ok (b.pairs_of ls) := by
  simp only [bimap.left_pairs, hls, bimap.pairs_of]

/-- Two lists with the same elements, both strictly ascending in their first components,
are equal. -/
theorem sorted_perm_eq {L R : Type} {cl : L → L → Bool} (hswo : StrictWeakOrder cl)
    {xs ys : List (L × R)} (hp : xs.Perm ys)
    (hx : xs.Pairwise (fun p q => cl p.1 q.1 = true))
    (hy : ys.Pairwise (fun p q => cl p.1 q.1 = true)) : xs = ys := by
  haveI : IsAntisymm (L × R) (fun p q => cl p.1 q.1 = true) :=
    ⟨fun p q h1 h2 => by
      have := hswo.asymm h1
      rw [h2] at this
      cases this⟩
  exact List.eq_of_perm_of_sorted hp hx hy

/-- The pairs of a container after `insert_all` of pairs whose keys collide neither with
each other nor with the stored ones: the stored pairs and the inserted ones. -/
theorem insert_all_pairs {L R : Type} (ps : List (L × R)) :
    ∀ (b : bimap L R) (ls rs : List Nat), b.valid → b.left_seq = .ok ls → b.right_seq = .ok rs →
      ps.Pairwise (fun p q => equiv b.left_cmp p.1 q.1 = false) →
      ps.Pairwise (fun p q => equiv b.right_cmp p.2 q.2 = false) →
      (∀ a ∈ ls, ∀ p ∈ ps, equiv b.left_cmp (b.lmem a).value p.1 = false) →
      (∀ a ∈ rs, ∀ p ∈ ps, equiv b.right_cmp (b.rmem a).value p.2 = false) →
      ∃ b' ls', b.insert_all ps = .ok b' ∧ b'.valid ∧ b'.left_cmp = b.left_cmp ∧
        b'.right_cmp = b.right_cmp ∧ b'.left_seq = .ok ls' ∧
        (b'.pairs_of ls').Perm (b.pairs_of ls ++ ps) ∧ b'.size = b.size + ps.length := by
  induction ps with
  | nil =>
    intro b ls rs hv hls _ _ _ _ _
    exact ⟨b, ls, rfl, hv, rfl, rfl, hls, by simp, rfl⟩
  | cons p ps ih =>
    intro b ls rs hv hls hrs hpl hpr hkl hkr
    obtain ⟨b', h1, h2, h3, h4, h5, h6, h7, ⟨p1, q1, h8, h8'⟩, ⟨p2, q2, h9, h9'⟩, h10, h11, h12⟩ :=
      insert_fresh_valid b p.1 p.2 ls rs hv hls hrs
        (fun a ha => hkl a ha p (by simp)) (fun a ha => hkr a ha p (by simp))
    have hpl' := List.pairwise_cons.mp hpl
    have hpr' := List.pairwise_cons.mp hpr
    obtain ⟨b'', ls'', g1, g2, g3, g4, g5, g6, g7⟩ := ih b' _ _ h2 h8' h9'
      (by rw [h3]; exact hpl'.2) (by rw [h4]; exact hpr'.2)
      (by
        intro a ha q hq
        rw [h3]
        by_cases hab : a = b.brk
        · subst hab; rw [h11]; exact hpl'.1 q hq
        · rw [(h10 a hab).1]
          refine hkl a ?_ q (by simp [hq])
          rw [h8]
          simp only [List.mem_append, List.mem_cons] at ha ⊢
          tauto)
      (by
        intro a ha q hq
        rw [h4]
        by_cases hab : a = b.brk
        · subst hab; rw [h12]; exact hpr'.1 q hq
        · rw [(h10 a hab).2]
          refine hkr a ?_ q (by simp [hq])
          rw [h9]
          simp only [List.mem_append, List.mem_cons] at ha ⊢
          tauto)
    have hold : b'.pairs_of ls = b.pairs_of ls := by
      simp only [bimap.pairs_of]
      refine List.map_congr_left (fun a ha => ?_)
      have hab : a ≠ b.brk := by rintro rfl; exact h6 ha
      rw [(h10 a hab).1, (h10 a hab).2]
    have hnew : (b'.pairs_of (p1 ++ b.brk :: q1)).Perm (p :: b.pairs_of ls) := by
      have e : b'.pairs_of (b.brk :: ls) = p :: b.pairs_of ls := by
        rw [← hold]
        simp only [bimap.pairs_of, List.map_cons, h11, h12]
      rw [← e]
      simp only [bimap.pairs_of]
      refine List.Perm.map _ ?_
      rw [h8]
      exact List.perm_middle
    refine ⟨b'', ls'', ?_, g2, g3.trans h3, g4.trans h4, g5, ?_, ?_⟩
    · simp only [bimap.insert_all, h1]
      exact g1
    · refine g6.trans ?_
      have h0 : (p :: b.pairs_of ls ++ ps).Perm (b.pairs_of ls ++ p :: ps) :=
        List.perm_middle.symm
      exact (List.Perm.append_right ps hnew).trans h0
    · rw [g7]
      simp only [bimap.size, h5, List.length_cons]
      omega

/-- The pair sequence of a valid container ascends strictly in the left keys. -/
theorem pairs_sorted {L R : Type} (b : bimap L R) (ls : List Nat) (hv : b.valid)
    (hls : b.left_seq = .ok ls) :
    (b.pairs_of ls).Pairwise (fun p q => b.left_cmp p.1 q.1 = true) := by
  obtain ⟨rs, hrs⟩ : ∃ rs, b.right_seq = .ok rs := by
    obtain ⟨ls', rs, _, h⟩ := seq_exists b hv
    exact ⟨rs, h⟩
  obtain ⟨_, _, _, _, hasc, _⟩ := seq_nodup b ls rs hv hls hrs
  simp only [bimap.pairs_of, List.pairwise_map]
  exact hasc

/-- Containers with the same comparators and the same pair sequence compare equal. -/
theorem operator_eq_of_pairs {L R : Type} (a b : bimap L R) (la lb : List Nat)
    (hva : a.valid) (hvb : b.valid) (hla : a.left_seq = .ok la) (hlb : b.left_seq = .ok lb)
    (hp : a.pairs_of la = b.pairs_of lb) :
    a.operator_eq b = .ok true := by
  obtain ⟨rsa, hrsa⟩ : ∃ rs, a.right_seq = .ok rs := by
    obtain ⟨_, rs, _, h⟩ := seq_exists a hva
    exact ⟨rs, h⟩
  obtain ⟨rsb, hrsb⟩ : ∃ rs, b.right_seq = .ok rs := by
    obtain ⟨_, rs, _, h⟩ := seq_exists b hvb
    exact ⟨rs, h⟩
  obtain ⟨_, _, _, hsa, _, _⟩ := seq_nodup a la rsa hva hla hrsa
  obtain ⟨_, _, _, hsb, _, _⟩ := seq_nodup b lb rsb hvb hlb hrsb
  have hlen : la.length = lb.length := by
    have := congrArg List.length hp
    simpa [bimap.pairs_of] using this
  rw [operator_eq_spec a b la lb hva hvb hla hlb]
  have hsize : a.size = b.size := by
    simp only [bimap.size, hsa, hsb, hlen]
  have hall : ∀ (xs ys : List Nat), a.pairs_of xs = b.pairs_of ys →
      (List.zip xs ys).all (fun pr => a.same_pair b pr.1 pr.2) = true := by
    intro xs
    induction xs with
    | nil => intro ys _; simp
    | cons x xs ih =>
      intro ys h
      cases ys with
      | nil => simp
      | cons y ys =>
        simp only [bimap.pairs_of, List.map_cons, List.cons.injEq, Prod.mk.injEq] at h
        obtain ⟨⟨e1, e2⟩, e3⟩ := h
        simp only [List.zip_cons_cons, List.all_cons, Bool.and_eq_true]
        refine ⟨?_, ih ys e3⟩
        simp only [bimap.same_pair, e1, e2, Bool.and_eq_true]
        exact ⟨equiv_self hva.1 _, equiv_self hvb.2.1 _⟩
  simp only [hsize, decide_True, Bool.true_and, hall la lb hp]

/-- Insertion of a duplicate-free list of pairs into an empty container: what it
builds. -/
theorem insert_all_empty {L R : Type} (lmem : Mem L) (rmem : Mem R) {cl : L → L → Bool}
    {cr : R → R → Bool} (hl : StrictWeakOrder cl) (hr : StrictWeakOrder cr)
    (ps : List (L × R)) (hdl : ps.Pairwise (fun p q => equiv cl p.1 q.1 = false))
    (hdr : ps.Pairwise (fun p q => equiv cr p.2 q.2 = false)) :
    ∃ b ls, (bimap.empty lmem rmem cl cr).insert_all ps = .ok b ∧ b.valid ∧
      b.left_cmp = cl ∧ b.right_cmp = cr ∧ b.left_seq = .ok ls ∧
      (b.pairs_of ls).Perm ps ∧ b.size = ps.length := by
  have hv := valid_empty lmem rmem cl cr hl hr
  obtain ⟨h1, h2, h3, h4⟩ := begin_of_size_zero _ hv rfl
  obtain ⟨b, ls, g1, g2, g3, g4, g5, g6, g7⟩ :=
    insert_all_pairs ps (bimap.empty lmem rmem cl cr) [] [] hv h3 h4 hdl hdr
      (fun a ha => by simp at ha) (fun a ha => by simp at ha)
  refine ⟨b, ls, g1, g2, g3, g4, g5, ?_, ?_⟩
  · simpa [bimap.pairs_of] using g6
  · rw [g7]; simp [bimap.size, bimap.empty]

/-- C11: two lists of pairs that are permutations of each other, with left keys pairwise
inequivalent under the left comparator and right keys pairwise inequivalent under the
right comparator, are inserted in order into empty containers with the same comparators.
Both runs of insertions return, the two containers compare equal under `operator==`, and
they hold the same sequence of pairs. -/
theorem C11_insertion_order {L R : Type} (lmem lmem2 : Mem L) (rmem rmem2 : Mem R)
    (cl : L → L → Bool) (cr : R → R → Bool) (hl : StrictWeakOrder cl)
    (hr : StrictWeakOrder cr) (ps qs : List (L × R)) (hperm : ps.Perm qs)
    (hdl : ps.Pairwise (fun p q => equiv cl p.1 q.1 = false))
    (hdr : ps.Pairwise (fun p q => equiv cr p.2 q.2 = false)) :
    ∃ a b, (bimap.empty lmem rmem cl cr).insert_all ps = .ok a ∧
      (bimap.empty lmem2 rmem2 cl cr).insert_all qs = .ok b ∧
      a.operator_eq b = .ok true ∧ b.operator_eq a = .ok true ∧
      a.operator_ne b = .ok false ∧
      a.left_pairs = b.left_pairs ∧ a.size = ps.length ∧ b.size = ps.length := by
  have hdl2 : qs.Pairwise (fun p q => equiv cl p.1 q.1 = false) :=
    (List.Perm.pairwise_iff (fun {x y} h => by rw [equiv_symm]; exact h) hperm).mp hdl
  have hdr2 : qs.Pairwise (fun p q => equiv cr p.2 q.2 = false) :=
    (List.Perm.pairwise_iff (fun {x y} h => by rw [equiv_symm]; exact h) hperm).mp hdr
  obtain ⟨a, la, a1, a2, a3, a4, a5, a6, a7⟩ := insert_all_empty lmem rmem hl hr ps hdl hdr
  obtain ⟨b, lb, b1, b2, b3, b4, b5, b6, b7⟩ := insert_all_empty lmem2 rmem2 hl hr qs hdl2 hdr2
  have hsa := pairs_sorted a la a2 a5
  have hsb := pairs_sorted b lb b2 b5
  rw [a3] at hsa
  rw [b3] at hsb
  have heq : a.pairs_of la = b.pairs_of lb :=
    sorted_perm_eq hl ((a6.trans hperm).trans b6.symm) hsa hsb
  have hab := operator_eq_of_pairs a b la lb a2 b2 a5 b5 heq
  refine ⟨a, b, a1, b1, hab, operator_eq_of_pairs b a lb la b2 a2 b5 a5 heq.symm, ?_, ?_, a7, ?_⟩
  · simp only [bimap.operator_ne, hab, Bool.not_true]
  · rw [left_pairs_eq a la a5, left_pairs_eq b lb b5, heq]
  · rw [b7]; exact hperm.length_eq.symm

/-- Witness of C11: the pairs (1, 10), (3, 30), (5, 50) inserted in this order and in the
order (5, 50), (1, 10), (3, 30). -/
theorem C11_insertion_order_witness :
    StrictWeakOrder nat_less ∧
    [(1, 10), (3, 30), (5, 50)].Perm [(5, 50), (1, 10), (3, 30)] ∧
    [((1 : Nat), (10 : Nat)), (3, 30), (5, 50)].Pairwise
      (fun p q => equiv nat_less p.1 q.1 = false) ∧
    [((1 : Nat), (10 : Nat)), (3, 30), (5, 50)].Pairwise
      (fun p q => equiv nat_less p.2 q.2 = false) ∧
    ∃ a b, (bimap.empty mem0 mem0 nat_less nat_less).insert_all [(1, 10), (3, 30), (5, 50)] =
        .ok a ∧
      (bimap.empty mem0 mem0 nat_less nat_less).insert_all [(5, 50), (1, 10), (3, 30)] =
        .ok b ∧
      a.operator_eq b = .ok true ∧ b.operator_eq a = .ok true ∧
      a.operator_ne b = .ok false ∧
      a.left_pairs = b.left_pairs ∧ a.size = [((1 : Nat), (10 : Nat)), (3, 30), (5, 50)].length ∧
      b.size = [((1 : Nat), (10 : Nat)), (3, 30), (5, 50)].length :=
  ⟨nat_less_swo, by decide, by decide, by decide,
    C11_insertion_order mem0 mem0 mem0 mem0 nat_less nat_less nat_less_swo nat_less_swo
      [(1, 10), (3, 30), (5, 50)] [(5, 50), (1, 10), (3, 30)] (by decide) (by decide)
      (by decide)⟩

/-! ## `at_left_or_default`, `at_right_or_default` -/

/-- After the erase of the record `a`, no other stored left key is equivalent to a key
that `a` had. -/
theorem erase_leaves_no_equiv {T : Type} {cmp : T → T → Bool} (hswo : StrictWeakOrder cmp)
    {m : Mem T} {xs : List Nat} {a : Nat} {k : T} (hnd : xs.Nodup) (hasc : Ascending cmp m xs)
    (ha : a ∈ xs) (hea : equiv cmp (m a).value k = true) :
    ∀ c ∈ xs.erase a, equiv cmp (m c).value k = false := by
  intro c hc
  cases he : equiv cmp (m c).value k with
  | false => rfl
  | true =>
    exact absurd (equiv_unique hswo hasc (List.mem_of_mem_erase hc) ha he hea)
      (ne_of_mem_erase hnd hc)

theorem at_left_or_default_evict {L R : Type} [Inhabited R] (b : bimap L R)
    (ls rs : List Nat) (hv : b.valid) (hls : b.left_seq = .ok ls) (hrs : b.right_seq = .ok rs)
    (k : L) (a2 : Nat)
    (habs : ∀ c ∈ ls, equiv b.left_cmp (b.lmem c).value k = false) (ha2 : a2 ∈ rs)
    (hd : equiv b.right_cmp (b.rmem a2).value (default : R) = true) :
    ∃ b', b.at_left_or_default k = .ok (b', default) ∧ b'.valid ∧
      b'.find_left (b.lmem a2).value = .ok b'.end_left ∧
      b'.at_left k = .ok default ∧ b'.size = b.size ∧
      (∃ pre post, ls.erase a2 = pre ++ post ∧ b'.left_seq = .ok (pre ++ b.brk :: post)) ∧
      (∃ pre post, rs.erase a2 = pre ++ post ∧ b'.right_seq = .ok (pre ++ b.brk :: post)) ∧
      b.brk ∉ ls ∧ (b'.lmem b.brk).value = k ∧ (b'.rmem b.brk).value = default ∧
      (∀ c, c ≠ b.brk →
        (b'.lmem c).value = (b.lmem c).value ∧ (b'.rmem c).value = (b.rmem c).value) := by
  obtain ⟨hndl, hndr, hperm, hsize, hascl, hascr⟩ := seq_nodup b ls rs hv hls hrs
  have hswoL := hv.1
  have hswoR := hv.2.1
  have hal2 : a2 ∈ ls := hperm.mem_iff.mpr ha2
  obtain ⟨b1, e1, e2, e3, e4, e5, e6, e7, e8, e9, _⟩ :=
    erase_right_present_full b default a2 ls rs hv hls hrs ha2 hd
  have hl1 : ∀ c ∈ ls.erase a2, equiv b1.left_cmp (b1.lmem c).value k = false := by
    intro c hc
    rw [e3, (e8 c).1]
    exact habs c (List.mem_of_mem_erase hc)
  have hr1 : ∀ c ∈ rs.erase a2, equiv b1.right_cmp (b1.rmem c).value default = false := by
    intro c hc
    rw [e4, (e8 c).2]
    exact erase_leaves_no_equiv hswoR hndr hascr ha2 hd c hc
  obtain ⟨b2, i1, i2, i3, i4, i5, i6, i7, ⟨p1, q1, i8, i8'⟩, ⟨p2, q2, i9, i9'⟩, i10, i11, i12⟩ :=
    insert_fresh_valid b1 k default _ _ e2 e6 e7 hl1 hr1
  rw [e9] at i1 i8' i9' i10 i11 i12 i6
  have hfind := find_left_none b k ls hv hls habs
  have hfr : b.find_right default = .ok ⟨some a2⟩ := by
    simp only [bimap.find_right, find_right_some b default a2 rs hv hrs ha2 hd]; rfl
  have hbrk : b.brk ∉ ls := by
    intro h
    exact Nat.lt_irrefl _ ((valid_left_view b ls hv hls).2.2.2 _ h)
  have hkey2 : ∀ c ∈ p1 ++ b.brk :: q1,
      equiv b2.left_cmp (b2.lmem c).value (b.lmem a2).value = false := by
    intro c hc
    rw [i3, e3]
    by_cases hcb : c = b.brk
    · subst hcb
      rw [i11, equiv_symm]
      exact habs a2 hal2
    · rw [(i10 c hcb).1, (e8 c).1]
      refine erase_leaves_no_equiv hswoL hndl hascl hal2 (equiv_self hswoL _) c ?_
      rw [i8]
      simp only [List.mem_append, List.mem_cons] at hc ⊢
      tauto
  refine ⟨b2, ?_, i2, ?_, ?_, ?_, ⟨p1, q1, i8, i8'⟩, ⟨p2, q2, i9, i9'⟩, hbrk, i11, i12, ?_⟩
  · simp only [bimap.at_left_or_default, hfind, hfr, right_iterator.eq, bimap.end_right, e1]
    simp only [reduceCtorEq, decide_False, Bool.false_eq_true, if_false]
    rw [i1]
    simp only [left_iterator.flip, bimap.deref_right, i12]
  · simp only [bimap.find_left, find_left_none b2 _ _ i2 i8' hkey2]; rfl
  · have := at_left_some b2 k b.brk _ i2 i8' (by simp)
      (by rw [i11, i3, e3]; exact equiv_self hswoL _)
    rw [this, i12]
  · simp only [bimap.size] at *
    omega
  · intro c hc
    rw [(i10 c hc).1, (i10 c hc).2, (e8 c).1, (e8 c).2]
    exact ⟨rfl, rfl⟩

theorem at_right_or_default_evict {L R : Type} [Inhabited L] (b : bimap L R)
    (ls rs : List Nat) (hv : b.valid) (hls : b.left_seq = .ok ls) (hrs : b.right_seq = .ok rs)
    (k : R) (a2 : Nat)
    (habs : ∀ c ∈ rs, equiv b.right_cmp (b.rmem c).value k = false) (ha2 : a2 ∈ ls)
    (hd : equiv b.left_cmp (b.lmem a2).value (default : L) = true) :
    ∃ b', b.at_right_or_default k = .ok (b', default) ∧ b'.valid ∧
      b'.find_right (b.rmem a2).value = .ok b'.end_right ∧
      b'.at_right k = .ok default ∧ b'.size = b.size ∧
      (∃ pre post, ls.erase a2 = pre ++ post ∧ b'.left_seq = .ok (pre ++ b.brk :: post)) ∧
      (∃ pre post, rs.erase a2 = pre ++ post ∧ b'.right_seq = .ok (pre ++ b.brk :: post)) ∧
      b.brk ∉ rs ∧ (b'.lmem b.brk).value = default ∧ (b'.rmem b.brk).value = k ∧
      (∀ c, c ≠ b.brk →
        (b'.lmem c).value = (b.lmem c).value ∧ (b'.rmem c).value = (b.rmem c).value) := by
  obtain ⟨hndl, hndr, hperm, hsize, hascl, hascr⟩ := seq_nodup b ls rs hv hls hrs
  have hswoL := hv.1
  have hswoR := hv.2.1
  have har2 : a2 ∈ rs := hperm.mem_iff.mp ha2
  obtain ⟨b1, e1, e2, e3, e4, e5, e6, e7, e8, e9, _⟩ :=
    erase_left_present_full b default a2 ls rs hv hls hrs ha2 hd
  have hr1 : ∀ c ∈ rs.erase a2, equiv b1.right_cmp (b1.rmem c).value k = false := by
    intro c hc
    rw [e4, (e8 c).2]
    exact habs c (List.mem_of_mem_erase hc)
  have hl1 : ∀ c ∈ ls.erase a2, equiv b1.left_cmp (b1.lmem c).value default = false := by
    intro c hc
    rw [e3, (e8 c).1]
    exact erase_leaves_no_equiv hswoL hndl hascl ha2 hd c hc
  obtain ⟨b2, i1, i2, i3, i4, i5, i6, i7, ⟨p1, q1, i8, i8'⟩, ⟨p2, q2, i9, i9'⟩, i10, i11, i12⟩ :=
    insert_fresh_valid b1 default k _ _ e2 e6 e7 hl1 hr1
  rw [e9] at i1 i8' i9' i10 i11 i12 i6
  have hfind := find_right_none b k rs hv hrs habs
  have hfl : b.find_left default = .ok ⟨some a2⟩ := by
    simp only [bimap.find_left, find_left_some b default a2 ls hv hls ha2 hd]; rfl
  have hbrk : b.brk ∉ rs := by
    intro h
    exact Nat.lt_irrefl _ ((valid_right_view b rs hv hrs).2.2.2 _ h)
  have hkey2 : ∀ c ∈ p2 ++ b.brk :: q2,
      equiv b2.right_cmp (b2.rmem c).value (b.rmem a2).value = false := by
    intro c hc
    rw [i4, e4]
    by_cases hcb : c = b.brk
    · subst hcb
      rw [i12, equiv_symm]
      exact habs a2 har2
    · rw [(i10 c hcb).2, (e8 c).2]
      refine erase_leaves_no_equiv hswoR hndr hascr har2 (equiv_self hswoR _) c ?_
      rw [i9]
      simp only [List.mem_append, List.mem_cons] at hc ⊢
      tauto
  refine ⟨b2, ?_, i2, ?_, ?_, ?_, ⟨p1, q1, i8, i8'⟩, ⟨p2, q2, i9, i9'⟩, hbrk, i11, i12, ?_⟩
  · simp only [bimap.at_right_or_default, hfind, hfl, left_iterator.eq, bimap.end_left, e1]
    simp only [reduceCtorEq, decide_False, Bool.false_eq_true, if_false]
    rw [i1]
    simp only [bimap.deref_left, i11]
  · simp only [bimap.find_right, find_right_none b2 _ _ i2 i9' hkey2]; rfl
  · have := at_right_some b2 k b.brk _ i2 i9' (by simp)
      (by rw [i12, i4, e4]; exact equiv_self hswoR _)
    rw [this, i11]
  · simp only [bimap.size] at *
    omega
  · intro c hc
    rw [(i10 c hc).1, (i10 c hc).2, (e8 c).1, (e8 c).2]
    exact ⟨rfl, rfl⟩

theorem bimap120_insert : bimap1.insert 2 0 = .ok (bimap120, ⟨some 1⟩) := rfl

theorem bimap120_valid : bimap120.valid := valid_insert _ _ _ _ _ bimap1_valid bimap120_insert

/-- C15: in a valid container where no stored left key is equivalent to `k` and the
record `a2` holds a right key equivalent to the default right value `d`,
`at_left_or_default(k)` returns `d`; it removes the record `a2` from both sequences and
adds one new record with the pair `(k, d)`, every other record keeping its keys.
Afterwards `find_left` of the left key that `a2` held is `end_left()` and `at_left(k)`
returns `d`.  Symmetrically `at_right_or_default(k)` evicts the record whose left key is
equivalent to the default left value and returns that default. -/
theorem C15_or_default_evicts {L R : Type} [Inhabited L] [Inhabited R] (b : bimap L R)
    (ls rs : List Nat) (hv : b.valid) (hls : b.left_seq = .ok ls)
    (hrs : b.right_seq = .ok rs) :
    (∀ (k : L) (a2 : Nat), (∀ c ∈ ls, equiv b.left_cmp (b.lmem c).value k = false) →
      a2 ∈ rs → equiv b.right_cmp (b.rmem a2).value (default : R) = true →
      ∃ b', b.at_left_or_default k = .ok (b', default) ∧ b'.valid ∧
        b'.find_left (b.lmem a2).value = .ok b'.end_left ∧
        b'.at_left k = .ok default ∧ b'.size = b.size ∧
        (∃ pre post, ls.erase a2 = pre ++ post ∧ b'.left_seq = .ok (pre ++ b.brk :: post)) ∧
        (∃ pre post, rs.erase a2 = pre ++ post ∧ b'.right_seq = .ok (pre ++ b.brk :: post)) ∧
        b.brk ∉ ls ∧ (b'.lmem b.brk).value = k ∧ (b'.rmem b.brk).value = default ∧
        (∀ c, c ≠ b.brk →
          (b'.lmem c).value = (b.lmem c).value ∧ (b'.rmem c).value = (b.rmem c).value)) ∧
    (∀ (k : R) (a2 : Nat), (∀ c ∈ rs, equiv b.right_cmp (b.rmem c).value k = false) →
      a2 ∈ ls → equiv b.left_cmp (b.lmem a2).value (default : L) = true →
      ∃ b', b.at_right_or_default k = .ok (b', default) ∧ b'.valid ∧
        b'.find_right (b.rmem a2).value = .ok b'.end_right ∧
        b'.at_right k = .ok default ∧ b'.size = b.size ∧
        (∃ pre post, ls.erase a2 = pre ++ post ∧ b'.left_seq = .ok (pre ++ b.brk :: post)) ∧
        (∃ pre post, rs.erase a2 = pre ++ post ∧ b'.right_seq = .ok (pre ++ b.brk :: post)) ∧
        b.brk ∉ rs ∧ (b'.lmem b.brk).value = default ∧ (b'.rmem b.brk).value = k ∧
        (∀ c, c ≠ b.brk →
          (b'.lmem c).value = (b.lmem c).value ∧ (b'.rmem c).value = (b.rmem c).value)) :=
  ⟨fun k a2 habs ha2 hd => at_left_or_default_evict b ls rs hv hls hrs k a2 habs ha2 hd,
    fun k a2 habs ha2 hd => at_right_or_default_evict b ls rs hv hls hrs k a2 habs ha2 hd⟩

/-- Witness of C15: `at_left_or_default(7)` on the container with the pairs (1, 10),
(2, 0), both key types being the natural numbers with default value 0; record 1 holds the
pair (2, 0). -/
theorem C15_or_default_evicts_witness :
    bimap120.valid ∧ bimap120.left_seq = .ok [0, 1] ∧ bimap120.right_seq = .ok [1, 0] ∧
    (∀ c ∈ [0, 1], equiv bimap120.left_cmp (bimap120.lmem c).value 7 = false) ∧
    1 ∈ [1, 0] ∧ equiv bimap120.right_cmp (bimap120.rmem 1).value (default : Nat) = true ∧
    (bimap120.lmem 1).value = 2 ∧
    ∃ b', bimap120.at_left_or_default 7 = .ok (b', default) ∧ b'.valid ∧
      b'.find_left (bimap120.lmem 1).value = .ok b'.end_left ∧
      b'.at_left 7 = .ok default ∧ b'.size = bimap120.size ∧
      (∃ pre post, [0, 1].erase 1 = pre ++ post ∧
        b'.left_seq = .ok (pre ++ bimap120.brk :: post)) ∧
      (∃ pre post, [1, 0].erase 1 = pre ++ post ∧
        b'.right_seq = .ok (pre ++ bimap120.brk :: post)) ∧
      bimap120.brk ∉ [0, 1] ∧ (b'.lmem bimap120.brk).value = 7 ∧
      (b'.rmem bimap120.brk).value = default ∧
      (∀ c, c ≠ bimap120.brk →
        (b'.lmem c).value = (bimap120.lmem c).value ∧
        (b'.rmem c).value = (bimap120.rmem c).value) :=
  ⟨bimap120_valid, rfl, rfl, by decide, by decide, rfl, rfl,
    (C15_or_default_evicts bimap120 [0, 1] [1, 0] bimap120_valid rfl rfl).1 7 1
      (by decide) (by decide) rfl⟩

/-! ## Containers reachable with the defaulting lookups -/

theorem valid_at_left_or_default {L R : Type} [Inhabited R] (b b1 : bimap L R) (k : L) (v : R)
    (hv : b.valid) (h : b.at_left_or_default k = .ok (b1, v)) : b1.valid := by
  unfold bimap.at_left_or_default at h
  cases hf : b.left_tree.find b.lmem b.fuel k with
  | error e => rw [hf] at h; cases h
  | ok o =>
    rw [hf] at h
    cases o with
    | some a =>
      simp only at h
      cases hfp : b.left_tree.find_place b.lmem b.fuel k with
      | error e => rw [hfp] at h; cases h
      | ok fp =>
        rw [hfp] at h
        simp only at h
        cases hd : b.deref_right (left_iterator.flip { node := fp }) with
        | error e => rw [hd] at h; cases h
        | ok w =>
          rw [hd] at h
          cases h
          exact hv
    | none =>
      simp only at h
      cases hfr : b.find_right default with
      | error e => rw [hfr] at h; cases h
      | ok it =>
        rw [hfr] at h
        simp only at h
        have herased : ∀ (er : Except Err (bimap L R)),
            (er = .ok b ∨ ∃ res, b.erase_right default = .ok (er.toOption.getD b, res) ∧
              er = .ok (er.toOption.getD b)) ∨ (∃ e, er = .error e) →
            (match er with
              | .error e => .error e
              | .ok b1 =>
                match b1.insert k default with
                | .error e => .error e
                | .ok (b2, it2) =>
                  match b2.deref_right it2.flip with
                  | .error e => .error e
                  | .ok v => .ok (b2, v)) = Except.ok (b1, v) → b1.valid := by
          intro er her h
          cases er with
          | error e => cases h
          | ok b0 =>
            have hv0 : b0.valid := by
              rcases her with (her | ⟨res, her, _⟩) | ⟨e, her⟩
              · cases her; exact hv
              · exact valid_erase_right b _ default res hv her
              · cases her
            simp only at h
            cases hi : b0.insert k default with
            | error e => rw [hi] at h; cases h
            | ok pr =>
              obtain ⟨b2, it2⟩ := pr
              rw [hi] at h
              simp only at h
              cases hd : b2.deref_right it2.flip with
              | error e => rw [hd] at h; cases h
              | ok w =>
                rw [hd] at h
                cases h
                exact valid_insert b0 _ k default it2 hv0 hi
        refine herased _ ?_ h
        by_cases hend : it.eq b.end_right = true
        · rw [if_pos hend]
          exact Or.inl (Or.inl rfl)
        · rw [if_neg hend]
          cases he : b.erase_right default with
          | error e => exact Or.inr ⟨e, rfl⟩
          | ok pr =>
            obtain ⟨b0, res⟩ := pr
            exact Or.inl (Or.inr ⟨res, rfl, rfl⟩)

theorem valid_at_right_or_default {L R : Type} [Inhabited L] (b b1 : bimap L R) (k : R) (v : L)
    (hv : b.valid) (h : b.at_right_or_default k = .ok (b1, v)) : b1.valid := by
  unfold bimap.at_right_or_default at h
  cases hf : b.right_tree.find b.rmem b.fuel k with
  | error e => rw [hf] at h; cases h
  | ok o =>
    rw [hf] at h
    cases o with
    | some a =>
      simp only at h
      cases hfp : b.right_tree.find_place b.rmem b.fuel k with
      | error e => rw [hfp] at h; cases h
      | ok fp =>
        rw [hfp] at h
        simp only at h
        cases hd : b.deref_left (right_iterator.flip { node := fp }) with
        | error e => rw [hd] at h; cases h
        | ok w =>
          rw [hd] at h
          cases h
          exact hv
    | none =>
      simp only at h
      cases hfr : b.find_left default with
      | error e => rw [hfr] at h; cases h
      | ok it =>
        rw [hfr] at h
        simp only at h
        have herased : ∀ (er : Except Err (bimap L R)),
            (er = .ok b ∨ ∃ res, b.erase_left default = .ok (er.toOption.getD b, res) ∧
              er = .ok (er.toOption.getD b)) ∨ (∃ e, er = .error e) →
            (match er with
              | .error e => .error e
              | .ok b1 =>
                match b1.insert default k with
                | .error e => .error e
                | .ok (b2, it2) =>
                  match b2.deref_left it2 with
                  | .error e => .error e
                  | .ok v => .ok (b2, v)) = Except.ok (b1, v) → b1.valid := by
          intro er her h
          cases er with
          | error e => cases h
          | ok b0 =>
            have hv0 : b0.valid := by
              rcases her with (her | ⟨res, her, _⟩) | ⟨e, her⟩
              · cases her; exact hv
              · exact valid_erase_left b _ default res hv her
              · cases her
            simp only at h
            cases hi : b0.insert default k with
            | error e => rw [hi] at h; cases h
            | ok pr =>
              obtain ⟨b2, it2⟩ := pr
              rw [hi] at h
              simp only at h
              cases hd : b2.deref_left it2 with
              | error e => rw [hd] at h; cases h
              | ok w =>
                rw [hd] at h
                cases h
                exact valid_insert b0 _ default k it2 hv0 hi
        refine herased _ ?_ h
        by_cases hend : it.eq b.end_left = true
        · rw [if_pos hend]
          exact Or.inl (Or.inl rfl)
        · rw [if_neg hend]
          cases he : b.erase_left default with
          | error e => exact Or.inr ⟨e, rfl⟩
          | ok pr =>
            obtain ⟨b0, res⟩ := pr
            exact Or.inl (Or.inr ⟨res, rfl, rfl⟩)


theorem valid_of_reachableD {L R : Type} [Inhabited L] [Inhabited R] (b : bimap L R)
    (h : ReachableD b) : b.valid := by
  induction h with
  | empty lmem rmem cl cr hl hr => exact valid_empty lmem rmem cl cr hl hr
  | insert b b1 l r it _ hins ih => exact valid_insert b b1 l r it ih hins
  | erase_left b b1 k res _ her ih => exact valid_erase_left b b1 k res ih her
  | erase_right b b1 k res _ her ih => exact valid_erase_right b b1 k res ih her
  | erase_left_at b b1 a ls nxt _ hls ha her ih =>
    obtain ⟨ls', rs, hls', hrs⟩ := seq_exists b ih
    rw [hls] at hls'
    cases hls'
    obtain ⟨b', h1, h2, _⟩ := erase_left_at_present b a ls rs ih hls hrs ha
    rw [h1] at her
    cases her
    exact h2
  | erase_right_at b b1 a rs nxt _ hrs ha her ih =>
    obtain ⟨ls, rs', hls, hrs'⟩ := seq_exists b ih
    rw [hrs] at hrs'
    cases hrs'
    obtain ⟨b', h1, h2, _⟩ := erase_right_at_present b a ls rs ih hls hrs ha
    rw [h1] at her
    cases her
    exact h2
  | at_left_or_default b b1 k v _ hat ih => exact valid_at_left_or_default b b1 k v ih hat
  | at_right_or_default b b1 k v _ hat ih => exact valid_at_right_or_default b b1 k v ih hat

/-- In-order traversal by child links of a memory that forms the shape `t`. -/
theorem in_order_spec {T : Type} (m : Mem T) :
    ∀ (t : BT) (par : Option Nat) (fuel : Nat), IsTree m par t → t.toList.length ≤ fuel →
      in_order m fuel t.ptr = .ok t.toList := by
  intro t
  induction t with
  | leaf => intro par fuel _ _; cases fuel <;> rfl
  | node l a r ihl ihr =>
    intro par fuel ht hfuel
    obtain ⟨_, h2, h3, h4, h5⟩ := ht
    simp only [BT.toList, List.length_append, List.length_cons] at hfuel
    obtain ⟨k, rfl⟩ : ∃ k, fuel = k + 1 := ⟨fuel - 1, by omega⟩
    show in_order m (k + 1) (some a) = .ok (l.toList ++ a :: r.toList)
    simp only [in_order, h2, h3, ihl (some a) k h4 (by omega), ihr (some a) k h5 (by omega)]

theorem bimap170_default : bimap120.at_left_or_default 7 = .ok (bimap170, 0) := rfl

theorem bimap170_reachable : ReachableD bimap170 :=
  ReachableD.at_left_or_default bimap120 bimap170 7 0
    (ReachableD.insert bimap1 bimap120 2 0 _
      (ReachableD.insert bimap0 bimap1 1 10 _
        (ReachableD.empty mem0 mem0 nat_less nat_less nat_less_swo nat_less_swo) bimap1_insert)
      bimap120_insert)
    bimap170_default

/-- C18: a container built from the empty one by any sequence of `insert`, `erase_left`,
`erase_right` (by key or by cursor), `at_left_or_default` and `at_right_or_default` has
both of its iterations returning; the in-order traversals of its two trees visit exactly
the records of the left-order and of the right-order sequence, and `size()` is the number
of nodes of either tree; no record occurs twice in a sequence, and `flip` maps the records
of the left-order sequence onto those of the right-order sequence and back, keeping the
record. -/
theorem C18_size_and_pairing {L R : Type} [Inhabited L] [Inhabited R] (b : bimap L R)
    (h : ReachableD b) :
    ∃ ls rs, b.left_seq = .ok ls ∧ b.right_seq = .ok rs ∧
      in_order b.lmem b.fuel b.left_tree.root = .ok ls ∧
      in_order b.rmem b.fuel b.right_tree.root = .ok rs ∧
      b.size = ls.length ∧ b.size = rs.length ∧ ls.Nodup ∧ rs.Nodup ∧ ls.Perm rs ∧
      (∀ a ∈ ls, (left_iterator.flip ⟨some a⟩).node = some a ∧ a ∈ rs) ∧
      (∀ c ∈ rs, (right_iterator.flip ⟨some c⟩).node = some c ∧ c ∈ ls) := by
  have hv := valid_of_reachableD b h
  obtain ⟨swoL, swoR, hcl, hcr, tl, tr, hTL, hTR, hperm, hlt, hsize⟩ := hv
  have hltr : ∀ a ∈ tr.toList, a < b.brk := fun a ha => hlt a (hperm.mem_iff.mpr ha)
  have hfl : tl.toList.length ≤ b.fuel := Nat.le_succ_of_le (tree_length_le hTL hlt)
  have hfr : tr.toList.length ≤ b.fuel := Nat.le_succ_of_le (tree_length_le hTR hltr)
  refine ⟨tl.toList, tr.toList, left_seq_of_valid b tl hcl hTL hlt,
    right_seq_of_valid b tr hcr hTR hltr, ?_, ?_, hsize, ?_, hTL.nodup, hTR.nodup, hperm,
    fun a ha => ⟨rfl, hperm.mem_iff.mp ha⟩, fun c hc => ⟨rfl, hperm.mem_iff.mpr hc⟩⟩
  · rw [hTL.root_eq]
    exact in_order_spec b.lmem tl none b.fuel hTL.shape hfl
  · rw [hTR.root_eq]
    exact in_order_spec b.rmem tr none b.fuel hTR.shape hfr
  · rw [← hperm.length_eq]; exact hsize

/-- Witness of C18: the container obtained by `insert(1, 10)`, `insert(2, 0)` and
`at_left_or_default(7)`, which holds the pairs (1, 10), (7, 0) in the records 0 and 2. -/
theorem C18_size_and_pairing_witness :
    ReachableD bimap170 ∧ bimap170.left_seq = .ok [0, 2] ∧ bimap170.right_seq = .ok [2, 0] ∧
    ∃ ls rs, bimap170.left_seq = .ok ls ∧ bimap170.right_seq = .ok rs ∧
      in_order bimap170.lmem bimap170.fuel bimap170.left_tree.root = .ok ls ∧
      in_order bimap170.rmem bimap170.fuel bimap170.right_tree.root = .ok rs ∧
      bimap170.size = ls.length ∧ bimap170.size = rs.length ∧ ls.Nodup ∧ rs.Nodup ∧
      ls.Perm rs ∧
      (∀ a ∈ ls, (left_iterator.flip ⟨some a⟩).node = some a ∧ a ∈ rs) ∧
      (∀ c ∈ rs, (right_iterator.flip ⟨some c⟩).node = some c ∧ c ∈ ls) :=
  ⟨bimap170_reachable, rfl, rfl, C18_size_and_pairing bimap170 bimap170_reachable⟩

/-! ## Termination of `tree::balance` -/

/-- The number of parent links above a node is the length of its path to the root. -/
theorem node_depth_spec {T : Type} (m : Mem T) (root : Option Nat) :
    ∀ (ctx : List Frame) (x fuel : Nat), IsCtx m ctx (some x) root →
      (m x).parent = ctxPar ctx → ctx.length < fuel → node_depth m fuel x = .ok ctx.length := by
  intro ctx
  induction ctx with
  | nil =>
    intro x fuel _ hp hfuel
    obtain ⟨k, rfl⟩ : ∃ k, fuel = k + 1 := ⟨fuel - 1, by simp at hfuel; omega⟩
    have hp' : (m x).parent = none := hp
    simp only [node_depth, hp', List.length_nil]
  | cons f rest ih =>
    intro x fuel hctx hp hfuel
    obtain ⟨k, rfl⟩ : ∃ k, fuel = k + 1 := ⟨fuel - 1, by simp at hfuel; omega⟩
    have hp' : (m x).parent = some f.addr := hp
    obtain ⟨_, h2, _, h4⟩ := hctx
    have hrec := ih f.addr k h4 h2 (by simp at hfuel; omega)
    simp only [node_depth, hp', hrec, List.length_cons]

/-- The two rotations of the recursive branch of `balance` on a node with a parent and a
grandparent: the path of the node to the root gets shorter. -/
theorem balance_step {T : Type} (cmp : T → T → Bool) (m : Mem T) (root : Option Nat)
    (f1 f2 : Frame) (rest : List Frame) (l r : BT) (x : Nat)
    (hctx : IsCtx m (f1 :: f2 :: rest) (some x) root)
    (htree : IsTree m (some f1.addr) (.node l x r))
    (hnd : (plug (f1 :: f2 :: rest) (.node l x r)).toList.Nodup) :
    ∃ root2 m2 l2 r2 tl,
      (tree.rotate ⟨root, cmp⟩ m (some f1.addr)).1.rotate
          (tree.rotate ⟨root, cmp⟩ m (some f1.addr)).2 (some x) = (⟨root2, cmp⟩, m2) ∧
        tl.length ≤ 1 ∧ IsCtx m2 (tl ++ rest) (some x) root2 ∧
        IsTree m2 (ctxPar (tl ++ rest)) (.node l2 x r2) ∧
        (plug (tl ++ rest) (.node l2 x r2)).toList =
          (plug (f1 :: f2 :: rest) (.node l x r)).toList ∧
        SameData m m2 := by
  obtain ⟨lp, rp, hp⟩ := plug_one_node f1 (.node l x r)
  have hfocus := (refocus m root (f2 :: rest) [f1] (.node l x r)).mpr ⟨hctx, htree⟩
  rw [hp] at hfocus
  have hnd1 : (plug (f2 :: rest) (.node lp f1.addr rp)).toList.Nodup := by
    rw [← hp, ← plug_append]; exact hnd
  obtain ⟨root1, m1, hrot1, h11, h12, h13, h14, h15⟩ :=
    rotate_plug cmp m root f2 rest lp rp f1.addr hfocus.1 hfocus.2 hnd1
  rw [← zig_ctx_plug f1 f2 (.node l x r) lp rp hp] at h12 h15
  have hfocus2 := (refocus m1 root1 rest (zig_ctx f1 f2) (.node l x r)).mp
    ⟨by
      have : (plug (zig_ctx f1 f2) (.node l x r)).ptr = some f1.addr := by
        rw [zig_ctx_plug f1 f2 (.node l x r) lp rp hp]
        obtain ⟨l', r', e⟩ := rot_node f2 lp rp f1.addr
        rw [e]; rfl
      rw [this]; exact h11, h12⟩
  obtain ⟨fm, tl, hz, htl⟩ := zig_ctx_cons f1 f2
  rw [hz] at hfocus2 h15
  have hnd2 : (plug (fm :: tl ++ rest) (.node l x r)).toList.Nodup := by
    rw [plug_append, h15, ← hp, ← plug_append]; exact hnd
  obtain ⟨root2, m2, hrot2, h21, h22, h23, h24, h25⟩ :=
    rotate_plug cmp m1 root1 fm (tl ++ rest) l r x hfocus2.1 hfocus2.2 hnd2
  obtain ⟨l2, r2, hlr2⟩ := rot_node fm l r x
  rw [hlr2] at h22 h25
  have hlist : (plug (tl ++ rest) (.node l2 x r2)).toList =
      (plug (f1 :: f2 :: rest) (.node l x r)).toList := by
    rw [h25]
    show (plug ((fm :: tl) ++ rest) (.node l x r)).toList = _
    rw [plug_append, h15, ← hp, ← plug_append]; rfl
  refine ⟨root2, m2, l2, r2, tl, ?_, htl, h21, h22, hlist, SameData_trans h13 h23⟩
  rw [hrot1]
  simp only []
  rw [hrot2]

/-- C20: in a memory whose links form a tree without repeated nodes under `root`, for a
node `x` of the tree at depth `d` (parent links up to the root): `balance(x)` returns
whenever its recursion bound exceeds `d`, with `x` as the root and without a parent, the
in-order sequence of nodes and every key being as before; and in the recursive case (`x`
has a parent and a grandparent) the two rotations bring `x` to a strictly smaller depth
before `balance` calls itself. -/
theorem C20_balance_to_root {T : Type} (cmp : T → T → Bool) (m : Mem T) (root : Option Nat)
    (t : BT) (x : Nat) (ht : IsTree m none t) (hroot : root = t.ptr) (hnd : t.toList.Nodup)
    (hx : x ∈ t.toList) :
    ∃ d, node_depth m (t.toList.length + 1) x = .ok d ∧ d < t.toList.length ∧
      in_order m t.toList.length root = .ok t.toList ∧
      (∀ fuel, d < fuel →
        ∃ m', tree.balance fuel ⟨root, cmp⟩ m (some x) = .ok (⟨some x, cmp⟩, m') ∧
          (m' x).parent = none ∧
          in_order m' t.toList.length (some x) = .ok t.toList ∧
          (∀ a, (m' a).value = (m a).value)) ∧
      (∀ p g, (m x).parent = some p → (m p).parent = some g →
        ∃ d', node_depth
            ((tree.rotate ⟨root, cmp⟩ m (some p)).1.rotate
              (tree.rotate ⟨root, cmp⟩ m (some p)).2 (some x)).2
            (t.toList.length + 1) x = .ok d' ∧ d' < d ∧
          ∀ k, tree.balance (k + 1) ⟨root, cmp⟩ m (some x) =
            tree.balance k
              ((tree.rotate ⟨root, cmp⟩ m (some p)).1.rotate
                (tree.rotate ⟨root, cmp⟩ m (some p)).2 (some x)).1
              ((tree.rotate ⟨root, cmp⟩ m (some p)).1.rotate
                (tree.rotate ⟨root, cmp⟩ m (some p)).2 (some x)).2 (some x)) := by
  obtain ⟨ctx, l, r, rfl⟩ := exists_ctx hx
  have h := (plug_iff m root ctx (.node l x r)).mp ⟨ht, hroot⟩
  have hlen := ctx_length_lt ctx l r x
  have hpar : (m x).parent = ctxPar ctx := h.2.1
  refine ⟨ctx.length, node_depth_spec m root ctx x _ h.1 hpar (by omega), hlen, ?_, ?_, ?_⟩
  · rw [hroot]
    exact in_order_spec m _ none _ ht (Nat.le_refl _)
  · intro fuel hfuel
    obtain ⟨m', l', r', h1, h2, h3, h4, _⟩ :=
      balance_ctx cmp ctx.length ctx (Nat.le_refl _) m root l r x fuel hfuel h.1 h.2 hnd
    refine ⟨m', h1, h2.1, ?_, fun a => (h4 a).1⟩
    have := in_order_spec m' (.node l' x r') none (plug ctx (.node l x r)).toList.length h2
      (by rw [h3])
    rw [h3] at this
    exact this
  · intro p g hp hg
    match ctx, h, hlen, hpar, hnd with
    | [], _, _, hpar, _ =>
      rw [hp] at hpar
      cases hpar
    | [f], h, _, hpar, _ =>
      rw [hp] at hpar
      have e : p = f.addr := by simpa [ctxPar] using hpar
      subst e
      have := h.1.2.1
      rw [hg] at this
      cases this
    | f1 :: f2 :: rest, h, hlen, hpar, hnd =>
      rw [hp] at hpar
      have e : p = f1.addr := by simpa [ctxPar] using hpar
      subst e
      obtain ⟨root2, m2, l2, r2, tl, s1, s2, s3, s4, s5, _⟩ :=
        balance_step cmp m root f1 f2 rest l r x h.1 h.2 hnd
      have hd := node_depth_spec m2 root2 (tl ++ rest) x
        ((plug (f1 :: f2 :: rest) (.node l x r)).toList.length + 1) s3 s4.1
        (by
          simp only [List.length_append, List.length_cons] at hlen ⊢
          omega)
      refine ⟨(tl ++ rest).length, ?_, ?_, fun k => ?_⟩
      · rw [s1]; exact hd
      · simp only [List.length_append, List.length_cons]; omega
      · exact balance_zigzig _ _ _ _ _ _ hp hg

/-- Witness of C20: the left tree of the container with the pairs (1, 10), (3, 30),
(5, 50), whose root is record 2, and its deepest node, record 0. -/
theorem C20_balance_to_root_witness :
    IsTree bimap135.lmem none (.node (.node (.node .leaf 0 .leaf) 1 .leaf) 2 .leaf) ∧
    bimap135.left_tree.root = (BT.node (.node (.node .leaf 0 .leaf) 1 .leaf) 2 .leaf).ptr ∧
    (BT.node (.node (.node .leaf 0 .leaf) 1 .leaf) 2 .leaf).toList.Nodup ∧
    0 ∈ (BT.node (.node (.node .leaf 0 .leaf) 1 .leaf) 2 .leaf).toList ∧
    node_depth bimap135.lmem 4 0 = .ok 2 ∧
    ∃ m', tree.balance 3 ⟨bimap135.left_tree.root, nat_less⟩ bimap135.lmem (some 0) =
        .ok (⟨some 0, nat_less⟩, m') ∧
      (m' 0).parent = none ∧ in_order m' 3 (some 0) = .ok [0, 1, 2] :=
  have hw := C20_balance_to_root nat_less bimap135.lmem bimap135.left_tree.root
    (.node (.node (.node .leaf 0 .leaf) 1 .leaf) 2 .leaf) 0
    (by simp [IsTree, BT.ptr]; decide) rfl (by decide) (by decide)
  ⟨by simp [IsTree, BT.ptr]; decide, rfl, by decide, by decide, rfl, by
    obtain ⟨d, h1, _, _, h4, _⟩ := hw
    have hd : d = 2 := by
      have e : node_depth bimap135.lmem 4 0 = .ok 2 := rfl
      have h1' : node_depth bimap135.lmem 4 0 = .ok d := h1
      rw [e] at h1'
      cases h1'
      rfl
    subst hd
    obtain ⟨m', g1, g2, g3, _⟩ := h4 3 (by decide)
    exact ⟨m', g1, g2, g3⟩⟩

/-! ## Steps of a container in a shared memory -/

theorem LocalStep_refl {L R : Type} (b : bimap L R) (hv : b.valid) : LocalStep b b := by
  refine ⟨hv, Nat.le_refl _, ?_, fun _ _ _ _ _ => ⟨rfl, rfl⟩⟩
  intro ls ls1 h1 h2 a ha
  rw [h1] at h2
  cases h2
  exact Or.inl ha

theorem local_insert {L R : Type} (b b1 : bimap L R) (l : L) (r : R) (it : left_iterator)
    (hv : b.valid) (h : b.insert l r = .ok (b1, it)) : LocalStep b b1 := by
  obtain ⟨ls, rs, hls, hrs⟩ := seq_exists b hv
  by_cases hfresh : (∀ a ∈ ls, equiv b.left_cmp (b.lmem a).value l = false) ∧
      (∀ a ∈ rs, equiv b.right_cmp (b.rmem a).value r = false)
  · obtain ⟨b', h1, h2, _, _, _, _, _, ⟨p1, q1, h8, h8'⟩, _, _, _, _, h13, h14⟩ :=
      insert_fresh_valid_full b l r ls rs hv hls hrs hfresh.1 hfresh.2
    rw [h1] at h
    cases h
    refine ⟨h2, by omega, ?_, ?_⟩
    · intro ls0 ls1 g1 g2 a ha
      rw [hls] at g1
      rw [h8'] at g2
      cases g1
      cases g2
      rw [h8]
      simp only [List.mem_append, List.mem_cons] at ha ⊢
      tauto
    · intro ls0 g1 a ha1 ha2
      rw [hls] at g1
      cases g1
      exact h14 a ha1 ha2
  · have hcol : (∃ a ∈ ls, equiv b.left_cmp (b.lmem a).value l = true) ∨
        (∃ a ∈ rs, equiv b.right_cmp (b.rmem a).value r = true) := by
      by_cases h1 : ∀ a ∈ ls, equiv b.left_cmp (b.lmem a).value l = false
      · right
        exact exists_equiv_of_not_all (fun h2 => hfresh ⟨h1, h2⟩)
      · left
        exact exists_equiv_of_not_all h1
    rw [insert_collision b l r ls rs hv hls hrs hcol] at h
    cases h
    exact LocalStep_refl b hv

/-- An erase that returned what the lemmas on present keys describe is a local step. -/
theorem local_of_erase {L R : Type} (b b' : bimap L R) (ls : List Nat) (a : Nat)
    (hls : b.left_seq = .ok ls) (h2 : b'.valid) (h6 : b'.left_seq = .ok (ls.erase a))
    (h9 : b'.brk = b.brk) (h10 : ∀ c, c ∉ ls → b'.lmem c = b.lmem c ∧ b'.rmem c = b.rmem c) :
    LocalStep b b' := by
  refine ⟨h2, by omega, ?_, ?_⟩
  · intro ls0 ls1 g1 g2 c hc
    rw [hls] at g1
    rw [h6] at g2
    cases g1
    cases g2
    exact Or.inl (List.mem_of_mem_erase hc)
  · intro ls0 g1 c _ hc
    rw [hls] at g1
    cases g1
    exact h10 c hc

theorem local_erase_left {L R : Type} (b b1 : bimap L R) (k : L) (res : Bool)
    (hv : b.valid) (h : b.erase_left k = .ok (b1, res)) : LocalStep b b1 := by
  obtain ⟨ls, rs, hls, hrs⟩ := seq_exists b hv
  by_cases habs : ∀ c ∈ ls, equiv b.left_cmp (b.lmem c).value k = false
  · rw [erase_left_absent b k ls hv hls habs] at h
    cases h
    exact LocalStep_refl b hv
  · obtain ⟨a, ha, hea⟩ := exists_equiv_of_not_all habs
    obtain ⟨b', h1, h2, _, _, _, h6, _, _, h9, h10⟩ :=
      erase_left_present_full b k a ls rs hv hls hrs ha hea
    rw [h1] at h
    cases h
    exact local_of_erase b _ ls a hls h2 h6 h9 h10

theorem local_erase_right {L R : Type} (b b1 : bimap L R) (k : R) (res : Bool)
    (hv : b.valid) (h : b.erase_right k = .ok (b1, res)) : LocalStep b b1 := by
  obtain ⟨ls, rs, hls, hrs⟩ := seq_exists b hv
  by_cases habs : ∀ c ∈ rs, equiv b.right_cmp (b.rmem c).value k = false
  · rw [erase_right_absent b k rs hv hrs habs] at h
    cases h
    exact LocalStep_refl b hv
  · obtain ⟨a, ha, hea⟩ := exists_equiv_of_not_all habs
    obtain ⟨b', h1, h2, _, _, _, h6, _, _, h9, h10⟩ :=
      erase_right_present_full b k a ls rs hv hls hrs ha hea
    rw [h1] at h
    cases h
    exact local_of_erase b _ ls a hls h2 h6 h9 h10

theorem local_erase_left_at {L R : Type} (b b1 : bimap L R) (a : Nat) (ls : List Nat)
    (nxt : left_iterator) (hv : b.valid) (hls : b.left_seq = .ok ls) (ha : a ∈ ls)
    (h : b.erase_left_at ⟨some a⟩ = .ok (b1, nxt)) : LocalStep b b1 := by
  obtain ⟨ls', rs, hls', hrs⟩ := seq_exists b hv
  rw [hls] at hls'
  cases hls'
  obtain ⟨b', h1, h2, _, _, _, h6, _, _, h9, h10⟩ :=
    erase_left_at_present_full b a ls rs hv hls hrs ha
  rw [h1] at h
  cases h
  exact local_of_erase b _ ls a hls h2 h6 h9 h10

theorem local_erase_right_at {L R : Type} (b b1 : bimap L R) (a : Nat) (rs : List Nat)
    (nxt : right_iterator) (hv : b.valid) (hrs : b.right_seq = .ok rs) (ha : a ∈ rs)
    (h : b.erase_right_at ⟨some a⟩ = .ok (b1, nxt)) : LocalStep b b1 := by
  obtain ⟨ls, rs', hls, hrs'⟩ := seq_exists b hv
  rw [hrs] at hrs'
  cases hrs'
  obtain ⟨b', h1, h2, _, _, _, h6, _, _, h9, h10⟩ :=
    erase_right_at_present_full b a ls rs hv hls hrs ha
  rw [h1] at h
  cases h
  exact local_of_erase b _ ls a hls h2 h6 h9 h10

/-! ## The copy constructor -/

theorem Apart_step {L R : Type} (a b b1 : bimap L R) (h : Apart a b) (hs : LocalStep b b1) :
    Apart a b1 := by
  obtain ⟨hv, hbrk, hseq, hmem⟩ := h
  obtain ⟨s1, s2, s3, s4⟩ := hs
  obtain ⟨ls, _, hls, _⟩ := seq_exists b hv
  refine ⟨s1, by omega, ?_, ?_⟩
  · intro ls1 hls1 c hc
    rcases s3 ls ls1 hls hls1 c hc with h | h
    · exact hseq ls hls c h
    · omega
  · intro c hc
    have h1 : c ≠ b.brk := by omega
    have h2 : c ∉ ls := by
      intro hin
      have := hseq ls hls c hin
      omega
    rw [(s4 ls hls c h1 h2).1, (s4 ls hls c h1 h2).2]
    exact hmem c hc

theorem Apart_of_mutated {L R : Type} (a b b1 : bimap L R) (h : Apart a b)
    (hm : Mutated b b1) : Apart a b1 := by
  induction hm with
  | refl => exact h
  | insert b1 b2 l r it _ hins ih => exact Apart_step a b1 b2 ih (local_insert b1 b2 l r it ih.1 hins)
  | erase_left b1 b2 k res _ her ih =>
    exact Apart_step a b1 b2 ih (local_erase_left b1 b2 k res ih.1 her)
  | erase_right b1 b2 k res _ her ih =>
    exact Apart_step a b1 b2 ih (local_erase_right b1 b2 k res ih.1 her)
  | erase_left_at b1 b2 c ls nxt _ hls hc her ih =>
    exact Apart_step a b1 b2 ih (local_erase_left_at b1 b2 c ls nxt ih.1 hls hc her)
  | erase_right_at b1 b2 c rs nxt _ hrs hc her ih =>
    exact Apart_step a b1 b2 ih (local_erase_right_at b1 b2 c rs nxt ih.1 hrs hc her)

/-- A valid container read in memories that hold its records unchanged: it is valid and
iterates over the same records with the same pairs. -/
theorem in_heap_view {L R : Type} (a b : bimap L R) (la : List Nat) (hv : a.valid)
    (hla : a.left_seq = .ok la)
    (hmem : ∀ c, c < a.brk → b.lmem c = a.lmem c ∧ b.rmem c = a.rmem c) :
    (a.in_heap b).valid ∧ (a.in_heap b).left_seq = .ok la ∧
      (a.in_heap b).right_seq = a.right_seq ∧ (a.in_heap b).left_pairs = a.left_pairs ∧
      (a.in_heap b).size = a.size ∧ (a.in_heap b).pairs_of la = a.pairs_of la := by
  obtain ⟨swoL, swoR, hcl, hcr, tl, tr, hTL, hTR, hperm, hlt, hsize⟩ := hv
  have hltr : ∀ c ∈ tr.toList, c < a.brk := fun c hc => hlt c (hperm.mem_iff.mpr hc)
  have e1 := left_seq_of_valid a tl hcl hTL hlt
  rw [hla] at e1
  cases e1
  have hTL' : TreeInv (a.in_heap b).left_cmp (a.in_heap b).lmem (a.in_heap b).left_tree.root tl :=
    TreeInv_congr (fun c hc => (hmem c (hlt c hc)).1) hTL
  have hTR' : TreeInv (a.in_heap b).right_cmp (a.in_heap b).rmem (a.in_heap b).right_tree.root
      tr :=
    TreeInv_congr (fun c hc => (hmem c (hltr c hc)).2) hTR
  have hl' := left_seq_of_valid (a.in_heap b) tl hcl hTL' hlt
  have hpairs : (a.in_heap b).pairs_of tl.toList = a.pairs_of tl.toList := by
    simp only [bimap.pairs_of]
    refine List.map_congr_left (fun c hc => ?_)
    show ((b.lmem c).value, (b.rmem c).value) = _
    rw [(hmem c (hlt c hc)).1, (hmem c (hlt c hc)).2]
  refine ⟨valid_intro _ tl tr swoL swoR hcl hcr hTL' hTR' hperm hlt hsize, hl', ?_, ?_, rfl,
    hpairs⟩
  · rw [right_seq_of_valid (a.in_heap b) tr hcr hTR' hltr, right_seq_of_valid a tr hcr hTR hltr]
  · rw [left_pairs_eq _ _ hl', left_pairs_eq _ _ hla, hpairs]

/-- A fresh insertion adds its pair to the pairs of the container. -/
theorem insert_fresh_pairs {L R : Type} (b : bimap L R) (l : L) (r : R) (ls rs : List Nat)
    (hv : b.valid) (hls : b.left_seq = .ok ls) (hrs : b.right_seq = .ok rs)
    (hl : ∀ a ∈ ls, equiv b.left_cmp (b.lmem a).value l = false)
    (hr : ∀ a ∈ rs, equiv b.right_cmp (b.rmem a).value r = false) :
    ∃ b' ls', b.insert l r = .ok (b', ⟨some b.brk⟩) ∧ b'.left_cmp = b.left_cmp ∧
      b'.right_cmp = b.right_cmp ∧ b'.left_seq = .ok ls' ∧
      (b'.pairs_of ls').Perm ((l, r) :: b.pairs_of ls) := by
  obtain ⟨b', h1, h2, h3, h4, h5, h6, h7, ⟨p1, q1, h8, h8'⟩, _, h10, h11, h12⟩ :=
    insert_fresh_valid b l r ls rs hv hls hrs hl hr
  have hold : b'.pairs_of ls = b.pairs_of ls := by
    simp only [bimap.pairs_of]
    refine List.map_congr_left (fun a ha => ?_)
    have hab : a ≠ b.brk := by rintro rfl; exact h6 ha
    rw [(h10 a hab).1, (h10 a hab).2]
  refine ⟨b', _, h1, h3, h4, h8', ?_⟩
  have e : b'.pairs_of (b.brk :: ls) = (l, r) :: b.pairs_of ls := by
    rw [← hold]
    simp only [bimap.pairs_of, List.map_cons, h11, h12]
  rw [← e]
  simp only [bimap.pairs_of]
  refine List.Perm.map _ ?_
  rw [h8]
  exact List.perm_middle

/-- Distinct records of an ascending sequence hold inequivalent keys. -/
theorem not_equiv_of_ne {T : Type} {cmp : T → T → Bool} (hswo : StrictWeakOrder cmp)
    {m : Mem T} {xs : List Nat} (hasc : Ascending cmp m xs) {c x : Nat} (hc : c ∈ xs)
    (hx : x ∈ xs) (hne : c ≠ x) : equiv cmp (m c).value (m x).value = false := by
  cases he : equiv cmp (m c).value (m x).value with
  | false => rfl
  | true => exact absurd (equiv_unique hswo hasc hc hx he (equiv_self hswo _)) hne

/-- The loop of the copy constructor from the record at the head of `post`, the records of
`pre` being copied already: it returns a container that lives apart from the records of
`a` and holds the pairs of `a`. -/
theorem copy_loop_spec {L R : Type} (a : bimap L R) (la ra : List Nat) (hv : a.valid)
    (hla : a.left_seq = .ok la) (hra : a.right_seq = .ok ra) :
    ∀ (post pre : List Nat) (this_ : bimap L R) (fuel : Nat) (lt : List Nat),
      la = pre ++ post → post.length ≤ fuel → Apart a this_ →
      this_.left_cmp = a.left_cmp → this_.right_cmp = a.right_cmp →
      this_.left_seq = .ok lt → (this_.pairs_of lt).Perm (a.pairs_of pre) →
      ∃ b lb, a.copy_loop fuel this_ ⟨first_or post none⟩ = .ok b ∧ Apart a b ∧
        b.left_cmp = a.left_cmp ∧ b.right_cmp = a.right_cmp ∧ b.left_seq = .ok lb ∧
        (b.pairs_of lb).Perm (a.pairs_of la) := by
  obtain ⟨hndl, hndr, hperm, _, hascl, hascr⟩ := seq_nodup a la ra hv hla hra
  obtain ⟨_, hlinked, _, hlt⟩ := valid_left_view a la hv hla
  intro post
  induction post with
  | nil =>
    intro pre this_ fuel lt hsplit _ hap hcl hcr hlt' hpairs
    have e : la = pre := by simpa using hsplit
    subst e
    refine ⟨this_, lt, ?_, hap, hcl, hcr, hlt', hpairs⟩
    cases fuel <;> simp [bimap.copy_loop, first_or, left_iterator.eq, bimap.end_left]
  | cons x post ih =>
    intro pre this_ fuel lt hsplit hfuel hap hcl hcr hlt' hpairs
    obtain ⟨k, rfl⟩ : ∃ k, fuel = k + 1 := ⟨fuel - 1, by simp at hfuel; omega⟩
    have hxin : x ∈ la := by rw [hsplit]; simp
    have hxlt : x < a.brk := hlt x hxin
    have hxpre : x ∉ pre := by
      intro h
      rw [hsplit] at hndl
      exact (List.nodup_append.mp hndl).2.2 h (by simp)
    obtain ⟨tv, tb, tseq, tmem⟩ := hap
    obtain ⟨lt0, rt, hlt0, hrt⟩ := seq_exists this_ tv
    rw [hlt'] at hlt0
    cases hlt0
    obtain ⟨_, _, tperm, _, _, _⟩ := seq_nodup this_ lt rt tv hlt' hrt
    have hsrc : ∀ c ∈ lt, ∃ d ∈ pre, (a.lmem d).value = (this_.lmem c).value ∧
        (a.rmem d).value = (this_.rmem c).value := by
      intro c hc
      have h1 : ((this_.lmem c).value, (this_.rmem c).value) ∈ this_.pairs_of lt :=
        List.mem_map_of_mem _ hc
      have h2 := hpairs.mem_iff.mp h1
      simp only [bimap.pairs_of, List.mem_map, Prod.mk.injEq] at h2
      obtain ⟨d, hd, e1, e2⟩ := h2
      exact ⟨d, hd, e1, e2⟩
    have hl : ∀ c ∈ lt, equiv this_.left_cmp (this_.lmem c).value (a.lmem x).value = false := by
      intro c hc
      obtain ⟨d, hd, e1, _⟩ := hsrc c hc
      rw [hcl, ← e1]
      exact not_equiv_of_ne hv.1 hascl (by rw [hsplit]; simp [hd]) hxin
        (by rintro rfl; exact hxpre hd)
    have hr : ∀ c ∈ rt, equiv this_.right_cmp (this_.rmem c).value (a.rmem x).value = false := by
      intro c hc
      obtain ⟨d, hd, _, e2⟩ := hsrc c (tperm.mem_iff.mpr hc)
      rw [hcr, ← e2]
      exact not_equiv_of_ne hv.2.1 hascr (hperm.mem_iff.mp (by rw [hsplit]; simp [hd]))
        (hperm.mem_iff.mp hxin) (by rintro rfl; exact hxpre hd)
    obtain ⟨this1, ls1, i1, i2, i3, i4, i5⟩ :=
      insert_fresh_pairs this_ (a.lmem x).value (a.rmem x).value lt rt tv hlt' hrt hl hr
    have hap1 : Apart a this1 :=
      Apart_step a this_ this1 ⟨tv, tb, tseq, tmem⟩ (local_insert this_ this1 _ _ _ tv i1)
    have hnext : (this1.lmem x).next = first_or post none := by
      rw [(hap1.2.2.2 x hxlt).1]
      rw [hsplit] at hlinked
      exact (Linked_anchor hlinked).2
    obtain ⟨b, lb, g1, g2, g3, g4, g5, g6⟩ := ih (pre ++ [x]) this1 k ls1
      (by rw [hsplit]; simp) (by simp at hfuel; omega) hap1 (i2.trans hcl) (i3.trans hcr) i4
      (by
        refine i5.trans ?_
        have e : a.pairs_of (pre ++ [x]) = a.pairs_of pre ++ [((a.lmem x).value, (a.rmem x).value)] := by
          simp [bimap.pairs_of]
        rw [e]
        exact ((List.Perm.cons _ hpairs).trans (List.perm_append_singleton _ _).symm))
    refine ⟨b, lb, ?_, g2, g3, g4, g5, g6⟩
    show a.copy_loop (k + 1) this_ ⟨some x⟩ = .ok b
    simp only [bimap.copy_loop, left_iterator.eq, bimap.end_left, bimap.deref_left,
      bimap.deref_right, left_iterator.flip, bimap.in_heap, bimap.incr_left]
    simp only [reduceCtorEq, decide_False, Bool.false_eq_true, if_false, (tmem x hxlt).1,
      (tmem x hxlt).2, i1, hnext]
    exact g1

/-- The members at the start of the body of the copy constructor form a valid empty
container apart from the records of the source. -/
theorem copy_init_apart {L R : Type} (a : bimap L R) (hv : a.valid) :
    Apart a a.copy_init ∧ a.copy_init.left_seq = .ok [] := by
  have hvi : a.copy_init.valid := by
    refine ⟨hv.1, hv.2.1, rfl, rfl, .leaf, .leaf, ?_, ?_, List.Perm.refl _, ?_, rfl⟩
    · exact ⟨trivial, rfl, by simp [BT.toList], by simp [Ascending, BT.toList], trivial⟩
    · exact ⟨trivial, rfl, by simp [BT.toList], by simp [Ascending, BT.toList], trivial⟩
    · intro c hc; simp [BT.toList] at hc
  have hseq := (begin_of_size_zero a.copy_init hvi rfl).2.2.1
  refine ⟨⟨hvi, Nat.le_refl _, ?_, fun c _ => ⟨rfl, rfl⟩⟩, hseq⟩
  intro ls hls c hc
  rw [hseq] at hls
  cases hls
  simp at hc

/-- The copy constructor on a valid container. -/
theorem copy_spec {L R : Type} (a : bimap L R) (la : List Nat) (hv : a.valid)
    (hla : a.left_seq = .ok la) :
    ∃ b lb, a.copy = .ok b ∧ Apart a b ∧ b.left_seq = .ok lb ∧
      b.pairs_of lb = a.pairs_of la := by
  obtain ⟨la', ra, hla', hra⟩ := seq_exists a hv
  rw [hla] at hla'
  cases hla'
  obtain ⟨hbegin, _, hlen, _⟩ := valid_left_view a la hv hla
  obtain ⟨hap, hseq⟩ := copy_init_apart a hv
  obtain ⟨b, lb, g1, g2, g3, g4, g5, g6⟩ :=
    copy_loop_spec a la ra hv hla hra la [] a.copy_init a.fuel [] (by simp)
      (by simp only [bimap.fuel]; omega) hap rfl rfl hseq (by simp [bimap.pairs_of])
  refine ⟨b, lb, ?_, g2, g5, ?_⟩
  · simp only [bimap.copy, hbegin]
    exact g1
  · have h1 := pairs_sorted b lb g2.1 g5
    have h2 := pairs_sorted a la hv hla
    rw [g3] at h1
    exact sorted_perm_eq hv.1 g6 h1 h2

/-- C13: the copy constructor on a valid container `a` returns a valid container `b` whose
records are new ones; `b == a` is true, `b.size()` is `a.size()`, and the left-order
sequence of pairs of `b` is that of `a`.  The container `a`, read in the memory as the copy
left it, is valid and has its size and pair sequence unchanged; and the same holds in the
memory after any sequence of `insert`, `erase_left` and `erase_right` on the copy. -/
theorem C13_copy_independent {L R : Type} (a : bimap L R) (la : List Nat) (hv : a.valid)
    (hla : a.left_seq = .ok la) :
    ∃ b, a.copy = .ok b ∧ b.valid ∧
      b.operator_eq (a.in_heap b) = .ok true ∧ b.operator_eq a = .ok true ∧
      b.size = a.size ∧ b.left_pairs = a.left_pairs ∧
      (∀ lb, b.left_seq = .ok lb → ∀ c ∈ lb, c ∉ la) ∧
      (a.in_heap b).valid ∧ (a.in_heap b).size = a.size ∧
      (a.in_heap b).left_seq = .ok la ∧ (a.in_heap b).left_pairs = a.left_pairs ∧
      (∀ b', Mutated b b' →
        (a.in_heap b').valid ∧ (a.in_heap b').size = a.size ∧
        (a.in_heap b').left_seq = .ok la ∧ (a.in_heap b').left_pairs = a.left_pairs) := by
  obtain ⟨b, lb, h1, h2, h3, h4⟩ := copy_spec a la hv hla
  obtain ⟨v1, v2, v3, v4, v5, v6⟩ := in_heap_view a b la hv hla h2.2.2.2
  obtain ⟨_, rb, hlb', hrb⟩ := seq_exists b h2.1
  obtain ⟨_, ra, hla', hra⟩ := seq_exists a hv
  obtain ⟨_, _, _, hsb, _, _⟩ := seq_nodup b lb rb h2.1 h3 hrb
  obtain ⟨_, _, _, hsa, _, _⟩ := seq_nodup a la ra hv hla hra
  have hlen : lb.length = la.length := by
    have := congrArg List.length h4
    simpa [bimap.pairs_of] using this
  refine ⟨b, h1, h2.1, ?_, ?_, ?_, ?_, ?_, v1, v5, v2, v4, ?_⟩
  · exact operator_eq_of_pairs b (a.in_heap b) lb la h2.1 v1 h3 v2 (h4.trans v6.symm)
  · exact operator_eq_of_pairs b a lb la h2.1 hv h3 hla h4
  · simp only [bimap.size, hsb, hsa, hlen]
  · rw [left_pairs_eq b lb h3, left_pairs_eq a la hla, h4]
  · intro lb' hlb'' c hc hin
    have h5 := h2.2.2.1 lb' hlb'' c hc
    have h6 := (valid_left_view a la hv hla).2.2.2 c hin
    omega
  · intro b' hm
    have hap := Apart_of_mutated a b b' h2 hm
    obtain ⟨w1, w2, _, w4, w5, _⟩ := in_heap_view a b' la hv hla hap.2.2.2
    exact ⟨w1, w5, w2, w4⟩

/-- Witness of C13: the copy of the container with the pairs (1, 10), (3, 30),
(5, 50). -/
theorem C13_copy_independent_witness :
    bimap135.valid ∧ bimap135.left_seq = .ok [0, 1, 2] ∧
    ∃ b, bimap135.copy = .ok b ∧ b.valid ∧
      b.operator_eq (bimap135.in_heap b) = .ok true ∧ b.operator_eq bimap135 = .ok true ∧
      b.size = bimap135.size ∧ b.left_pairs = bimap135.left_pairs ∧
      (∀ lb, b.left_seq = .ok lb → ∀ c ∈ lb, c ∉ [0, 1, 2]) ∧
      (bimap135.in_heap b).valid ∧ (bimap135.in_heap b).size = bimap135.size ∧
      (bimap135.in_heap b).left_seq = .ok [0, 1, 2] ∧
      (bimap135.in_heap b).left_pairs = bimap135.left_pairs ∧
      (∀ b', Mutated b b' →
        (bimap135.in_heap b').valid ∧ (bimap135.in_heap b').size = bimap135.size ∧
        (bimap135.in_heap b').left_seq = .ok [0, 1, 2] ∧
        (bimap135.in_heap b').left_pairs = bimap135.left_pairs) :=
  ⟨bimap135_valid, rfl, C13_copy_independent bimap135 [0, 1, 2] bimap135_valid rfl⟩

/-! ## `find_place` on a binary search tree -/

/-- The descent of `find_place` on a tree whose keys ascend in in-order: where it ends and
what lies on either side. -/
theorem find_place_core {T : Type} {cmp : T → T → Bool} (hswo : StrictWeakOrder cmp)
    (m : Mem T) (root : Option Nat) (t : BT) (fuel : Nat) (v : T)
    (ht : IsTree m none t) (hroot : root = t.ptr) (hsorted : Ascending cmp m t.toList)
    (hfuel : t.toList.length ≤ fuel) (hne : t ≠ .leaf) :
    ∃ ctx l a r, tree.find_place ⟨root, cmp⟩ m fuel v = .ok (some a) ∧
      t = plug ctx (.node l a r) ∧
      Below cmp m v (ctxBefore ctx ++ l.toList) ∧ Above cmp m v (r.toList ++ ctxAfter ctx) ∧
      (cmp (m a).value v = true → r = .leaf) ∧
      (cmp (m a).value v = false → cmp v (m a).value = true → l = .leaf) := by
  obtain ⟨x, hx⟩ : ∃ x, t.ptr = some x := by
    cases t with
    | leaf => exact absurd rfl hne
    | node l x r => exact ⟨x, rfl⟩
  obtain ⟨ctx, l, a, r, e1, e2, e3, e4, e5⟩ :=
    find_place_loop_spec cmp m v t x [] none fuel hx ht hfuel (fun f hf => by simp at hf)
  simp only [plug] at e2
  have hasc := hsorted
  rw [e2] at hasc
  obtain ⟨hb, ha⟩ := path_bounds hswo m v ctx _ e3 hasc
  rw [toList_plug] at hasc
  unfold Ascending at hasc
  simp only [BT.toList, List.pairwise_append, List.pairwise_cons] at hasc
  refine ⟨ctx, l, a, r, ?_, e2, ?_, ?_, e4, e5⟩
  · simp only [tree.find_place, hroot, hx, e1]; rfl
  · intro b hb'
    simp only [List.mem_append] at hb'
    rcases hb' with hb' | hb'
    · exact hb b hb'
    · have hba : cmp (m b).value (m a).value = true := hasc.1.2.1.2.2 b hb' a (by simp)
      cases hc1 : cmp (m a).value v with
      | true => exact hswo.trans _ _ _ hba hc1
      | false =>
        cases hc2 : cmp v (m a).value with
        | true =>
          have := e5 hc1 hc2
          subst this
          simp [BT.toList] at hb'
        | false => exact hswo.lt_of_lt_of_not_lt hba hc2
  · intro b hb'
    simp only [List.mem_append] at hb'
    rcases hb' with hb' | hb'
    · have hab : cmp (m a).value (m b).value = true := hasc.1.2.1.2.1.1 b hb'
      cases hc1 : cmp (m a).value v with
      | true =>
        have := e4 hc1
        subst this
        simp [BT.toList] at hb'
      | false => exact hswo.lt_of_not_lt_of_lt hc1 hab
    · exact ha b hb'

/-- C24: on a memory whose links form a tree with keys ascending in in-order (the BST
property), `find_place(q)` returns; the result is null exactly when the tree is empty;
otherwise it is a node of the tree whose key is equivalent to `q` if the tree has such a
node, and if it has none it is either the node with the greatest key less than `q`, which
has no right child, or the node with the least key greater than `q`, which has no left
child. -/
theorem C24_find_place {T : Type} {cmp : T → T → Bool} (hswo : StrictWeakOrder cmp)
    (m : Mem T) (root : Option Nat) (t : BT) (fuel : Nat) (q : T)
    (ht : IsTree m none t) (hroot : root = t.ptr) (hsorted : Ascending cmp m t.toList)
    (hfuel : t.toList.length ≤ fuel) :
    ∃ res, tree.find_place ⟨root, cmp⟩ m fuel q = .ok res ∧
      (res = none ↔ root = none) ∧ (res = none ↔ t.toList = []) ∧
      ∀ a, res = some a → a ∈ t.toList ∧
        ((∃ b ∈ t.toList, equiv cmp (m b).value q = true) →
          equiv cmp (m a).value q = true) ∧
        ((∀ b ∈ t.toList, equiv cmp (m b).value q = false) →
          (cmp (m a).value q = true ∧ (m a).right = none ∧
            ∀ b ∈ t.toList, cmp (m b).value q = true →
              b = a ∨ cmp (m b).value (m a).value = true) ∨
          (cmp q (m a).value = true ∧ (m a).left = none ∧
            ∀ b ∈ t.toList, cmp q (m b).value = true →
              b = a ∨ cmp (m a).value (m b).value = true)) := by
  by_cases hne : t = .leaf
  · subst hne
    have hr : root = none := hroot
    subst hr
    exact ⟨none, rfl, by simp, by simp [BT.toList], fun a ha => by cases ha⟩
  · obtain ⟨ctx, l, a, r, h1, h2, h3, h4, h5, h6⟩ :=
      find_place_core hswo m root t fuel q ht hroot hsorted hfuel hne
    have hlist : t.toList = (ctxBefore ctx ++ l.toList) ++ a :: (r.toList ++ ctxAfter ctx) := by
      rw [h2, toList_plug]; simp [BT.toList]
    have hshape := (plug_iff m root ctx (.node l a r)).mp
      ⟨by rw [← h2]; exact ht, by rw [← h2]; exact hroot⟩
    obtain ⟨_, _, hleft, hright, _, _⟩ := hshape
    have hasc := hsorted
    rw [hlist] at hasc
    unfold Ascending at hasc
    simp only [List.pairwise_append, List.pairwise_cons] at hasc
    have hroot' : root ≠ none := by
      rw [hroot]
      intro h
      exact hne (BT.ptr_eq_none_iff.mp h)
    have hnil : t.toList ≠ [] := by rw [hlist]; simp
    refine ⟨some a, h1, by simp [hroot'], by simp [hnil], ?_⟩
    intro a' ha'
    cases ha'
    have hpre : ∀ b ∈ ctxBefore ctx ++ l.toList, equiv cmp (m b).value q = false :=
      not_equiv_of_below h3
    have hpost : ∀ b ∈ r.toList ++ ctxAfter ctx, equiv cmp (m b).value q = false :=
      not_equiv_of_above h4
    refine ⟨by rw [hlist]; simp, ?_, ?_⟩
    · rintro ⟨b, hb, hbe⟩
      rw [hlist] at hb
      simp only [List.mem_append, List.mem_cons] at hb
      rcases hb with hb | rfl | hb
      · rw [hpre b (by simpa using hb)] at hbe; cases hbe
      · exact hbe
      · rw [hpost b (by simpa using hb)] at hbe; cases hbe
    · intro hnone
      have hae := hnone a (by rw [hlist]; simp)
      cases hc1 : cmp (m a).value q with
      | true =>
        left
        have hr := h5 hc1
        subst hr
        refine ⟨rfl, by rw [hright]; rfl, ?_⟩
        intro b hb hbq
        rw [hlist] at hb
        simp only [List.mem_append, List.mem_cons] at hb
        rcases hb with hb | rfl | hb
        · right
          exact hasc.2.2 b (by simpa using hb) a (by simp)
        · exact Or.inl rfl
        · have := h4 b (by simpa using hb)
          rw [hswo.asymm this] at hbq
          cases hbq
      | false =>
        right
        have hc2 : cmp q (m a).value = true := by
          simp only [equiv, hc1] at hae
          simpa using hae
        have hl := h6 hc1 hc2
        subst hl
        refine ⟨hc2, by rw [hleft]; rfl, ?_⟩
        intro b hb hbq
        rw [hlist] at hb
        simp only [List.mem_append, List.mem_cons] at hb
        rcases hb with hb | rfl | hb
        · have := h3 b (by simpa using hb)
          rw [hswo.asymm this] at hbq
          cases hbq
        · exact Or.inl rfl
        · right
          exact hasc.2.1.1 b (by simpa using hb)

/-! ## The left tree of the concrete container -/

theorem shape135_inv : TreeInv nat_less bimap135.lmem bimap135.left_tree.root shape135 := by
  refine ⟨?_, rfl, by decide, ?_, ?_⟩
  · simp [shape135, IsTree, BT.ptr]
    decide
  · unfold Ascending
    decide
  · simp [shape135, BT.toList, Linked, first_or]
    decide

theorem shape135_sizes : SizeInv bimap135.lmem shape135 := by
  simp [shape135, SizeInv, BT.ptr, node_size]
  decide

/-- Witness of C24: `find_place(4)` on the left tree of the container with the left keys
1, 3, 5 returns record 1, which holds the key 3. -/
theorem C24_find_place_witness :
    StrictWeakOrder nat_less ∧ IsTree bimap135.lmem none shape135 ∧
    bimap135.left_tree.root = shape135.ptr ∧ Ascending nat_less bimap135.lmem shape135.toList ∧
    shape135.toList.length ≤ 3 ∧
    tree.find_place ⟨bimap135.left_tree.root, nat_less⟩ bimap135.lmem 3 4 = .ok (some 1) ∧
    ∃ res, tree.find_place ⟨bimap135.left_tree.root, nat_less⟩ bimap135.lmem 3 4 = .ok res ∧
      (res = none ↔ bimap135.left_tree.root = none) ∧ (res = none ↔ shape135.toList = []) ∧
      ∀ a, res = some a → a ∈ shape135.toList ∧
        ((∃ b ∈ shape135.toList, equiv nat_less (bimap135.lmem b).value 4 = true) →
          equiv nat_less (bimap135.lmem a).value 4 = true) ∧
        ((∀ b ∈ shape135.toList, equiv nat_less (bimap135.lmem b).value 4 = false) →
          (nat_less (bimap135.lmem a).value 4 = true ∧ (bimap135.lmem a).right = none ∧
            ∀ b ∈ shape135.toList, nat_less (bimap135.lmem b).value 4 = true →
              b = a ∨ nat_less (bimap135.lmem b).value (bimap135.lmem a).value = true) ∨
          (nat_less 4 (bimap135.lmem a).value = true ∧ (bimap135.lmem a).left = none ∧
            ∀ b ∈ shape135.toList, nat_less 4 (bimap135.lmem b).value = true →
              b = a ∨ nat_less (bimap135.lmem a).value (bimap135.lmem b).value = true)) :=
  ⟨nat_less_swo, shape135_inv.shape, rfl, shape135_inv.sorted, by decide, rfl,
    C24_find_place nat_less_swo bimap135.lmem bimap135.left_tree.root shape135 3 4
      shape135_inv.shape rfl shape135_inv.sorted (by decide)⟩

/-! ## Calls of `tree::insert` and `tree::erase` that change nothing -/

/-- Inserting a node whose key is equivalent to a stored one leaves the tree alone. -/
theorem tree_insert_dup {T : Type} {cmp : T → T → Bool} (hswo : StrictWeakOrder cmp)
    (m : Mem T) (root : Option Nat) (t : BT) (x fuel : Nat)
    (hinv : TreeInv cmp m root t) (hfuel : t.toList.length ≤ fuel)
    (hdup : ∃ b ∈ t.toList, equiv cmp (m b).value (m x).value = true) :
    tree.insert fuel ⟨root, cmp⟩ m x = .ok (⟨root, cmp⟩, m) := by
  obtain ⟨b, hb, hbe⟩ := hdup
  rcases find_spec hswo m root t fuel (m x).value hinv hfuel with ⟨a, _, h2, h3, h4⟩ | ⟨_, h2⟩
  · obtain ⟨r0, hr0⟩ : ∃ r0, root = some r0 := by
      rw [hinv.root_eq]
      cases t with
      | leaf => simp [BT.toList] at hb
      | node _ y _ => exact ⟨y, rfl⟩
    subst hr0
    simp only [equiv, Bool.and_eq_true, Bool.not_eq_true'] at h3
    simp only [tree.insert, h4, h3.1, h3.2]
    simp
  · rw [h2 b hb] at hbe
    cases hbe

/-- Erasing a key that no stored key is equivalent to leaves the tree alone. -/
theorem tree_erase_absent {T : Type} {cmp : T → T → Bool} (hswo : StrictWeakOrder cmp)
    (m : Mem T) (root : Option Nat) (t : BT) (fuel : Nat) (v : T)
    (hinv : TreeInv cmp m root t) (hfuel : t.toList.length ≤ fuel)
    (habs : ∀ b ∈ t.toList, equiv cmp (m b).value v = false) :
    tree.erase fuel ⟨root, cmp⟩ m v = .ok (⟨root, cmp⟩, m) := by
  by_cases hne : t = .leaf
  · subst hne
    have hr : root = none := hinv.root_eq
    subst hr
    rfl
  · obtain ⟨pre, a, post, h1, h2, _, _⟩ := find_place_list hswo m root t fuel v hinv hfuel hne
    have ha := habs a (by rw [h2]; simp)
    simp only [tree.erase, h1]
    have hc : (cmp (m a).value v || cmp v (m a).value) = true := by
      simp only [equiv] at ha
      cases h3 : cmp (m a).value v <;> cases h4 : cmp v (m a).value <;> simp_all
    simp only [hc, if_true]

/-- C22: on a tree that satisfies its invariant and whose cached sizes satisfy the
subtree-size invariant, `tree::size()` is the number of nodes; `tree::insert` of a node
that is not in the tree, has no links and has size 1 returns, and so does `tree::erase` of
any key; after either call the subtree-size invariant holds for every node of the
resulting tree, and `tree::size()` is its number of nodes (one more after the insertion of
a key not yet stored, one less after the erasure of a stored key). -/
theorem C22_subtree_sizes {T : Type} {cmp : T → T → Bool} (hswo : StrictWeakOrder cmp)
    (m : Mem T) (root : Option Nat) (t : BT) (hinv : TreeInv cmp m root t)
    (hsz : SizeInv m t) :
    tree.size ⟨root, cmp⟩ m = t.toList.length ∧
    (∀ x fuel : Nat, x ∉ t.toList →
      ((m x).parent = none ∧ (m x).left = none ∧ (m x).right = none ∧ (m x).next = none ∧
        (m x).prev = none) → (m x).size = 1 → t.toList.length + 1 ≤ fuel →
      ∃ m' t', tree.insert fuel ⟨root, cmp⟩ m x = .ok (⟨t'.ptr, cmp⟩, m') ∧
        TreeInv cmp m' t'.ptr t' ∧ SizeInv m' t' ∧
        tree.size ⟨t'.ptr, cmp⟩ m' = t'.toList.length ∧
        ((∀ b ∈ t.toList, equiv cmp (m b).value (m x).value = false) →
          t'.toList.Perm (x :: t.toList))) ∧
    (∀ (v : T) (fuel : Nat), t.toList.length ≤ fuel →
      ∃ m' t', tree.erase fuel ⟨root, cmp⟩ m v = .ok (⟨t'.ptr, cmp⟩, m') ∧
        TreeInv cmp m' t'.ptr t' ∧ SizeInv m' t' ∧
        tree.size ⟨t'.ptr, cmp⟩ m' = t'.toList.length ∧
        (∀ a ∈ t.toList, equiv cmp (m a).value v = true → t'.toList = t.toList.erase a)) := by
  refine ⟨?_, ?_, ?_⟩
  · rw [hinv.root_eq]
    exact SizeInv_count hsz
  · intro x fuel hx hfresh hsize hfuel
    by_cases hdup : ∀ b ∈ t.toList, equiv cmp (m b).value (m x).value = false
    · obtain ⟨m', t', h1, h2, ⟨pre, post, h3, h3'⟩, _, _, _, h7⟩ :=
        tree_insert_sized hswo m root t x fuel hinv hx hfresh hdup hfuel
      have hs := h7 hsz hsize
      refine ⟨m', t', h1, h2, hs, SizeInv_count hs, fun _ => ?_⟩
      rw [h3', h3]
      exact List.perm_middle
    · obtain ⟨b, hb, hbe⟩ := exists_equiv_of_not_all hdup
      refine ⟨m, t, ?_, ?_, hsz, SizeInv_count hsz, fun h => absurd h hdup⟩
      · rw [← hinv.root_eq]
        exact tree_insert_dup hswo m root t x fuel hinv (by omega) ⟨b, hb, hbe⟩
      · rw [← hinv.root_eq]; exact hinv
  · intro v fuel hfuel
    by_cases habs : ∀ b ∈ t.toList, equiv cmp (m b).value v = false
    · refine ⟨m, t, ?_, ?_, hsz, SizeInv_count hsz, fun a ha hea => ?_⟩
      · rw [← hinv.root_eq]
        exact tree_erase_absent hswo m root t fuel v hinv hfuel habs
      · rw [← hinv.root_eq]; exact hinv
      · rw [habs a ha] at hea; cases hea
    · obtain ⟨a, ha, hea⟩ := exists_equiv_of_not_all habs
      obtain ⟨m', t', h1, h2, ⟨pre, post, h3, h3'⟩, _, _, h6⟩ :=
        tree_erase_sized hswo m root t fuel v a hinv ha hea hfuel
      have hs := h6 hsz
      refine ⟨m', t', h1, h2, hs, SizeInv_count hs, fun c hc hec => ?_⟩
      have hca : c = a := equiv_unique hswo hinv.sorted hc ha hec hea
      subst hca
      rw [h3', h3, erase_middle (by rw [← h3]; exact hinv.nodup)]

/-- Witness of C22: the left tree of the container with the left keys 1, 3, 5, whose
cached sizes are 1, 2, 3 from the leaf up to the root; the key 3 is erased. -/
theorem C22_subtree_sizes_witness :
    StrictWeakOrder nat_less ∧
    TreeInv nat_less bimap135.lmem bimap135.left_tree.root shape135 ∧
    SizeInv bimap135.lmem shape135 ∧
    tree.size ⟨bimap135.left_tree.root, nat_less⟩ bimap135.lmem = shape135.toList.length ∧
    ∃ m' t', tree.erase 3 ⟨bimap135.left_tree.root, nat_less⟩ bimap135.lmem 3 =
        .ok (⟨t'.ptr, nat_less⟩, m') ∧
      TreeInv nat_less m' t'.ptr t' ∧ SizeInv m' t' ∧
      tree.size ⟨t'.ptr, nat_less⟩ m' = t'.toList.length ∧
      (∀ a ∈ shape135.toList, equiv nat_less (bimap135.lmem a).value 3 = true →
        t'.toList = shape135.toList.erase a) :=
  ⟨nat_less_swo, shape135_inv, shape135_sizes,
    (C22_subtree_sizes nat_less_swo bimap135.lmem bimap135.left_tree.root shape135
      shape135_inv shape135_sizes).1,
    (C22_subtree_sizes nat_less_swo bimap135.lmem bimap135.left_tree.root shape135
      shape135_inv shape135_sizes).2.2 3 3 (by decide)⟩

/-! ## Agreement of the list with the in-order traversal -/

theorem agrees_of_inv {T : Type} {cmp : T → T → Bool} {m : Mem T} {root : Option Nat} {t : BT}
    (hinv : TreeInv cmp m root t) (fuel : Nat) (hfuel : t.toList.length ≤ fuel) :
    ListAgrees ⟨root, cmp⟩ m fuel ∧ in_order m fuel root = .ok t.toList := by
  have h1 : in_order m fuel root = .ok t.toList := by
    rw [hinv.root_eq]
    exact in_order_spec m t none fuel hinv.shape hfuel
  refine ⟨⟨t.toList, h1, ⟨first_or t.toList none, ?_, ?_⟩, hinv.linked⟩, h1⟩
  · exact get_first_node_spec cmp m root t fuel hinv.shape hinv.root_eq hfuel
  · exact walk_spec m t.toList none fuel hinv.linked hfuel

theorem inv_of_agrees {T : Type} {cmp : T → T → Bool} {m : Mem T} {root : Option Nat} {t : BT}
    {fuel : Nat} (ht : IsTree m none t) (hroot : root = t.ptr) (hnd : t.toList.Nodup)
    (hsorted : Ascending cmp m t.toList) (hfuel : t.toList.length ≤ fuel)
    (hagree : ListAgrees ⟨root, cmp⟩ m fuel) : TreeInv cmp m root t := by
  obtain ⟨ys, h1, _, h3⟩ := hagree
  have h4 : in_order m fuel root = .ok t.toList := by
    rw [hroot]
    exact in_order_spec m t none fuel ht hfuel
  have e : ys = t.toList := by
    have h1' : in_order m fuel root = .ok ys := h1
    rw [h4] at h1'
    cases h1'
    rfl
  subst e
  exact ⟨ht, hroot, hnd, hsorted, h3⟩

/-- C23: take a memory whose links form a binary search tree without repeated nodes, in
which the list agrees with the tree: following `next` from `get_first_node()` visits the
nodes in in-order and `prev` is the inverse of `next`.  Then `tree::insert` of a node that
is not in the tree and has no links returns, and the list agrees with the tree afterwards;
when the key is not stored yet, the in-order sequence afterwards is the former one with
the new node right after the anchor returned by `find_place` if the key of the anchor is
less than the new key, and right before the anchor otherwise.  And `tree::erase` of any
key returns, and the list agrees with the tree afterwards. -/
theorem C23_list_tree_agreement {T : Type} {cmp : T → T → Bool} (hswo : StrictWeakOrder cmp)
    (m : Mem T) (root : Option Nat) (t : BT) (fuel : Nat)
    (ht : IsTree m none t) (hroot : root = t.ptr) (hnd : t.toList.Nodup)
    (hsorted : Ascending cmp m t.toList) (hfuel : t.toList.length + 1 ≤ fuel)
    (hagree : ListAgrees ⟨root, cmp⟩ m fuel) :
    (∀ x : Nat, x ∉ t.toList →
      ((m x).parent = none ∧ (m x).left = none ∧ (m x).right = none ∧ (m x).next = none ∧
        (m x).prev = none) →
      ∃ t2 m' ys, tree.insert fuel ⟨root, cmp⟩ m x = .ok (t2, m') ∧
        ListAgrees t2 m' fuel ∧ in_order m' fuel t2.root = .ok ys ∧
        ((∃ b ∈ t.toList, equiv cmp (m b).value (m x).value = true) → ys = t.toList) ∧
        ((∀ b ∈ t.toList, equiv cmp (m b).value (m x).value = false) →
          (t.toList = [] → ys = [x]) ∧
          ∀ a, tree.find_place ⟨root, cmp⟩ m fuel (m x).value = .ok (some a) →
            (cmp (m a).value (m x).value = true →
              ∃ pre post, t.toList = pre ++ a :: post ∧ ys = pre ++ a :: x :: post) ∧
            (cmp (m a).value (m x).value = false →
              ∃ pre post, t.toList = pre ++ a :: post ∧ ys = pre ++ x :: a :: post))) ∧
    (∀ v : T, ∃ t2 m' ys, tree.erase fuel ⟨root, cmp⟩ m v = .ok (t2, m') ∧
      ListAgrees t2 m' fuel ∧ in_order m' fuel t2.root = .ok ys ∧
      ((∀ b ∈ t.toList, equiv cmp (m b).value v = false) → ys = t.toList) ∧
      (∀ a ∈ t.toList, equiv cmp (m a).value v = true → ys = t.toList.erase a)) := by
  have hinv : TreeInv cmp m root t :=
    inv_of_agrees ht hroot hnd hsorted (by omega) hagree
  refine ⟨?_, ?_⟩
  · intro x hx hfresh
    by_cases hdup : ∀ b ∈ t.toList, equiv cmp (m b).value (m x).value = false
    · obtain ⟨m', t', h1, h2, ⟨pre, post, h3, h3'⟩, _, _, h6, _⟩ :=
        tree_insert_sized hswo m root t x fuel hinv hx hfresh hdup hfuel
      have hlen : t'.toList.length ≤ fuel := by
        rw [h3']
        rw [h3] at hfuel
        simp only [List.length_append, List.length_cons] at hfuel ⊢
        omega
      obtain ⟨g1, g2⟩ := agrees_of_inv h2 fuel hlen
      refine ⟨⟨t'.ptr, cmp⟩, m', t'.toList, h1, g1, g2, ?_, fun _ => ⟨fun hnil => ?_, h6⟩⟩
      · rintro ⟨b, hb, hbe⟩
        rw [hdup b hb] at hbe
        cases hbe
      · rw [h3'] 
        rw [hnil] at h3
        have hp : pre = [] ∧ post = [] := by
          have := congrArg List.length h3
          simp only [List.length_nil, List.length_append] at this
          exact ⟨List.length_eq_zero.mp (by omega), List.length_eq_zero.mp (by omega)⟩
        rw [hp.1, hp.2]
        rfl
    · obtain ⟨b, hb, hbe⟩ := exists_equiv_of_not_all hdup
      obtain ⟨g1, g2⟩ := agrees_of_inv hinv fuel (by omega)
      exact ⟨⟨root, cmp⟩, m, t.toList,
        tree_insert_dup hswo m root t x fuel hinv (by omega) ⟨b, hb, hbe⟩, g1, g2,
        fun _ => rfl, fun h => absurd h hdup⟩
  · intro v
    by_cases habs : ∀ b ∈ t.toList, equiv cmp (m b).value v = false
    · obtain ⟨g1, g2⟩ := agrees_of_inv hinv fuel (by omega)
      refine ⟨⟨root, cmp⟩, m, t.toList,
        tree_erase_absent hswo m root t fuel v hinv (by omega) habs, g1, g2,
        fun _ => rfl, fun a ha hea => ?_⟩
      rw [habs a ha] at hea
      cases hea
    · obtain ⟨a, ha, hea⟩ := exists_equiv_of_not_all habs
      obtain ⟨m', t', h1, h2, ⟨pre, post, h3, h3'⟩, _, _, _⟩ :=
        tree_erase_sized hswo m root t fuel v a hinv ha hea (by omega)
      have hlen : t'.toList.length ≤ fuel := by
        rw [h3']
        rw [h3] at hfuel
        simp only [List.length_append, List.length_cons] at hfuel ⊢
        omega
      obtain ⟨g1, g2⟩ := agrees_of_inv h2 fuel hlen
      refine ⟨⟨t'.ptr, cmp⟩, m', t'.toList, h1, g1, g2, fun h => absurd h habs,
        fun c hc hec => ?_⟩
      have hca : c = a := equiv_unique hswo hinv.sorted hc ha hec hea
      subst hca
      rw [h3', h3, erase_middle (by rw [← h3]; exact hinv.nodup)]

/-- Witness of C23: the node 3, which has no links and holds the key 0, is inserted into
the left tree of the container with the left keys 1, 3, 5, held by the records 0, 1, 2;
the anchor is record 0 and the new node comes right before it. -/
theorem C23_list_tree_agreement_witness :
    StrictWeakOrder nat_less ∧ IsTree bimap135.lmem none shape135 ∧
    bimap135.left_tree.root = shape135.ptr ∧ shape135.toList.Nodup ∧
    Ascending nat_less bimap135.lmem shape135.toList ∧ shape135.toList.length + 1 ≤ 5 ∧
    ListAgrees ⟨bimap135.left_tree.root, nat_less⟩ bimap135.lmem 5 ∧
    3 ∉ shape135.toList ∧
    tree.find_place ⟨bimap135.left_tree.root, nat_less⟩ bimap135.lmem 5
      (bimap135.lmem 3).value = .ok (some 0) ∧
    ∃ t2 m' ys, tree.insert 5 ⟨bimap135.left_tree.root, nat_less⟩ bimap135.lmem 3 =
        .ok (t2, m') ∧
      ListAgrees t2 m' 5 ∧ in_order m' 5 t2.root = .ok ys ∧
      ((∃ b ∈ shape135.toList,
          equiv nat_less (bimap135.lmem b).value (bimap135.lmem 3).value = true) →
        ys = shape135.toList) ∧
      ((∀ b ∈ shape135.toList,
          equiv nat_less (bimap135.lmem b).value (bimap135.lmem 3).value = false) →
        (shape135.toList = [] → ys = [3]) ∧
        ∀ a, tree.find_place ⟨bimap135.left_tree.root, nat_less⟩ bimap135.lmem 5
            (bimap135.lmem 3).value = .ok (some a) →
          (nat_less (bimap135.lmem a).value (bimap135.lmem 3).value = true →
            ∃ pre post, shape135.toList = pre ++ a :: post ∧ ys = pre ++ a :: 3 :: post) ∧
          (nat_less (bimap135.lmem a).value (bimap135.lmem 3).value = false →
            ∃ pre post, shape135.toList = pre ++ a :: post ∧ ys = pre ++ 3 :: a :: post)) :=
  ⟨nat_less_swo, shape135_inv.shape, rfl, shape135_inv.nodup, shape135_inv.sorted, by decide,
    (agrees_of_inv shape135_inv 5 (by decide)).1, by decide, rfl,
    (C23_list_tree_agreement nat_less_swo bimap135.lmem bimap135.left_tree.root shape135 5
      shape135_inv.shape rfl shape135_inv.nodup shape135_inv.sorted (by decide)
      (agrees_of_inv shape135_inv 5 (by decide)).1).1 3 (by decide)
      ⟨rfl, rfl, rfl, rfl, rfl⟩⟩

/-! ## One step of `balance` -/

/-- The two rotations of the recursive branch of `balance`, with the path and the shape
of the node afterwards given by `zig_ctx` and `rot`. -/
theorem balance_step_shape {T : Type} (cmp : T → T → Bool) (m : Mem T) (root : Option Nat)
    (f1 f2 : Frame) (rest : List Frame) (l r : BT) (x : Nat)
    (hctx : IsCtx m (f1 :: f2 :: rest) (some x) root)
    (htree : IsTree m (some f1.addr) (.node l x r))
    (hnd : (plug (f1 :: f2 :: rest) (.node l x r)).toList.Nodup)
    (fm : Frame) (tl : List Frame) (hz : zig_ctx f1 f2 = fm :: tl) :
    ∃ root2 m2,
      (tree.rotate ⟨root, cmp⟩ m (some f1.addr)).1.rotate
          (tree.rotate ⟨root, cmp⟩ m (some f1.addr)).2 (some x) = (⟨root2, cmp⟩, m2) ∧
        IsCtx m2 (tl ++ rest) (some x) root2 ∧
        IsTree m2 (ctxPar (tl ++ rest)) (rot fm (.node l x r)) ∧
        (plug (tl ++ rest) (rot fm (.node l x r))).toList =
          (plug (f1 :: f2 :: rest) (.node l x r)).toList ∧
        SameData m m2 := by
  obtain ⟨lp, rp, hp⟩ := plug_one_node f1 (.node l x r)
  have hfocus := (refocus m root (f2 :: rest) [f1] (.node l x r)).mpr ⟨hctx, htree⟩
  rw [hp] at hfocus
  have hnd1 : (plug (f2 :: rest) (.node lp f1.addr rp)).toList.Nodup := by
    rw [← hp, ← plug_append]; exact hnd
  obtain ⟨root1, m1, hrot1, h11, h12, h13, h14, h15⟩ :=
    rotate_plug cmp m root f2 rest lp rp f1.addr hfocus.1 hfocus.2 hnd1
  rw [← zig_ctx_plug f1 f2 (.node l x r) lp rp hp] at h12 h15
  have hfocus2 := (refocus m1 root1 rest (zig_ctx f1 f2) (.node l x r)).mp
    ⟨by
      have : (plug (zig_ctx f1 f2) (.node l x r)).ptr = some f1.addr := by
        rw [zig_ctx_plug f1 f2 (.node l x r) lp rp hp]
        obtain ⟨l', r', e⟩ := rot_node f2 lp rp f1.addr
        rw [e]; rfl
      rw [this]; exact h11, h12⟩
  rw [hz] at hfocus2 h15
  have hnd2 : (plug (fm :: tl ++ rest) (.node l x r)).toList.Nodup := by
    rw [plug_append, h15, ← hp, ← plug_append]; exact hnd
  obtain ⟨root2, m2, hrot2, h21, h22, h23, h24, h25⟩ :=
    rotate_plug cmp m1 root1 fm (tl ++ rest) l r x hfocus2.1 hfocus2.2 hnd2
  have hlist : (plug (tl ++ rest) (rot fm (.node l x r))).toList =
      (plug (f1 :: f2 :: rest) (.node l x r)).toList := by
    rw [h25]
    show (plug ((fm :: tl) ++ rest) (.node l x r)).toList = _
    rw [plug_append, h15, ← hp, ← plug_append]; rfl
  refine ⟨root2, m2, ?_, h21, h22, hlist, SameData_trans h13 h23⟩
  rw [hrot1]
  simp only []
  rw [hrot2]

/-- C21 fails as stated in the zig-zag case: inside `insert(4, 40)` on the container with
the left keys 1, 3, 5, the new node 3 is the right child of record 1, which is the left
child of the root, record 2.  The step of `balance` on node 3 is the pair of rotations
`rotate(1); rotate(3)`.  After it record 1, the former parent, is the root; node 3 is its
right child, so it rose one level; its left child is null and its right child is
record 2: it does not stand in the former position of record 2 with the records 1 and 2
as its children. -/
theorem C21_zigzag_rises_one_level :
    tree.insert 5 ⟨some 2, nat_less⟩ (Function.update bimap135.lmem 3 (base_node.new 4)) 3 =
      tree.balance 5 ⟨some 2, nat_less⟩ mem_zigzag (some 3) ∧
    (mem_zigzag 3).parent = some 1 ∧ (mem_zigzag 1).right = some 3 ∧
    (mem_zigzag 1).parent = some 2 ∧ (mem_zigzag 2).left = some 1 ∧
    (mem_zigzag 2).parent = none ∧
    tree.balance 5 ⟨some 2, nat_less⟩ mem_zigzag (some 3) =
      tree.balance 4
        ((tree.rotate ⟨some 2, nat_less⟩ mem_zigzag (some 1)).1.rotate
          (tree.rotate ⟨some 2, nat_less⟩ mem_zigzag (some 1)).2 (some 3)).1
        ((tree.rotate ⟨some 2, nat_less⟩ mem_zigzag (some 1)).1.rotate
          (tree.rotate ⟨some 2, nat_less⟩ mem_zigzag (some 1)).2 (some 3)).2 (some 3) ∧
    (((tree.rotate ⟨some 2, nat_less⟩ mem_zigzag (some 1)).1.rotate
      (tree.rotate ⟨some 2, nat_less⟩ mem_zigzag (some 1)).2 (some 3)).2 3).parent = some 1 ∧
    (((tree.rotate ⟨some 2, nat_less⟩ mem_zigzag (some 1)).1.rotate
      (tree.rotate ⟨some 2, nat_less⟩ mem_zigzag (some 1)).2 (some 3)).2 3).parent ≠
      (mem_zigzag 2).parent ∧
    (((tree.rotate ⟨some 2, nat_less⟩ mem_zigzag (some 1)).1.rotate
      (tree.rotate ⟨some 2, nat_less⟩ mem_zigzag (some 1)).2 (some 3)).2 1).parent = none ∧
    ((tree.rotate ⟨some 2, nat_less⟩ mem_zigzag (some 1)).1.rotate
      (tree.rotate ⟨some 2, nat_less⟩ mem_zigzag (some 1)).2 (some 3)).1.root = some 1 ∧
    (((tree.rotate ⟨some 2, nat_less⟩ mem_zigzag (some 1)).1.rotate
      (tree.rotate ⟨some 2, nat_less⟩ mem_zigzag (some 1)).2 (some 3)).2 3).left = none ∧
    (((tree.rotate ⟨some 2, nat_less⟩ mem_zigzag (some 1)).1.rotate
      (tree.rotate ⟨some 2, nat_less⟩ mem_zigzag (some 1)).2 (some 3)).2 3).right = some 2 ∧
    node_depth mem_zigzag 5 3 = .ok 2 ∧
    node_depth ((tree.rotate ⟨some 2, nat_less⟩ mem_zigzag (some 1)).1.rotate
      (tree.rotate ⟨some 2, nat_less⟩ mem_zigzag (some 1)).2 (some 3)).2 5 3 = .ok 1 :=
  ⟨rfl, rfl, rfl, rfl, rfl, rfl, rfl, rfl, by decide, rfl, rfl, rfl, rfl, rfl, rfl⟩

/-- C21 (amended): one step of `balance` on a node `x` with parent `p` and grandparent `g`
is `rotate(p)` followed by `rotate(x)`, whatever the position of `x`, and `balance` goes on
from the memory they leave.  In the zig-zig case (`x` and `p` are children on the same
side) `p` is rotated over `g` and then `x` over `p`: `x` ends in the former position of
`g`, with `p` as its child and `g` as the child of `p`.  In the zig-zag case `p` ends in
the former position of `g`, and `x` stays the child of `p` on the side it was, with its
former sibling, and has `g` as its child: `x` rises one level.  The in-order sequence of
the tree is as before. -/
theorem C21_balance_step {T : Type} (cmp : T → T → Bool) (m : Mem T) (root : Option Nat)
    (f1 f2 : Frame) (rest : List Frame) (l r : BT) (x : Nat)
    (hctx : IsCtx m (f1 :: f2 :: rest) (some x) root)
    (htree : IsTree m (some f1.addr) (.node l x r))
    (hnd : (plug (f1 :: f2 :: rest) (.node l x r)).toList.Nodup) :
    ∃ root2 m2 ctx2 t2,
      (tree.rotate ⟨root, cmp⟩ m (some f1.addr)).1.rotate
          (tree.rotate ⟨root, cmp⟩ m (some f1.addr)).2 (some x) = (⟨root2, cmp⟩, m2) ∧
      (∀ k, tree.balance (k + 1) ⟨root, cmp⟩ m (some x) =
        tree.balance k ⟨root2, cmp⟩ m2 (some x)) ∧
      IsCtx m2 ctx2 (some x) root2 ∧ IsTree m2 (ctxPar ctx2) t2 ∧
      (plug ctx2 t2).toList = (plug (f1 :: f2 :: rest) (.node l x r)).toList ∧
      (f1.is_left = f2.is_left →
        ctx2 = rest ∧
        t2 = (if f1.is_left then .node l x (.node r f1.addr (.node f1.sib f2.addr f2.sib))
          else .node (.node (.node f2.sib f2.addr f1.sib) f1.addr l) x r)) ∧
      (f1.is_left ≠ f2.is_left →
        ctx2 = f1 :: rest ∧ (m2 f1.addr).parent = ctxPar rest ∧
        t2 = (if f1.is_left then .node (.node f2.sib f2.addr l) x r
          else .node l x (.node r f2.addr f2.sib))) := by
  have hx1 : (m x).parent = some f1.addr := htree.1
  have hp1 : (m f1.addr).parent = some f2.addr := hctx.2.1
  obtain ⟨b1, a1, s1⟩ := f1
  obtain ⟨b2, a2, s2⟩ := f2
  have hzz := fun fm tl hz =>
    balance_step_shape cmp m root ⟨b1, a1, s1⟩ ⟨b2, a2, s2⟩ rest l r x hctx htree hnd fm tl hz
  have hbal : ∀ (root2 : Option Nat) (m2 : Mem T),
      (tree.rotate ⟨root, cmp⟩ m (some a1)).1.rotate
          (tree.rotate ⟨root, cmp⟩ m (some a1)).2 (some x) = (⟨root2, cmp⟩, m2) →
      ∀ k, tree.balance (k + 1) ⟨root, cmp⟩ m (some x) =
        tree.balance k ⟨root2, cmp⟩ m2 (some x) := by
    intro root2 m2 e k
    rw [balance_zigzig _ _ _ _ _ _ hx1 hp1, e]
  cases b1 <;> cases b2
  · -- `x` right child of `p`, `p` right child of `g`
    obtain ⟨root2, m2, e1, e2, e3, e4, _⟩ :=
      hzz ⟨false, a1, .node s2 a2 s1⟩ [] (by simp [zig_ctx])
    refine ⟨root2, m2, rest, _, e1, hbal root2 m2 e1, e2, e3, e4, fun _ => ⟨rfl, ?_⟩,
      fun h => absurd rfl h⟩
    simp [rot]
  · -- `x` right child of `p`, `p` left child of `g`
    obtain ⟨root2, m2, e1, e2, e3, e4, _⟩ :=
      hzz ⟨true, a2, s2⟩ [⟨false, a1, s1⟩] (by simp [zig_ctx])
    refine ⟨root2, m2, ⟨false, a1, s1⟩ :: rest, _, e1, hbal root2 m2 e1, e2, e3, e4,
      fun h => by simp at h, fun _ => ⟨rfl, e2.2.1, ?_⟩⟩
    simp [rot]
  · -- `x` left child of `p`, `p` right child of `g`
    obtain ⟨root2, m2, e1, e2, e3, e4, _⟩ :=
      hzz ⟨false, a2, s2⟩ [⟨true, a1, s1⟩] (by simp [zig_ctx])
    refine ⟨root2, m2, ⟨true, a1, s1⟩ :: rest, _, e1, hbal root2 m2 e1, e2, e3, e4,
      fun h => by simp at h, fun _ => ⟨rfl, e2.2.1, ?_⟩⟩
    simp [rot]
  · -- `x` left child of `p`, `p` left child of `g`
    obtain ⟨root2, m2, e1, e2, e3, e4, _⟩ :=
      hzz ⟨true, a1, .node s1 a2 s2⟩ [] (by simp [zig_ctx])
    refine ⟨root2, m2, rest, _, e1, hbal root2 m2 e1, e2, e3, e4, fun _ => ⟨rfl, ?_⟩,
      fun h => absurd rfl h⟩
    simp [rot]

/-- Witness of C21: the zig-zag configuration inside `insert(4, 40)` on the container with
the left keys 1, 3, 5: node 3 under record 1 under the root, record 2. -/
theorem C21_balance_step_witness :
    IsCtx mem_zigzag [⟨false, 1, .node .leaf 0 .leaf⟩, ⟨true, 2, .leaf⟩] (some 3) (some 2) ∧
    IsTree mem_zigzag (some 1) (.node .leaf 3 .leaf) ∧
    (plug [⟨false, 1, .node .leaf 0 .leaf⟩, ⟨true, 2, .leaf⟩] (.node .leaf 3 .leaf)).toList.Nodup ∧
    ∃ root2 m2 ctx2 t2,
      (tree.rotate ⟨some 2, nat_less⟩ mem_zigzag (some 1)).1.rotate
          (tree.rotate ⟨some 2, nat_less⟩ mem_zigzag (some 1)).2 (some 3) =
        (⟨root2, nat_less⟩, m2) ∧
      (∀ k, tree.balance (k + 1) ⟨some 2, nat_less⟩ mem_zigzag (some 3) =
        tree.balance k ⟨root2, nat_less⟩ m2 (some 3)) ∧
      IsCtx m2 ctx2 (some 3) root2 ∧ IsTree m2 (ctxPar ctx2) t2 ∧
      (plug ctx2 t2).toList =
        (plug [⟨false, 1, .node .leaf 0 .leaf⟩, ⟨true, 2, .leaf⟩] (.node .leaf 3 .leaf)).toList ∧
      (false = true →
        ctx2 = [] ∧
        t2 = (if false = true
          then .node .leaf 3 (.node .leaf 1 (.node (.node .leaf 0 .leaf) 2 .leaf))
          else .node (.node (.node .leaf 2 (.node .leaf 0 .leaf)) 1 .leaf) 3 .leaf)) ∧
      (false ≠ true →
        ctx2 = [⟨false, 1, .node .leaf 0 .leaf⟩] ∧ (m2 1).parent = ctxPar [] ∧
        t2 = (if false = true then .node (.node .leaf 2 .leaf) 3 .leaf
          else .node .leaf 3 (.node .leaf 2 .leaf))) :=
  ⟨by simp [IsCtx, IsTree, ctxPar, BT.ptr]; decide, by simp [IsTree, BT.ptr]; decide, by decide,
    C21_balance_step nat_less mem_zigzag (some 2) ⟨false, 1, .node .leaf 0 .leaf⟩
      ⟨true, 2, .leaf⟩ [] .leaf .leaf 3
      (by simp [IsCtx, IsTree, ctxPar, BT.ptr]; decide) (by simp [IsTree, BT.ptr]; decide)
      (by decide)⟩

end bmp
